import Mathlib

/-!
Lightgame: a verification development

Shallow embedding of `src/game.h` / `src/game.cc` (namespace `tkware::lightgame`).

* `Game` carries the four `const`/mutable members of the C++ class; the buffer
  `board_` (an array of `4 * RawSize()` tiles) is a map from index to tile.
* Mutating member functions return the new game (and their `bool`, if any).
* Loops (`MoveOne`, `MoveFast`, the solver) are recursions on a fuel argument; running out
  of fuel, reaching `__builtin_unreachable()` and reaching `abort()` are distinct errors.
-/

namespace Lightgame

/-- Tile states, `enum class State { kOff = 0, kOn, kBlocked }`. -/
inductive State where
  | kOff
  | kOn
  | kBlocked
deriving DecidableEq, Repr

/-- Ways in which a run does not produce a value. -/
inductive Err where
  | fuel
  | unreachable
  | badStart
  | badReplay
deriving DecidableEq, Repr

deriving instance DecidableEq for Except

/-- Directions are the `int` values of `enum Dir`; unions are formed bitwise. -/
abbrev Dir := Nat

def kNone : Dir := 0
def kUp : Dir := 1
def kDown : Dir := 2
def kLeft : Dir := 4
def kRight : Dir := 8

/-- The data members of `class Game`. -/
structure Game where
  height_ : Nat
  width_ : Nat
  x_ : Int
  y_ : Int
  board_ : Nat → State

namespace Game

def Height (g : Game) : Nat := g.height_
def Width (g : Game) : Nat := g.width_
def X (g : Game) : Int := g.x_
def Y (g : Game) : Int := g.y_

def RawSize (g : Game) : Nat := (g.height_ + 2) * (g.width_ + 2)

/-- Index of `At(x, y)` in `board_`: `x + (width_ + 2) * y`. -/
def idx (g : Game) (x y : Int) : Nat := (x + ((g.width_ : Int) + 2) * y).toNat

def At (g : Game) (x y : Int) : State := g.board_ (g.idx x y)

/-- The assignment `At(x, y) = s`. -/
def setAt (g : Game) (x y : Int) (s : State) : Game :=
  { g with board_ := fun i => if i = g.idx x y then s else g.board_ i }

/-- The constructor `Game::Game(height, width)`: the value-initialised buffer (all `kOff`),
then the loop over `x` and the loop over `y`. -/
def new (height width : Nat) : Game :=
  let g0 : Game :=
    { height_ := height, width_ := width, x_ := 0, y_ := 0, board_ := fun _ => State.kOff }
  let g1 := (List.range (width + 2)).foldl
    (fun (g : Game) (x : Nat) =>
      (g.setAt x ((height : Int) + 1) State.kBlocked).setAt x 0 State.kBlocked) g0
  (List.range height).foldl
    (fun (g : Game) (j : Nat) =>
      (g.setAt ((width : Int) + 1) ((j : Int) + 1) State.kBlocked).setAt 0 ((j : Int) + 1)
        State.kBlocked) g1

/-- The call `CopyBoard(from, to)`: area `to` receives the contents of area `from`. -/
def CopyBoard (g : Game) (fromArea toArea : Nat) : Game :=
  { g with board_ := fun i =>
      if toArea * g.RawSize ≤ i ∧ i < toArea * g.RawSize + g.RawSize
      then g.board_ (i - toArea * g.RawSize + fromArea * g.RawSize) else g.board_ i }

def HasStarted (g : Game) : Bool := g.x_ != 0 && g.y_ != 0

def Start (g : Game) (x y : Int) : Bool × Game :=
  if g.HasStarted then (false, g)
  else if 1 ≤ x ∧ x ≤ g.width_ ∧ 1 ≤ y ∧ y ≤ g.height_ ∧ g.At x y = State.kOff then
    (true, ({ g with x_ := x, y_ := y }.CopyBoard 0 1).setAt x y State.kOn)
  else (false, g)

def HaveWon (g : Game) : Bool :=
  decide (∀ i, i < g.RawSize → g.board_ i ≠ State.kOff)

def Reset (g : Game) : Game :=
  if g.HasStarted then { g with x_ := 0, y_ := 0 }.CopyBoard 1 0 else g

def ValidDirs (g : Game) : Dir :=
  if g.HasStarted then
    ((((kNone ||| (if g.At g.x_ (g.y_ - 1) = State.kOff then kUp else 0))
      ||| (if g.At g.x_ (g.y_ + 1) = State.kOff then kDown else 0))
      ||| (if g.At (g.x_ - 1) g.y_ = State.kOff then kLeft else 0))
      ||| (if g.At (g.x_ + 1) g.y_ = State.kOff then kRight else 0))
  else kNone

def SetBlocked (g : Game) (x y : Int) : Bool × Game :=
  if g.HasStarted then (false, g)
  else if 1 ≤ x ∧ x ≤ g.width_ ∧ 1 ≤ y ∧ y ≤ g.height_ then
    (true, g.setAt x y State.kBlocked)
  else (false, g)

/-- The lambda `increment_for_move`; `none` is the `default:` case. -/
def increment_for_move (d : Dir) : Option (Int × Int) :=
  if d = kUp then some (0, -1)
  else if d = kDown then some (0, 1)
  else if d = kLeft then some (-1, 0)
  else if d = kRight then some (1, 0)
  else none

/-- The `while` loop of `MoveOne`. -/
def MoveOneLoop (dx dy : Int) : Nat → Game → Except Err Game
  | 0, _ => .error Err.fuel
  | fuel + 1, g =>
    if g.At (g.x_ + dx) (g.y_ + dy) = State.kOff then
      MoveOneLoop dx dy fuel
        ({ g with x_ := g.x_ + dx, y_ := g.y_ + dy }.setAt (g.x_ + dx) (g.y_ + dy) State.kOn)
    else .ok g

def MoveOne (g : Game) (dir : Dir) : Except Err Game :=
  match increment_for_move dir with
  | none => .error Err.unreachable
  | some (dx, dy) => MoveOneLoop dx dy (g.RawSize + 1) g

def Move (g : Game) (dir : Dir) : Except Err (Bool × Game) :=
  if !g.HasStarted then .ok (false, g)
  else if dir &&& g.ValidDirs ≠ dir then .ok (false, g)
  else do
    let g1 ← g.MoveOne dir
    .ok (true, g1)

/-- The `for (;;)` loop of `MoveFast`. -/
def MoveFastLoop : Nat → Game → Dir → Except Err (Bool × Game)
  | 0, _, _ => .error Err.fuel
  | fuel + 1, g, dir => do
    let g1 ← g.MoveOne dir
    let d := g1.ValidDirs
    if d = kUp ∨ d = kDown ∨ d = kLeft ∨ d = kRight then MoveFastLoop fuel g1 d
    else .ok (true, g1)

def MoveFast (g : Game) (dir : Dir) : Except Err (Bool × Game) :=
  if !g.HasStarted then .ok (false, g)
  else if dir &&& g.ValidDirs ≠ dir then .ok (false, g)
  else MoveFastLoop (g.RawSize + 1) g dir

/-- The local `struct Node` of `IsSolvable`. -/
structure Node where
  value : Dir
  children : Dir
  next : Nat

/-- The replay loop `for (it = next(nodes.cbegin()); it != nodes.cend(); ++it)`. -/
def replay : List Dir → Game → Except Err Game
  | [], g => .ok g
  | d :: ds, g => do
    let r ← g.MoveFast d
    if !r.1 then .error Err.badReplay else replay ds r.2

/-- The values of the nodes after the root, in vector order.  The vector `nodes` is kept as
a list whose head is `nodes.back()`. -/
def pathOf (nodes : List Node) : List Dir := (nodes.reverse.tail).map Node.value

/-- The record `x, y, a_1, ..., a_N, 0` pushed onto `*solutions`. -/
def recordOf (x y : Int) (nodes : List Node) : List Int :=
  [x, y] ++ (pathOf nodes).map (fun (d : Dir) => (d : Int)) ++ [0]

/-- The loop `while (!nodes.empty())` of `solve_one`; `solutions = none` is `nullptr`. -/
def solveLoop (x y : Int) : Nat → Game → List Node → Option (List Int) →
    Except Err (Bool × Game × Option (List Int))
  | 0, _, _, _ => .error Err.fuel
  | _ + 1, g, [], solutions => .ok (false, g, solutions)
  | fuel + 1, g, node :: rest, solutions =>
    if node.children = kNone then
      if g.HaveWon then
        .ok (true, g, solutions.map (fun s => s ++ recordOf x y (node :: rest)))
      else solveLoop x y fuel g rest solutions
    else if node.next = 4 then solveLoop x y fuel g rest solutions
    else
      let dir : Dir := 1 <<< node.next
      let node1 : Node := { node with next := node.next + 1 }
      if node1.children &&& dir ≠ dir then solveLoop x y fuel g (node1 :: rest) solutions
      else do
        let g1 := g.Reset
        let s := g1.Start x y
        if !s.1 then .error Err.badStart
        else
          let g2 ← replay (pathOf (node1 :: rest)) s.2
          let r ← g2.MoveFast dir
          if !r.1 then .error Err.badReplay
          else solveLoop x y fuel r.2 (⟨dir, r.2.ValidDirs, 0⟩ :: node1 :: rest) solutions

/-- Fuel given to one `solve_one` search. -/
def solveFuel (g : Game) : Nat := 8 * 4 ^ g.RawSize

/-- The lambda `solve_one`. -/
def solve_one (g : Game) (solutions : Option (List Int)) (x y : Int) :
    Except Err (Bool × Game × Option (List Int)) :=
  let g1 := g.Reset
  let s := g1.Start x y
  if !s.1 then .ok (false, s.2, solutions)
  else solveLoop x y (solveFuel s.2) s.2 [⟨kNone, s.2.ValidDirs, 0⟩] solutions

/-- The tiles visited by `for (y = 1..Height) for (x = 1..Width)`, in order. -/
def tiles (g : Game) : List (Int × Int) :=
  (List.range g.height_).flatMap (fun (j : Nat) =>
    (List.range g.width_).map (fun (i : Nat) => ((i : Int) + 1, (j : Int) + 1)))

/-- The two nested `for` loops of `IsSolvable`, with the final `return num_solutions > 0`. -/
def solveAll : List (Int × Int) → Game → Option (List Int) → Nat →
    Except Err (Bool × Game × Option (List Int))
  | [], g, solutions, num_solutions => .ok (decide (num_solutions > 0), g, solutions)
  | (x, y) :: ts, g, solutions, num_solutions => do
    let r ← solve_one g solutions x y
    if r.1 then
      if r.2.2.isNone then .ok (true, r.2.1, r.2.2)
      else solveAll ts r.2.1 r.2.2 (num_solutions + 1)
    else solveAll ts r.2.1 r.2.2 num_solutions

/-- The method `IsSolvable`: the `StateSaver` constructor, the search, the `StateSaver` destructor. -/
def IsSolvable (g : Game) (solutions : Option (List Int)) :
    Except Err (Bool × Game × Option (List Int)) := do
  let saved_x := g.x_
  let saved_y := g.y_
  let g0 := g.CopyBoard 0 2
  let r ← solveAll (tiles g0) g0 solutions 0
  let g1 := r.2.1.CopyBoard 2 0
  .ok (r.1, { g1 with x_ := saved_x, y_ := saved_y }, r.2.2)

end Game

open Game

/-! ## Well-formed states -/

/-- Area `a` of the buffer has its padding ring blocked. -/
def Border (g : Game) (a : Nat) : Prop :=
  ∀ x : Nat, x ≤ g.width_ + 1 → ∀ y : Nat, y ≤ g.height_ + 1 →
    (x = 0 ∨ x = g.width_ + 1 ∨ y = 0 ∨ y = g.height_ + 1) →
    g.board_ (a * g.RawSize + (x + (g.width_ + 2) * y)) = State.kBlocked

/-- The coordinates of a playable tile. -/
def Interior (g : Game) (x y : Int) : Prop :=
  1 ≤ x ∧ x ≤ g.width_ ∧ 1 ≤ y ∧ y ≤ g.height_

/-- States the class is designed for: the live padding ring is blocked and the cursor is either
the sentinel `(0, 0)` or on a playable tile, in which case the layout snapshot has its padding
ring blocked as well. -/
def WF (g : Game) : Prop :=
  Border g 0 ∧ ((g.x_ = 0 ∧ g.y_ = 0) ∨ (Interior g g.x_ g.y_ ∧ Border g 1))

instance (g : Game) (a : Nat) : Decidable (Border g a) := by
  unfold Border; infer_instance

instance (g : Game) (x y : Int) : Decidable (Interior g x y) := by
  unfold Interior; infer_instance

instance (g : Game) : Decidable (WF g) := by
  unfold WF; infer_instance

/-- Number of `kOff` tiles in the live area. -/
def offCount (g : Game) : Nat :=
  ((Finset.range g.RawSize).filter (fun i => g.board_ i = State.kOff)).card

/-- The second game has the dimensions of the first and the same areas 1, 2 and 3. -/
def Stable (g g' : Game) : Prop :=
  g'.height_ = g.height_ ∧ g'.width_ = g.width_ ∧ ∀ i, g.RawSize ≤ i → g'.board_ i = g.board_ i

/-- The four single directions. -/
def Single (d : Dir) : Prop := d = kUp ∨ d = kDown ∨ d = kLeft ∨ d = kRight

instance (d : Dir) : Decidable (Single d) := by
  unfold Single; infer_instance


/-- The four increments returned by `increment_for_move`. -/
def UnitStep (dx dy : Int) : Prop :=
  (dx = 0 ∧ dy = -1) ∨ (dx = 0 ∧ dy = 1) ∨ (dx = -1 ∧ dy = 0) ∨ (dx = 1 ∧ dy = 0)

/-- States met during one `solve_one` search rooted at `s0`. -/
def Inv (s0 g : Game) : Prop := WF g ∧ g.HasStarted = true ∧ Stable s0 g

/-- The state `s0` is what `Reset(); Start(x, y)` rebuilds from any state of its search. -/
def RootOK (s0 : Game) (x y : Int) : Prop :=
  s0.x_ = x ∧ s0.y_ = y ∧ Interior s0 x y ∧ s0.board_ (s0.idx x y) = State.kOn ∧
  s0.board_ (s0.idx x y + s0.RawSize) = State.kOff ∧
  ∀ i, i < s0.RawSize → i ≠ s0.idx x y → s0.board_ i = s0.board_ (i + s0.RawSize)

/-- Two games with the same dimensions, cursor and live area. -/
def LiveEq (a b : Game) : Prop :=
  a.height_ = b.height_ ∧ a.width_ = b.width_ ∧ a.x_ = b.x_ ∧ a.y_ = b.y_ ∧
  ∀ i, i < a.RawSize → a.board_ i = b.board_ i

/-- A run of `MoveFast` calls, every one of which returns `true`. -/
def FastRun : Game → List Dir → Game → Prop
  | g, [], g' => g' = g
  | g, d :: ds, g' => ∃ g1, g.MoveFast d = .ok (true, g1) ∧ FastRun g1 ds g'

/-- A run of `Move` calls, every one of which returns `true`. -/
def MoveRun : Game → List Dir → Game → Prop
  | g, [], g' => g' = g
  | g, d :: ds, g' => ∃ g1, g.Move d = .ok (true, g1) ∧ MoveRun g1 ds g'

/-- One alternative of the depth-first search: the fast move in direction `1 <<< k`, followed
by the search `rec` below it. -/
def dfsStep (rec : Game → Option (List Dir)) (g : Game) (k : Nat) : Option (List Dir) :=
  if (1 <<< k) &&& g.ValidDirs ≠ 1 <<< k then none
  else
    match g.MoveFast (1 <<< k) with
    | .ok (true, g') => (rec g').map (fun q => (1 <<< k) :: q)
    | _ => none

/-- Recursive reading of the search of `solve_one` below a state: the first winning sequence of
fast moves in depth-first order, directions tried in the order `1 <<< 0, ..., 1 <<< 3`. -/
def dfs : Nat → Game → Option (List Dir)
  | 0, _ => none
  | n + 1, g =>
    if g.ValidDirs = kNone then (if g.HaveWon then some [] else none)
    else (List.range' 0 4).findSome? (dfsStep (dfs n) g)

/-- The search below a state, deep enough for its board. -/
def search (g : Game) : Option (List Dir) := dfs (g.RawSize + 1) g

/-- A bound on the number of iterations `solve_one` spends below a node with `n` unlit tiles. -/
def treeBound : Nat → Nat
  | 0 => 1
  | n + 1 => 4 * (treeBound n + 1) + 1

/-- Behaviour of the loop of `solve_one` on the part of the tree hanging from the top node:
with search result `res` below it, the loop either returns the win or pops the node, within
`bound` iterations. -/
def LoopSpec (x y : Int) (s0 : Game) (res : Option (List Dir)) (bound : Nat) (g : Game)
    (nodes : List Node) : Prop :=
  ∀ (solutions : Option (List Int)) (fuel : Nat), bound ≤ fuel →
    ∃ g' used, Inv s0 g' ∧ 1 ≤ used ∧ used ≤ bound ∧
      solveLoop x y fuel g nodes solutions =
        match res with
        | some q => .ok (true, g', solutions.map (fun s =>
            s ++ ([x, y] ++ (pathOf nodes ++ q).map (fun (d : Dir) => (d : Int)) ++ [0])))
        | none => solveLoop x y (fuel - used) g' nodes.tail solutions

/-- The outcome of the search of `solve_one` at tile `t` of the layout `r`. -/
def tileResult (r : Game) (t : Int × Int) : Option (List Dir) :=
  if (r.Start t.1 t.2).1 then search (r.Start t.1 t.2).2 else none

/-- The record `x, y, a_1, ..., a_N, 0` of start tile `t` and fast moves `q`. -/
def recordFor (t : Int × Int) (q : List Dir) : List Int :=
  [t.1, t.2] ++ q.map (fun (d : Dir) => (d : Int)) ++ [0]

/-- The records the whole-board driver appends over the tiles `ts` of the layout `r`. -/
def recordsSpec (r : Game) (ts : List (Int × Int)) : List Int :=
  ts.flatMap (fun t =>
    match tileResult r t with
    | some q => recordFor t q
    | none => [])

/-- Some tile of `ts` is a winning start on the layout `r`. -/
def anyWin (r : Game) (ts : List (Int × Int)) : Bool :=
  ts.any (fun t => (tileResult r t).isSome)

/-- Area 1 of `g` holds the live area of the layout `r`. -/
def Layout1 (r g : Game) : Prop :=
  ∀ i, i < r.RawSize → g.board_ (i + r.RawSize) = r.board_ i

/-- Some start tile that is `kOff` and some list of single directions win by fast moves:
`Start(x, y)` succeeds, every `MoveFast(d_i)` succeeds in order, and `HaveWon()` holds. -/
def FastWinnable (g : Game) : Prop :=
  ∃ (x y : Int) (ds : List Dir) (g1 g2 : Game), g.At x y = State.kOff ∧
    (∀ d ∈ ds, Single d) ∧ g.Start x y = (true, g1) ∧ FastRun g1 ds g2 ∧ g2.HaveWon = true

/-- Some start tile that is `kOff` and some list of single directions win by ordinary moves:
`Start(x, y)` succeeds, every `Move(d_i)` succeeds in order, and `HaveWon()` holds. -/
def MoveWinnable (g : Game) : Prop :=
  ∃ (x y : Int) (ms : List Dir) (g1 g2 : Game), g.At x y = State.kOff ∧
    (∀ m ∈ ms, Single m) ∧ g.Start x y = (true, g1) ∧ MoveRun g1 ms g2 ∧ g2.HaveWon = true

/-- One call of `MoveFast` (flag `true`) or `Move` (flag `false`). -/
def playStep (g : Game) (s : Bool × Dir) : Except Err (Bool × Game) :=
  if s.1 then g.MoveFast s.2 else g.Move s.2

/-- A sequence of `Move` and `MoveFast` calls, successful or not. -/
def PlayRun : Game → List (Bool × Dir) → Game → Prop
  | g, [], g' => g' = g
  | g, s :: ss, g' => ∃ b g1, playStep g s = .ok (b, g1) ∧ PlayRun g1 ss g'

/-- The start tiles and fast-move sequences recorded by the driver over the tiles `ts`. -/
def recordedRuns (r : Game) (ts : List (Int × Int)) : List ((Int × Int) × List Dir) :=
  ts.filterMap (fun t => (tileResult r t).map (fun q => (t, q)))

/-- The empty 2 x 2 board. -/
def empty2x2 : Game := Game.new 2 2

/-- The empty 2 x 2 board after `Start(1, 1)`. -/
def started2x2 : Game := (empty2x2.Start 1 1).2

/-- The empty 2 x 2 board after `Start(1, 1)` and `Move(kDown)`. -/
def moved2x2 : Game :=
  match started2x2.Move kDown with
  | .ok r => r.2
  | .error _ => started2x2

/-! ## The layout codec -/

namespace Game

def LayoutByteSize (g : Game) (bits_per_byte : Nat) : Nat :=
  (g.Height * g.Width + (bits_per_byte - 1)) / bits_per_byte

/-- The body of the two nested loops of `WriteLayoutAsBits` at tile `t`; the state is the
output array (of `unsigned char`), the offset of `dst` in it, and `b` (an `unsigned int`). -/
def writeStep (g : Game) (kEnd : Nat) (st : List Nat × Nat × Nat) (t : Int × Int) :
    List Nat × Nat × Nat :=
  let pos := if st.2.2 = kEnd then st.2.1 + 1 else st.2.1
  let b := if st.2.2 = kEnd then 1 else st.2.2
  (st.1.set pos (((st.1.getD pos 0) ||| (if g.At t.1 t.2 = State.kBlocked then b else 0)) % 256),
    pos, (b <<< 1) % 4294967296)

def WriteLayoutAsBits (g : Game) (dst : List Nat) (bits_per_byte : Nat) : List Nat :=
  ((tiles g).foldl (writeStep g ((1 <<< bits_per_byte) % 4294967296)) (dst, 0, 1)).1

/-- The body of the loop of `LoadLayoutFromBits` at index `i`; the state is the game, the
offset of `src` in the input array, and `b`. -/
def loadStep (src : List Nat) (kEnd : Nat) (st : Game × Nat × Nat) (i : Nat) : Game × Nat × Nat :=
  let pos := if st.2.2 = kEnd then st.2.1 + 1 else st.2.1
  let b := if st.2.2 = kEnd then 1 else st.2.2
  (if (src.getD pos 0) &&& b = b then
      (st.1.SetBlocked (1 + ((i % st.1.Width : Nat) : Int)) (1 + ((i / st.1.Width : Nat) : Int))).2
    else st.1,
    pos, (b <<< 1) % 4294967296)

def LoadLayoutFromBits (g : Game) (src : List Nat) (bits_per_byte : Nat) : Game :=
  ((List.range (g.Height * g.Width)).foldl (loadStep src ((1 <<< bits_per_byte) % 4294967296))
    (g, 0, 1)).1

end Game

/-- The array `alphabet` of `SaveToHexString`, without its terminating NUL. -/
def alphabet : List Char := "0123456789ABCDEF".toList

def SaveToHexString (game : Game) : String :=
  if game.Height ≥ 16 ∨ game.Width ≥ 16 then "[layout too large]"
  else
    let n := game.LayoutByteSize 4
    let s : List Char := List.replicate (2 + n) (Char.ofNat 0)
    let s := s.set 0 (alphabet.getD game.Height (Char.ofNat 0))
    let s := s.set 1 (alphabet.getD game.Width (Char.ofNat 0))
    let bytes := game.WriteLayoutAsBits ((s.drop 2).map Char.toNat) 4
    String.mk (s.take 2 ++ bytes.map (fun v => alphabet.getD v (Char.ofNat 0)))

/-- The lambda `parse_hex`. -/
def parse_hex (c : Char) : Int :=
  if '0' ≤ c ∧ c ≤ '9' then (c.toNat : Int) - ('0'.toNat : Int)
  else if 'a' ≤ c ∧ c ≤ 'f' then (c.toNat : Int) - ('a'.toNat : Int) + 10
  else if 'A' ≤ c ∧ c ≤ 'F' then (c.toNat : Int) - ('A'.toNat : Int) + 10
  else -1

/-- The loop of `LoadFromHexString` that replaces every character after the second by its
value, or fails. -/
def parseDigits : List Char → Option (List Nat)
  | [] => some []
  | c :: cs =>
    if parse_hex c = -1 then none
    else (parseDigits cs).map (fun ds => (parse_hex c).toNat :: ds)

def LoadFromHexString (code : String) : Option Game :=
  if code.length < 2 then none
  else
    let h := parse_hex (code.data.getD 0 (Char.ofNat 0))
    let w := parse_hex (code.data.getD 1 (Char.ofNat 0))
    if h = -1 ∨ w = -1 then none
    else
      let game := Game.new h.toNat w.toNat
      if code.length ≠ 2 + game.LayoutByteSize 4 then none
      else
        match parseDigits (code.data.drop 2) with
        | none => none
        | some src => some (game.LoadLayoutFromBits src 4)

/-- The 1 x 4 board whose only blocked tile is `(1, 1)`. -/
def row1x4 : Game := ((Game.new 1 4).SetBlocked 1 1).2

/-- Tile number `k` in row-major order is blocked. -/
def blockedAt (g : Game) (k : Nat) : Bool :=
  decide (g.At (((k % g.width_ : Nat) : Int) + 1) (((k / g.width_ : Nat) : Int) + 1) =
    State.kBlocked)

/-- The value `2 ^ i` contributed by tile `m` once `k` tiles have been written. -/
def bitVal (g : Game) (k m i : Nat) : Nat :=
  if m < k ∧ blockedAt g m = true then 2 ^ i else 0

/-- The output element `j` once `k` tiles have been written: tile `4 * j + i` sets bit `i`. -/
def nibbleUpTo (g : Game) (k j : Nat) : Nat :=
  bitVal g k (4 * j) 0 + bitVal g k (4 * j + 1) 1 + bitVal g k (4 * j + 2) 2 +
    bitVal g k (4 * j + 3) 3

/-- The offset `p` and mask `b` of the codec loops before tile `k` is handled: after the
test `b == kEnd` they designate element `k / 4` and bit `k % 4`. -/
def Cursor4 (k p b : Nat) : Prop :=
  (if b = 16 then p + 1 else p) = k / 4 ∧ (if b = 16 then 1 else b) = 2 ^ (k % 4)

/-- The value of a packed digit as the spec words it: the sum over `i` in `0..3` with
`4 * j + i < H * W` of `weight i` if tile `4 * j + i` (row-major) is blocked. -/
def packedValue (g : Game) (j : Nat) (weight : Nat → Nat) : Nat :=
  ((List.range 4).map (fun i =>
    if 4 * j + i < g.Height * g.Width ∧ blockedAt g (4 * j + i) = true then weight i else 0)).sum

/-- The uppercase hexadecimal digit of a value below 16. -/
def upperHexDigit (v : Nat) : Char :=
  if v < 10 then Char.ofNat (48 + v) else Char.ofNat (55 + v)

/-- A hexadecimal digit, in either case. -/
def IsHexDigit (c : Char) : Prop :=
  ('0' ≤ c ∧ c ≤ '9') ∨ ('a' ≤ c ∧ c ≤ 'f') ∨ ('A' ≤ c ∧ c ≤ 'F')

/-- The value of a hexadecimal digit (0 for any other character). -/
def hexValue (c : Char) : Nat :=
  if '0' ≤ c ∧ c ≤ '9' then c.toNat - 48
  else if 'a' ≤ c ∧ c ≤ 'f' then c.toNat - 97 + 10
  else if 'A' ≤ c ∧ c ≤ 'F' then c.toNat - 65 + 10
  else 0

/-- A board of height 16. -/
def tall16x1 : Game := Game.new 16 1

/-- The increment of `MoveOne` for a direction (`(0, 0)` for a value that is not a single
direction). -/
def dirStep (d : Dir) : Int × Int := (increment_for_move d).getD (0, 0)

/-- The empty 2 x 3 board after `Start(1, 1)`. -/
def started2x3 : Game := ((Game.new 2 3).Start 1 1).2

/-- The members of `ValidDirs()`: the single directions contained in it. -/
def validMembers (g : Game) : List Dir :=
  [kUp, kDown, kLeft, kRight].filter (fun d => decide (d &&& g.ValidDirs = d))

/-- The continuation of `MoveFast` as the specification words it: as long as `ValidDirs()` has
exactly one member `d`, perform `Move(d)`; stop at the first state whose `ValidDirs()` has zero
or at least two members. -/
def forcedMoves : Nat → Game → Except Err Game
  | 0, _ => .error Err.fuel
  | fuel + 1, g =>
    match validMembers g with
    | [d] => do
      let r ← g.Move d
      forcedMoves fuel r.2
    | _ => .ok g

/-- The second board is the first one with some `kOff` tiles of the live area turned `kOn`. -/
def Lit (a b : Game) : Prop :=
  b.height_ = a.height_ ∧ b.width_ = a.width_ ∧
  ∀ i, i < a.RawSize → b.board_ i = a.board_ i ∨ (a.board_ i = State.kOff ∧ b.board_ i = State.kOn)

/-- The generator `*rbg`, seen through its only use: call number `k` of `std::shuffle`
rearranges the array it is given. -/
structure Rbg where
  shuffle : Nat → List State → List State
  perm : ∀ (k : Nat) (p : List State), (shuffle k p).Perm p

namespace Game

/-- The value of `std::count(board_.get(), board_.get() + RawSize(), State::kOff)`. -/
def numFree (g : Game) : Nat := ((List.range g.RawSize).map g.board_).count State.kOff

/-- The scan `while (board_[k] != State::kOff) ++k`; the fuel is the number of elements of
the buffer from `k` on, and leaving the buffer gives no value. -/
def augmentScan (g : Game) : Nat → Nat → Except Err Nat
  | 0, _ => .error Err.fuel
  | fuel + 1, k => if g.board_ k ≠ State.kOff then augmentScan g fuel (k + 1) else .ok k

/-- The loop `for (int i = 0, k = 0; i != num_free; ++i)` of `AugmentRandomly`, with `m`
iterations left. -/
def augmentFill (p : List State) : Nat → Game → Nat → Nat → Except Err Game
  | 0, g, _, _ => .ok g
  | m + 1, g, i, k => do
    let k1 ← augmentScan g (4 * g.RawSize - k) k
    augmentFill p m
      { g with board_ := fun j => if j = k1 then p.getD i State.kOff else g.board_ j }
      (i + 1) (k1 + 1)

/-- The loop `for (;;)` of `AugmentRandomly`; `calls` counts the calls of `std::shuffle` made
so far, `p` is the array and `solutions` the local vector. -/
def augmentLoop (rbg : Rbg) (num_free : Nat) : Nat → Game → List State → Nat → List Int →
    Except Err (Bool × Game)
  | 0, _, _, _, _ => .error Err.fuel
  | fuel + 1, g, p, calls, solutions => do
    let p1 := rbg.shuffle calls p
    let g1 := g.CopyBoard 3 0
    let g2 ← augmentFill p1 num_free g1 0 0
    let r ← g2.IsSolvable (some solutions)
    if r.1 then .ok (true, r.2.1.CopyBoard 0 1)
    else augmentLoop rbg num_free fuel r.2.1 p1 (calls + 1) (r.2.2.getD solutions)

/-- The method `AugmentRandomly`; `fuel` bounds the number of rounds of its `for (;;)` loop. -/
def AugmentRandomly (g : Game) (n : Int) (rbg : Rbg) (fuel : Nat) : Except Err (Bool × Game) :=
  if g.HasStarted then .ok (false, g)
  else
    let num_free := g.numFree
    if n < 0 then .ok (false, g)
    else if (num_free : Int) ≤ n then .ok (false, g)
    else
      let g3 := g.CopyBoard 0 3
      let p := List.replicate n.toNat State.kBlocked ++
        List.replicate (num_free - n.toNat) State.kOff
      augmentLoop rbg num_free fuel g3 p 0 []

end Game

/-- The states reached through the public operations of the class, each returning. -/
inductive Reachable : Game → Prop
  | ctor (height width : Nat) : Reachable (Game.new height width)
  | setBlocked {g : Game} (x y : Int) : Reachable g → Reachable (g.SetBlocked x y).2
  | start {g : Game} (x y : Int) : Reachable g → Reachable (g.Start x y).2
  | move {g g' : Game} (d : Dir) (b : Bool) : Reachable g → g.Move d = .ok (b, g') →
      Reachable g'
  | moveFast {g g' : Game} (d : Dir) (b : Bool) : Reachable g → g.MoveFast d = .ok (b, g') →
      Reachable g'
  | reset {g : Game} : Reachable g → Reachable g.Reset
  | isSolvable {g g' : Game} (solutions out : Option (List Int)) (b : Bool) : Reachable g →
      g.IsSolvable solutions = .ok (b, g', out) → Reachable g'
  | augment {g g' : Game} (n : Int) (rbg : Rbg) (fuel : Nat) (b : Bool) : Reachable g →
      g.AugmentRandomly n rbg fuel = .ok (b, g') → Reachable g'
  | load {g : Game} (src : List Nat) (bits_per_byte : Nat) : Reachable g →
      Reachable (g.LoadLayoutFromBits src bits_per_byte)

/-- The number of `kOff` elements among `board_[a], ..., board_[a + n - 1]`. -/
def cntOff (g : Game) (a n : Nat) : Nat := ((List.range' a n).map g.board_).count State.kOff

/-- The 1 x 2 board whose tile `(2, 1)` is blocked. -/
def row1x2 : Game := ((Game.new 1 2).SetBlocked 2 1).2

/-- A generator whose every shuffle leaves the array as it is. -/
def idRbg : Rbg := ⟨fun _ p => p, fun _ p => List.Perm.refl p⟩

/-- The empty 2 x 2 board after `AugmentRandomly(1, &rbg)` with `idRbg`. -/
def augmented2x2 : Game :=
  match empty2x2.AugmentRandomly 1 idRbg 1 with
  | .ok r => r.2
  | .error _ => empty2x2

/-- The empty 2 x 3 board. -/
def empty2x3 : Game := Game.new 2 3

/-- The calls of `TEST(Game, StartAndSolve)` in order, with the values the test inspects:
the result of `IsSolvable(nullptr)`, then the result and the cursor after `Start(1, 1)`,
`Move(kRight)`, `Move(kDown)` and `Move(kLeft)`, then `ValidDirs()` and `HaveWon()`. -/
def StartAndSolve : Except Err (Bool × List (Bool × Int × Int) × Dir × Bool) := do
  let game := Game.new 2 3
  let r ← game.IsSolvable none
  let s := r.2.1.Start 1 1
  let m1 ← s.2.Move kRight
  let m2 ← m1.2.Move kDown
  let m3 ← m2.2.Move kLeft
  pure (r.1, [(s.1, s.2.X, s.2.Y), (m1.1, m1.2.X, m1.2.Y), (m2.1, m2.2.X, m2.2.Y),
    (m3.1, m3.2.X, m3.2.Y)], m3.2.ValidDirs, m3.2.HaveWon)

/-- The 3 x 3 board whose four corner tiles are blocked. -/
def corners3x3 : Game :=
  (((((Game.new 3 3).SetBlocked 1 1).2.SetBlocked 1 3).2.SetBlocked 3 1).2.SetBlocked 3 3).2

/-- The calls of `TEST(Game, UnsolvableLayout)` in order: the results of the four `SetBlocked`
calls and of `IsSolvable(nullptr)`. -/
def UnsolvableLayout : Except Err (Bool × Bool × Bool × Bool × Bool) := do
  let game := Game.new 3 3
  let b1 := game.SetBlocked 1 1
  let b2 := b1.2.SetBlocked 1 3
  let b3 := b2.2.SetBlocked 3 1
  let b4 := b3.2.SetBlocked 3 3
  let r ← b4.2.IsSolvable none
  pure (b1.1, b2.1, b3.1, b4.1, r.1)

/-- The list `ds` of single directions wins by fast moves from the start tile `(x, y)` of the
layout `g`. -/
def WinsFrom (g : Game) (x y : Int) (ds : List Dir) : Prop :=
  (∀ d ∈ ds, Single d) ∧
    ∃ g1 g2, g.Start x y = (true, g1) ∧ FastRun g1 ds g2 ∧ g2.HaveWon = true

/-- Row-major order of tiles: `y` first, then `x`. -/
def rowMajorLt (a b : Int × Int) : Prop := a.2 < b.2 ∨ (a.2 = b.2 ∧ a.1 < b.1)

/-- Lexicographic comparison of direction lists, position by position, directions compared by
their values (`kUp < kDown < kLeft < kRight`); a list is below its extensions. -/
def dirLexLe : List Dir → List Dir → Prop
  | [], _ => True
  | _ :: _, [] => False
  | a :: as, b :: bs => a < b ∨ (a = b ∧ dirLexLe as bs)

/-- The direction opposite to a single direction (`kNone` for any other value). -/
def opposite (d : Dir) : Dir :=
  if d = kUp then kDown
  else if d = kDown then kUp
  else if d = kLeft then kRight
  else if d = kRight then kLeft
  else kNone

/-- The union of the two directions perpendicular to a single direction. -/
def perpendicular (d : Dir) : Dir :=
  if d = kUp ∨ d = kDown then kLeft ||| kRight else kUp ||| kDown

/-- The tile `(x, y)` of the layout snapshot, area 1 of the buffer (the target of
`CopyBoard(0, 1)`). -/
def snapshotAt (g : Game) (x y : Int) : State := g.board_ (g.idx x y + g.RawSize)

/-- The invariant of the states reached through the public operations: the state is well
formed; when no game is in progress the live area has no `kOn` element; when a game is in
progress the tile under the cursor is `kOn`, the snapshot has no `kOn` element, and the live
area is the snapshot with some `kOff` elements turned `kOn`. -/
def PlayInv (g : Game) : Prop :=
  WF g ∧
  (g.HasStarted = false → ∀ i, i < g.RawSize → g.board_ i ≠ State.kOn) ∧
  (g.HasStarted = true →
    g.At g.x_ g.y_ = State.kOn ∧
    (∀ i, i < g.RawSize → g.board_ (i + g.RawSize) ≠ State.kOn) ∧
    ∀ i, i < g.RawSize → g.board_ i = g.board_ (i + g.RawSize) ∨
      (g.board_ (i + g.RawSize) = State.kOff ∧ g.board_ i = State.kOn))
/-! ## Indexing -/

theorem idx_of_nonneg (g : Game) {x y : Int} (hx : 0 ≤ x) (hy : 0 ≤ y) :
    g.idx x y = x.toNat + (g.width_ + 2) * y.toNat := by
  unfold Game.idx
  have h0 : 0 ≤ ((g.width_ : Int) + 2) * y := by positivity
  have h1 : (x + ((g.width_ : Int) + 2) * y) =
      ((x.toNat + (g.width_ + 2) * y.toNat : Nat) : Int) := by
    push_cast
    rw [Int.toNat_of_nonneg hx, Int.toNat_of_nonneg hy]
  rw [h1, Int.toNat_natCast]

theorem idx_lt (g : Game) {x y : Int} (hx0 : 0 ≤ x) (hx : x ≤ g.width_ + 1) (hy0 : 0 ≤ y)
    (hy : y ≤ g.height_ + 1) : g.idx x y < g.RawSize := by
  unfold Game.idx Game.RawSize
  have h1 : ((g.width_ : Int) + 2) * y ≤ ((g.width_ : Int) + 2) * (g.height_ + 1) := by nlinarith
  have h0 : 0 ≤ ((g.width_ : Int) + 2) * y := by positivity
  have : (x + ((g.width_ : Int) + 2) * y) < (((g.height_ + 2) * (g.width_ + 2) : Nat) : Int) := by
    push_cast; nlinarith
  omega

theorem At_ring (g : Game) (hb : Border g 0) {x y : Int} (hx0 : 0 ≤ x) (hx : x ≤ g.width_ + 1)
    (hy0 : 0 ≤ y) (hy : y ≤ g.height_ + 1)
    (hr : x = 0 ∨ x = g.width_ + 1 ∨ y = 0 ∨ y = g.height_ + 1) :
    g.At x y = State.kBlocked := by
  unfold Game.At
  rw [idx_of_nonneg g hx0 hy0]
  have := hb x.toNat (by omega) y.toNat (by omega) (by omega)
  simpa using this

theorem interior_of_ne_blocked (g : Game) (hb : Border g 0) {x y : Int} (hx0 : 0 ≤ x)
    (hx : x ≤ g.width_ + 1) (hy0 : 0 ≤ y) (hy : y ≤ g.height_ + 1)
    (hs : g.At x y ≠ State.kBlocked) : Interior g x y := by
  unfold Interior
  by_contra hcon
  apply hs
  apply At_ring g hb hx0 hx hy0 hy
  omega

theorem hasStarted_iff (g : Game) : g.HasStarted = true ↔ g.x_ ≠ 0 ∧ g.y_ ≠ 0 := by
  simp [Game.HasStarted]

theorem WF.interior {g : Game} (h : WF g) (hs : g.HasStarted = true) : Interior g g.x_ g.y_ := by
  rcases h.2 with h0 | h1
  · rw [hasStarted_iff] at hs; exact absurd h0.1 hs.1
  · exact h1.1

theorem WF.border1 {g : Game} (h : WF g) (hs : g.HasStarted = true) : Border g 1 := by
  rcases h.2 with h0 | h1
  · rw [hasStarted_iff] at hs; exact absurd h0.1 hs.1
  · exact h1.2

theorem hasStarted_of_interior {g : Game} (h : Interior g g.x_ g.y_) : g.HasStarted = true := by
  rw [hasStarted_iff]; unfold Interior at h; omega

theorem Stable.stable_refl (g : Game) : Stable g g := ⟨rfl, rfl, fun _ _ => rfl⟩

theorem Stable.stable_rawSize {g g' : Game} (h : Stable g g') : g'.RawSize = g.RawSize := by
  unfold Game.RawSize; rw [h.1, h.2.1]

theorem Stable.stable_trans {g g' g'' : Game} (h : Stable g g') (h' : Stable g' g'') : Stable g g'' :=
  ⟨h'.1.trans h.1, h'.2.1.trans h.2.1, fun i hi =>
    (h'.2.2 i (by rw [h.stable_rawSize]; exact hi)).trans (h.2.2 i hi)⟩

theorem offCount_le (g : Game) : offCount g ≤ g.RawSize := by
  unfold offCount
  calc _ ≤ (Finset.range g.RawSize).card := Finset.card_filter_le _ _
    _ = g.RawSize := Finset.card_range _

/-- Lighting one `kOff` tile of the live area lowers the count by one. -/
theorem offCount_light (g g' : Game) (j : Nat) (hR : g'.RawSize = g.RawSize)
    (hj : j < g.RawSize) (hoff : g.board_ j = State.kOff)
    (hb : ∀ i, i < g.RawSize → g'.board_ i = if i = j then State.kOn else g.board_ i) :
    offCount g' + 1 = offCount g := by
  unfold offCount
  rw [hR]
  have hmem : j ∈ (Finset.range g.RawSize).filter (fun i => g.board_ i = State.kOff) := by
    simp [hj, hoff]
  have heq : (Finset.range g.RawSize).filter (fun i => g'.board_ i = State.kOff) =
      ((Finset.range g.RawSize).filter (fun i => g.board_ i = State.kOff)).erase j := by
    ext i
    simp only [Finset.mem_filter, Finset.mem_range, Finset.mem_erase]
    by_cases hi : i < g.RawSize
    · rw [hb i hi]
      by_cases hij : i = j
      · simp [hij]
      · simp [hij]
    · simp [hi]
  rw [heq, Finset.card_erase_of_mem hmem]
  have : 0 < ((Finset.range g.RawSize).filter (fun i => g.board_ i = State.kOff)).card :=
    Finset.card_pos.mpr ⟨j, hmem⟩
  omega


/-! ## Valid directions -/

/-- The value computed by `ValidDirs` from the four neighbour tests. -/
theorem validDirs_eq (g : Game) (hs : g.HasStarted = true) :
    g.ValidDirs =
      (((0 ||| bif decide (g.At (g.x_ + 0) (g.y_ + -1) = State.kOff) then 1 else 0)
        ||| bif decide (g.At (g.x_ + 0) (g.y_ + 1) = State.kOff) then 2 else 0)
        ||| bif decide (g.At (g.x_ + -1) (g.y_ + 0) = State.kOff) then 4 else 0)
        ||| bif decide (g.At (g.x_ + 1) (g.y_ + 0) = State.kOff) then 8 else 0 := by
  have e1 : g.y_ + -1 = g.y_ - 1 := by ring
  have e2 : g.x_ + -1 = g.x_ - 1 := by ring
  simp only [e1, e2, add_zero]
  unfold Game.ValidDirs
  simp only [hs, if_true, kNone, kUp, kDown, kLeft, kRight, Bool.cond_decide]

theorem bits_table : ∀ a b c d : Bool,
    ((1 &&& ((((0 ||| bif a then 1 else 0) ||| bif b then 2 else 0) ||| bif c then 4 else 0)
        ||| bif d then 8 else 0) = 1) ↔ a = true) ∧
    ((2 &&& ((((0 ||| bif a then 1 else 0) ||| bif b then 2 else 0) ||| bif c then 4 else 0)
        ||| bif d then 8 else 0) = 2) ↔ b = true) ∧
    ((4 &&& ((((0 ||| bif a then 1 else 0) ||| bif b then 2 else 0) ||| bif c then 4 else 0)
        ||| bif d then 8 else 0) = 4) ↔ c = true) ∧
    ((8 &&& ((((0 ||| bif a then 1 else 0) ||| bif b then 2 else 0) ||| bif c then 4 else 0)
        ||| bif d then 8 else 0) = 8) ↔ d = true) ∧
    ((((((0 ||| bif a then 1 else 0) ||| bif b then 2 else 0) ||| bif c then 4 else 0)
        ||| bif d then 8 else 0) = 0) ↔ (a = false ∧ b = false ∧ c = false ∧ d = false)) := by
  decide

theorem valid_up_iff (g : Game) (hs : g.HasStarted = true) :
    kUp &&& g.ValidDirs = kUp ↔ g.At (g.x_ + 0) (g.y_ + -1) = State.kOff := by
  rw [validDirs_eq g hs]
  exact ((bits_table _ _ _ _).1).trans decide_eq_true_iff

theorem valid_down_iff (g : Game) (hs : g.HasStarted = true) :
    kDown &&& g.ValidDirs = kDown ↔ g.At (g.x_ + 0) (g.y_ + 1) = State.kOff := by
  rw [validDirs_eq g hs]
  exact ((bits_table _ _ _ _).2.1).trans decide_eq_true_iff

theorem valid_left_iff (g : Game) (hs : g.HasStarted = true) :
    kLeft &&& g.ValidDirs = kLeft ↔ g.At (g.x_ + -1) (g.y_ + 0) = State.kOff := by
  rw [validDirs_eq g hs]
  exact ((bits_table _ _ _ _).2.2.1).trans decide_eq_true_iff

theorem valid_right_iff (g : Game) (hs : g.HasStarted = true) :
    kRight &&& g.ValidDirs = kRight ↔ g.At (g.x_ + 1) (g.y_ + 0) = State.kOff := by
  rw [validDirs_eq g hs]
  exact ((bits_table _ _ _ _).2.2.2.1).trans decide_eq_true_iff

theorem validDirs_eq_zero_iff (g : Game) (hs : g.HasStarted = true) :
    g.ValidDirs = 0 ↔
      (g.At (g.x_ + 0) (g.y_ + -1) ≠ State.kOff ∧ g.At (g.x_ + 0) (g.y_ + 1) ≠ State.kOff ∧
       g.At (g.x_ + -1) (g.y_ + 0) ≠ State.kOff ∧ g.At (g.x_ + 1) (g.y_ + 0) ≠ State.kOff) := by
  rw [validDirs_eq g hs]
  refine ((bits_table _ _ _ _).2.2.2.2).trans ?_
  simp only [decide_eq_false_iff_not, ne_eq]

/-! ## The slide -/

/-- One iteration of the `while` loop of `MoveOne` from a well-formed started state. -/
theorem light_step (g : Game) (dx dy : Int) (hu : UnitStep dx dy) (hwf : WF g)
    (hs : g.HasStarted = true) (hoff : g.At (g.x_ + dx) (g.y_ + dy) = State.kOff) :
    WF ({ g with x_ := g.x_ + dx, y_ := g.y_ + dy }.setAt (g.x_ + dx) (g.y_ + dy) State.kOn) ∧
    ({ g with x_ := g.x_ + dx, y_ := g.y_ + dy }.setAt (g.x_ + dx) (g.y_ + dy)
      State.kOn).HasStarted = true ∧
    Stable g ({ g with x_ := g.x_ + dx, y_ := g.y_ + dy }.setAt (g.x_ + dx) (g.y_ + dy)
      State.kOn) ∧
    offCount ({ g with x_ := g.x_ + dx, y_ := g.y_ + dy }.setAt (g.x_ + dx) (g.y_ + dy)
      State.kOn) + 1 = offCount g := by
  have hi := hwf.interior hs
  have hb1 := hwf.border1 hs
  unfold Interior at hi
  have hx0 : 0 ≤ g.x_ + dx := by rcases hu with h | h | h | h <;> omega
  have hx1 : g.x_ + dx ≤ g.width_ + 1 := by rcases hu with h | h | h | h <;> omega
  have hy0 : 0 ≤ g.y_ + dy := by rcases hu with h | h | h | h <;> omega
  have hy1 : g.y_ + dy ≤ g.height_ + 1 := by rcases hu with h | h | h | h <;> omega
  have hint : Interior g (g.x_ + dx) (g.y_ + dy) :=
    interior_of_ne_blocked g hwf.1 hx0 hx1 hy0 hy1 (by rw [hoff]; decide)
  have hlt : g.idx (g.x_ + dx) (g.y_ + dy) < g.RawSize := idx_lt g hx0 hx1 hy0 hy1
  have hoff' : g.board_ (g.idx (g.x_ + dx) (g.y_ + dy)) = State.kOff := hoff
  refine ⟨⟨?_, Or.inr ⟨hint, ?_⟩⟩, hasStarted_of_interior hint, ⟨rfl, rfl, ?_⟩, ?_⟩
  · intro x hx y hy hr
    have := hwf.1 x hx y hy hr
    show (if _ = g.idx (g.x_ + dx) (g.y_ + dy) then State.kOn else g.board_ _) = State.kBlocked
    rw [if_neg]
    · exact this
    · intro he
      have he' : 0 * g.RawSize + (x + (g.width_ + 2) * y) = g.idx (g.x_ + dx) (g.y_ + dy) := he
      rw [he', hoff'] at this
      exact absurd this (by decide)
  · intro x hx y hy hr
    have := hb1 x hx y hy hr
    show (if _ = g.idx (g.x_ + dx) (g.y_ + dy) then State.kOn else g.board_ _) = State.kBlocked
    rw [if_neg]
    · exact this
    · intro he
      have he' : 1 * g.RawSize + (x + (g.width_ + 2) * y) = g.idx (g.x_ + dx) (g.y_ + dy) := he
      omega
  · intro i hi'
    show (if i = g.idx (g.x_ + dx) (g.y_ + dy) then State.kOn else g.board_ i) = g.board_ i
    rw [if_neg]
    omega
  · exact offCount_light g _ _ rfl hlt hoff' (fun i _ => rfl)

theorem MoveOneLoop_ok (dx dy : Int) (hu : UnitStep dx dy) :
    ∀ (fuel : Nat) (g : Game), WF g → g.HasStarted = true → offCount g < fuel →
      ∃ g', MoveOneLoop dx dy fuel g = .ok g' ∧ WF g' ∧ g'.HasStarted = true ∧ Stable g g' ∧
        offCount g' ≤ offCount g ∧
        (g.At (g.x_ + dx) (g.y_ + dy) = State.kOff → offCount g' < offCount g) ∧
        g'.At (g'.x_ + dx) (g'.y_ + dy) ≠ State.kOff := by
  intro fuel
  induction fuel with
  | zero => intro g _ _ h; omega
  | succ n ih =>
    intro g hwf hs hlt
    unfold Game.MoveOneLoop
    by_cases hoff : g.At (g.x_ + dx) (g.y_ + dy) = State.kOff
    · rw [if_pos hoff]
      obtain ⟨h1, h2, h3, h4⟩ := light_step g dx dy hu hwf hs hoff
      obtain ⟨g', e, w', s', st', c', _, n'⟩ := ih _ h1 h2 (by omega)
      exact ⟨g', e, w', s', h3.stable_trans st', by omega, fun _ => by omega, n'⟩
    · rw [if_neg hoff]
      exact ⟨g, rfl, hwf, hs, Stable.stable_refl g, le_refl _, fun h => absurd h hoff, hoff⟩

theorem valid_iff_inc (g : Game) (hs : g.HasStarted = true) (d : Dir) (hd : Single d) :
    ∃ dx dy, increment_for_move d = some (dx, dy) ∧ UnitStep dx dy ∧
      (d &&& g.ValidDirs = d ↔ g.At (g.x_ + dx) (g.y_ + dy) = State.kOff) := by
  rcases hd with rfl | rfl | rfl | rfl
  · exact ⟨0, -1, rfl, Or.inl ⟨rfl, rfl⟩, valid_up_iff g hs⟩
  · exact ⟨0, 1, rfl, Or.inr (Or.inl ⟨rfl, rfl⟩), valid_down_iff g hs⟩
  · exact ⟨-1, 0, rfl, Or.inr (Or.inr (Or.inl ⟨rfl, rfl⟩)), valid_left_iff g hs⟩
  · exact ⟨1, 0, rfl, Or.inr (Or.inr (Or.inr ⟨rfl, rfl⟩)), valid_right_iff g hs⟩

theorem MoveOne_ok (g : Game) (d : Dir) (hwf : WF g) (hs : g.HasStarted = true)
    (hd : Single d) (hv : d &&& g.ValidDirs = d) :
    ∃ g', g.MoveOne d = .ok g' ∧ WF g' ∧ g'.HasStarted = true ∧ Stable g g' ∧
      offCount g' < offCount g := by
  obtain ⟨dx, dy, hinc, hu, hiff⟩ := valid_iff_inc g hs d hd
  obtain ⟨g', e, w', s', st', _, c', _⟩ :=
    MoveOneLoop_ok dx dy hu (g.RawSize + 1) g hwf hs
      (Nat.lt_succ_of_le (offCount_le g))
  refine ⟨g', ?_, w', s', st', c' (hiff.mp hv)⟩
  unfold Game.MoveOne
  rw [hinc]
  exact e

theorem MoveFastLoop_ok : ∀ (fuel : Nat) (g : Game) (d : Dir), WF g → g.HasStarted = true →
    Single d → d &&& g.ValidDirs = d → offCount g ≤ fuel →
    ∃ g', MoveFastLoop fuel g d = .ok (true, g') ∧ WF g' ∧ g'.HasStarted = true ∧
      Stable g g' ∧ offCount g' < offCount g ∧ ¬ Single g'.ValidDirs := by
  intro fuel
  induction fuel with
  | zero =>
    intro g d hwf hs hd hv hle
    obtain ⟨g1, _, _, _, _, c1⟩ := MoveOne_ok g d hwf hs hd hv
    omega
  | succ n ih =>
    intro g d hwf hs hd hv hle
    obtain ⟨g1, e1, w1, s1, st1, c1⟩ := MoveOne_ok g d hwf hs hd hv
    unfold Game.MoveFastLoop
    rw [e1]
    simp only [bind, Except.bind]
    by_cases hc : Single g1.ValidDirs
    · have hc' : g1.ValidDirs = kUp ∨ g1.ValidDirs = kDown ∨ g1.ValidDirs = kLeft ∨
          g1.ValidDirs = kRight := hc
      rw [if_pos hc']
      obtain ⟨g', e, w', s', st', c', n'⟩ :=
        ih g1 g1.ValidDirs w1 s1 hc (Nat.and_self _) (by omega)
      exact ⟨g', e, w', s', st1.stable_trans st', by omega, n'⟩
    · have hc' : ¬ (g1.ValidDirs = kUp ∨ g1.ValidDirs = kDown ∨ g1.ValidDirs = kLeft ∨
          g1.ValidDirs = kRight) := hc
      rw [if_neg hc']
      exact ⟨g1, rfl, w1, s1, st1, c1, hc⟩

theorem MoveFast_ok (g : Game) (d : Dir) (hwf : WF g) (hs : g.HasStarted = true)
    (hd : Single d) (hv : d &&& g.ValidDirs = d) :
    ∃ g', g.MoveFast d = .ok (true, g') ∧ WF g' ∧ g'.HasStarted = true ∧ Stable g g' ∧
      offCount g' < offCount g ∧ ¬ Single g'.ValidDirs := by
  unfold Game.MoveFast
  simp only [hs, Bool.not_true, Bool.false_eq_true, if_false, hv, ne_eq, not_true_eq_false]
  exact MoveFastLoop_ok _ g d hwf hs hd hv (Nat.le_succ_of_le (offCount_le g))

/-- A call of `MoveFast` that returns `true` was made on a started game with a valid direction. -/
theorem MoveFast_true_inv (g g' : Game) (d : Dir) (h : g.MoveFast d = .ok (true, g')) :
    g.HasStarted = true ∧ d &&& g.ValidDirs = d := by
  unfold Game.MoveFast at h
  by_cases hs : g.HasStarted = true
  · refine ⟨hs, ?_⟩
    by_contra hv
    simp [hs, hv] at h
  · simp [hs] at h

theorem Move_ok (g : Game) (d : Dir) (hwf : WF g) (hs : g.HasStarted = true)
    (hd : Single d) (hv : d &&& g.ValidDirs = d) :
    ∃ g', g.Move d = .ok (true, g') ∧ WF g' ∧ g'.HasStarted = true ∧ Stable g g' ∧
      offCount g' < offCount g := by
  obtain ⟨g1, e1, w1, s1, st1, c1⟩ := MoveOne_ok g d hwf hs hd hv
  refine ⟨g1, ?_, w1, s1, st1, c1⟩
  unfold Game.Move
  simp only [hs, Bool.not_true, Bool.false_eq_true, if_false, hv, ne_eq, not_true_eq_false, e1]
  rfl

theorem Move_true_inv (g g' : Game) (d : Dir) (h : g.Move d = .ok (true, g')) :
    g.HasStarted = true ∧ d &&& g.ValidDirs = d := by
  unfold Game.Move at h
  by_cases hs : g.HasStarted = true
  · refine ⟨hs, ?_⟩
    by_contra hv
    simp [hs, hv] at h
  · simp [hs] at h

/-! ## Reset and Start -/

theorem game_ext (a b : Game) (h1 : a.height_ = b.height_) (h2 : a.width_ = b.width_)
    (h3 : a.x_ = b.x_) (h4 : a.y_ = b.y_) (h5 : ∀ i, a.board_ i = b.board_ i) : a = b := by
  obtain ⟨ah, aw, ax, ay, ab⟩ := a
  obtain ⟨bh, bw, bx, b4, bb⟩ := b
  simp only at h1 h2 h3 h4 h5
  have h6 : ab = bb := funext h5
  subst h1 h2 h3 h4 h6
  rfl

theorem Reset_of_started (g : Game) (hs : g.HasStarted = true) :
    g.Reset = { g with x_ := 0, y_ := 0 }.CopyBoard 1 0 := by
  unfold Game.Reset; rw [if_pos hs]

theorem Reset_of_not_started (g : Game) (hs : g.HasStarted = false) : g.Reset = g := by
  unfold Game.Reset; simp [hs]

theorem Reset_board_started (g : Game) (hs : g.HasStarted = true) (i : Nat) :
    g.Reset.board_ i = if i < g.RawSize then g.board_ (i + g.RawSize) else g.board_ i := by
  rw [Reset_of_started g hs]
  show (if 0 * g.RawSize ≤ i ∧ i < 0 * g.RawSize + g.RawSize
      then g.board_ (i - 0 * g.RawSize + 1 * g.RawSize) else g.board_ i) = _
  by_cases h : i < g.RawSize
  · rw [if_pos h, if_pos (by omega)]; congr 1; omega
  · rw [if_neg h, if_neg (by omega)]

theorem Reset_dims (g : Game) :
    g.Reset.height_ = g.height_ ∧ g.Reset.width_ = g.width_ ∧ g.Reset.RawSize = g.RawSize := by
  unfold Game.Reset
  split <;> exact ⟨rfl, rfl, rfl⟩

theorem Reset_not_started (g : Game) : g.Reset.HasStarted = false := by
  by_cases hs : g.HasStarted = true
  · rw [Reset_of_started g hs]; rfl
  · have hs' : g.HasStarted = false := by simpa using hs
    rw [Reset_of_not_started g hs']; exact hs'

theorem Reset_cursor (g : Game) (hwf : WF g) : g.Reset.x_ = 0 ∧ g.Reset.y_ = 0 := by
  by_cases hs : g.HasStarted = true
  · rw [Reset_of_started g hs]; exact ⟨rfl, rfl⟩
  · have hs' : g.HasStarted = false := by simpa using hs
    rw [Reset_of_not_started g hs']
    rcases hwf.2 with h | h
    · exact h
    · exact absurd (hasStarted_of_interior h.1) hs

theorem Reset_stable (g : Game) : Stable g g.Reset := by
  by_cases hs : g.HasStarted = true
  · refine ⟨(Reset_dims g).1, (Reset_dims g).2.1, fun i hi => ?_⟩
    rw [Reset_board_started g hs, if_neg (by omega)]
  · have hs' : g.HasStarted = false := by simpa using hs
    rw [Reset_of_not_started g hs']; exact Stable.stable_refl g

theorem Reset_WF (g : Game) (hwf : WF g) : WF g.Reset := by
  by_cases hs : g.HasStarted = true
  · refine ⟨?_, Or.inl (Reset_cursor g hwf)⟩
    intro x hx y hy hr
    rw [(Reset_dims g).2.1] at hx hr
    rw [(Reset_dims g).1] at hy hr
    rw [(Reset_dims g).2.1, (Reset_dims g).2.2, Reset_board_started g hs]
    have hb := hwf.border1 hs x hx y hy hr
    have hlt : x + (g.width_ + 2) * y < g.RawSize := by
      unfold Game.RawSize
      have : (g.width_ + 2) * y ≤ (g.width_ + 2) * (g.height_ + 1) := Nat.mul_le_mul_left _ hy
      nlinarith
    rw [if_pos (by omega)]
    rw [← hb]; congr 1; omega
  · have hs' : g.HasStarted = false := by simpa using hs
    rw [Reset_of_not_started g hs']; exact hwf

theorem Start_true_iff (r : Game) (x y : Int) :
    (r.Start x y).1 = true ↔ r.HasStarted = false ∧ Interior r x y ∧ r.At x y = State.kOff := by
  unfold Game.Start Interior
  by_cases hs : r.HasStarted = true
  · simp [hs]
  · have hs' : r.HasStarted = false := by simpa using hs
    by_cases hc : 1 ≤ x ∧ x ≤ r.width_ ∧ 1 ≤ y ∧ y ≤ r.height_ ∧ r.At x y = State.kOff
    · simp only [hs', Bool.false_eq_true, if_false, if_pos hc, true_and]
      tauto
    · simp only [hs', Bool.false_eq_true, if_false, if_neg hc, true_and]
      constructor
      · intro h; exact absurd h (by decide)
      · intro h; exact absurd (by tauto) hc

theorem Start_false (r : Game) (x y : Int) (h : (r.Start x y).1 = false) :
    (r.Start x y).2 = r := by
  unfold Game.Start at h ⊢
  split_ifs at h ⊢ <;> rfl

theorem Start_eq (r : Game) (x y : Int) (h : (r.Start x y).1 = true) :
    r.Start x y = (true, ({ r with x_ := x, y_ := y }.CopyBoard 0 1).setAt x y State.kOn) := by
  obtain ⟨h1, h2, h3⟩ := (Start_true_iff r x y).mp h
  unfold Game.Start
  unfold Interior at h2
  rw [if_neg (by simp [h1]), if_pos ⟨h2.1, h2.2.1, h2.2.2.1, h2.2.2.2, h3⟩]

theorem Start_board (r : Game) (x y : Int) (h : (r.Start x y).1 = true) (i : Nat) :
    (r.Start x y).2.board_ i =
      if i = r.idx x y then State.kOn
      else if r.RawSize ≤ i ∧ i < 2 * r.RawSize then r.board_ (i - r.RawSize)
      else r.board_ i := by
  rw [Start_eq r x y h]
  show (if i = r.idx x y then State.kOn
      else if 1 * r.RawSize ≤ i ∧ i < 1 * r.RawSize + r.RawSize
        then r.board_ (i - 1 * r.RawSize + 0 * r.RawSize) else r.board_ i) = _
  by_cases h1 : i = r.idx x y
  · rw [if_pos h1, if_pos h1]
  · rw [if_neg h1, if_neg h1]
    by_cases h2 : r.RawSize ≤ i ∧ i < 2 * r.RawSize
    · rw [if_pos h2, if_pos (by omega)]; congr 1; omega
    · rw [if_neg h2, if_neg (by omega)]

theorem Start_fields (r : Game) (x y : Int) (h : (r.Start x y).1 = true) :
    (r.Start x y).2.height_ = r.height_ ∧ (r.Start x y).2.width_ = r.width_ ∧
    (r.Start x y).2.x_ = x ∧ (r.Start x y).2.y_ = y ∧
    (r.Start x y).2.RawSize = r.RawSize := by
  rw [Start_eq r x y h]
  exact ⟨rfl, rfl, rfl, rfl, rfl⟩

theorem Start_props (r : Game) (x y : Int) (hwf : WF r) (h : (r.Start x y).1 = true) :
    WF (r.Start x y).2 ∧ (r.Start x y).2.HasStarted = true ∧ RootOK (r.Start x y).2 x y ∧
    offCount (r.Start x y).2 + 1 = offCount r ∧
    (∀ i, 2 * r.RawSize ≤ i → (r.Start x y).2.board_ i = r.board_ i) := by
  obtain ⟨h1, h2, h3⟩ := (Start_true_iff r x y).mp h
  obtain ⟨f1, f2, f3, f4, f5⟩ := Start_fields r x y h
  have hi := h2
  unfold Interior at hi
  have hlt : r.idx x y < r.RawSize := idx_lt r (by omega) (by omega) (by omega) (by omega)
  have hoff : r.board_ (r.idx x y) = State.kOff := h3
  have hidx : (r.Start x y).2.idx x y = r.idx x y := by unfold Game.idx; rw [f2]
  have hint : Interior (r.Start x y).2 x y := by unfold Interior; rw [f1, f2]; exact hi
  have hint' : Interior (r.Start x y).2 (r.Start x y).2.x_ (r.Start x y).2.y_ := by
    rw [f3, f4]; exact hint
  have hnat : ∀ a b : Nat, a ≤ r.width_ + 1 → b ≤ r.height_ + 1 →
      a + (r.width_ + 2) * b < r.RawSize := by
    intro a b ha hb
    unfold Game.RawSize
    have : (r.width_ + 2) * b ≤ (r.width_ + 2) * (r.height_ + 1) := Nat.mul_le_mul_left _ hb
    nlinarith
  refine ⟨⟨?_, Or.inr ⟨hint', ?_⟩⟩, hasStarted_of_interior hint', ?_, ?_, ?_⟩
  · intro a ha b hb hr
    rw [f2] at ha hr; rw [f1] at hb hr
    have hb0 := hwf.1 a ha b hb hr
    have hl := hnat a b ha hb
    rw [f2, f5, Start_board r x y h]
    rw [if_neg, if_neg (by omega)]
    · exact hb0
    · intro he; rw [he, hoff] at hb0; exact absurd hb0 (by decide)
  · intro a ha b hb hr
    rw [f2] at ha hr; rw [f1] at hb hr
    have hb0 := hwf.1 a ha b hb hr
    have hl := hnat a b ha hb
    rw [f2, f5, Start_board r x y h]
    rw [if_neg (by omega), if_pos (by omega)]
    rw [← hb0]; congr 1; omega
  · refine ⟨f3, f4, hint, ?_, ?_, ?_⟩
    · rw [hidx, Start_board r x y h, if_pos rfl]
    · rw [hidx, f5, Start_board r x y h, if_neg (by omega), if_pos (by omega)]
      rw [← hoff]; congr 1; omega
    · intro i hi' hne
      rw [hidx] at hne
      rw [f5] at hi' ⊢
      rw [Start_board r x y h, Start_board r x y h, if_neg hne, if_neg (by omega),
        if_neg (by omega), if_pos (by omega)]
      congr 1; omega
  · apply offCount_light r _ (r.idx x y) f5 hlt hoff
    intro i hi'
    rw [Start_board r x y h]
    by_cases hi'' : i = r.idx x y
    · rw [if_pos hi'', if_pos hi'']
    · rw [if_neg hi'', if_neg hi'', if_neg (by omega)]
  · intro i hi'
    rw [Start_board r x y h, if_neg (by omega), if_neg (by omega)]

/-- From any state of the search, `Reset(); Start(x, y)` rebuilds the root state. -/
theorem restart_root (s0 g : Game) (x y : Int) (hroot : RootOK s0 x y) (hinv : Inv s0 g) :
    g.Reset.Start x y = (true, s0) := by
  obtain ⟨hwf, hs, st1, st2, st3⟩ := hinv
  obtain ⟨r1, r2, r3, r4, r5, r6⟩ := hroot
  have hR : g.RawSize = s0.RawSize := Stable.stable_rawSize ⟨st1, st2, st3⟩
  have hidx : ∀ a b : Int, g.Reset.idx a b = s0.idx a b := by
    intro a b; unfold Game.idx; rw [(Reset_dims g).2.1, st2]
  have hi := r3
  unfold Interior at hi
  have hlt : s0.idx x y < s0.RawSize := idx_lt s0 (by omega) (by omega) (by omega) (by omega)
  have hok : (g.Reset.Start x y).1 = true := by
    rw [Start_true_iff]
    refine ⟨Reset_not_started g, ?_, ?_⟩
    · unfold Interior; rw [(Reset_dims g).1, (Reset_dims g).2.1, st1, st2]; exact hi
    · unfold Game.At
      rw [hidx, Reset_board_started g hs, hR, if_pos hlt, st3 _ (by omega)]
      exact r5
  obtain ⟨f1, f2, f3, f4, f5⟩ := Start_fields g.Reset x y hok
  have hfst : g.Reset.Start x y = ((g.Reset.Start x y).1, (g.Reset.Start x y).2) := rfl
  rw [hfst, hok]
  congr 1
  apply game_ext
  · rw [f1, (Reset_dims g).1, st1]
  · rw [f2, (Reset_dims g).2.1, st2]
  · rw [f3, r1]
  · rw [f4, r2]
  · intro i
    rw [Start_board g.Reset x y hok, hidx, (Reset_dims g).2.2, hR]
    by_cases h1 : i = s0.idx x y
    · rw [if_pos h1, h1, r4]
    · rw [if_neg h1]
      by_cases h2 : s0.RawSize ≤ i ∧ i < 2 * s0.RawSize
      · rw [if_pos h2, Reset_board_started g hs, hR, if_pos (by omega), ← st3 i h2.1]
        congr 1; omega
      · rw [if_neg h2, Reset_board_started g hs, hR]
        by_cases h3 : i < s0.RawSize
        · rw [if_pos h3, st3 _ (by omega), r6 i h3 h1]
        · rw [if_neg h3, st3 i (by omega)]

/-! ## The search loop -/

theorem solveLoop_succ (x y : Int) (fuel : Nat) (g : Game) (node : Node) (rest : List Node)
    (solutions : Option (List Int)) :
    solveLoop x y (fuel + 1) g (node :: rest) solutions =
      if node.children = kNone then
        if g.HaveWon then
          .ok (true, g, solutions.map (fun s => s ++ recordOf x y (node :: rest)))
        else solveLoop x y fuel g rest solutions
      else if node.next = 4 then solveLoop x y fuel g rest solutions
      else
        if node.children &&& (1 <<< node.next) ≠ 1 <<< node.next then
          solveLoop x y fuel g ({ node with next := node.next + 1 } :: rest) solutions
        else
          if !(g.Reset.Start x y).1 then .error Err.badStart
          else
            (replay (pathOf ({ node with next := node.next + 1 } :: rest))
                (g.Reset.Start x y).2).bind (fun g2 =>
              (g2.MoveFast (1 <<< node.next)).bind (fun r =>
                if !r.1 then .error Err.badReplay
                else solveLoop x y fuel r.2
                  (⟨1 <<< node.next, r.2.ValidDirs, 0⟩ ::
                    { node with next := node.next + 1 } :: rest) solutions)) := by
  rfl

theorem pathOf_next (node : Node) (rest : List Node) (k : Nat) :
    pathOf ({ node with next := k } :: rest) = pathOf (node :: rest) := by
  unfold pathOf
  simp only [List.reverse_cons]
  cases h : rest.reverse with
  | nil => rfl
  | cons a l => simp

theorem pathOf_push (child node : Node) (rest : List Node) :
    pathOf (child :: node :: rest) = pathOf (node :: rest) ++ [child.value] := by
  unfold pathOf
  simp only [List.reverse_cons]
  cases h : rest.reverse with
  | nil => rfl
  | cons a l => simp

theorem replay_append (p : List Dir) (d : Dir) (g gp gc : Game)
    (h1 : replay p g = .ok gp) (h2 : gp.MoveFast d = .ok (true, gc)) :
    replay (p ++ [d]) g = .ok gc := by
  induction p generalizing g with
  | nil =>
    simp only [replay] at h1
    cases h1
    simp only [List.nil_append, replay, h2, bind, Except.bind]
    rfl
  | cons a l ih =>
    simp only [List.cons_append, replay, bind, Except.bind] at h1 ⊢
    cases hm : g.MoveFast a with
    | error e => rw [hm] at h1; simp at h1
    | ok r =>
      rw [hm] at h1; simp only at h1 ⊢
      by_cases hr : r.1 = true
      · simp only [hr, Bool.not_true, Bool.false_eq_true, if_false] at h1 ⊢
        exact ih _ h1
      · simp [hr] at h1

theorem treeBound_pos (n : Nat) : 1 ≤ treeBound n := by
  cases n <;> simp [treeBound]

theorem treeBound_mono {n m : Nat} (h : n ≤ m) : treeBound n ≤ treeBound m := by
  induction h with
  | refl => exact le_refl _
  | step _ ih => simp only [treeBound]; omega

theorem treeBound_le (n : Nat) : treeBound n + 2 ≤ 3 * 4 ^ n := by
  induction n with
  | zero => simp [treeBound]
  | succ n ih => simp only [treeBound, pow_succ]; omega

theorem single_shift (k : Nat) (hk : k < 4) : Single (1 <<< k) := by
  interval_cases k <;> decide

theorem expand_spec (x y : Int) (s0 : Game) (hroot : RootOK s0 x y) (n : Nat)
    (IH : ∀ gp rest v, Inv s0 gp →
      replay (pathOf (⟨v, gp.ValidDirs, 0⟩ :: rest)) s0 = .ok gp → offCount gp ≤ n →
      LoopSpec x y s0 (dfs (n + 1) gp) (treeBound n) gp (⟨v, gp.ValidDirs, 0⟩ :: rest)) :
    ∀ j k, k + j = 4 → ∀ gp g rest v, Inv s0 gp → Inv s0 g → gp.ValidDirs ≠ kNone →
      replay (pathOf (⟨v, gp.ValidDirs, k⟩ :: rest)) s0 = .ok gp → offCount gp ≤ n + 1 →
      LoopSpec x y s0 ((List.range' k j).findSome? (dfsStep (dfs (n + 1)) gp))
        (j * (treeBound n + 1) + 1) g (⟨v, gp.ValidDirs, k⟩ :: rest) := by
  intro j
  induction j with
  | zero =>
    intro k hk gp g rest v hgp hg hc hrep hoc sols fuel hfuel
    have hk4 : k = 4 := by omega
    subst hk4
    obtain ⟨f, rfl⟩ : ∃ f, fuel = f + 1 := ⟨fuel - 1, by omega⟩
    refine ⟨g, 1, hg, le_refl _, by omega, ?_⟩
    rw [solveLoop_succ]
    simp only [if_neg hc, if_true, List.range', List.findSome?, List.tail_cons,
      Nat.add_sub_cancel]
  | succ j ih =>
    intro k hk gp g rest v hgp hg hc hrep hoc sols fuel hfuel
    have hk4 : k < 4 := by omega
    have hk4' : k ≠ 4 := by omega
    have hsingle := single_shift k hk4
    obtain ⟨f, rfl⟩ : ∃ f, fuel = f + 1 := ⟨fuel - 1, by omega⟩
    have hrep1 : replay (pathOf (⟨v, gp.ValidDirs, k + 1⟩ :: rest)) s0 = .ok gp := by
      rw [← hrep]; exact congrArg (fun p => replay p s0) (pathOf_next ⟨v, gp.ValidDirs, k⟩ rest (k + 1))
    have hmul : (j + 1) * (treeBound n + 1) + 1 = j * (treeBound n + 1) + 1 + (treeBound n + 1) := by
      ring
    rw [solveLoop_succ]
    simp only [if_neg hc, if_neg hk4', List.range'_succ, List.findSome?_cons]
    by_cases hv : gp.ValidDirs &&& (1 <<< k) = 1 <<< k
    · -- the direction is a child: replay and push
      have hv' : (1 <<< k) &&& gp.ValidDirs = 1 <<< k := by rw [Nat.land_comm]; exact hv
      obtain ⟨gc, emf, wc, sc, stc, cc, _⟩ := MoveFast_ok gp (1 <<< k) hgp.1 hgp.2.1 hsingle hv'
      have hinvc : Inv s0 gc := ⟨wc, sc, hgp.2.2.stable_trans stc⟩
      have hrepc : replay (pathOf (⟨1 <<< k, gc.ValidDirs, 0⟩ :: ⟨v, gp.ValidDirs, k + 1⟩ :: rest))
          s0 = .ok gc := by
        rw [pathOf_push]
        exact replay_append _ _ _ _ _ hrep1 emf
      have hchild := IH gc (⟨v, gp.ValidDirs, k + 1⟩ :: rest) (1 <<< k) hinvc hrepc (by omega)
      have hstep : dfsStep (dfs (n + 1)) gp k = (dfs (n + 1) gc).map (fun q => (1 <<< k) :: q) := by
        unfold dfsStep
        rw [if_neg (not_not.mpr hv'), emf]
      rw [hstep]
      simp only [hv, ne_eq, not_true_eq_false, if_false, restart_root s0 g x y hroot hg,
        Bool.not_true, Bool.false_eq_true, hrep1, Except.bind, emf]
      obtain ⟨g1, u1, hinv1, hu1, hu1', e1⟩ := hchild sols f (by rw [hmul] at hfuel; omega)
      rw [e1]
      cases hd : dfs (n + 1) gc with
      | some q =>
        refine ⟨g1, u1 + 1, hinv1, by omega, by rw [hmul]; omega, ?_⟩
        simp only [Option.map_some']
        rw [pathOf_push, pathOf_next ⟨v, gp.ValidDirs, k⟩ rest (k + 1)]
        simp
      | none =>
        simp only [Option.map_none', List.tail_cons]
        obtain ⟨g2, u2, hinv2, hu2, hu2', e2⟩ :=
          ih (k + 1) (by omega) gp g1 rest v hgp hinv1 hc hrep1 hoc sols (f - u1)
            (by rw [hmul] at hfuel; omega)
        refine ⟨g2, u1 + u2 + 1, hinv2, by omega, by rw [hmul]; omega, ?_⟩
        rw [e2]
        have hf : f - u1 - u2 = f + 1 - (u1 + u2 + 1) := by omega
        rw [hf]
        cases hres : List.findSome? (dfsStep (dfs (n + 1)) gp) (List.range' (k + 1) j) with
        | some q => simp [pathOf_next ⟨v, gp.ValidDirs, k⟩ rest (k + 1)]
        | none => simp
    · -- the direction is not a child: only the index advances
      have hv' : ¬ (1 <<< k) &&& gp.ValidDirs = 1 <<< k := by rw [Nat.land_comm]; exact hv
      have hstep : dfsStep (dfs (n + 1)) gp k = none := by
        unfold dfsStep
        rw [if_pos hv']
      rw [hstep]
      simp only [hv, ne_eq, not_false_eq_true, if_true]
      obtain ⟨g2, u2, hinv2, hu2, hu2', e2⟩ :=
        ih (k + 1) (by omega) gp g rest v hgp hg hc hrep1 hoc sols f
          (by rw [hmul] at hfuel; omega)
      refine ⟨g2, u2 + 1, hinv2, by omega, by rw [hmul]; omega, ?_⟩
      rw [e2]
      have hf : f - u2 = f + 1 - (u2 + 1) := by omega
      rw [hf]
      cases hres : List.findSome? (dfsStep (dfs (n + 1)) gp) (List.range' (k + 1) j) with
      | some q => simp [pathOf_next ⟨v, gp.ValidDirs, k⟩ rest (k + 1)]
      | none => simp

theorem bits_lt : ∀ a b c d : Bool,
    ((((0 ||| bif a then 1 else 0) ||| bif b then 2 else 0) ||| bif c then 4 else 0)
        ||| bif d then 8 else 0) < 16 := by
  decide

theorem validDirs_lt (g : Game) : g.ValidDirs < 16 := by
  by_cases hs : g.HasStarted = true
  · rw [validDirs_eq g hs]
    exact bits_lt _ _ _ _
  · unfold Game.ValidDirs
    rw [if_neg hs]
    decide

theorem exists_valid_bit (c : Nat) (h1 : c < 16) (h0 : c ≠ 0) :
    ∃ k, k < 4 ∧ (1 <<< k) &&& c = 1 <<< k := by
  interval_cases c
  · exact absurd rfl h0
  all_goals decide

/-- A started well-formed game with a valid direction has an unlit tile. -/
theorem offCount_pos_of_valid (g : Game) (hwf : WF g) (hs : g.HasStarted = true)
    (hc : g.ValidDirs ≠ kNone) : 1 ≤ offCount g := by
  obtain ⟨k, hk, hv⟩ := exists_valid_bit g.ValidDirs (validDirs_lt g) hc
  obtain ⟨g', _, _, _, _, c', _⟩ := MoveFast_ok g (1 <<< k) hwf hs (single_shift k hk) hv
  omega

theorem fresh_spec (x y : Int) (s0 : Game) (hroot : RootOK s0 x y) :
    ∀ n gp rest v, Inv s0 gp →
      replay (pathOf (⟨v, gp.ValidDirs, 0⟩ :: rest)) s0 = .ok gp → offCount gp ≤ n →
      LoopSpec x y s0 (dfs (n + 1) gp) (treeBound n) gp (⟨v, gp.ValidDirs, 0⟩ :: rest) := by
  intro n
  induction n with
  | zero =>
    intro gp rest v hgp hrep hoc
    have hc : gp.ValidDirs = kNone := by
      by_contra hc
      have := offCount_pos_of_valid gp hgp.1 hgp.2.1 hc
      omega
    intro sols fuel hfuel
    obtain ⟨f, rfl⟩ : ∃ f, fuel = f + 1 := ⟨fuel - 1, by simp only [treeBound] at hfuel; omega⟩
    refine ⟨gp, 1, hgp, le_refl _, treeBound_pos _, ?_⟩
    rw [solveLoop_succ]
    simp only [dfs, hc, if_true]
    by_cases hw : gp.HaveWon = true
    · simp [hw, recordOf]
    · simp [hw]
  | succ m ih =>
    intro gp rest v hgp hrep hoc
    by_cases hc : gp.ValidDirs = kNone
    · intro sols fuel hfuel
      obtain ⟨f, rfl⟩ : ∃ f, fuel = f + 1 :=
        ⟨fuel - 1, by have := treeBound_pos (m + 1); omega⟩
      refine ⟨gp, 1, hgp, le_refl _, treeBound_pos _, ?_⟩
      rw [solveLoop_succ]
      simp only [dfs, hc, if_true]
      by_cases hw : gp.HaveWon = true
      · simp [hw, recordOf]
      · simp [hw]
    · have hd : dfs (m + 1 + 1) gp =
          (List.range' 0 4).findSome? (dfsStep (dfs (m + 1)) gp) := by
        simp only [dfs, hc, if_false]
      rw [hd]
      exact expand_spec x y s0 hroot m ih 4 0 rfl gp gp rest v hgp hgp hc hrep hoc

theorem solveLoop_nil (x y : Int) (f : Nat) (g : Game) (solutions : Option (List Int)) :
    solveLoop x y (f + 1) g [] solutions = .ok (false, g, solutions) := rfl

theorem solveFuel_enough (g : Game) : treeBound g.RawSize + 1 ≤ solveFuel g := by
  unfold solveFuel
  have := treeBound_le g.RawSize
  have : 0 < 4 ^ g.RawSize := by positivity
  omega

/-- What `solve_one` returns, in terms of the recursive search. -/
theorem solve_one_spec (g : Game) (solutions : Option (List Int)) (x y : Int) (hwf : WF g) :
    ((g.Reset.Start x y).1 = false → solve_one g solutions x y = .ok (false, g.Reset, solutions)) ∧
    ((g.Reset.Start x y).1 = true → ∃ g', Inv (g.Reset.Start x y).2 g' ∧
      solve_one g solutions x y =
        match search (g.Reset.Start x y).2 with
        | some q => .ok (true, g', solutions.map (fun s =>
            s ++ ([x, y] ++ q.map (fun (d : Dir) => (d : Int)) ++ [0])))
        | none => .ok (false, g', solutions)) := by
  constructor
  · intro h
    unfold solve_one
    simp only [h, Bool.not_false, if_true, Start_false _ x y h]
  · intro h
    obtain ⟨w0, s0, hroot, _, _⟩ := Start_props g.Reset x y (Reset_WF g hwf) h
    have hinv : Inv (g.Reset.Start x y).2 (g.Reset.Start x y).2 := ⟨w0, s0, Stable.stable_refl _⟩
    have hspec := fresh_spec x y _ hroot (g.Reset.Start x y).2.RawSize (g.Reset.Start x y).2 []
      kNone hinv rfl (offCount_le _)
    obtain ⟨g', used, hinv', hu, hu', e⟩ :=
      hspec solutions (solveFuel (g.Reset.Start x y).2)
        (by have := solveFuel_enough (g.Reset.Start x y).2; omega)
    refine ⟨g', hinv', ?_⟩
    unfold solve_one
    simp only [h, Bool.not_true, Bool.false_eq_true, if_false]
    rw [e]
    unfold search
    cases hd : dfs ((g.Reset.Start x y).2.RawSize + 1) (g.Reset.Start x y).2 with
    | some q => simp [pathOf]
    | none =>
      simp only [List.tail_cons]
      obtain ⟨f, hf⟩ : ∃ f, solveFuel (g.Reset.Start x y).2 - used = f + 1 :=
        ⟨solveFuel (g.Reset.Start x y).2 - used - 1,
          by have := solveFuel_enough (g.Reset.Start x y).2; omega⟩
      rw [hf, solveLoop_nil]

/-! ## The recursive search: soundness and completeness -/

theorem dfsStep_eq_some (rec : Game → Option (List Dir)) (g : Game) (k : Nat) (q : List Dir)
    (h : dfsStep rec g k = some q) :
    (1 <<< k) &&& g.ValidDirs = 1 <<< k ∧
      ∃ g' q', g.MoveFast (1 <<< k) = .ok (true, g') ∧ rec g' = some q' ∧ q = (1 <<< k) :: q' := by
  unfold dfsStep at h
  by_cases hv : (1 <<< k) &&& g.ValidDirs = 1 <<< k
  · refine ⟨hv, ?_⟩
    rw [if_neg (not_not.mpr hv)] at h
    split at h
    · rename_i g' hm
      cases hr : rec g' with
      | none => rw [hr] at h; simp at h
      | some q' =>
        rw [hr] at h
        simp only [Option.map_some', Option.some.injEq] at h
        exact ⟨g', q', hm, hr, h.symm⟩
    · simp at h
  · rw [if_pos hv] at h; simp at h

/-- A game that is won has no valid direction. -/
theorem validDirs_of_won (g : Game) (hwf : WF g) (hs : g.HasStarted = true)
    (hw : g.HaveWon = true) : g.ValidDirs = kNone := by
  have hi := hwf.interior hs
  unfold Interior at hi
  have hall : ∀ i, i < g.RawSize → g.board_ i ≠ State.kOff := by
    simpa [Game.HaveWon] using hw
  have key : ∀ dx dy : Int, UnitStep dx dy → g.At (g.x_ + dx) (g.y_ + dy) ≠ State.kOff := by
    intro dx dy hu
    apply hall
    apply idx_lt <;> rcases hu with h | h | h | h <;> omega
  exact (validDirs_eq_zero_iff g hs).mpr
    ⟨key 0 (-1) (Or.inl ⟨rfl, rfl⟩), key 0 1 (Or.inr (Or.inl ⟨rfl, rfl⟩)),
      key (-1) 0 (Or.inr (Or.inr (Or.inl ⟨rfl, rfl⟩))), key 1 0 (Or.inr (Or.inr (Or.inr ⟨rfl, rfl⟩)))⟩

theorem dfs_succ (n : Nat) (g : Game) :
    dfs (n + 1) g =
      if g.ValidDirs = kNone then (if g.HaveWon then some [] else none)
      else (List.range' 0 4).findSome? (dfsStep (dfs n) g) := rfl

theorem dfs_sound : ∀ (n : Nat) (g : Game) (q : List Dir), WF g → g.HasStarted = true →
    dfs n g = some q →
    ∃ g', FastRun g q g' ∧ g'.HaveWon = true ∧ g'.ValidDirs = kNone ∧ (∀ d ∈ q, Single d) ∧
      WF g' ∧ g'.HasStarted = true ∧ Stable g g' := by
  intro n
  induction n with
  | zero => intro g q _ _ h; simp [dfs] at h
  | succ n ih =>
    intro g q hwf hs h
    rw [dfs_succ] at h
    by_cases hc : g.ValidDirs = kNone
    · rw [if_pos hc] at h
      by_cases hw : g.HaveWon = true
      · rw [if_pos hw] at h
        cases h
        exact ⟨g, rfl, hw, hc, by simp, hwf, hs, Stable.stable_refl g⟩
      · rw [if_neg hw] at h; simp at h
    · rw [if_neg hc] at h
      obtain ⟨k, hk, hstep⟩ := List.exists_of_findSome?_eq_some h
      have hk4 : k < 4 := by
        have := List.mem_range'_1.mp hk; omega
      obtain ⟨hv, g1, q', hm, hr, rfl⟩ := dfsStep_eq_some _ _ _ _ hstep
      obtain ⟨g1', hm', w1, s1, st1, _, _⟩ := MoveFast_ok g (1 <<< k) hwf hs (single_shift k hk4) hv
      rw [hm] at hm'
      cases hm'
      obtain ⟨g', hrun, hw', hv', hsing, w', s', st'⟩ := ih g1 q' w1 s1 hr
      refine ⟨g', ⟨g1, hm, hrun⟩, hw', hv', ?_, w', s', st1.stable_trans st'⟩
      intro d hd
      rcases List.mem_cons.mp hd with rfl | hd
      · exact single_shift k hk4
      · exact hsing d hd

theorem single_eq_shift (d : Dir) (hd : Single d) : ∃ k, k < 4 ∧ d = 1 <<< k := by
  rcases hd with rfl | rfl | rfl | rfl
  · exact ⟨0, by decide, rfl⟩
  · exact ⟨1, by decide, rfl⟩
  · exact ⟨2, by decide, rfl⟩
  · exact ⟨3, by decide, rfl⟩

theorem single_ne_zero (d : Dir) (hd : Single d) : d ≠ 0 := by
  rcases hd with rfl | rfl | rfl | rfl <;> decide

theorem dfs_complete : ∀ (ds : List Dir) (g g' : Game) (n : Nat), WF g → g.HasStarted = true →
    offCount g ≤ n → FastRun g ds g' → (∀ d ∈ ds, Single d) → g'.HaveWon = true →
    (dfs (n + 1) g).isSome = true := by
  intro ds
  induction ds with
  | nil =>
    intro g g' n hwf hs _ hrun _ hw
    have : g' = g := hrun
    subst this
    simp [dfs, validDirs_of_won g' hwf hs hw, hw]
  | cons d ds ih =>
    intro g g' n hwf hs hoc hrun hsing hw
    obtain ⟨g1, hm, hrun'⟩ := hrun
    have hd : Single d := hsing d (List.mem_cons_self _ _)
    obtain ⟨_, hv⟩ := MoveFast_true_inv g g1 d hm
    obtain ⟨g1', hm', w1, s1, st1, c1, _⟩ := MoveFast_ok g d hwf hs hd hv
    rw [hm] at hm'
    cases hm'
    have hc : g.ValidDirs ≠ kNone := by
      intro hc
      rw [hc] at hv
      exact single_ne_zero d hd (by simpa [kNone] using hv.symm)
    obtain ⟨m, rfl⟩ : ∃ m, n = m + 1 := ⟨n - 1, by omega⟩
    have hrec := ih g1 g' m w1 s1 (by omega) hrun'
      (fun d' hd' => hsing d' (List.mem_cons_of_mem _ hd')) hw
    obtain ⟨k, hk, rfl⟩ := single_eq_shift d hd
    rw [dfs_succ, if_neg hc, List.findSome?_isSome_iff]
    refine ⟨k, List.mem_range'_1.mpr ⟨by omega, by omega⟩, ?_⟩
    unfold dfsStep
    rw [if_neg (not_not.mpr hv), hm]
    obtain ⟨q, hq⟩ := Option.isSome_iff_exists.mp hrec
    simp [hq]

/-! ## The play depends on the live area only -/

theorem LiveEq.refl (a : Game) : LiveEq a a := ⟨rfl, rfl, rfl, rfl, fun _ _ => rfl⟩

theorem LiveEq.rawSize {a b : Game} (h : LiveEq a b) : a.RawSize = b.RawSize := by
  unfold Game.RawSize; rw [h.1, h.2.1]

theorem LiveEq.symm {a b : Game} (h : LiveEq a b) : LiveEq b a :=
  ⟨h.1.symm, h.2.1.symm, h.2.2.1.symm, h.2.2.2.1.symm, fun i hi =>
    (h.2.2.2.2 i (by rw [h.rawSize]; exact hi)).symm⟩

theorem LiveEq.trans {a b c : Game} (h : LiveEq a b) (h' : LiveEq b c) : LiveEq a c :=
  ⟨h.1.trans h'.1, h.2.1.trans h'.2.1, h.2.2.1.trans h'.2.2.1, h.2.2.2.1.trans h'.2.2.2.1,
    fun i hi => (h.2.2.2.2 i hi).trans (h'.2.2.2.2 i (by rw [← h.rawSize]; exact hi))⟩

theorem LiveEq.idx {a b : Game} (h : LiveEq a b) (x y : Int) : a.idx x y = b.idx x y := by
  unfold Game.idx; rw [h.2.1]

theorem LiveEq.hasStarted {a b : Game} (h : LiveEq a b) : a.HasStarted = b.HasStarted := by
  unfold Game.HasStarted; rw [h.2.2.1, h.2.2.2.1]

theorem LiveEq.at_eq {a b : Game} (h : LiveEq a b) {x y : Int} (hx0 : 0 ≤ x)
    (hx : x ≤ a.width_ + 1) (hy0 : 0 ≤ y) (hy : y ≤ a.height_ + 1) : a.At x y = b.At x y := by
  unfold Game.At
  rw [← h.idx]
  exact h.2.2.2.2 _ (idx_lt a hx0 hx hy0 hy)

theorem LiveEq.at_step {a b : Game} (h : LiveEq a b) (hwf : WF a) (hs : a.HasStarted = true)
    {dx dy : Int} (hu : UnitStep dx dy) :
    a.At (a.x_ + dx) (a.y_ + dy) = b.At (b.x_ + dx) (b.y_ + dy) := by
  have hi := hwf.interior hs
  unfold Interior at hi
  rw [← h.2.2.1, ← h.2.2.2.1]
  apply h.at_eq <;> rcases hu with h | h | h | h <;> omega

theorem LiveEq.validDirs {a b : Game} (h : LiveEq a b) (hwf : WF a) (hs : a.HasStarted = true) :
    a.ValidDirs = b.ValidDirs := by
  have hsb : b.HasStarted = true := by rw [← h.hasStarted]; exact hs
  rw [validDirs_eq a hs, validDirs_eq b hsb,
    h.at_step hwf hs (Or.inl ⟨rfl, rfl⟩), h.at_step hwf hs (Or.inr (Or.inl ⟨rfl, rfl⟩)),
    h.at_step hwf hs (Or.inr (Or.inr (Or.inl ⟨rfl, rfl⟩))),
    h.at_step hwf hs (Or.inr (Or.inr (Or.inr ⟨rfl, rfl⟩)))]

theorem LiveEq.haveWon {a b : Game} (h : LiveEq a b) : a.HaveWon = b.HaveWon := by
  unfold Game.HaveWon
  rw [← h.rawSize]
  apply decide_eq_decide.mpr
  constructor
  · intro H i hi; rw [← h.2.2.2.2 i hi]; exact H i hi
  · intro H i hi; rw [h.2.2.2.2 i hi]; exact H i hi

theorem LiveEq.offCount {a b : Game} (h : LiveEq a b) : offCount a = offCount b := by
  unfold Lightgame.offCount
  rw [← h.rawSize]
  congr 1
  apply Finset.filter_congr
  intro i hi
  rw [h.2.2.2.2 i (Finset.mem_range.mp hi)]

theorem MoveOneLoop_congr (dx dy : Int) (hu : UnitStep dx dy) :
    ∀ (fuel : Nat) (a b : Game), LiveEq a b → WF a → WF b → a.HasStarted = true →
      offCount a < fuel →
      ∃ a' b', MoveOneLoop dx dy fuel a = .ok a' ∧ MoveOneLoop dx dy fuel b = .ok b' ∧
        LiveEq a' b' := by
  intro fuel
  induction fuel with
  | zero => intro a b _ _ _ _ h; omega
  | succ n ih =>
    intro a b hab wa wb hs hlt
    have hsb : b.HasStarted = true := by rw [← hab.hasStarted]; exact hs
    have hat := hab.at_step wa hs hu
    unfold Game.MoveOneLoop
    by_cases hoff : a.At (a.x_ + dx) (a.y_ + dy) = State.kOff
    · have hoffb : b.At (b.x_ + dx) (b.y_ + dy) = State.kOff := by rw [← hat]; exact hoff
      rw [if_pos hoff, if_pos hoffb]
      obtain ⟨wa1, sa1, _, ca1⟩ := light_step a dx dy hu wa hs hoff
      obtain ⟨wb1, _, _, _⟩ := light_step b dx dy hu wb hsb hoffb
      apply ih _ _ _ wa1 wb1 sa1 (by omega)
      refine ⟨hab.1, hab.2.1, ?_, ?_, ?_⟩
      · show a.x_ + dx = b.x_ + dx
        rw [hab.2.2.1]
      · show a.y_ + dy = b.y_ + dy
        rw [hab.2.2.2.1]
      · intro i hi
        show (if i = a.idx (a.x_ + dx) (a.y_ + dy) then State.kOn else a.board_ i) =
          (if i = b.idx (b.x_ + dx) (b.y_ + dy) then State.kOn else b.board_ i)
        rw [hab.idx, hab.2.2.1, hab.2.2.2.1, hab.2.2.2.2 i hi]
    · have hoffb : ¬ b.At (b.x_ + dx) (b.y_ + dy) = State.kOff := by rw [← hat]; exact hoff
      rw [if_neg hoff, if_neg hoffb]
      exact ⟨a, b, rfl, rfl, hab⟩

theorem MoveOne_congr (a b : Game) (d : Dir) (hab : LiveEq a b) (wa : WF a) (wb : WF b)
    (hs : a.HasStarted = true) (hd : Single d) :
    ∃ a' b', a.MoveOne d = .ok a' ∧ b.MoveOne d = .ok b' ∧ LiveEq a' b' := by
  obtain ⟨dx, dy, hinc, hu, _⟩ := valid_iff_inc a hs d hd
  unfold Game.MoveOne
  rw [hinc]
  simp only
  rw [← hab.rawSize]
  exact MoveOneLoop_congr dx dy hu _ a b hab wa wb hs (Nat.lt_succ_of_le (offCount_le a))

theorem MoveFastLoop_congr : ∀ (fuel : Nat) (a b : Game) (d : Dir), LiveEq a b → WF a → WF b →
    a.HasStarted = true → Single d → d &&& a.ValidDirs = d → offCount a ≤ fuel →
    ∃ a' b', MoveFastLoop fuel a d = .ok (true, a') ∧ MoveFastLoop fuel b d = .ok (true, b') ∧
      LiveEq a' b' := by
  intro fuel
  induction fuel with
  | zero =>
    intro a b d _ wa _ hs hd hv hle
    obtain ⟨g1, _, _, _, _, c1⟩ := MoveOne_ok a d wa hs hd hv
    omega
  | succ n ih =>
    intro a b d hab wa wb hs hd hv hle
    have hsb : b.HasStarted = true := by rw [← hab.hasStarted]; exact hs
    have hvb : d &&& b.ValidDirs = d := by rw [← hab.validDirs wa hs]; exact hv
    obtain ⟨a1, ea, wa1, sa1, _, ca1⟩ := MoveOne_ok a d wa hs hd hv
    obtain ⟨b1, eb, wb1, _, _, _⟩ := MoveOne_ok b d wb hsb hd hvb
    obtain ⟨a1', b1', ea', eb', h1⟩ := MoveOne_congr a b d hab wa wb hs hd
    rw [ea] at ea'; cases ea'
    rw [eb] at eb'; cases eb'
    have hvd := h1.validDirs wa1 sa1
    unfold Game.MoveFastLoop
    rw [ea, eb]
    simp only [bind, Except.bind]
    rw [← hvd]
    by_cases hc : a1.ValidDirs = kUp ∨ a1.ValidDirs = kDown ∨ a1.ValidDirs = kLeft ∨
        a1.ValidDirs = kRight
    · rw [if_pos hc, if_pos hc]
      exact ih a1 b1 a1.ValidDirs h1 wa1 wb1 sa1 hc (Nat.and_self _) (by omega)
    · rw [if_neg hc, if_neg hc]
      exact ⟨a1, b1, rfl, rfl, h1⟩

theorem MoveFast_congr (a b : Game) (d : Dir) (hab : LiveEq a b) (wa : WF a) (wb : WF b)
    (hs : a.HasStarted = true) (hd : Single d) (hv : d &&& a.ValidDirs = d) :
    ∃ a' b', a.MoveFast d = .ok (true, a') ∧ b.MoveFast d = .ok (true, b') ∧ LiveEq a' b' := by
  have hsb : b.HasStarted = true := by rw [← hab.hasStarted]; exact hs
  have hvb : d &&& b.ValidDirs = d := by rw [← hab.validDirs wa hs]; exact hv
  unfold Game.MoveFast
  simp only [hs, hsb, Bool.not_true, Bool.false_eq_true, if_false, hv, hvb, ne_eq,
    not_true_eq_false]
  rw [← hab.rawSize]
  exact MoveFastLoop_congr _ a b d hab wa wb hs hd hv (Nat.le_succ_of_le (offCount_le a))

theorem findSome_congr {α β : Type} (f f' : α → Option β) (l : List α)
    (h : ∀ a ∈ l, f a = f' a) : l.findSome? f = l.findSome? f' := by
  induction l with
  | nil => rfl
  | cons a l ih =>
    rw [List.findSome?_cons, List.findSome?_cons, h a (List.mem_cons_self _ _),
      ih (fun a' ha' => h a' (List.mem_cons_of_mem _ ha'))]

theorem dfs_congr : ∀ (n : Nat) (a b : Game), LiveEq a b → WF a → WF b → a.HasStarted = true →
    dfs n a = dfs n b := by
  intro n
  induction n with
  | zero => intro a b _ _ _ _; rfl
  | succ n ih =>
    intro a b hab wa wb hs
    have hsb : b.HasStarted = true := by rw [← hab.hasStarted]; exact hs
    rw [dfs_succ, dfs_succ, ← hab.validDirs wa hs, ← hab.haveWon]
    by_cases hc : a.ValidDirs = kNone
    · rw [if_pos hc, if_pos hc]
    · rw [if_neg hc, if_neg hc]
      apply findSome_congr
      intro k hk
      have hk4 : k < 4 := by
        have := List.mem_range'_1.mp hk; omega
      unfold dfsStep
      rw [← hab.validDirs wa hs]
      by_cases hv : (1 <<< k) &&& a.ValidDirs = 1 <<< k
      · rw [if_neg (not_not.mpr hv), if_neg (not_not.mpr hv)]
        obtain ⟨a1, b1, ea, eb, h1⟩ :=
          MoveFast_congr a b (1 <<< k) hab wa wb hs (single_shift k hk4) hv
        obtain ⟨a1', ea', wa1, sa1, _⟩ := MoveFast_ok a (1 <<< k) wa hs (single_shift k hk4) hv
        obtain ⟨b1', eb', wb1, _, _⟩ :=
          MoveFast_ok b (1 <<< k) wb hsb (single_shift k hk4)
            (by rw [← hab.validDirs wa hs]; exact hv)
        rw [ea] at ea'; cases ea'
        rw [eb] at eb'; cases eb'
        rw [ea, eb]
        simp only
        rw [ih a1 b1 h1 wa1 wb1 sa1]
      · rw [if_pos hv, if_pos hv]

theorem search_congr (a b : Game) (hab : LiveEq a b) (wa : WF a) (wb : WF b)
    (hs : a.HasStarted = true) : search a = search b := by
  unfold search
  rw [← hab.rawSize]
  exact dfs_congr _ a b hab wa wb hs

theorem Start_congr (a b : Game) (x y : Int) (hab : LiveEq a b) :
    (a.Start x y).1 = (b.Start x y).1 ∧
      ((a.Start x y).1 = true → LiveEq (a.Start x y).2 (b.Start x y).2) := by
  have hiff : (a.Start x y).1 = true ↔ (b.Start x y).1 = true := by
    rw [Start_true_iff, Start_true_iff, hab.hasStarted]
    unfold Interior
    rw [← hab.1, ← hab.2.1]
    constructor
    · rintro ⟨h1, h2, h3⟩
      refine ⟨h1, h2, ?_⟩
      rw [← hab.at_eq (by omega) (by omega) (by omega) (by omega)]; exact h3
    · rintro ⟨h1, h2, h3⟩
      refine ⟨h1, h2, ?_⟩
      rw [hab.at_eq (by omega) (by omega) (by omega) (by omega)]; exact h3
  refine ⟨?_, fun h => ?_⟩
  · cases ha : (a.Start x y).1 <;> cases hb : (b.Start x y).1 <;> simp_all
  · have hb := hiff.mp h
    obtain ⟨f1, f2, f3, f4, f5⟩ := Start_fields a x y h
    obtain ⟨e1, e2, e3, e4, e5⟩ := Start_fields b x y hb
    refine ⟨by rw [f1, e1, hab.1], by rw [f2, e2, hab.2.1], by rw [f3, e3], by rw [f4, e4], ?_⟩
    intro i hi
    rw [f5] at hi
    rw [Start_board a x y h, Start_board b x y hb, hab.idx, if_neg (show ¬ (a.RawSize ≤ i ∧
      i < 2 * a.RawSize) by omega), if_neg (show ¬ (b.RawSize ≤ i ∧ i < 2 * b.RawSize) by
      rw [← hab.rawSize]; omega), hab.2.2.2.2 i hi]

/-! ## The whole-board driver -/

theorem solve_one_tile (r : Game) (hr : WF r) (g : Game)
    (solutions : Option (List Int)) (x y : Int) (hwf : WF g) (hl : LiveEq g.Reset r) :
    ∃ g', solve_one g solutions x y = .ok ((tileResult r (x, y)).isSome, g',
        match tileResult r (x, y) with
        | some q => solutions.map (fun s => s ++ recordFor (x, y) q)
        | none => solutions) ∧
      WF g' ∧ LiveEq g'.Reset r ∧ (∀ i, 2 * g.RawSize ≤ i → g'.board_ i = g.board_ i) ∧
      g'.RawSize = g.RawSize ∧ (Layout1 r g → Layout1 r g') := by
  have hRr : g.Reset.RawSize = r.RawSize := hl.rawSize
  have hRg : g.Reset.RawSize = g.RawSize := (Reset_dims g).2.2
  obtain ⟨hfail, hsucc⟩ := solve_one_spec g solutions x y hwf
  obtain ⟨hc1, hc2⟩ := Start_congr g.Reset r x y hl
  cases hst : (g.Reset.Start x y).1 with
  | false =>
    have htr : tileResult r (x, y) = none := by
      unfold tileResult
      rw [← hc1, hst]; rfl
    refine ⟨g.Reset, ?_, Reset_WF g hwf, ?_, ?_, hRg, ?_⟩
    · rw [hfail hst, htr]; rfl
    · rw [Reset_of_not_started _ (Reset_not_started g)]; exact hl
    · intro i hi; exact (Reset_stable g).2.2 i (by omega)
    · intro h1 i hi
      rw [(Reset_stable g).2.2 _ (by omega)]
      exact h1 i hi
  | true =>
    obtain ⟨g', hinv, e⟩ := hsucc hst
    obtain ⟨w0, s0, hroot, _, hfr⟩ := Start_props g.Reset x y (Reset_WF g hwf) hst
    have hstr : (r.Start x y).1 = true := by rw [← hc1]; exact hst
    obtain ⟨wr0, _, _, _, _⟩ := Start_props r x y hr hstr
    have hsearch := search_congr _ _ (hc2 hst) w0 wr0 s0
    have htr : tileResult r (x, y) = search (g.Reset.Start x y).2 := by
      unfold tileResult
      simp only [hstr, if_true]
      exact hsearch.symm
    obtain ⟨f1, f2, f3, f4, f5⟩ := Start_fields g.Reset x y hst
    obtain ⟨w', s', st'⟩ := hinv
    have hR' : g'.RawSize = g.RawSize := by rw [st'.stable_rawSize, f5, hRg]
    have hint := ((Start_true_iff g.Reset x y).mp hst).2.1
    have hi := hint
    unfold Interior at hi
    have hidx : g.Reset.idx x y < g.Reset.RawSize :=
      idx_lt _ (by omega) (by omega) (by omega) (by omega)
    have harea1 : ∀ i, i < r.RawSize → g'.board_ (i + r.RawSize) = r.board_ i := by
      intro i hi'
      rw [st'.2.2 _ (by rw [f5, hRr]; omega), Start_board g.Reset x y hst,
        if_neg (by omega), if_pos (by omega), ← hl.2.2.2.2 _ (by omega)]
      congr 1; omega
    refine ⟨g', ?_, w', ?_, ?_, hR', fun _ => harea1⟩
    · rw [e, htr]
      cases search (g.Reset.Start x y).2 with
      | none => rfl
      | some q => rfl
    · refine ⟨?_, ?_, ?_, ?_, ?_⟩
      · rw [(Reset_dims g').1, st'.1, f1, hl.1]
      · rw [(Reset_dims g').2.1, st'.2.1, f2, hl.2.1]
      · rw [(Reset_cursor g' w').1, ← hl.2.2.1, (Reset_cursor g hwf).1]
      · rw [(Reset_cursor g' w').2, ← hl.2.2.2.1, (Reset_cursor g hwf).2]
      · intro i hi'
        rw [(Reset_dims g').2.2, hR', ← hRg, hRr] at hi'
        rw [Reset_board_started g' s', hR', ← hRg, hRr, if_pos hi']
        exact harea1 i hi'
    · intro i hi'
      rw [st'.2.2 i (by rw [f5, hRg]; omega), hfr i (by rw [hRg]; exact hi')]
      exact (Reset_stable g).2.2 i (by omega)

theorem solveAll_cons (t : Int × Int) (ts : List (Int × Int)) (g : Game)
    (solutions : Option (List Int)) (num : Nat) :
    solveAll (t :: ts) g solutions num =
      (solve_one g solutions t.1 t.2).bind (fun r =>
        if r.1 then
          if r.2.2.isNone then .ok (true, r.2.1, r.2.2)
          else solveAll ts r.2.1 r.2.2 (num + 1)
        else solveAll ts r.2.1 r.2.2 num) := by
  cases t; rfl

theorem solveAll_spec (r : Game) (hr : WF r) :
    ∀ (ts : List (Int × Int)) (g : Game) (solutions : Option (List Int)) (num : Nat),
      WF g → LiveEq g.Reset r →
      ∃ g', solveAll ts g solutions num =
          .ok (decide (num > 0) || anyWin r ts, g',
            solutions.map (fun s => s ++ recordsSpec r ts)) ∧
        WF g' ∧ LiveEq g'.Reset r ∧ (∀ i, 2 * g.RawSize ≤ i → g'.board_ i = g.board_ i) ∧
        g'.RawSize = g.RawSize ∧ (Layout1 r g → Layout1 r g') := by
  intro ts
  induction ts with
  | nil =>
    intro g solutions num hwf hl
    refine ⟨g, ?_, hwf, hl, fun _ _ => rfl, rfl, fun h => h⟩
    cases solutions <;> simp [solveAll, anyWin, recordsSpec]
  | cons t ts ih =>
    intro g solutions num hwf hl
    obtain ⟨x, y⟩ := t
    obtain ⟨g1, e1, w1, l1, fr1, R1, lay1⟩ := solve_one_tile r hr g solutions x y hwf hl
    rw [solveAll_cons, e1]
    simp only [Except.bind]
    have hany : anyWin r ((x, y) :: ts) = ((tileResult r (x, y)).isSome || anyWin r ts) := by
      simp [anyWin]
    cases htr : tileResult r (x, y) with
    | none =>
      simp only [Option.isSome_none, Bool.false_eq_true, if_false]
      obtain ⟨g', e', w', l', fr', R', lay'⟩ := ih g1 solutions num w1 l1
      refine ⟨g', ?_, w', l', fun i hi => ?_, by rw [R', R1], fun h => lay' (lay1 h)⟩
      · rw [e', hany, htr]
        simp [recordsSpec, htr]
      · rw [fr' i (by rw [R1]; exact hi), fr1 i hi]
    | some q =>
      simp only [Option.isSome_some, if_true]
      cases solutions with
      | none =>
        refine ⟨g1, ?_, w1, l1, fr1, R1, lay1⟩
        simp [hany, htr]
      | some s =>
        simp only [Option.map_some', Option.isNone_some, Bool.false_eq_true, if_false]
        obtain ⟨g', e', w', l', fr', R', lay'⟩ :=
          ih g1 (some (s ++ recordFor (x, y) q)) (num + 1) w1 l1
        refine ⟨g', ?_, w', l', fun i hi => ?_, by rw [R', R1], fun h => lay' (lay1 h)⟩
        · rw [e', hany, htr]
          simp [recordsSpec, htr]
        · rw [fr' i (by rw [R1]; exact hi), fr1 i hi]

theorem coord_lt (g : Game) (a b : Nat) (ha : a ≤ g.width_ + 1) (hb : b ≤ g.height_ + 1) :
    a + (g.width_ + 2) * b < g.RawSize := by
  unfold Game.RawSize
  have : (g.width_ + 2) * b ≤ (g.width_ + 2) * (g.height_ + 1) := Nat.mul_le_mul_left _ hb
  nlinarith

theorem save_board (g : Game) (i : Nat) :
    (g.CopyBoard 0 2).board_ i =
      if 2 * g.RawSize ≤ i ∧ i < 3 * g.RawSize then g.board_ (i - 2 * g.RawSize)
      else g.board_ i := by
  show (if 2 * g.RawSize ≤ i ∧ i < 2 * g.RawSize + g.RawSize
      then g.board_ (i - 2 * g.RawSize + 0 * g.RawSize) else g.board_ i) = _
  by_cases h : 2 * g.RawSize ≤ i ∧ i < 3 * g.RawSize
  · rw [if_pos h, if_pos (by omega)]; congr 1; omega
  · rw [if_neg h, if_neg (by omega)]

theorem restore_board (g : Game) (i : Nat) :
    (g.CopyBoard 2 0).board_ i =
      if i < g.RawSize then g.board_ (i + 2 * g.RawSize) else g.board_ i := by
  show (if 0 * g.RawSize ≤ i ∧ i < 0 * g.RawSize + g.RawSize
      then g.board_ (i - 0 * g.RawSize + 2 * g.RawSize) else g.board_ i) = _
  by_cases h : i < g.RawSize
  · rw [if_pos h, if_pos (by omega)]; congr 1; omega
  · rw [if_neg h, if_neg (by omega)]

theorem save_WF (g : Game) (hwf : WF g) : WF (g.CopyBoard 0 2) := by
  refine ⟨?_, ?_⟩
  · intro a ha b hb hr
    have hl := coord_lt g a b ha hb
    have h0 := hwf.1 a ha b hb hr
    show (g.CopyBoard 0 2).board_ (0 * g.RawSize + (a + (g.width_ + 2) * b)) = State.kBlocked
    rw [save_board, if_neg (by omega)]
    exact h0
  · rcases hwf.2 with h | ⟨h1, h2⟩
    · exact Or.inl h
    · refine Or.inr ⟨h1, ?_⟩
      intro a ha b hb hr
      have hl := coord_lt g a b ha hb
      have h0 := h2 a ha b hb hr
      show (g.CopyBoard 0 2).board_ (1 * g.RawSize + (a + (g.width_ + 2) * b)) = State.kBlocked
      rw [save_board, if_neg (by omega)]
      exact h0

theorem save_reset_liveEq (g : Game) : LiveEq (g.CopyBoard 0 2).Reset g.Reset := by
  by_cases hs : g.HasStarted = true
  · have hs0 : (g.CopyBoard 0 2).HasStarted = true := hs
    refine ⟨?_, ?_, ?_, ?_, ?_⟩
    · rw [(Reset_dims _).1, (Reset_dims g).1]; rfl
    · rw [(Reset_dims _).2.1, (Reset_dims g).2.1]; rfl
    · rw [Reset_of_started _ hs0, Reset_of_started _ hs]; rfl
    · rw [Reset_of_started _ hs0, Reset_of_started _ hs]; rfl
    · intro i hi
      have hR : (g.CopyBoard 0 2).RawSize = g.RawSize := rfl
      rw [(Reset_dims _).2.2, hR] at hi
      rw [Reset_board_started _ hs0, Reset_board_started _ hs, hR, if_pos hi, if_pos hi,
        save_board, if_neg (by omega)]
  · have hs' : g.HasStarted = false := by simpa using hs
    have hs0 : (g.CopyBoard 0 2).HasStarted = false := hs'
    rw [Reset_of_not_started _ hs0, Reset_of_not_started _ hs']
    refine ⟨rfl, rfl, rfl, rfl, ?_⟩
    intro i hi
    have hR : (g.CopyBoard 0 2).RawSize = g.RawSize := rfl
    rw [hR] at hi
    rw [save_board, if_neg (by omega)]

theorem IsSolvable_ok (g : Game) (solutions : Option (List Int)) (r : Bool × Game × Option (List Int))
    (h : solveAll (tiles (g.CopyBoard 0 2)) (g.CopyBoard 0 2) solutions 0 = .ok r) :
    g.IsSolvable solutions =
      .ok (r.1, { r.2.1.CopyBoard 2 0 with x_ := g.x_, y_ := g.y_ }, r.2.2) := by
  unfold Game.IsSolvable
  simp only [bind, Except.bind, h]

/-- What `IsSolvable` returns, in terms of the recursive search on the layout, and what it
leaves behind. -/
theorem IsSolvable_spec (g : Game) (hwf : WF g) (solutions : Option (List Int)) :
    ∃ g', g.IsSolvable solutions =
        .ok (anyWin g.Reset (tiles g), g',
          solutions.map (fun s => s ++ recordsSpec g.Reset (tiles g))) ∧
      LiveEq g' g ∧ WF g' ∧ (g.HasStarted = true → Layout1 g.Reset g') := by
  obtain ⟨g2, e2, w2, l2, fr2, R2, lay2⟩ :=
    solveAll_spec g.Reset (Reset_WF g hwf) (tiles (g.CopyBoard 0 2)) (g.CopyBoard 0 2)
      solutions 0 (save_WF g hwf) (save_reset_liveEq g)
  have hR0 : (g.CopyBoard 0 2).RawSize = g.RawSize := rfl
  rw [hR0] at R2 fr2
  have hdim : g2.height_ = g.height_ ∧ g2.width_ = g.width_ := by
    have h1 := l2.1
    have h2 := l2.2.1
    rw [(Reset_dims g2).1, (Reset_dims g).1] at h1
    rw [(Reset_dims g2).2.1, (Reset_dims g).2.1] at h2
    exact ⟨h1, h2⟩
  have hlive : LiveEq ({ g2.CopyBoard 2 0 with x_ := g.x_, y_ := g.y_ } : Game) g := by
    refine ⟨hdim.1, hdim.2, rfl, rfl, ?_⟩
    intro i hi
    have hi' : i < g.RawSize := by rw [← R2]; exact hi
    show (g2.CopyBoard 2 0).board_ i = g.board_ i
    rw [restore_board, R2, if_pos hi', fr2 _ (by omega), save_board, if_pos (by omega)]
    congr 1; omega
  have hlay : g.HasStarted = true →
      Layout1 g.Reset ({ g2.CopyBoard 2 0 with x_ := g.x_, y_ := g.y_ } : Game) := by
    intro hs
    have h0 : Layout1 g.Reset (g.CopyBoard 0 2) := by
      intro i hi
      rw [(Reset_dims g).2.2] at hi ⊢
      rw [save_board, if_neg (by omega), Reset_board_started g hs, if_pos hi]
    have h2 := lay2 h0
    intro i hi
    rw [(Reset_dims g).2.2] at hi
    show (g2.CopyBoard 2 0).board_ (i + g.Reset.RawSize) = _
    rw [(Reset_dims g).2.2, restore_board, R2, if_neg (by omega)]
    have := h2 i (by rw [(Reset_dims g).2.2]; exact hi)
    rw [(Reset_dims g).2.2] at this
    exact this
  refine ⟨_, ?_, hlive, ?_, hlay⟩
  · rw [IsSolvable_ok g solutions _ e2]
    have ht : tiles (g.CopyBoard 0 2) = tiles g := rfl
    rw [ht]
    simp
  · refine ⟨?_, ?_⟩
    · intro a ha b hb hr
      have ha' : a ≤ g.width_ + 1 := by rw [← hdim.2]; exact ha
      have hb' : b ≤ g.height_ + 1 := by rw [← hdim.1]; exact hb
      have hl := coord_lt g a b ha' hb'
      have := hlive.2.2.2.2 (a + (g.width_ + 2) * b) (by rw [hlive.rawSize]; exact hl)
      have h0 := hwf.1 a ha' b hb' (by rw [← hdim.1, ← hdim.2]; exact hr)
      rw [Nat.zero_mul, Nat.zero_add] at h0 ⊢
      rw [← h0, ← this]
      show _ = (g2.CopyBoard 2 0).board_ (a + (g.width_ + 2) * b)
      rw [← hdim.2]
      rfl
    · rcases hwf.2 with h | ⟨h1, _⟩
      · exact Or.inl h
      · refine Or.inr ⟨?_, ?_⟩
        · show Interior _ g.x_ g.y_
          unfold Interior at h1 ⊢
          show 1 ≤ g.x_ ∧ g.x_ ≤ (g2.width_ : Int) ∧ 1 ≤ g.y_ ∧ g.y_ ≤ (g2.height_ : Int)
          rw [hdim.1, hdim.2]; exact h1
        · have hs := hasStarted_of_interior h1
          have hl1 := hlay hs
          have hbr := (Reset_WF g hwf).1
          intro a ha b hb hr
          have ha' : a ≤ g.width_ + 1 := by rw [← hdim.2]; exact ha
          have hb' : b ≤ g.height_ + 1 := by rw [← hdim.1]; exact hb
          have hl := coord_lt g a b ha' hb'
          have h0 := hbr a (by rw [(Reset_dims g).2.1]; exact ha')
            b (by rw [(Reset_dims g).1]; exact hb')
            (by rw [(Reset_dims g).1, (Reset_dims g).2.1, ← hdim.1, ← hdim.2]; exact hr)
          rw [Nat.zero_mul, Nat.zero_add, (Reset_dims g).2.1] at h0
          have h1' := hl1 (a + (g.width_ + 2) * b) (by rw [(Reset_dims g).2.2]; exact hl)
          rw [(Reset_dims g).2.2] at h1'
          show (g2.CopyBoard 2 0).board_ (1 * g2.RawSize + (a + (g2.width_ + 2) * b)) =
            State.kBlocked
          have hidx : 1 * g.RawSize + (a + (g.width_ + 2) * b) =
              a + (g.width_ + 2) * b + g.RawSize := by ring
          rw [R2, hdim.2, hidx]
          exact h1'.trans h0

/-! ## Winning starts -/

theorem mem_tiles (g : Game) (x y : Int) : (x, y) ∈ tiles g ↔ Interior g x y := by
  unfold tiles Interior
  rw [List.mem_flatMap]
  constructor
  · rintro ⟨j, hj, hm⟩
    rw [List.mem_map] at hm
    obtain ⟨i, hi, he⟩ := hm
    rw [List.mem_range] at hj hi
    simp only [Prod.mk.injEq] at he
    omega
  · rintro ⟨h1, h2, h3, h4⟩
    refine ⟨(y - 1).toNat, List.mem_range.mpr (by omega), ?_⟩
    rw [List.mem_map]
    refine ⟨(x - 1).toNat, List.mem_range.mpr (by omega), ?_⟩
    simp only [Prod.mk.injEq]
    omega

theorem anyWin_iff (r : Game) (ts : List (Int × Int)) :
    anyWin r ts = true ↔ ∃ t ∈ ts, ∃ q, tileResult r t = some q := by
  unfold anyWin
  rw [List.any_eq_true]
  constructor
  · rintro ⟨t, ht, h⟩
    exact ⟨t, ht, Option.isSome_iff_exists.mp h⟩
  · rintro ⟨t, ht, q, h⟩
    exact ⟨t, ht, by rw [h]; rfl⟩

/-- A recorded search result is a winning run of fast moves from its start tile. -/
theorem tileResult_sound (r : Game) (hr : WF r) (t : Int × Int) (q : List Dir)
    (h : tileResult r t = some q) :
    r.At t.1 t.2 = State.kOff ∧ Interior r t.1 t.2 ∧ (∀ d ∈ q, Single d) ∧
      ∃ g1 g2, r.Start t.1 t.2 = (true, g1) ∧ FastRun g1 q g2 ∧ g2.HaveWon = true ∧
        g2.ValidDirs = kNone := by
  unfold tileResult at h
  by_cases hst : (r.Start t.1 t.2).1 = true
  · rw [if_pos hst] at h
    obtain ⟨_, hint, hoff⟩ := (Start_true_iff r t.1 t.2).mp hst
    obtain ⟨w1, s1, _, _, _⟩ := Start_props r t.1 t.2 hr hst
    obtain ⟨g2, hrun, hw, hv, hsing, _, _, _⟩ := dfs_sound _ _ q w1 s1 h
    refine ⟨hoff, hint, hsing, (r.Start t.1 t.2).2, g2, ?_, hrun, hw, hv⟩
    rw [← hst]
  · rw [if_neg hst] at h; simp at h

/-- Every winning run of fast moves from a start tile makes the search at that tile succeed. -/
theorem tileResult_complete (r : Game) (hr : WF r) (x y : Int) (ds : List Dir) (g1 g2 : Game)
    (hst : r.Start x y = (true, g1)) (hsing : ∀ d ∈ ds, Single d) (hrun : FastRun g1 ds g2)
    (hw : g2.HaveWon = true) : ∃ q, tileResult r (x, y) = some q := by
  have hst1 : (r.Start x y).1 = true := by rw [hst]
  have hst2 : (r.Start x y).2 = g1 := by rw [hst]
  obtain ⟨w1, s1, _, _, _⟩ := Start_props r x y hr hst1
  rw [hst2] at w1 s1
  have := dfs_complete ds g1 g2 g1.RawSize w1 s1 (offCount_le g1) hrun hsing hw
  obtain ⟨q, hq⟩ := Option.isSome_iff_exists.mp this
  refine ⟨q, ?_⟩
  unfold tileResult
  simp only [hst1, if_true, hst2]
  exact hq

theorem anyWin_iff_fast (r : Game) (hr : WF r) :
    anyWin r (tiles r) = true ↔
      ∃ (x y : Int) (ds : List Dir) (g1 g2 : Game), r.At x y = State.kOff ∧
        (∀ d ∈ ds, Single d) ∧ r.Start x y = (true, g1) ∧ FastRun g1 ds g2 ∧
        g2.HaveWon = true := by
  rw [anyWin_iff]
  constructor
  · rintro ⟨t, _, q, h⟩
    obtain ⟨hoff, _, hsing, g1, g2, hst, hrun, hw, _⟩ := tileResult_sound r hr t q h
    exact ⟨t.1, t.2, q, g1, g2, hoff, hsing, hst, hrun, hw⟩
  · rintro ⟨x, y, ds, g1, g2, _, hsing, hst, hrun, hw⟩
    have hst1 : (r.Start x y).1 = true := by rw [hst]
    have hint := ((Start_true_iff r x y).mp hst1).2.1
    exact ⟨(x, y), (mem_tiles r x y).mpr hint, tileResult_complete r hr x y ds g1 g2 hst hsing hrun hw⟩

/-! ## Ordinary moves and fast moves win the same games -/

theorem Move_of_MoveOne (g g1 : Game) (d : Dir) (hs : g.HasStarted = true)
    (hv : d &&& g.ValidDirs = d) (h : g.MoveOne d = .ok g1) : g.Move d = .ok (true, g1) := by
  unfold Game.Move
  simp only [hs, Bool.not_true, Bool.false_eq_true, if_false, hv, ne_eq, not_true_eq_false, h]
  rfl

theorem MoveFast_eq_loop (g : Game) (d : Dir) (hs : g.HasStarted = true)
    (hv : d &&& g.ValidDirs = d) : g.MoveFast d = MoveFastLoop (g.RawSize + 1) g d := by
  unfold Game.MoveFast
  simp only [hs, Bool.not_true, Bool.false_eq_true, if_false, hv, ne_eq, not_true_eq_false]

theorem MoveRun_append (ms1 ms2 : List Dir) : ∀ (g g1 g2 : Game), MoveRun g ms1 g1 →
    MoveRun g1 ms2 g2 → MoveRun g (ms1 ++ ms2) g2 := by
  induction ms1 with
  | nil => intro g g1 g2 h1 h2; have : g1 = g := h1; subst this; exact h2
  | cons m ms ih =>
    intro g g1 g2 h1 h2
    obtain ⟨ga, hm, hr⟩ := h1
    exact ⟨ga, hm, ih ga g1 g2 hr h2⟩

theorem single_and_single : ∀ a b : Nat, Single a → Single b → a &&& b = a → a = b := by
  intro a b ha hb
  rcases ha with rfl | rfl | rfl | rfl <;> rcases hb with rfl | rfl | rfl | rfl <;> decide

/-- The slides of one fast move are a run of ordinary moves. -/
theorem fastLoop_to_moves : ∀ (fuel : Nat) (g g' : Game) (d : Dir), WF g →
    g.HasStarted = true → Single d → d &&& g.ValidDirs = d →
    MoveFastLoop fuel g d = .ok (true, g') →
    ∃ ms, MoveRun g ms g' ∧ (∀ m ∈ ms, Single m) := by
  intro fuel
  induction fuel with
  | zero => intro g g' d _ _ _ _ h; simp [Game.MoveFastLoop] at h
  | succ f ih =>
    intro g g' d hwf hs hd hv h
    obtain ⟨g1, e1, w1, s1, _, _⟩ := MoveOne_ok g d hwf hs hd hv
    have hmove := Move_of_MoveOne g g1 d hs hv e1
    unfold Game.MoveFastLoop at h
    rw [e1] at h
    simp only [bind, Except.bind] at h
    by_cases hc : g1.ValidDirs = kUp ∨ g1.ValidDirs = kDown ∨ g1.ValidDirs = kLeft ∨
        g1.ValidDirs = kRight
    · rw [if_pos hc] at h
      obtain ⟨ms, hrun, hsing⟩ := ih g1 g' g1.ValidDirs w1 s1 hc (Nat.and_self _) h
      refine ⟨d :: ms, ⟨g1, hmove, hrun⟩, ?_⟩
      intro m hm
      rcases List.mem_cons.mp hm with rfl | hm
      · exact hd
      · exact hsing m hm
    · rw [if_neg hc] at h
      cases h
      refine ⟨[d], ⟨_, hmove, rfl⟩, ?_⟩
      intro m hm
      rw [List.mem_singleton] at hm
      rw [hm]; exact hd

theorem fast_to_move_run : ∀ (ds : List Dir) (g g' : Game), WF g → g.HasStarted = true →
    (∀ d ∈ ds, Single d) → FastRun g ds g' →
    ∃ ms, MoveRun g ms g' ∧ (∀ m ∈ ms, Single m) := by
  intro ds
  induction ds with
  | nil => intro g g' _ _ _ h; exact ⟨[], h, by simp⟩
  | cons d ds ih =>
    intro g g' hwf hs hsing hrun
    obtain ⟨g1, hm, hrun'⟩ := hrun
    have hd := hsing d (List.mem_cons_self _ _)
    obtain ⟨_, hv⟩ := MoveFast_true_inv g g1 d hm
    obtain ⟨g1', hm', w1, s1, _, _, _⟩ := MoveFast_ok g d hwf hs hd hv
    rw [hm] at hm'; cases hm'
    rw [MoveFast_eq_loop g d hs hv] at hm
    obtain ⟨ms1, hr1, hs1⟩ := fastLoop_to_moves _ g g1 d hwf hs hd hv hm
    obtain ⟨ms2, hr2, hs2⟩ := ih g1 g' w1 s1 (fun d' hd' => hsing d' (List.mem_cons_of_mem _ hd'))
      hrun'
    refine ⟨ms1 ++ ms2, MoveRun_append ms1 ms2 g g1 g' hr1 hr2, ?_⟩
    intro m hm
    rcases List.mem_append.mp hm with h | h
    · exact hs1 m h
    · exact hs2 m h

/-- A fast move follows a winning run of ordinary moves for as long as it is forced. -/
theorem moves_to_fastLoop : ∀ (fuel : Nat) (g g' : Game) (m : Dir) (ms : List Dir), WF g →
    g.HasStarted = true → Single m → (∀ d ∈ ms, Single d) → offCount g ≤ fuel →
    MoveRun g (m :: ms) g' → g'.HaveWon = true →
    ∃ g1 ms', MoveFastLoop fuel g m = .ok (true, g1) ∧ MoveRun g1 ms' g' ∧
      ms'.length ≤ ms.length ∧ (∀ d ∈ ms', Single d) ∧ WF g1 ∧ g1.HasStarted = true := by
  intro fuel
  induction fuel with
  | zero =>
    intro g g' m ms hwf hs hm _ hle hrun _
    obtain ⟨ga, hmv, _⟩ := hrun
    obtain ⟨_, hv⟩ := Move_true_inv g ga m hmv
    obtain ⟨g1, _, _, _, _, c1⟩ := MoveOne_ok g m hwf hs hm hv
    omega
  | succ f ih =>
    intro g g' m ms hwf hs hm hsing hle hrun hw
    obtain ⟨ga, hmv, hrun'⟩ := hrun
    obtain ⟨_, hv⟩ := Move_true_inv g ga m hmv
    obtain ⟨g1, e1, w1, s1, _, c1⟩ := MoveOne_ok g m hwf hs hm hv
    have hmove := Move_of_MoveOne g g1 m hs hv e1
    rw [hmv] at hmove; cases hmove
    unfold Game.MoveFastLoop
    rw [e1]
    simp only [bind, Except.bind]
    by_cases hc : ga.ValidDirs = kUp ∨ ga.ValidDirs = kDown ∨ ga.ValidDirs = kLeft ∨
        ga.ValidDirs = kRight
    · rw [if_pos hc]
      cases ms with
      | nil =>
        have : g' = ga := hrun'
        subst this
        have hz := validDirs_of_won g' w1 s1 hw
        exact absurd hz (single_ne_zero _ hc)
      | cons m2 ms2 =>
        have hm2 := hsing m2 (List.mem_cons_self _ _)
        obtain ⟨gb, hmv2, _⟩ := id hrun'
        obtain ⟨_, hv2⟩ := Move_true_inv ga gb m2 hmv2
        have heq : m2 = ga.ValidDirs := single_and_single m2 _ hm2 hc hv2
        rw [← heq]
        obtain ⟨g1', ms', e', r', l', sg', w', s'⟩ :=
          ih ga g' m2 ms2 w1 s1 hm2 (fun d hd => hsing d (List.mem_cons_of_mem _ hd))
            (by omega) hrun' hw
        exact ⟨g1', ms', e', r', by simp only [List.length_cons]; omega, sg', w', s'⟩
    · rw [if_neg hc]
      exact ⟨ga, ms, rfl, hrun', le_refl _, hsing, w1, s1⟩

theorem move_to_fast_run : ∀ (n : Nat) (ms : List Dir) (g g' : Game), ms.length ≤ n → WF g →
    g.HasStarted = true → (∀ d ∈ ms, Single d) → MoveRun g ms g' → g'.HaveWon = true →
    ∃ ds, FastRun g ds g' ∧ (∀ d ∈ ds, Single d) := by
  intro n
  induction n with
  | zero =>
    intro ms g g' hlen _ _ _ hrun _
    have : ms = [] := List.length_eq_zero.mp (by omega)
    subst this
    exact ⟨[], hrun, by simp⟩
  | succ n ih =>
    intro ms g g' hlen hwf hs hsing hrun hw
    cases ms with
    | nil => exact ⟨[], hrun, by simp⟩
    | cons m ms1 =>
      have hm := hsing m (List.mem_cons_self _ _)
      obtain ⟨ga, hmv, _⟩ := id hrun
      obtain ⟨_, hv⟩ := Move_true_inv g ga m hmv
      obtain ⟨g1, ms', e1, r1, l1, sg1, w1, s1⟩ :=
        moves_to_fastLoop (g.RawSize + 1) g g' m ms1 hwf hs hm
          (fun d hd => hsing d (List.mem_cons_of_mem _ hd))
          (Nat.le_succ_of_le (offCount_le g)) hrun hw
      rw [← MoveFast_eq_loop g m hs hv] at e1
      simp only [List.length_cons] at hlen
      obtain ⟨ds, hfr, hds⟩ := ih ms' g1 g' (by omega) w1 s1 sg1 r1 hw
      refine ⟨m :: ds, ⟨g1, e1, hfr⟩, ?_⟩
      intro d hd
      rcases List.mem_cons.mp hd with rfl | hd
      · exact hm
      · exact hds d hd

theorem anyWin_iff_move (r : Game) (hr : WF r) :
    anyWin r (tiles r) = true ↔
      ∃ (x y : Int) (ms : List Dir) (g1 g2 : Game), r.At x y = State.kOff ∧
        (∀ m ∈ ms, Single m) ∧ r.Start x y = (true, g1) ∧ MoveRun g1 ms g2 ∧
        g2.HaveWon = true := by
  rw [anyWin_iff_fast r hr]
  constructor
  · rintro ⟨x, y, ds, g1, g2, hoff, hsing, hst, hrun, hw⟩
    have hst1 : (r.Start x y).1 = true := by rw [hst]
    have hst2 : (r.Start x y).2 = g1 := by rw [hst]
    obtain ⟨w1, s1, _, _, _⟩ := Start_props r x y hr hst1
    rw [hst2] at w1 s1
    obtain ⟨ms, hmr, hms⟩ := fast_to_move_run ds g1 g2 w1 s1 hsing hrun
    exact ⟨x, y, ms, g1, g2, hoff, hms, hst, hmr, hw⟩
  · rintro ⟨x, y, ms, g1, g2, hoff, hsing, hst, hrun, hw⟩
    have hst1 : (r.Start x y).1 = true := by rw [hst]
    have hst2 : (r.Start x y).2 = g1 := by rw [hst]
    obtain ⟨w1, s1, _, _, _⟩ := Start_props r x y hr hst1
    rw [hst2] at w1 s1
    obtain ⟨ds, hfr, hds⟩ := move_to_fast_run ms.length ms g1 g2 (le_refl _) w1 s1 hsing hrun hw
    exact ⟨x, y, ds, g1, g2, hoff, hds, hst, hfr, hw⟩

/-! ## The solver: the claims -/

theorem recordsSpec_eq_flatMap (r : Game) (ts : List (Int × Int)) :
    recordsSpec r ts = (recordedRuns r ts).flatMap (fun p => recordFor p.1 p.2) := by
  unfold recordsSpec recordedRuns
  induction ts with
  | nil => rfl
  | cons t ts ih =>
    rw [List.flatMap_cons, List.filterMap_cons, ih]
    cases tileResult r t with
    | none => simp
    | some q => simp

theorem mem_recordedRuns (r : Game) (ts : List (Int × Int)) (p : (Int × Int) × List Dir) :
    p ∈ recordedRuns r ts ↔ p.1 ∈ ts ∧ tileResult r p.1 = some p.2 := by
  unfold recordedRuns
  rw [List.mem_filterMap]
  constructor
  · rintro ⟨t, ht, h⟩
    cases hq : tileResult r t with
    | none => rw [hq] at h; simp at h
    | some q =>
      rw [hq] at h
      simp only [Option.map_some', Option.some.injEq] at h
      subst h
      exact ⟨ht, hq⟩
  · rintro ⟨ht, h⟩
    exact ⟨p.1, ht, by rw [h]; rfl⟩

theorem recordsSpec_ne_nil_iff (r : Game) (ts : List (Int × Int)) :
    recordsSpec r ts ≠ [] ↔ anyWin r ts = true := by
  rw [anyWin_iff]
  unfold recordsSpec
  rw [ne_eq, List.flatMap_eq_nil_iff]
  constructor
  · intro h
    by_contra hcon
    apply h
    intro t ht
    cases hq : tileResult r t with
    | none => rfl
    | some q => exact absurd ⟨t, ht, q, hq⟩ hcon
  · rintro ⟨t, ht, q, hq⟩ h
    have := h t ht
    rw [hq] at this
    simp [recordFor] at this

/-- C1: on a board with no game in progress, `IsSolvable(nullptr)` returns, and it returns
`true` exactly when some `kOff` start tile and some finite list of single directions exist for
which `Start` succeeds, every `MoveFast` succeeds in order, and `HaveWon()` holds afterwards. -/
theorem isSolvable_iff_fast_winnable (g : Game) (hwf : WF g) (hns : g.HasStarted = false) :
    ∃ b g', g.IsSolvable none = .ok (b, g', none) ∧ (b = true ↔ FastWinnable g) := by
  obtain ⟨g', e, _, _, _⟩ := IsSolvable_spec g hwf none
  rw [Reset_of_not_started g hns] at e
  exact ⟨_, g', e, anyWin_iff_fast g hwf⟩

/-- C2: on a board with no game in progress, `IsSolvable(nullptr)` returns `true` exactly when
some `kOff` start tile and some finite list of single-direction `Move` calls, each succeeding,
lead to `HaveWon()`: searching fast moves only neither loses nor adds a winning play. -/
theorem isSolvable_iff_move_winnable (g : Game) (hwf : WF g) (hns : g.HasStarted = false) :
    ∃ b g', g.IsSolvable none = .ok (b, g', none) ∧ (b = true ↔ MoveWinnable g) ∧
      (MoveWinnable g ↔ FastWinnable g) := by
  obtain ⟨g', e, _, _, _⟩ := IsSolvable_spec g hwf none
  rw [Reset_of_not_started g hns] at e
  exact ⟨_, g', e, anyWin_iff_move g hwf, (anyWin_iff_move g hwf).symm.trans (anyWin_iff_fast g hwf)⟩

/-- C3: in every well-formed state, `IsSolvable` called with an empty solution list returns the
same boolean as `IsSolvable(nullptr)`, and the list is non-empty afterwards exactly when that
boolean is `true`. -/
theorem isSolvable_collect_same_bool (g : Game) (hwf : WF g) :
    ∃ b g1 g2 l, g.IsSolvable none = .ok (b, g1, none) ∧
      g.IsSolvable (some []) = .ok (b, g2, some l) ∧ (l ≠ [] ↔ b = true) := by
  obtain ⟨g1, e1, _, _, _⟩ := IsSolvable_spec g hwf none
  obtain ⟨g2, e2, _, _, _⟩ := IsSolvable_spec g hwf (some [])
  refine ⟨_, g1, g2, recordsSpec g.Reset (tiles g), e1, ?_, recordsSpec_ne_nil_iff _ _⟩
  rw [e2]; simp

/-- C4: on a board with no game in progress, the list produced by `IsSolvable(&solutions)` is
the given list followed by a concatenation of records `x, y, a_1, ..., a_N, 0` with every `a_i`
one of `kUp`, `kDown`, `kLeft`, `kRight`; for every record the tile `(x, y)` is `kOff` in the
layout, and `Start(x, y)` followed by `MoveFast(a_1)`, ..., `MoveFast(a_N)` succeeds at every
step and ends with `HaveWon()` true and `ValidDirs()` empty. -/
theorem isSolvable_records_replay (g : Game) (hwf : WF g) (hns : g.HasStarted = false)
    (s : List Int) :
    ∃ (b : Bool) (g' : Game) (runs : List ((Int × Int) × List Dir)),
      g.IsSolvable (some s) =
        .ok (b, g', some (s ++ runs.flatMap (fun p =>
          [p.1.1, p.1.2] ++ p.2.map (fun (d : Dir) => (d : Int)) ++ [0]))) ∧
      ∀ p ∈ runs,
        (∀ d ∈ p.2, d = kUp ∨ d = kDown ∨ d = kLeft ∨ d = kRight) ∧
        g.At p.1.1 p.1.2 = State.kOff ∧
        ∃ g1 g2, g.Start p.1.1 p.1.2 = (true, g1) ∧ FastRun g1 p.2 g2 ∧
          g2.HaveWon = true ∧ g2.ValidDirs = kNone := by
  obtain ⟨g', e, _, _, _⟩ := IsSolvable_spec g hwf (some s)
  rw [Reset_of_not_started g hns] at e
  refine ⟨anyWin g (tiles g), g', recordedRuns g (tiles g), ?_, ?_⟩
  · rw [e, recordsSpec_eq_flatMap]
    rfl
  · intro p hp
    obtain ⟨_, hq⟩ := (mem_recordedRuns g (tiles g) p).mp hp
    obtain ⟨hoff, _, hsing, g1, g2, hst, hrun, hw, hv⟩ := tileResult_sound g hwf p.1 p.2 hq
    exact ⟨hsing, hoff, g1, g2, hst, hrun, hw, hv⟩

/-- C6: in every well-formed state, with or without a solution list, `IsSolvable` returns and
leaves the dimensions, the cursor and every tile of the live area as they were. -/
theorem isSolvable_isolated (g : Game) (hwf : WF g) (solutions : Option (List Int)) :
    ∃ b g' l, g.IsSolvable solutions = .ok (b, g', l) ∧
      g'.height_ = g.height_ ∧ g'.width_ = g.width_ ∧ g'.X = g.X ∧ g'.Y = g.Y ∧
      (∀ i, i < g.RawSize → g'.board_ i = g.board_ i) ∧
      (∀ x y : Int, Interior g x y → g'.At x y = g.At x y) := by
  obtain ⟨g', e, hl, _, _⟩ := IsSolvable_spec g hwf solutions
  refine ⟨_, g', _, e, hl.1, hl.2.1, hl.2.2.1, hl.2.2.2.1, ?_, ?_⟩
  · intro i hi
    exact hl.2.2.2.2 i (by rw [hl.rawSize]; exact hi)
  · intro x y hi
    unfold Interior at hi
    rw [← hl.1, ← hl.2.1] at hi
    exact hl.at_eq (by omega) (by omega) (by omega) (by omega)

/-! ## The solver and the game in progress -/

theorem MoveOne_single (g g' : Game) (d : Dir) (h : g.MoveOne d = .ok g') : Single d := by
  unfold Game.MoveOne at h
  unfold increment_for_move at h
  unfold Single
  by_cases h1 : d = kUp
  · exact Or.inl h1
  by_cases h2 : d = kDown
  · exact Or.inr (Or.inl h2)
  by_cases h3 : d = kLeft
  · exact Or.inr (Or.inr (Or.inl h3))
  by_cases h4 : d = kRight
  · exact Or.inr (Or.inr (Or.inr h4))
  simp [h1, h2, h3, h4] at h

theorem playStep_inv (g g' : Game) (s : Bool × Dir) (b : Bool) (hwf : WF g)
    (hs : g.HasStarted = true) (h : playStep g s = .ok (b, g')) :
    WF g' ∧ g'.HasStarted = true ∧ Stable g g' := by
  unfold playStep at h
  by_cases hv : s.2 &&& g.ValidDirs = s.2
  · have hone : ∃ g1, g.MoveOne s.2 = .ok g1 := by
      cases hm : g.MoveOne s.2 with
      | ok g1 => exact ⟨g1, rfl⟩
      | error e =>
        exfalso
        by_cases hf : s.1 = true
        · rw [if_pos hf, MoveFast_eq_loop g s.2 hs hv] at h
          unfold Game.MoveFastLoop at h
          rw [hm] at h
          simp [bind, Except.bind] at h
        · rw [if_neg hf] at h
          unfold Game.Move at h
          simp only [hs, Bool.not_true, Bool.false_eq_true, if_false, hv, ne_eq,
            not_true_eq_false, hm] at h
          simp [bind, Except.bind] at h
    obtain ⟨g1, hm⟩ := hone
    have hd := MoveOne_single g g1 s.2 hm
    by_cases hf : s.1 = true
    · rw [if_pos hf] at h
      obtain ⟨g2, e2, w2, s2, st2, _, _⟩ := MoveFast_ok g s.2 hwf hs hd hv
      rw [e2] at h
      cases h
      exact ⟨w2, s2, st2⟩
    · rw [if_neg hf] at h
      obtain ⟨g2, e2, w2, s2, st2, _⟩ := Move_ok g s.2 hwf hs hd hv
      rw [e2] at h
      cases h
      exact ⟨w2, s2, st2⟩
  · have hg : g' = g := by
      by_cases hf : s.1 = true
      · rw [if_pos hf] at h
        unfold Game.MoveFast at h
        simp only [hs, Bool.not_true, Bool.false_eq_true, if_false, hv, ne_eq,
          not_false_eq_true, if_true] at h
        cases h; rfl
      · rw [if_neg hf] at h
        unfold Game.Move at h
        simp only [hs, Bool.not_true, Bool.false_eq_true, if_false, hv, ne_eq,
          not_false_eq_true, if_true] at h
        cases h; rfl
    rw [hg]
    exact ⟨hwf, hs, Stable.stable_refl g⟩

theorem playRun_inv : ∀ (ss : List (Bool × Dir)) (g g' : Game), WF g → g.HasStarted = true →
    PlayRun g ss g' → WF g' ∧ g'.HasStarted = true ∧ Stable g g' := by
  intro ss
  induction ss with
  | nil =>
    intro g g' hwf hs h
    have : g' = g := h
    rw [this]
    exact ⟨hwf, hs, Stable.stable_refl g⟩
  | cons s ss ih =>
    intro g g' hwf hs h
    obtain ⟨b, g1, hstep, hrun⟩ := h
    obtain ⟨w1, s1, st1⟩ := playStep_inv g g1 s b hwf hs hstep
    obtain ⟨w', s', st'⟩ := ih g1 g' w1 s1 hrun
    exact ⟨w', s', st1.stable_trans st'⟩

theorem tileResult_congr (a b : Game) (hab : LiveEq a b) (wa : WF a) (wb : WF b)
    (t : Int × Int) : tileResult a t = tileResult b t := by
  unfold tileResult
  obtain ⟨h1, h2⟩ := Start_congr a b t.1 t.2 hab
  by_cases hst : (a.Start t.1 t.2).1 = true
  · have hstb : (b.Start t.1 t.2).1 = true := by rw [← h1]; exact hst
    rw [if_pos hst, if_pos hstb]
    obtain ⟨w1, s1, _, _, _⟩ := Start_props a t.1 t.2 wa hst
    obtain ⟨w2, _, _, _, _⟩ := Start_props b t.1 t.2 wb hstb
    exact search_congr _ _ (h2 hst) w1 w2 s1
  · have hstb : ¬ (b.Start t.1 t.2).1 = true := by rw [← h1]; exact hst
    rw [if_neg hst, if_neg hstb]

theorem anyWin_congr (a b : Game) (hab : LiveEq a b) (wa : WF a) (wb : WF b)
    (ts : List (Int × Int)) : anyWin a ts = anyWin b ts := by
  unfold anyWin
  congr 1
  funext t
  rw [tileResult_congr a b hab wa wb t]

theorem recordsSpec_congr (a b : Game) (hab : LiveEq a b) (wa : WF a) (wb : WF b)
    (ts : List (Int × Int)) : recordsSpec a ts = recordsSpec b ts := by
  unfold recordsSpec
  congr 1
  funext t
  rw [tileResult_congr a b hab wa wb t]

theorem tiles_congr (a b : Game) (h1 : a.height_ = b.height_) (h2 : a.width_ = b.width_) :
    tiles a = tiles b := by
  unfold tiles; rw [h1, h2]

/-- The live area after `Reset()` of a game in progress is the layout it was started on. -/
theorem reset_play_liveEq (L g1 g : Game) (x y : Int) (hwf : WF L) (hns : L.HasStarted = false)
    (hst : L.Start x y = (true, g1)) (ss : List (Bool × Dir)) (hrun : PlayRun g1 ss g) :
    WF g ∧ g.HasStarted = true ∧ LiveEq g.Reset L := by
  have hst1 : (L.Start x y).1 = true := by rw [hst]
  have hst2 : (L.Start x y).2 = g1 := by rw [hst]
  obtain ⟨w1, s1, _, _, _⟩ := Start_props L x y hwf hst1
  obtain ⟨f1, f2, f3, f4, f5⟩ := Start_fields L x y hst1
  have hb := Start_board L x y hst1
  rw [hst2] at w1 s1 f1 f2 f5 hb
  obtain ⟨w, s, st⟩ := playRun_inv ss g1 g w1 s1 hrun
  have hint := ((Start_true_iff L x y).mp hst1).2.1
  have hi := hint
  unfold Interior at hi
  have hidx : L.idx x y < L.RawSize := idx_lt _ (by omega) (by omega) (by omega) (by omega)
  have hc : L.x_ = 0 ∧ L.y_ = 0 := by
    have := Reset_cursor L hwf
    rw [Reset_of_not_started L hns] at this
    exact this
  refine ⟨w, s, ?_, ?_, ?_, ?_, ?_⟩
  · rw [(Reset_dims g).1, st.1, f1]
  · rw [(Reset_dims g).2.1, st.2.1, f2]
  · rw [(Reset_cursor g w).1, hc.1]
  · rw [(Reset_cursor g w).2, hc.2]
  · intro i hi'
    have hR : g.RawSize = L.RawSize := by rw [st.stable_rawSize, f5]
    rw [(Reset_dims g).2.2, hR] at hi'
    rw [Reset_board_started g s, hR, if_pos hi', st.2.2 _ (by rw [f5]; omega), hb,
      if_neg (by omega), if_pos (by omega)]
    congr 1; omega

/-- C7: for a game in progress (a layout, a successful `Start`, then any `Move` and `MoveFast`
calls), `IsSolvable` returns the same boolean and the same list as after `Reset()`, and as on
the layout itself; and a `Reset()` after `IsSolvable` restores the layout the game was started
on (same dimensions, cursor `(0, 0)`, same live area). -/
theorem isSolvable_ignores_play (L g1 g : Game) (x y : Int) (hwf : WF L)
    (hns : L.HasStarted = false) (hst : L.Start x y = (true, g1)) (ss : List (Bool × Dir))
    (hrun : PlayRun g1 ss g) (solutions : Option (List Int)) :
    ∃ b l ga gb gc, g.IsSolvable solutions = .ok (b, ga, l) ∧
      g.Reset.IsSolvable solutions = .ok (b, gb, l) ∧
      L.IsSolvable solutions = .ok (b, gc, l) ∧
      ga.Reset.height_ = L.height_ ∧ ga.Reset.width_ = L.width_ ∧
      ga.Reset.X = 0 ∧ ga.Reset.Y = 0 ∧
      (∀ i, i < L.RawSize → ga.Reset.board_ i = L.board_ i) := by
  obtain ⟨w, s, hl⟩ := reset_play_liveEq L g1 g x y hwf hns hst ss hrun
  have wr := Reset_WF g w
  obtain ⟨ga, ea, la, wa, laya⟩ := IsSolvable_spec g w solutions
  obtain ⟨gb, eb, _, _, _⟩ := IsSolvable_spec g.Reset wr solutions
  obtain ⟨gc, ec, _, _, _⟩ := IsSolvable_spec L hwf solutions
  rw [Reset_of_not_started _ (Reset_not_started g),
    tiles_congr g.Reset g (Reset_dims g).1 (Reset_dims g).2.1] at eb
  rw [Reset_of_not_started L hns, ← anyWin_congr g.Reset L hl wr hwf,
    ← recordsSpec_congr g.Reset L hl wr hwf,
    ← tiles_congr g.Reset L hl.1 hl.2.1,
    tiles_congr g.Reset g (Reset_dims g).1 (Reset_dims g).2.1] at ec
  have sa : ga.HasStarted = true := by rw [la.hasStarted]; exact s
  have hRa : ga.RawSize = L.RawSize := by
    rw [la.rawSize, ← (Reset_dims g).2.2, hl.rawSize]
  have hc : L.x_ = 0 ∧ L.y_ = 0 := by
    have := Reset_cursor L hwf
    rw [Reset_of_not_started L hns] at this
    exact this
  refine ⟨_, _, ga, gb, gc, ea, eb, ec, ?_, ?_, (Reset_cursor ga wa).1, (Reset_cursor ga wa).2, ?_⟩
  · rw [(Reset_dims ga).1, la.1, ← (Reset_dims g).1, hl.1]
  · rw [(Reset_dims ga).2.1, la.2.1, ← (Reset_dims g).2.1, hl.2.1]
  · intro i hi
    have h1 := laya s i (by rw [hl.rawSize]; exact hi)
    rw [hl.rawSize] at h1
    rw [Reset_board_started ga sa, hRa, if_pos hi, h1]
    exact hl.2.2.2.2 i (by rw [hl.rawSize]; exact hi)

/-! ## Instances on the empty 2 x 2 board -/

theorem start_eq_of_fst (g : Game) (x y : Int) (h : (g.Start x y).1 = true) :
    g.Start x y = (true, (g.Start x y).2) := by
  rw [← h]

theorem fastRun_single_of_eval (g : Game) (d : Dir)
    (h : (g.MoveFast d).map (fun r => (r.1, r.2.HaveWon)) = .ok (true, true)) :
    ∃ g2, FastRun g [d] g2 ∧ g2.HaveWon = true := by
  cases hm : g.MoveFast d with
  | error e => rw [hm] at h; simp [Except.map] at h
  | ok r =>
    rw [hm] at h
    simp only [Except.map, Except.ok.injEq, Prod.mk.injEq] at h
    obtain ⟨b, g2⟩ := r
    simp only at h
    obtain ⟨rfl, hw⟩ := h
    exact ⟨g2, ⟨g2, hm, rfl⟩, hw⟩

theorem isSolvable_iff_fast_winnable_witness :
    WF empty2x2 ∧ empty2x2.HasStarted = false ∧
      ∃ b g', empty2x2.IsSolvable none = .ok (b, g', none) ∧ (b = true ↔ FastWinnable empty2x2) :=
  ⟨by decide, by decide, isSolvable_iff_fast_winnable empty2x2 (by decide) (by decide)⟩

theorem isSolvable_iff_move_winnable_witness :
    WF empty2x2 ∧ empty2x2.HasStarted = false ∧
      ∃ b g', empty2x2.IsSolvable none = .ok (b, g', none) ∧ (b = true ↔ MoveWinnable empty2x2) ∧
        (MoveWinnable empty2x2 ↔ FastWinnable empty2x2) :=
  ⟨by decide, by decide, isSolvable_iff_move_winnable empty2x2 (by decide) (by decide)⟩

theorem isSolvable_collect_same_bool_witness :
    WF started2x2 ∧
      ∃ b g1 g2 l, started2x2.IsSolvable none = .ok (b, g1, none) ∧
        started2x2.IsSolvable (some []) = .ok (b, g2, some l) ∧ (l ≠ [] ↔ b = true) :=
  ⟨by decide, isSolvable_collect_same_bool started2x2 (by decide)⟩

theorem isSolvable_records_replay_witness :
    WF empty2x2 ∧ empty2x2.HasStarted = false ∧
    ∃ (b : Bool) (g' : Game) (runs : List ((Int × Int) × List Dir)),
      empty2x2.IsSolvable (some []) =
        .ok (b, g', some ([] ++ runs.flatMap (fun p =>
          [p.1.1, p.1.2] ++ p.2.map (fun (d : Dir) => (d : Int)) ++ [0]))) ∧
      ∀ p ∈ runs,
        (∀ d ∈ p.2, d = kUp ∨ d = kDown ∨ d = kLeft ∨ d = kRight) ∧
        empty2x2.At p.1.1 p.1.2 = State.kOff ∧
        ∃ g1 g2, empty2x2.Start p.1.1 p.1.2 = (true, g1) ∧ FastRun g1 p.2 g2 ∧
          g2.HaveWon = true ∧ g2.ValidDirs = kNone :=
  ⟨by decide, by decide, isSolvable_records_replay empty2x2 (by decide) (by decide) []⟩

/-- C5: on the empty 2 x 2 board `IsSolvable(&solutions)` appends one record per start tile;
start `(1, 1)` also wins by the single fast move `kRight`, and no record `1, 1, 8, 0` is
appended: after recording a win `solve_one` returns instead of searching on. -/
theorem isSolvable_records_first_win_only :
    (empty2x2.IsSolvable (some [])).map (fun r => (r.1, r.2.2)) =
        .ok (true, some [1, 1, 2, 0, 2, 1, 2, 0, 1, 2, 1, 0, 2, 2, 1, 0]) ∧
      empty2x2.Start 1 1 = (true, started2x2) ∧
      (∃ g2, FastRun started2x2 [kRight] g2 ∧ g2.HaveWon = true) ∧
      (∃ g2, FastRun started2x2 [kDown] g2 ∧ g2.HaveWon = true) ∧
      ¬ ([1, 1, (kRight : Int), 0] <:+: [1, 1, 2, 0, 2, 1, 2, 0, 1, 2, 1, 0, 2, 2, 1, 0]) :=
  ⟨by decide, start_eq_of_fst empty2x2 1 1 (by decide),
    fastRun_single_of_eval started2x2 kRight (by decide),
    fastRun_single_of_eval started2x2 kDown (by decide), by decide⟩

theorem isSolvable_isolated_witness :
    WF moved2x2 ∧
      ∃ b g' l, moved2x2.IsSolvable (some []) = .ok (b, g', l) ∧
        g'.height_ = moved2x2.height_ ∧ g'.width_ = moved2x2.width_ ∧
        g'.X = moved2x2.X ∧ g'.Y = moved2x2.Y ∧
        (∀ i, i < moved2x2.RawSize → g'.board_ i = moved2x2.board_ i) ∧
        (∀ x y : Int, Interior moved2x2 x y → g'.At x y = moved2x2.At x y) :=
  ⟨by decide, isSolvable_isolated moved2x2 (by decide) (some [])⟩

theorem isSolvable_ignores_play_witness :
    WF empty2x2 ∧ empty2x2.HasStarted = false ∧ empty2x2.Start 1 1 = (true, started2x2) ∧
      PlayRun started2x2 [(false, kDown), (true, kUp)] moved2x2 ∧
      ∃ b l ga gb gc, moved2x2.IsSolvable (some []) = .ok (b, ga, l) ∧
        moved2x2.Reset.IsSolvable (some []) = .ok (b, gb, l) ∧
        empty2x2.IsSolvable (some []) = .ok (b, gc, l) ∧
        ga.Reset.height_ = empty2x2.height_ ∧ ga.Reset.width_ = empty2x2.width_ ∧
        ga.Reset.X = 0 ∧ ga.Reset.Y = 0 ∧
        (∀ i, i < empty2x2.RawSize → ga.Reset.board_ i = empty2x2.board_ i) :=
  ⟨by decide, by decide, start_eq_of_fst empty2x2 1 1 (by decide),
    ⟨true, moved2x2, rfl, false, moved2x2, rfl, rfl⟩,
    isSolvable_ignores_play empty2x2 started2x2 moved2x2 1 1 (by decide) (by decide)
      (start_eq_of_fst empty2x2 1 1 (by decide)) [(false, kDown), (true, kUp)]
      ⟨true, moved2x2, rfl, false, moved2x2, rfl, rfl⟩ (some [])⟩

/-! ## The layout codec -/

theorem tiles_eq_map_aux (W : Nat) : ∀ H : Nat,
    (List.range H).flatMap (fun (j : Nat) =>
      (List.range W).map (fun (i : Nat) => ((i : Int) + 1, (j : Int) + 1))) =
    (List.range (H * W)).map (fun (k : Nat) =>
      (((k % W : Nat) : Int) + 1, ((k / W : Nat) : Int) + 1)) := by
  intro H
  induction H with
  | zero => simp
  | succ H ih =>
    rw [List.range_succ, List.flatMap_append, ih, List.flatMap_singleton, Nat.succ_mul,
      List.range_add, List.map_append, List.map_map]
    congr 1
    apply List.map_congr_left
    intro i hi
    have hi' : i < W := List.mem_range.mp hi
    have hW : 0 < W := by omega
    simp only [Function.comp]
    have h1 : (H * W + i) % W = i := by
      rw [Nat.add_comm, Nat.mul_comm, Nat.add_mul_mod_self_left, Nat.mod_eq_of_lt hi']
    have h2 : (H * W + i) / W = H := by
      rw [Nat.add_comm, Nat.mul_comm, Nat.add_mul_div_left _ _ hW, Nat.div_eq_of_lt hi',
        Nat.zero_add]
    rw [h1, h2]

theorem tiles_eq_map (g : Game) :
    tiles g = (List.range (g.height_ * g.width_)).map (fun (k : Nat) =>
      (((k % g.width_ : Nat) : Int) + 1, ((k / g.width_ : Nat) : Int) + 1)) :=
  tiles_eq_map_aux g.width_ g.height_

theorem cursor4_zero : Cursor4 0 0 1 := by
  unfold Cursor4; decide

theorem cursor4_step (k p b : Nat) (h : Cursor4 k p b) :
    (if b = 16 then p + 1 else p) = k / 4 ∧ (if b = 16 then 1 else b) = 2 ^ (k % 4) ∧
    Cursor4 (k + 1) (k / 4) ((2 ^ (k % 4) <<< 1) % 4294967296) := by
  refine ⟨h.1, h.2, ?_⟩
  unfold Cursor4
  have he : k % 4 = 0 ∨ k % 4 = 1 ∨ k % 4 = 2 ∨ k % 4 = 3 := by omega
  rcases he with he | he | he | he
  · have h1 : (k + 1) % 4 = 1 := by omega
    rw [he, h1]
    exact ⟨by simp; omega, by decide⟩
  · have h1 : (k + 1) % 4 = 2 := by omega
    rw [he, h1]
    exact ⟨by simp; omega, by decide⟩
  · have h1 : (k + 1) % 4 = 3 := by omega
    rw [he, h1]
    exact ⟨by simp; omega, by decide⟩
  · have h1 : (k + 1) % 4 = 0 := by omega
    rw [he, h1]
    exact ⟨by simp; omega, by decide⟩

theorem bitVal_succ_ne (g : Game) (k m i : Nat) (h : m ≠ k) :
    bitVal g (k + 1) m i = bitVal g k m i := by
  unfold bitVal
  have : m < k + 1 ↔ m < k := by omega
  simp only [this]

theorem bitVal_succ_self (g : Game) (k i : Nat) :
    bitVal g (k + 1) k i = if blockedAt g k = true then 2 ^ i else 0 := by
  unfold bitVal
  simp

theorem bitVal_ge (g : Game) (k m i : Nat) (h : k ≤ m) : bitVal g k m i = 0 := by
  unfold bitVal
  rw [if_neg]
  omega

theorem bitVal_bool (g : Game) (k m i : Nat) :
    ∃ b : Bool, bitVal g k m i = bif b then 2 ^ i else 0 := by
  unfold bitVal
  by_cases h : m < k ∧ blockedAt g m = true
  · exact ⟨true, by rw [if_pos h]; rfl⟩
  · exact ⟨false, by rw [if_neg h]; rfl⟩

theorem or_table : ∀ b0 b1 b2 v : Bool,
    ((0 + 0 + 0 + 0 ||| bif v then 2 ^ 0 else 0) % 256 = (bif v then 2 ^ 0 else 0) + 0 + 0 + 0) ∧
    ((((bif b0 then 2 ^ 0 else 0) + 0 + 0 + 0) ||| bif v then 2 ^ 1 else 0) % 256 =
      (bif b0 then 2 ^ 0 else 0) + (bif v then 2 ^ 1 else 0) + 0 + 0) ∧
    ((((bif b0 then 2 ^ 0 else 0) + (bif b1 then 2 ^ 1 else 0) + 0 + 0) |||
        bif v then 2 ^ 2 else 0) % 256 =
      (bif b0 then 2 ^ 0 else 0) + (bif b1 then 2 ^ 1 else 0) + (bif v then 2 ^ 2 else 0) + 0) ∧
    ((((bif b0 then 2 ^ 0 else 0) + (bif b1 then 2 ^ 1 else 0) + (bif b2 then 2 ^ 2 else 0) + 0)
        ||| bif v then 2 ^ 3 else 0) % 256 =
      (bif b0 then 2 ^ 0 else 0) + (bif b1 then 2 ^ 1 else 0) + (bif b2 then 2 ^ 2 else 0) +
        (bif v then 2 ^ 3 else 0)) := by
  decide

/-- The effect of writing tile `k` on output element `j`. -/
theorem nibble_step (g : Game) (k j : Nat) :
    nibbleUpTo g (k + 1) j =
      if k / 4 = j then
        (nibbleUpTo g k j ||| (if blockedAt g k = true then 2 ^ (k % 4) else 0)) % 256
      else nibbleUpTo g k j := by
  unfold nibbleUpTo
  by_cases hj : k / 4 = j
  · rw [if_pos hj]
    have he : k % 4 = 0 ∨ k % 4 = 1 ∨ k % 4 = 2 ∨ k % 4 = 3 := by omega
    have hif : ∀ e : Nat, (if blockedAt g k = true then 2 ^ e else 0) =
        bif blockedAt g k then 2 ^ e else 0 := by
      intro e; cases blockedAt g k <;> rfl
    obtain ⟨b0, h0⟩ := bitVal_bool g k (4 * j) 0
    obtain ⟨b1, h1⟩ := bitVal_bool g k (4 * j + 1) 1
    obtain ⟨b2, h2⟩ := bitVal_bool g k (4 * j + 2) 2
    rcases he with he | he | he | he
    · have hk : k = 4 * j := by omega
      rw [he]
      subst hk
      rw [bitVal_ge g (4 * j + 1) (4 * j + 1) 1 (by omega),
        bitVal_ge g (4 * j + 1) (4 * j + 2) 2 (by omega),
        bitVal_ge g (4 * j + 1) (4 * j + 3) 3 (by omega), bitVal_ge g (4 * j) (4 * j) 0 (by omega),
        bitVal_ge g (4 * j) (4 * j + 1) 1 (by omega), bitVal_ge g (4 * j) (4 * j + 2) 2 (by omega),
        bitVal_ge g (4 * j) (4 * j + 3) 3 (by omega), bitVal_succ_self g (4 * j) 0, hif]
      exact ((or_table false false false (blockedAt g (4 * j))).1).symm
    · have hk : k = 4 * j + 1 := by omega
      rw [he]
      subst hk
      rw [bitVal_succ_ne g (4 * j + 1) (4 * j) 0 (by omega),
        bitVal_ge g (4 * j + 1 + 1) (4 * j + 2) 2 (by omega),
        bitVal_ge g (4 * j + 1 + 1) (4 * j + 3) 3 (by omega),
        bitVal_ge g (4 * j + 1) (4 * j + 1) 1 (by omega),
        bitVal_ge g (4 * j + 1) (4 * j + 2) 2 (by omega),
        bitVal_ge g (4 * j + 1) (4 * j + 3) 3 (by omega), h0, bitVal_succ_self g (4 * j + 1) 1, hif]
      exact ((or_table b0 false false (blockedAt g (4 * j + 1))).2.1).symm
    · have hk : k = 4 * j + 2 := by omega
      rw [he]
      subst hk
      rw [bitVal_succ_ne g (4 * j + 2) (4 * j) 0 (by omega),
        bitVal_succ_ne g (4 * j + 2) (4 * j + 1) 1 (by omega),
        bitVal_ge g (4 * j + 2 + 1) (4 * j + 3) 3 (by omega),
        bitVal_ge g (4 * j + 2) (4 * j + 2) 2 (by omega),
        bitVal_ge g (4 * j + 2) (4 * j + 3) 3 (by omega), h0, h1,
        bitVal_succ_self g (4 * j + 2) 2, hif]
      exact ((or_table b0 b1 false (blockedAt g (4 * j + 2))).2.2.1).symm
    · have hk : k = 4 * j + 3 := by omega
      rw [he]
      subst hk
      rw [bitVal_succ_ne g (4 * j + 3) (4 * j) 0 (by omega),
        bitVal_succ_ne g (4 * j + 3) (4 * j + 1) 1 (by omega),
        bitVal_succ_ne g (4 * j + 3) (4 * j + 2) 2 (by omega),
        bitVal_ge g (4 * j + 3) (4 * j + 3) 3 (by omega), h0, h1, h2,
        bitVal_succ_self g (4 * j + 3) 3, hif]
      exact ((or_table b0 b1 b2 (blockedAt g (4 * j + 3))).2.2.2).symm
  · rw [if_neg hj]
    rw [bitVal_succ_ne g k (4 * j) 0 (by omega), bitVal_succ_ne g k (4 * j + 1) 1 (by omega),
      bitVal_succ_ne g k (4 * j + 2) 2 (by omega), bitVal_succ_ne g k (4 * j + 3) 3 (by omega)]

theorem nibble_zero (g : Game) (j : Nat) : nibbleUpTo g 0 j = 0 := by
  unfold nibbleUpTo
  rw [bitVal_ge g 0 _ 0 (Nat.zero_le _), bitVal_ge g 0 _ 1 (Nat.zero_le _),
    bitVal_ge g 0 _ 2 (Nat.zero_le _), bitVal_ge g 0 _ 3 (Nat.zero_le _)]

theorem sum_table : ∀ b0 b1 b2 b3 : Bool,
    (bif b0 then 2 ^ 0 else 0) + (bif b1 then 2 ^ 1 else 0) + (bif b2 then 2 ^ 2 else 0) +
      (bif b3 then 2 ^ 3 else 0) < 16 := by
  decide

theorem nibble_lt (g : Game) (k j : Nat) : nibbleUpTo g k j < 16 := by
  unfold nibbleUpTo
  obtain ⟨b0, h0⟩ := bitVal_bool g k (4 * j) 0
  obtain ⟨b1, h1⟩ := bitVal_bool g k (4 * j + 1) 1
  obtain ⟨b2, h2⟩ := bitVal_bool g k (4 * j + 2) 2
  obtain ⟨b3, h3⟩ := bitVal_bool g k (4 * j + 3) 3
  rw [h0, h1, h2, h3]
  exact sum_table b0 b1 b2 b3

/-- The state of the loops of `WriteLayoutAsBits` after `k` tiles. -/
theorem write_fold (g : Game) (n : Nat) (hn : n = (g.height_ * g.width_ + 3) / 4) :
    ∀ k, k ≤ g.height_ * g.width_ →
      ∃ p b, (List.range k).foldl (fun st (m : Nat) => writeStep g 16 st
          (((m % g.width_ : Nat) : Int) + 1, ((m / g.width_ : Nat) : Int) + 1))
          (List.replicate n 0, 0, 1) = ((List.range n).map (nibbleUpTo g k), p, b) ∧
        Cursor4 k p b := by
  intro k
  induction k with
  | zero =>
    intro _
    refine ⟨0, 1, ?_, cursor4_zero⟩
    simp only [List.range_zero, List.foldl_nil, Prod.mk.injEq, and_true]
    apply List.ext_getElem
    · simp
    · intro i h1 h2
      simp [nibble_zero]
  | succ k ih =>
    intro hk
    obtain ⟨p, b, e, hc⟩ := ih (by omega)
    obtain ⟨c1, c2, c3⟩ := cursor4_step k p b hc
    refine ⟨k / 4, (2 ^ (k % 4) <<< 1) % 4294967296, ?_, c3⟩
    rw [List.range_succ, List.foldl_append, e]
    simp only [List.foldl_cons, List.foldl_nil, writeStep, c1, c2, Prod.mk.injEq, and_true]
    have hlt : k / 4 < n := by omega
    apply List.ext_getElem
    · simp
    · intro i h1 h2
      have hi : i < n := by simpa using h2
      rw [List.getElem_set, List.getElem_map, List.getElem_map, List.getElem_range,
        nibble_step g k i, List.getD_eq_getElem _ _ (by simpa using hlt), List.getElem_map,
        List.getElem_range]
      by_cases hki : k / 4 = i
      · rw [if_pos hki, if_pos hki]
        subst hki
        simp [blockedAt]
      · rw [if_neg hki, if_neg hki]

theorem write_eq (g : Game) :
    g.WriteLayoutAsBits (List.replicate ((g.height_ * g.width_ + 3) / 4) 0) 4 =
      (List.range ((g.height_ * g.width_ + 3) / 4)).map (nibbleUpTo g (g.height_ * g.width_)) := by
  unfold Game.WriteLayoutAsBits
  rw [tiles_eq_map, List.foldl_map]
  obtain ⟨p, b, e, _⟩ := write_fold g _ rfl (g.height_ * g.width_) (le_refl _)
  have h16 : (1 <<< 4) % 4294967296 = 16 := by decide
  rw [h16, e]

/-- The characters of the encoding of a board of height and width below 16. -/
theorem save_eq (g : Game) (hH : g.height_ < 16) (hW : g.width_ < 16) :
    SaveToHexString g =
      String.mk ([alphabet.getD g.height_ (Char.ofNat 0), alphabet.getD g.width_ (Char.ofNat 0)] ++
        (List.range ((g.height_ * g.width_ + 3) / 4)).map (fun j =>
          alphabet.getD (nibbleUpTo g (g.height_ * g.width_) j) (Char.ofNat 0))) := by
  unfold SaveToHexString
  have hc : ¬ (g.Height ≥ 16 ∨ g.Width ≥ 16) := by
    unfold Game.Height Game.Width; omega
  rw [if_neg hc]
  have hn : g.LayoutByteSize 4 = (g.height_ * g.width_ + 3) / 4 := rfl
  have h2 : 2 + g.LayoutByteSize 4 = (g.height_ * g.width_ + 3) / 4 + 1 + 1 := by rw [hn]; omega
  simp only [h2, List.replicate_succ, List.set_cons_zero, List.set_cons_succ, List.take_succ_cons,
    List.take_zero, List.drop_succ_cons, List.drop_zero, List.map_replicate]
  have h0 : (Char.ofNat 0).toNat = 0 := by decide
  rw [h0, write_eq, List.map_map]
  rfl

/-! ## Decoding -/

theorem idx_inj (g : Game) {x y x' y' : Int} (hx0 : 0 ≤ x) (hx : x ≤ g.width_ + 1) (hy0 : 0 ≤ y)
    (hx0' : 0 ≤ x') (hx' : x' ≤ g.width_ + 1) (hy0' : 0 ≤ y')
    (h : g.idx x y = g.idx x' y') : x = x' ∧ y = y' := by
  rw [idx_of_nonneg g hx0 hy0, idx_of_nonneg g hx0' hy0'] at h
  have h1 : (x.toNat + (g.width_ + 2) * y.toNat) % (g.width_ + 2) = x.toNat := by
    rw [Nat.add_mul_mod_self_left, Nat.mod_eq_of_lt (by omega)]
  have h2 : (x'.toNat + (g.width_ + 2) * y'.toNat) % (g.width_ + 2) = x'.toNat := by
    rw [Nat.add_mul_mod_self_left, Nat.mod_eq_of_lt (by omega)]
  have h3 : (x.toNat + (g.width_ + 2) * y.toNat) / (g.width_ + 2) = y.toNat := by
    rw [Nat.add_mul_div_left _ _ (by omega), Nat.div_eq_of_lt (by omega), Nat.zero_add]
  have h4 : (x'.toNat + (g.width_ + 2) * y'.toNat) / (g.width_ + 2) = y'.toNat := by
    rw [Nat.add_mul_div_left _ _ (by omega), Nat.div_eq_of_lt (by omega), Nat.zero_add]
  rw [h] at h1 h3
  rw [h1] at h2
  rw [h3] at h4
  omega

theorem At_setAt (g : Game) (x y x' y' : Int) (s : State) :
    (g.setAt x y s).At x' y' = if g.idx x' y' = g.idx x y then s else g.At x' y' := rfl

theorem At_setAt_ne (g : Game) {x y x' y' : Int} (s : State) (hx0 : 0 ≤ x)
    (hx : x ≤ g.width_ + 1) (hy0 : 0 ≤ y) (hx0' : 0 ≤ x') (hx' : x' ≤ g.width_ + 1)
    (hy0' : 0 ≤ y') (hne : ¬ (x' = x ∧ y' = y)) : (g.setAt x y s).At x' y' = g.At x' y' := by
  rw [At_setAt, if_neg]
  intro h
  exact hne (idx_inj g hx0' hx' hy0' hx0 hx hy0 h)

theorem At_setAt_self (g : Game) (x y : Int) (s : State) : (g.setAt x y s).At x y = s := by
  rw [At_setAt, if_pos rfl]

theorem foldl_invariant {α β : Type} (P : β → Prop) (f : β → α → β) :
    ∀ (l : List α) (init : β), P init → (∀ b a, a ∈ l → P b → P (f b a)) → P (l.foldl f init) := by
  intro l
  induction l with
  | nil => intro init h _; exact h
  | cons a l ih =>
    intro init h hstep
    exact ih (f init a) (hstep init a (List.mem_cons_self _ _) h)
      (fun b a' ha' hb => hstep b a' (List.mem_cons_of_mem _ ha') hb)

/-- A fresh board has the given size, no game in progress and every playable tile `kOff`. -/
theorem new_fresh (h w : Nat) :
    (Game.new h w).height_ = h ∧ (Game.new h w).width_ = w ∧ (Game.new h w).x_ = 0 ∧
      (Game.new h w).y_ = 0 ∧
      ∀ x y : Int, 1 ≤ x → x ≤ w → 1 ≤ y → y ≤ h → (Game.new h w).At x y = State.kOff := by
  have step1 : ∀ (g : Game) (a : Nat), a ∈ List.range (w + 2) →
      (g.height_ = h ∧ g.width_ = w ∧ g.x_ = 0 ∧ g.y_ = 0 ∧
        ∀ x y : Int, 1 ≤ x → x ≤ w → 1 ≤ y → y ≤ h → g.At x y = State.kOff) →
      (((g.setAt (a : Int) ((h : Int) + 1) State.kBlocked).setAt (a : Int) 0
          State.kBlocked).height_ = h ∧
        ((g.setAt (a : Int) ((h : Int) + 1) State.kBlocked).setAt (a : Int) 0
          State.kBlocked).width_ = w ∧
        ((g.setAt (a : Int) ((h : Int) + 1) State.kBlocked).setAt (a : Int) 0
          State.kBlocked).x_ = 0 ∧
        ((g.setAt (a : Int) ((h : Int) + 1) State.kBlocked).setAt (a : Int) 0
          State.kBlocked).y_ = 0 ∧
        ∀ x y : Int, 1 ≤ x → x ≤ w → 1 ≤ y → y ≤ h →
          ((g.setAt (a : Int) ((h : Int) + 1) State.kBlocked).setAt (a : Int) 0
            State.kBlocked).At x y = State.kOff) := by
    intro g a ha ⟨h1, h2, h3, h4, h5⟩
    have ha' : a < w + 2 := List.mem_range.mp ha
    refine ⟨h1, h2, h3, h4, ?_⟩
    intro x y hx0 hx hy0 hy
    have hw1 : (g.setAt (a : Int) ((h : Int) + 1) State.kBlocked).width_ = g.width_ := rfl
    rw [At_setAt_ne _ _ (by omega) (by rw [hw1, h2]; first | done | omega) (by omega) (by omega)
      (by rw [hw1, h2]; first | done | omega) (by omega) (by omega),
      At_setAt_ne _ _ (by omega) (by rw [h2]; first | done | omega) (by omega) (by omega)
      (by rw [h2]; first | done | omega) (by omega) (by omega)]
    exact h5 x y hx0 hx hy0 hy
  have step2 : ∀ (g : Game) (a : Nat), a ∈ List.range h →
      (g.height_ = h ∧ g.width_ = w ∧ g.x_ = 0 ∧ g.y_ = 0 ∧
        ∀ x y : Int, 1 ≤ x → x ≤ w → 1 ≤ y → y ≤ h → g.At x y = State.kOff) →
      (((g.setAt ((w : Int) + 1) ((a : Int) + 1) State.kBlocked).setAt 0 ((a : Int) + 1)
          State.kBlocked).height_ = h ∧
        ((g.setAt ((w : Int) + 1) ((a : Int) + 1) State.kBlocked).setAt 0 ((a : Int) + 1)
          State.kBlocked).width_ = w ∧
        ((g.setAt ((w : Int) + 1) ((a : Int) + 1) State.kBlocked).setAt 0 ((a : Int) + 1)
          State.kBlocked).x_ = 0 ∧
        ((g.setAt ((w : Int) + 1) ((a : Int) + 1) State.kBlocked).setAt 0 ((a : Int) + 1)
          State.kBlocked).y_ = 0 ∧
        ∀ x y : Int, 1 ≤ x → x ≤ w → 1 ≤ y → y ≤ h →
          ((g.setAt ((w : Int) + 1) ((a : Int) + 1) State.kBlocked).setAt 0 ((a : Int) + 1)
            State.kBlocked).At x y = State.kOff) := by
    intro g a ha ⟨h1, h2, h3, h4, h5⟩
    have ha' : a < h := List.mem_range.mp ha
    refine ⟨h1, h2, h3, h4, ?_⟩
    intro x y hx0 hx hy0 hy
    have hw1 : (g.setAt ((w : Int) + 1) ((a : Int) + 1) State.kBlocked).width_ = g.width_ := rfl
    rw [At_setAt_ne _ _ (by omega) (by rw [hw1, h2]; first | done | omega) (by omega) (by omega)
      (by rw [hw1, h2]; first | done | omega) (by omega) (by omega),
      At_setAt_ne _ _ (by omega) (by rw [h2]) (by omega) (by omega)
      (by rw [h2]; first | done | omega) (by omega) (by omega)]
    exact h5 x y hx0 hx hy0 hy
  exact foldl_invariant (fun (g : Game) => g.height_ = h ∧ g.width_ = w ∧ g.x_ = 0 ∧ g.y_ = 0 ∧
      ∀ x y : Int, 1 ≤ x → x ≤ w → 1 ≤ y → y ≤ h → g.At x y = State.kOff) _ (List.range h) _
    (foldl_invariant (fun (g : Game) => g.height_ = h ∧ g.width_ = w ∧ g.x_ = 0 ∧ g.y_ = 0 ∧
      ∀ x y : Int, 1 ≤ x → x ≤ w → 1 ≤ y → y ≤ h → g.At x y = State.kOff) _ (List.range (w + 2)) _
      ⟨rfl, rfl, rfl, rfl, fun _ _ _ _ _ _ => rfl⟩ step1) step2

theorem parse_alphabet : ∀ v : Fin 16,
    parse_hex (alphabet.getD v.val (Char.ofNat 0)) = (v.val : Int) := by
  decide

theorem parseDigits_map (l : List Nat) (h : ∀ v ∈ l, v < 16) :
    parseDigits (l.map (fun v => alphabet.getD v (Char.ofNat 0))) = some l := by
  induction l with
  | nil => rfl
  | cons v l ih =>
    have hv : v < 16 := h v (List.mem_cons_self _ _)
    have hp := parse_alphabet ⟨v, hv⟩
    simp only at hp
    simp only [List.map_cons, parseDigits, hp]
    rw [if_neg (by omega), ih (fun v' hv' => h v' (List.mem_cons_of_mem _ hv'))]
    simp

theorem tile_bounds (H W m : Nat) (hm : m < H * W) : m % W < W ∧ m / W < H := by
  have hW : 0 < W := by
    rcases Nat.eq_zero_or_pos W with h | h
    · rw [h] at hm; simp at hm
    · exact h
  exact ⟨Nat.mod_lt _ hW, (Nat.div_lt_iff_lt_mul hW).mpr hm⟩

theorem tile_bounds_int (H W m : Nat) (hm : m < H * W) :
    (0 : Int) ≤ ((m % W : Nat) : Int) ∧ ((m % W : Nat) : Int) < (W : Int) ∧
      (0 : Int) ≤ ((m / W : Nat) : Int) ∧ ((m / W : Nat) : Int) < (H : Int) := by
  obtain ⟨h1, h2⟩ := tile_bounds H W m hm
  exact ⟨Int.natCast_nonneg _, by exact_mod_cast h1, Int.natCast_nonneg _, by exact_mod_cast h2⟩

theorem tile_inj (W m k : Nat) (h1 : m % W = k % W) (h2 : m / W = k / W) : m = k := by
  rw [← Nat.mod_add_div m W, ← Nat.mod_add_div k W, h1, h2]

theorem SetBlocked_eq (g : Game) (x y : Int) (hs : g.x_ = 0 ∧ g.y_ = 0) (hi : Interior g x y) :
    (g.SetBlocked x y).2 = g.setAt x y State.kBlocked := by
  unfold Game.SetBlocked
  have : g.HasStarted = false := by
    unfold Game.HasStarted; rw [hs.1]; rfl
  unfold Interior at hi
  rw [this, if_neg (by decide), if_pos hi]

/-- The state of the loop of `LoadLayoutFromBits` after `k` indices, from a fresh board. -/
theorem load_fold (src : List Nat) (H W : Nat) (g0 : Game)
    (h0 : g0.height_ = H ∧ g0.width_ = W ∧ g0.x_ = 0 ∧ g0.y_ = 0 ∧
      ∀ x y : Int, 1 ≤ x → x ≤ W → 1 ≤ y → y ≤ H → g0.At x y = State.kOff) :
    ∀ k, k ≤ H * W →
      ∃ gk p b, (List.range k).foldl (loadStep src 16) (g0, 0, 1) = (gk, p, b) ∧
        Cursor4 k p b ∧ gk.height_ = H ∧ gk.width_ = W ∧ gk.x_ = 0 ∧ gk.y_ = 0 ∧
        ∀ m, m < H * W →
          gk.At (((m % W : Nat) : Int) + 1) (((m / W : Nat) : Int) + 1) =
            if m < k ∧ (src.getD (m / 4) 0) &&& 2 ^ (m % 4) = 2 ^ (m % 4) then State.kBlocked
            else State.kOff := by
  intro k
  induction k with
  | zero =>
    intro _
    refine ⟨g0, 0, 1, rfl, cursor4_zero, h0.1, h0.2.1, h0.2.2.1, h0.2.2.2.1, ?_⟩
    intro m hm
    obtain ⟨b1, b2, b3, b4⟩ := tile_bounds_int H W m hm
    rw [if_neg (by omega)]
    exact h0.2.2.2.2 _ _ (by omega) (by omega) (by omega) (by omega)
  | succ k ih =>
    intro hk
    obtain ⟨gk, p, b, e, hc, d1, d2, d3, d4, hat⟩ := ih (by omega)
    obtain ⟨c1, c2, c3⟩ := cursor4_step k p b hc
    obtain ⟨kb1, kb2, kb3, kb4⟩ := tile_bounds_int H W k (by omega)
    rw [List.range_succ, List.foldl_append, e]
    simp only [List.foldl_cons, List.foldl_nil, loadStep, c1, c2]
    have hwid : gk.Width = W := d2
    rw [hwid]
    by_cases hbit : (src.getD (k / 4) 0) &&& 2 ^ (k % 4) = 2 ^ (k % 4)
    · rw [if_pos hbit]
      have hint : Interior gk (1 + ((k % W : Nat) : Int)) (1 + ((k / W : Nat) : Int)) := by
        unfold Interior; rw [d1, d2]; omega
      rw [SetBlocked_eq gk _ _ ⟨d3, d4⟩ hint]
      refine ⟨_, _, _, rfl, c3, d1, d2, d3, d4, ?_⟩
      intro m hm
      obtain ⟨b1, b2, b3, b4⟩ := tile_bounds_int H W m hm
      by_cases hmk : m = k
      · subst hmk
        rw [if_pos ⟨by omega, hbit⟩]
        have e1 : ((m % W : Nat) : Int) + 1 = 1 + ((m % W : Nat) : Int) := by ring
        have e2 : ((m / W : Nat) : Int) + 1 = 1 + ((m / W : Nat) : Int) := by ring
        rw [e1, e2, At_setAt_self]
      · rw [At_setAt_ne gk State.kBlocked (by omega) (by rw [d2]; omega) (by omega) (by omega)
          (by rw [d2]; omega) (by omega)
          (by
            intro hh
            apply hmk
            exact tile_inj W m k (by have := hh.1; omega) (by have := hh.2; omega)), hat m hm]
        have : m < k + 1 ↔ m < k := by omega
        simp only [this]
    · rw [if_neg hbit]
      refine ⟨_, _, _, rfl, c3, d1, d2, d3, d4, ?_⟩
      intro m hm
      rw [hat m hm]
      by_cases hmk : m = k
      · subst hmk
        rw [if_neg (by omega), if_neg (by tauto)]
      · have : m < k + 1 ↔ m < k := by omega
        simp only [this]

theorem and_table : ∀ b0 b1 b2 b3 : Bool,
    ((((bif b0 then 2 ^ 0 else 0) + (bif b1 then 2 ^ 1 else 0) + (bif b2 then 2 ^ 2 else 0) +
        (bif b3 then 2 ^ 3 else 0)) &&& 2 ^ 0 = 2 ^ 0) ↔ b0 = true) ∧
    ((((bif b0 then 2 ^ 0 else 0) + (bif b1 then 2 ^ 1 else 0) + (bif b2 then 2 ^ 2 else 0) +
        (bif b3 then 2 ^ 3 else 0)) &&& 2 ^ 1 = 2 ^ 1) ↔ b1 = true) ∧
    ((((bif b0 then 2 ^ 0 else 0) + (bif b1 then 2 ^ 1 else 0) + (bif b2 then 2 ^ 2 else 0) +
        (bif b3 then 2 ^ 3 else 0)) &&& 2 ^ 2 = 2 ^ 2) ↔ b2 = true) ∧
    ((((bif b0 then 2 ^ 0 else 0) + (bif b1 then 2 ^ 1 else 0) + (bif b2 then 2 ^ 2 else 0) +
        (bif b3 then 2 ^ 3 else 0)) &&& 2 ^ 3 = 2 ^ 3) ↔ b3 = true) := by
  decide

theorem bitVal_lt (g : Game) (k m i : Nat) (h : m < k) :
    bitVal g k m i = bif blockedAt g m then 2 ^ i else 0 := by
  unfold bitVal
  cases hb : blockedAt g m
  · rw [if_neg (by simp)]; rfl
  · rw [if_pos ⟨h, rfl⟩]; rfl

/-- The bit read back by `LoadLayoutFromBits` for tile `m` is the one written for it. -/
theorem nibble_bit (g : Game) (N m : Nat) (hm : m < N) :
    (nibbleUpTo g N (m / 4) &&& 2 ^ (m % 4) = 2 ^ (m % 4)) ↔ blockedAt g m = true := by
  unfold nibbleUpTo
  obtain ⟨b0, h0⟩ := bitVal_bool g N (4 * (m / 4)) 0
  obtain ⟨b1, h1⟩ := bitVal_bool g N (4 * (m / 4) + 1) 1
  obtain ⟨b2, h2⟩ := bitVal_bool g N (4 * (m / 4) + 2) 2
  obtain ⟨b3, h3⟩ := bitVal_bool g N (4 * (m / 4) + 3) 3
  have he : m % 4 = 0 ∨ m % 4 = 1 ∨ m % 4 = 2 ∨ m % 4 = 3 := by omega
  rcases he with he | he | he | he
  · have hk : 4 * (m / 4) = m := by omega
    rw [he, h1, h2, h3, hk, bitVal_lt g N m 0 hm]
    exact (and_table _ b1 b2 b3).1
  · have hk : 4 * (m / 4) + 1 = m := by omega
    rw [he, h0, h2, h3, hk, bitVal_lt g N m 1 hm]
    exact (and_table b0 _ b2 b3).2.1
  · have hk : 4 * (m / 4) + 2 = m := by omega
    rw [he, h0, h1, h3, hk, bitVal_lt g N m 2 hm]
    exact (and_table b0 b1 _ b3).2.2.1
  · have hk : 4 * (m / 4) + 3 = m := by omega
    rw [he, h0, h1, h2, hk, bitVal_lt g N m 3 hm]
    exact (and_table b0 b1 b2 _).2.2.2

/-- Decoding the encoding of a board of height and width below 16. -/
theorem load_save (g : Game) (hH : g.height_ < 16) (hW : g.width_ < 16) :
    ∃ g', LoadFromHexString (SaveToHexString g) = some g' ∧
      g'.height_ = g.height_ ∧ g'.width_ = g.width_ ∧ g'.x_ = 0 ∧ g'.y_ = 0 ∧
      ∀ m, m < g.height_ * g.width_ →
        g'.At (((m % g.width_ : Nat) : Int) + 1) (((m / g.width_ : Nat) : Int) + 1) =
          if blockedAt g m = true then State.kBlocked else State.kOff := by
  have hfresh := new_fresh g.height_ g.width_
  obtain ⟨gk, p, b, e, _, d1, d2, d3, d4, hat⟩ :=
    load_fold ((List.range ((g.height_ * g.width_ + 3) / 4)).map
      (nibbleUpTo g (g.height_ * g.width_))) g.height_ g.width_ (Game.new g.height_ g.width_)
      hfresh (g.height_ * g.width_) (le_refl _)
  refine ⟨gk, ?_, d1, d2, d3, d4, ?_⟩
  · rw [save_eq g hH hW]
    unfold LoadFromHexString
    have hpH := parse_alphabet ⟨g.height_, hH⟩
    have hpW := parse_alphabet ⟨g.width_, hW⟩
    simp only at hpH hpW
    have hlen : (String.mk ([alphabet.getD g.height_ (Char.ofNat 0),
        alphabet.getD g.width_ (Char.ofNat 0)] ++
        (List.range ((g.height_ * g.width_ + 3) / 4)).map (fun j =>
          alphabet.getD (nibbleUpTo g (g.height_ * g.width_) j) (Char.ofNat 0)))).length =
        2 + (g.height_ * g.width_ + 3) / 4 := by
      simp [String.length]; omega
    have hsize : (Game.new g.height_ g.width_).LayoutByteSize 4 =
        (g.height_ * g.width_ + 3) / 4 := by
      unfold Game.LayoutByteSize Game.Height Game.Width
      rw [hfresh.1, hfresh.2.1]
    have hdig : parseDigits ((List.range ((g.height_ * g.width_ + 3) / 4)).map (fun j =>
          alphabet.getD (nibbleUpTo g (g.height_ * g.width_) j) (Char.ofNat 0))) =
        some ((List.range ((g.height_ * g.width_ + 3) / 4)).map
          (nibbleUpTo g (g.height_ * g.width_))) := by
      rw [← parseDigits_map _ (by
        intro v hv
        obtain ⟨j, _, rfl⟩ := List.mem_map.mp hv
        exact nibble_lt g _ j), List.map_map]
      rfl
    rw [if_neg (by rw [hlen]; omega)]
    simp only [List.cons_append, List.nil_append, List.getD_cons_zero, List.getD_cons_succ, hpH, hpW,
      Int.toNat_natCast, hlen, hsize, List.drop_succ_cons, List.drop_zero, hdig]
    rw [if_neg (by omega), if_neg (by simp; omega)]
    simp only [Option.some.injEq]
    unfold Game.LoadLayoutFromBits Game.Height Game.Width
    rw [hfresh.1, hfresh.2.1]
    have h16 : (1 <<< 4) % 4294967296 = 16 := by decide
    rw [h16, e]
  · intro m hm
    rw [hat m hm]
    have hlt : m / 4 < (g.height_ * g.width_ + 3) / 4 := by omega
    rw [List.getD_eq_getElem _ _ (by simpa using hlt), List.getElem_map, List.getElem_range]
    by_cases hb : blockedAt g m = true
    · rw [if_pos hb, if_pos ⟨hm, (nibble_bit g _ m hm).mpr hb⟩]
    · rw [if_neg hb, if_neg]
      intro h
      exact hb ((nibble_bit g _ m hm).mp h.2)

/-! ## The codec: the claims -/

theorem alphabet_upper : ∀ v : Fin 16, alphabet.getD v.val (Char.ofNat 0) = upperHexDigit v.val := by
  decide

theorem packedValue_lsb (g : Game) (j : Nat) :
    packedValue g j (fun i => 2 ^ i) = nibbleUpTo g (g.height_ * g.width_) j := by
  unfold packedValue nibbleUpTo bitVal Game.Height Game.Width
  have h4 : List.range 4 = [0, 1, 2, 3] := by decide
  rw [h4]
  simp only [List.map_cons, List.map_nil, List.sum_cons, List.sum_nil, Nat.add_zero]
  omega

theorem save_data (g : Game) (hH : g.height_ < 16) (hW : g.width_ < 16) :
    (SaveToHexString g).length = 2 + (g.height_ * g.width_ + 3) / 4 ∧
    (SaveToHexString g).data.getD 0 (Char.ofNat 0) = upperHexDigit g.height_ ∧
    (SaveToHexString g).data.getD 1 (Char.ofNat 0) = upperHexDigit g.width_ ∧
    ∀ j, j < (g.height_ * g.width_ + 3) / 4 →
      (SaveToHexString g).data.getD (2 + j) (Char.ofNat 0) =
        upperHexDigit (nibbleUpTo g (g.height_ * g.width_) j) := by
  rw [save_eq g hH hW]
  refine ⟨by simp [String.length]; omega, ?_, ?_, ?_⟩
  · exact alphabet_upper ⟨g.height_, hH⟩
  · exact alphabet_upper ⟨g.width_, hW⟩
  · intro j hj
    have h2 : 2 + j = j + 1 + 1 := by omega
    simp only [List.cons_append, List.nil_append, h2, List.getD_cons_succ]
    rw [List.getD_eq_getElem _ _ (by simpa using hj), List.getElem_map, List.getElem_range]
    exact alphabet_upper ⟨_, nibble_lt g _ j⟩

theorem interior_tile (g : Game) (x y : Int) (h : Interior g x y) :
    ∃ m, m < g.height_ * g.width_ ∧ ((m % g.width_ : Nat) : Int) + 1 = x ∧
      ((m / g.width_ : Nat) : Int) + 1 = y := by
  unfold Interior at h
  have hW : 0 < g.width_ := by omega
  have hx : (x - 1).toNat < g.width_ := by omega
  have hy : (y - 1).toNat < g.height_ := by omega
  refine ⟨(x - 1).toNat + g.width_ * (y - 1).toNat, ?_, ?_, ?_⟩
  · have : g.width_ * (y - 1).toNat + g.width_ ≤ g.width_ * g.height_ := by
      rw [← Nat.mul_succ]; exact Nat.mul_le_mul_left _ hy
    rw [Nat.mul_comm g.height_]; omega
  · rw [Nat.add_mul_mod_self_left, Nat.mod_eq_of_lt hx]; omega
  · rw [Nat.add_mul_div_left _ _ hW, Nat.div_eq_of_lt hx, Nat.zero_add]; omega

/-- C8: for heights and widths from 1 to 15, decoding the encoding of a board yields a board of
the same height and width with no game in progress, whose playable tiles are `kBlocked` exactly
where the original ones are and `kOff` elsewhere; it is tile for tile the original when the
original has no `kOn` tile (as when no game is in progress). -/
theorem load_save_round_trip (g : Game) (hH1 : 1 ≤ g.Height) (hH : g.Height ≤ 15)
    (hW1 : 1 ≤ g.Width) (hW : g.Width ≤ 15) :
    ∃ g', LoadFromHexString (SaveToHexString g) = some g' ∧
      g'.Height = g.Height ∧ g'.Width = g.Width ∧ g'.HasStarted = false ∧
      (∀ x y : Int, Interior g x y →
        g'.At x y = if g.At x y = State.kBlocked then State.kBlocked else State.kOff) ∧
      ((∀ x y : Int, Interior g x y → g.At x y ≠ State.kOn) →
        ∀ x y : Int, Interior g x y → g'.At x y = g.At x y) := by
  unfold Game.Height at hH1 hH
  unfold Game.Width at hW1 hW
  obtain ⟨g', e, d1, d2, d3, d4, hat⟩ := load_save g (by omega) (by omega)
  have key : ∀ x y : Int, Interior g x y →
      g'.At x y = if g.At x y = State.kBlocked then State.kBlocked else State.kOff := by
    intro x y hi
    obtain ⟨m, hm, rfl, rfl⟩ := interior_tile g x y hi
    rw [hat m hm]
    unfold blockedAt
    simp only [decide_eq_true_eq]
  refine ⟨g', e, d1, d2, ?_, key, ?_⟩
  · unfold Game.HasStarted; rw [d3]; rfl
  · intro hon x y hi
    rw [key x y hi]
    have := hon x y hi
    cases hs : g.At x y with
    | kOff => simp
    | kOn => exact absurd hs this
    | kBlocked => simp

/-- C9 (amended): for heights and widths from 1 to 15, the character at index `2 + j` of the
encoding is the uppercase hex digit of the sum, over `i` in `0..3` with `4 * j + i < H * W`, of
`2 ^ i` if tile `4 * j + i` (row-major) is blocked: the first tile of each group of four is the
least significant bit. -/
theorem save_packs_lsb_first (g : Game) (hH1 : 1 ≤ g.Height) (hH : g.Height ≤ 15)
    (hW1 : 1 ≤ g.Width) (hW : g.Width ≤ 15) (j : Nat)
    (hj : j < (g.Height * g.Width + 3) / 4) :
    (SaveToHexString g).data.getD (2 + j) (Char.ofNat 0) =
      upperHexDigit (packedValue g j (fun i => 2 ^ i)) := by
  unfold Game.Height at hH1 hH hj
  unfold Game.Width at hW1 hW hj
  rw [packedValue_lsb]
  exact (save_data g (by omega) (by omega)).2.2.2 j hj

/-- C9 as stated fails: on the 1 x 4 board whose only blocked tile is `(1, 1)` the encoding is
`141`, whereas most-significant-bit-first packing gives the digit `8` at index 2. -/
theorem save_not_msb_first :
    SaveToHexString row1x4 = "141" ∧
      upperHexDigit (packedValue row1x4 0 (fun i => 2 ^ (3 - i))) = '8' ∧
      ¬ ((SaveToHexString row1x4).data.getD (2 + 0) (Char.ofNat 0) =
        upperHexDigit (packedValue row1x4 0 (fun i => 2 ^ (3 - i)))) := by
  decide

/-- C10: for heights and widths from 1 to 15, the encoding has exactly `2 + ceil(H * W / 4)`
characters, the first two are the uppercase hex digits of the height and of the width, every
other one is an uppercase hex digit, and all of those are `0` when no playable tile is
blocked. -/
theorem save_text_format (g : Game) (hH1 : 1 ≤ g.Height) (hH : g.Height ≤ 15)
    (hW1 : 1 ≤ g.Width) (hW : g.Width ≤ 15) :
    ∃ n, 4 * n < g.Height * g.Width + 4 ∧ g.Height * g.Width ≤ 4 * n ∧
      (SaveToHexString g).length = 2 + n ∧
      (SaveToHexString g).data.getD 0 (Char.ofNat 0) = upperHexDigit g.Height ∧
      (SaveToHexString g).data.getD 1 (Char.ofNat 0) = upperHexDigit g.Width ∧
      (∀ i, 2 ≤ i → i < 2 + n →
        ∃ v, v < 16 ∧ (SaveToHexString g).data.getD i (Char.ofNat 0) = upperHexDigit v) ∧
      ((∀ x y : Int, Interior g x y → g.At x y ≠ State.kBlocked) →
        ∀ i, 2 ≤ i → i < 2 + n → (SaveToHexString g).data.getD i (Char.ofNat 0) = '0') := by
  unfold Game.Height at hH1 hH ⊢
  unfold Game.Width at hW1 hW ⊢
  obtain ⟨h1, h2, h3, h4⟩ := save_data g (by omega) (by omega)
  refine ⟨(g.height_ * g.width_ + 3) / 4, by omega, by omega, h1, h2, h3, ?_, ?_⟩
  · intro i hi1 hi2
    have hi : i = 2 + (i - 2) := by omega
    rw [hi, h4 (i - 2) (by omega)]
    exact ⟨_, nibble_lt g _ _, rfl⟩
  · intro hnb i hi1 hi2
    have hi : i = 2 + (i - 2) := by omega
    rw [hi, h4 (i - 2) (by omega)]
    have hz : nibbleUpTo g (g.height_ * g.width_) (i - 2) = 0 := by
      have hb : ∀ m i', bitVal g (g.height_ * g.width_) m i' = 0 := by
        intro m i'
        unfold bitVal
        rw [if_neg]
        rintro ⟨hm, hbl⟩
        obtain ⟨b1, b2, b3, b4⟩ := tile_bounds_int g.height_ g.width_ m hm
        unfold blockedAt at hbl
        simp only [decide_eq_true_eq] at hbl
        exact hnb _ _ (by unfold Interior; omega) hbl
      unfold nibbleUpTo
      rw [hb, hb, hb, hb]
    rw [hz]
    decide

theorem load_save_round_trip_witness :
    1 ≤ row1x4.Height ∧ row1x4.Height ≤ 15 ∧ 1 ≤ row1x4.Width ∧ row1x4.Width ≤ 15 ∧
    ∃ g', LoadFromHexString (SaveToHexString row1x4) = some g' ∧
      g'.Height = row1x4.Height ∧ g'.Width = row1x4.Width ∧ g'.HasStarted = false ∧
      (∀ x y : Int, Interior row1x4 x y →
        g'.At x y = if row1x4.At x y = State.kBlocked then State.kBlocked else State.kOff) ∧
      ((∀ x y : Int, Interior row1x4 x y → row1x4.At x y ≠ State.kOn) →
        ∀ x y : Int, Interior row1x4 x y → g'.At x y = row1x4.At x y) :=
  ⟨by decide, by decide, by decide, by decide,
    load_save_round_trip row1x4 (by decide) (by decide) (by decide) (by decide)⟩

theorem save_packs_lsb_first_witness :
    1 ≤ row1x4.Height ∧ row1x4.Height ≤ 15 ∧ 1 ≤ row1x4.Width ∧ row1x4.Width ≤ 15 ∧
    0 < (row1x4.Height * row1x4.Width + 3) / 4 ∧
    (SaveToHexString row1x4).data.getD (2 + 0) (Char.ofNat 0) =
      upperHexDigit (packedValue row1x4 0 (fun i => 2 ^ i)) ∧
    upperHexDigit (packedValue row1x4 0 (fun i => 2 ^ i)) = '1' :=
  ⟨by decide, by decide, by decide, by decide, by decide,
    save_packs_lsb_first row1x4 (by decide) (by decide) (by decide) (by decide) 0 (by decide),
    by decide⟩

theorem save_text_format_witness :
    1 ≤ (Game.new 5 7).Height ∧ (Game.new 5 7).Height ≤ 15 ∧ 1 ≤ (Game.new 5 7).Width ∧
    (Game.new 5 7).Width ≤ 15 ∧ SaveToHexString (Game.new 5 7) = "57000000000" ∧
    ∃ n, 4 * n < (Game.new 5 7).Height * (Game.new 5 7).Width + 4 ∧
      (Game.new 5 7).Height * (Game.new 5 7).Width ≤ 4 * n ∧
      (SaveToHexString (Game.new 5 7)).length = 2 + n ∧
      (SaveToHexString (Game.new 5 7)).data.getD 0 (Char.ofNat 0) =
        upperHexDigit (Game.new 5 7).Height ∧
      (SaveToHexString (Game.new 5 7)).data.getD 1 (Char.ofNat 0) =
        upperHexDigit (Game.new 5 7).Width ∧
      (∀ i, 2 ≤ i → i < 2 + n →
        ∃ v, v < 16 ∧
          (SaveToHexString (Game.new 5 7)).data.getD i (Char.ofNat 0) = upperHexDigit v) ∧
      ((∀ x y : Int, Interior (Game.new 5 7) x y → (Game.new 5 7).At x y ≠ State.kBlocked) →
        ∀ i, 2 ≤ i → i < 2 + n →
          (SaveToHexString (Game.new 5 7)).data.getD i (Char.ofNat 0) = '0') :=
  ⟨by decide, by decide, by decide, by decide, by decide,
    save_text_format (Game.new 5 7) (by decide) (by decide) (by decide) (by decide)⟩

/-! ## The codec: rejected inputs -/

theorem char_le_iff (a c : Char) : a ≤ c ↔ a.toNat ≤ c.toNat := by
  rw [Char.le_def]
  exact Iff.rfl

theorem parse_hex_of_hex (c : Char) (h : IsHexDigit c) :
    parse_hex c = (hexValue c : Int) ∧ hexValue c < 16 := by
  unfold parse_hex hexValue
  unfold IsHexDigit at h
  have e0 : '0'.toNat = 48 := rfl
  have e9 : '9'.toNat = 57 := rfl
  have ea : 'a'.toNat = 97 := rfl
  have ef : 'f'.toNat = 102 := rfl
  have eA : 'A'.toNat = 65 := rfl
  have eF : 'F'.toNat = 70 := rfl
  by_cases h1 : '0' ≤ c ∧ c ≤ '9'
  · rw [if_pos h1, if_pos h1]
    rw [char_le_iff, char_le_iff, e0, e9] at h1
    rw [e0]; omega
  · rw [if_neg h1, if_neg h1]
    by_cases h2 : 'a' ≤ c ∧ c ≤ 'f'
    · rw [if_pos h2, if_pos h2]
      rw [char_le_iff, char_le_iff, ea, ef] at h2
      rw [ea]; omega
    · rw [if_neg h2, if_neg h2]
      by_cases h3 : 'A' ≤ c ∧ c ≤ 'F'
      · rw [if_pos h3, if_pos h3]
        rw [char_le_iff, char_le_iff, eA, eF] at h3
        rw [eA]; omega
      · exact absurd h (by tauto)

theorem parse_hex_of_not_hex (c : Char) (h : ¬ IsHexDigit c) : parse_hex c = -1 := by
  unfold parse_hex
  unfold IsHexDigit at h
  rw [if_neg (by tauto), if_neg (by tauto), if_neg (by tauto)]

theorem parse_hex_eq_neg_one_iff (c : Char) : parse_hex c = -1 ↔ ¬ IsHexDigit c := by
  constructor
  · intro h hc
    have := (parse_hex_of_hex c hc).1
    omega
  · exact parse_hex_of_not_hex c

theorem parseDigits_eq_some_iff (l : List Char) :
    (∃ ds, parseDigits l = some ds) ↔ ∀ c ∈ l, IsHexDigit c := by
  induction l with
  | nil => simp [parseDigits]
  | cons c cs ih =>
    simp only [parseDigits, List.mem_cons, forall_eq_or_imp]
    by_cases hc : parse_hex c = -1
    · rw [if_pos hc]
      have := (parse_hex_eq_neg_one_iff c).mp hc
      simp [this]
    · rw [if_neg hc]
      have hc' : IsHexDigit c := by
        by_contra h
        exact hc (parse_hex_of_not_hex c h)
      rw [← ih]
      constructor
      · rintro ⟨ds, h⟩
        cases hp : parseDigits cs with
        | none => rw [hp] at h; simp at h
        | some ds' => exact ⟨hc', ds', rfl⟩
      · rintro ⟨_, ds', h⟩
        exact ⟨_, by rw [h]; rfl⟩

/-- C11: for every board of height or width at least 16, whatever its layout, the encoding is
the sentinel `[layout too large]`, and decoding that sentinel yields no board. -/
theorem save_too_large (g : Game) (h : 16 ≤ g.Height ∨ 16 ≤ g.Width) :
    SaveToHexString g = "[layout too large]" ∧ LoadFromHexString "[layout too large]" = none := by
  refine ⟨?_, Option.isNone_iff_eq_none.mp (by decide)⟩
  unfold SaveToHexString
  rw [if_pos h]

theorem save_too_large_witness :
    (16 ≤ tall16x1.Height ∨ 16 ≤ tall16x1.Width) ∧
      SaveToHexString tall16x1 = "[layout too large]" ∧
      LoadFromHexString "[layout too large]" = none :=
  ⟨by decide, save_too_large tall16x1 (by decide)⟩

theorem new_layoutByteSize (h w : Nat) : (Game.new h w).LayoutByteSize 4 = (h * w + 3) / 4 := by
  unfold Game.LayoutByteSize Game.Height Game.Width
  rw [(new_fresh h w).1, (new_fresh h w).2.1]

/-- The board built by `LoadLayoutFromBits` on a fresh board, whatever the input array. -/
theorem load_layout_fresh (h w : Nat) (src : List Nat) :
    ((Game.new h w).LoadLayoutFromBits src 4).height_ = h ∧
    ((Game.new h w).LoadLayoutFromBits src 4).width_ = w ∧
    ((Game.new h w).LoadLayoutFromBits src 4).x_ = 0 ∧
    ((Game.new h w).LoadLayoutFromBits src 4).y_ = 0 ∧
    ∀ x y : Int, Interior ((Game.new h w).LoadLayoutFromBits src 4) x y →
      ((Game.new h w).LoadLayoutFromBits src 4).At x y = State.kOff ∨
      ((Game.new h w).LoadLayoutFromBits src 4).At x y = State.kBlocked := by
  obtain ⟨gk, p, b, e, _, d1, d2, d3, d4, hat⟩ :=
    load_fold src h w (Game.new h w) (new_fresh h w) (h * w) (le_refl _)
  have hg : (Game.new h w).LoadLayoutFromBits src 4 = gk := by
    unfold Game.LoadLayoutFromBits Game.Height Game.Width
    rw [(new_fresh h w).1, (new_fresh h w).2.1]
    have h16 : (1 <<< 4) % 4294967296 = 16 := by decide
    rw [h16, e]
  rw [hg]
  refine ⟨d1, d2, d3, d4, ?_⟩
  intro x y hi
  obtain ⟨m, hm, rfl, rfl⟩ := interior_tile gk x y hi
  rw [d1, d2] at hm
  have := hat m hm
  rw [d2]
  rw [this]
  split
  · exact Or.inr rfl
  · exact Or.inl rfl

/-- C12: `LoadFromHexString` returns a board exactly for the texts of at least two characters
whose first two characters are hex digits (either case) of values `h` and `w`, whose length is
`2 + ceil(h * w / 4)`, and whose other characters are hex digits; the board then has height
`h`, width `w`, no game in progress, and every playable tile `kOff` or `kBlocked`. -/
theorem load_accepts_exactly (s : String) :
    ((∃ g, LoadFromHexString s = some g) ↔
      (2 ≤ s.length ∧ IsHexDigit (s.data.getD 0 (Char.ofNat 0)) ∧
        IsHexDigit (s.data.getD 1 (Char.ofNat 0)) ∧
        s.length = 2 + (hexValue (s.data.getD 0 (Char.ofNat 0)) *
          hexValue (s.data.getD 1 (Char.ofNat 0)) + 3) / 4 ∧
        ∀ c ∈ s.data.drop 2, IsHexDigit c)) ∧
    ((LoadFromHexString s = none) ↔
      (s.length < 2 ∨ ¬ IsHexDigit (s.data.getD 0 (Char.ofNat 0)) ∨
        ¬ IsHexDigit (s.data.getD 1 (Char.ofNat 0)) ∨
        s.length ≠ 2 + (hexValue (s.data.getD 0 (Char.ofNat 0)) *
          hexValue (s.data.getD 1 (Char.ofNat 0)) + 3) / 4 ∨
        ∃ c ∈ s.data.drop 2, ¬ IsHexDigit c)) ∧
    ∀ g, LoadFromHexString s = some g →
      g.Height = hexValue (s.data.getD 0 (Char.ofNat 0)) ∧
      g.Width = hexValue (s.data.getD 1 (Char.ofNat 0)) ∧ g.HasStarted = false ∧
      ∀ x y : Int, Interior g x y → g.At x y = State.kOff ∨ g.At x y = State.kBlocked := by
  have key : (2 ≤ s.length ∧ IsHexDigit (s.data.getD 0 (Char.ofNat 0)) ∧
        IsHexDigit (s.data.getD 1 (Char.ofNat 0)) ∧
        s.length = 2 + (hexValue (s.data.getD 0 (Char.ofNat 0)) *
          hexValue (s.data.getD 1 (Char.ofNat 0)) + 3) / 4 ∧
        ∀ c ∈ s.data.drop 2, IsHexDigit c) ∧
      (∃ src, LoadFromHexString s = some ((Game.new (hexValue (s.data.getD 0 (Char.ofNat 0)))
        (hexValue (s.data.getD 1 (Char.ofNat 0)))).LoadLayoutFromBits src 4)) ∨
      ¬ (2 ≤ s.length ∧ IsHexDigit (s.data.getD 0 (Char.ofNat 0)) ∧
        IsHexDigit (s.data.getD 1 (Char.ofNat 0)) ∧
        s.length = 2 + (hexValue (s.data.getD 0 (Char.ofNat 0)) *
          hexValue (s.data.getD 1 (Char.ofNat 0)) + 3) / 4 ∧
        ∀ c ∈ s.data.drop 2, IsHexDigit c) ∧ LoadFromHexString s = none := by
    unfold LoadFromHexString
    by_cases h1 : s.length < 2
    · right
      rw [if_pos h1]
      exact ⟨fun h => by omega, rfl⟩
    rw [if_neg h1]
    by_cases h2 : IsHexDigit (s.data.getD 0 (Char.ofNat 0))
    swap
    · right
      simp only [parse_hex_of_not_hex _ h2, true_or, if_true]
      exact ⟨fun h => h2 h.2.1, trivial⟩
    by_cases h3 : IsHexDigit (s.data.getD 1 (Char.ofNat 0))
    swap
    · right
      simp only [parse_hex_of_not_hex _ h3, or_true, if_true]
      exact ⟨fun h => h3 h.2.2.1, trivial⟩
    obtain ⟨p0, _⟩ := parse_hex_of_hex _ h2
    obtain ⟨p1, _⟩ := parse_hex_of_hex _ h3
    simp only [p0, p1, Int.toNat_natCast, new_layoutByteSize]
    rw [if_neg (by omega)]
    by_cases h4 : s.length = 2 + (hexValue (s.data.getD 0 (Char.ofNat 0)) *
          hexValue (s.data.getD 1 (Char.ofNat 0)) + 3) / 4
    swap
    · right
      rw [if_pos h4]
      exact ⟨fun h => h4 h.2.2.2.1, rfl⟩
    rw [if_neg (not_not.mpr h4)]
    cases hp : parseDigits (s.data.drop 2) with
    | none =>
      right
      refine ⟨fun h => ?_, rfl⟩
      obtain ⟨ds, hds⟩ := (parseDigits_eq_some_iff _).mpr h.2.2.2.2
      rw [hp] at hds
      exact absurd hds (by simp)
    | some src =>
      left
      exact ⟨⟨by omega, h2, h3, h4, (parseDigits_eq_some_iff _).mp ⟨src, hp⟩⟩, src, rfl⟩
  refine ⟨?_, ?_, ?_⟩
  · rcases key with ⟨ha, src, e⟩ | ⟨hna, e⟩
    · exact ⟨fun _ => ha, fun _ => ⟨_, e⟩⟩
    · constructor
      · rintro ⟨g, hg⟩
        rw [e] at hg
        exact absurd hg (by simp)
      · intro h; exact absurd h hna
  · rcases key with ⟨ha, src, e⟩ | ⟨hna, e⟩
    · constructor
      · intro h
        rw [e] at h
        exact absurd h (by simp)
      · rintro (h | h | h | h | ⟨c, hc, h⟩)
        · omega
        · exact absurd ha.2.1 h
        · exact absurd ha.2.2.1 h
        · exact absurd ha.2.2.2.1 h
        · exact absurd (ha.2.2.2.2 c hc) h
    · refine ⟨fun _ => ?_, fun _ => e⟩
      by_contra hcon
      apply hna
      simp only [not_or, not_lt, not_not, ne_eq, not_exists, not_and] at hcon
      exact ⟨hcon.1, hcon.2.1, hcon.2.2.1, hcon.2.2.2.1, hcon.2.2.2.2⟩
  · intro g hg
    rcases key with ⟨ha, src, e⟩ | ⟨hna, e⟩
    · rw [e] at hg
      simp only [Option.some.injEq] at hg
      subst hg
      obtain ⟨d1, d2, d3, d4, hat⟩ := load_layout_fresh (hexValue (s.data.getD 0 (Char.ofNat 0)))
        (hexValue (s.data.getD 1 (Char.ofNat 0))) src
      refine ⟨d1, d2, ?_, hat⟩
      unfold Game.HasStarted
      rw [d3]; rfl
    · rw [e] at hg
      exact absurd hg (by simp)

/-! ## Start, SetBlocked, invalid moves: the claims -/

theorem validDirs_not_started (g : Game) (h : g.HasStarted = false) : g.ValidDirs = kNone := by
  unfold Game.ValidDirs
  rw [h]
  rfl

/-- C15: a single direction that is not a member of `ValidDirs()`, as is every direction when no
game is in progress, is rejected by `Move` and by `MoveFast`: both return `false` and leave the
game, board and cursor, exactly as it was. -/
theorem invalid_move_rejected (g : Game) (d : Dir) (hd : Single d)
    (h : g.HasStarted = false ∨ d &&& g.ValidDirs ≠ d) :
    d &&& g.ValidDirs ≠ d ∧ g.Move d = .ok (false, g) ∧ g.MoveFast d = .ok (false, g) := by
  have hv : d &&& g.ValidDirs ≠ d := by
    rcases h with h | h
    · rw [validDirs_not_started g h]
      intro hz
      exact single_ne_zero d hd (by simpa [kNone] using hz.symm)
    · exact h
  refine ⟨hv, ?_, ?_⟩
  · unfold Game.Move
    by_cases hs : g.HasStarted = true
    · simp only [hs, Bool.not_true, Bool.false_eq_true, if_false, hv, ne_eq, not_false_eq_true,
        if_true]
    · simp [hs]
  · unfold Game.MoveFast
    by_cases hs : g.HasStarted = true
    · simp only [hs, Bool.not_true, Bool.false_eq_true, if_false, hv, ne_eq, not_false_eq_true,
        if_true]
    · simp [hs]

/-- C17: `Start(x, y)` returns `true` exactly when no game is in progress, `(x, y)` is a playable
coordinate and the tile there is `kOff`; it then puts the cursor at `(x, y)`, turns that tile
`kOn` and leaves every other tile of the live area as it was; when it returns `false` the game
is unchanged. -/
theorem start_exactly_when_allowed (g : Game) (x y : Int) :
    ((g.Start x y).1 = true ↔
      (g.HasStarted = false ∧ 1 ≤ x ∧ x ≤ g.Width ∧ 1 ≤ y ∧ y ≤ g.Height ∧
        g.At x y = State.kOff)) ∧
    ((g.Start x y).1 = true →
      (g.Start x y).2.X = x ∧ (g.Start x y).2.Y = y ∧
      (g.Start x y).2.Height = g.Height ∧ (g.Start x y).2.Width = g.Width ∧
      (g.Start x y).2.At x y = State.kOn ∧
      (∀ i, i < g.RawSize → i ≠ g.idx x y → (g.Start x y).2.board_ i = g.board_ i) ∧
      (∀ x' y' : Int, 0 ≤ x' → x' ≤ g.Width + 1 → 0 ≤ y' → y' ≤ g.Height + 1 →
        ¬ (x' = x ∧ y' = y) → (g.Start x y).2.At x' y' = g.At x' y')) ∧
    ((g.Start x y).1 = false → (g.Start x y).2 = g) := by
  refine ⟨?_, ?_, Start_false g x y⟩
  · rw [Start_true_iff]
    unfold Interior Game.Width Game.Height
    tauto
  · intro h
    obtain ⟨f1, f2, f3, f4, f5⟩ := Start_fields g x y h
    obtain ⟨_, hint, _⟩ := (Start_true_iff g x y).mp h
    unfold Interior at hint
    have hidx : ∀ a b : Int, (g.Start x y).2.idx a b = g.idx a b := by
      intro a b; unfold Game.idx; rw [f2]
    have hlt : g.idx x y < g.RawSize := idx_lt g (by omega) (by omega) (by omega) (by omega)
    refine ⟨f3, f4, f1, f2, ?_, ?_, ?_⟩
    · unfold Game.At
      rw [hidx, Start_board g x y h, if_pos rfl]
    · intro i hi hne
      rw [Start_board g x y h, if_neg hne, if_neg (by omega)]
    · intro x' y' hx0 hx hy0 hy hne
      unfold Game.Width at hx
      unfold Game.Height at hy
      have hlt' : g.idx x' y' < g.RawSize := idx_lt g hx0 hx hy0 hy
      unfold Game.At
      rw [hidx, Start_board g x y h, if_neg, if_neg (by omega)]
      intro he
      exact hne (idx_inj g hx0 hx hy0 (by omega) (by omega) (by omega) he)

/-- C18: `SetBlocked(x, y)` returns `true` exactly when no game is in progress and `(x, y)` is a
playable coordinate; it then makes that tile `kBlocked` and leaves every other tile and the
cursor as they were; when it returns `false` the game is unchanged. -/
theorem setBlocked_exactly_when_allowed (g : Game) (x y : Int) :
    ((g.SetBlocked x y).1 = true ↔
      (g.HasStarted = false ∧ 1 ≤ x ∧ x ≤ g.Width ∧ 1 ≤ y ∧ y ≤ g.Height)) ∧
    ((g.SetBlocked x y).1 = true →
      (g.SetBlocked x y).2.X = g.X ∧ (g.SetBlocked x y).2.Y = g.Y ∧
      (g.SetBlocked x y).2.Height = g.Height ∧ (g.SetBlocked x y).2.Width = g.Width ∧
      (g.SetBlocked x y).2.At x y = State.kBlocked ∧
      (∀ i, i ≠ g.idx x y → (g.SetBlocked x y).2.board_ i = g.board_ i) ∧
      (∀ x' y' : Int, 0 ≤ x' → x' ≤ g.Width + 1 → 0 ≤ y' → y' ≤ g.Height + 1 →
        ¬ (x' = x ∧ y' = y) → (g.SetBlocked x y).2.At x' y' = g.At x' y')) ∧
    ((g.SetBlocked x y).1 = false → (g.SetBlocked x y).2 = g) := by
  unfold Game.SetBlocked Game.Width Game.Height
  by_cases hs : g.HasStarted = true
  · simp [hs]
  · have hs' : g.HasStarted = false := by simpa using hs
    rw [hs']
    simp only [Bool.false_eq_true, if_false, true_and]
    by_cases hr : 1 ≤ x ∧ x ≤ g.width_ ∧ 1 ≤ y ∧ y ≤ g.height_
    · rw [if_pos hr]
      refine ⟨⟨fun _ => hr, fun _ => rfl⟩, fun _ => ?_, fun h => absurd h (by simp)⟩
      refine ⟨rfl, rfl, rfl, rfl, At_setAt_self g x y _, ?_, ?_⟩
      · intro i hne
        show (if i = g.idx x y then State.kBlocked else g.board_ i) = g.board_ i
        rw [if_neg hne]
      · intro x' y' hx0 hx hy0 _ hne
        exact At_setAt_ne g _ (by omega) (by omega) (by omega) hx0 hx hy0 hne
    · rw [if_neg hr]
      exact ⟨⟨fun h => absurd h (by simp), fun h => absurd h hr⟩,
        fun h => absurd h (by simp), fun _ => rfl⟩

/-! ## The slide, tile by tile -/

theorem invalid_move_rejected_witness :
    Single kUp ∧ (empty2x2.HasStarted = false ∨ kUp &&& empty2x2.ValidDirs ≠ kUp) ∧
      Single kLeft ∧ (started2x2.HasStarted = false ∨ kLeft &&& started2x2.ValidDirs ≠ kLeft) ∧
      (kUp &&& empty2x2.ValidDirs ≠ kUp ∧ empty2x2.Move kUp = .ok (false, empty2x2) ∧
        empty2x2.MoveFast kUp = .ok (false, empty2x2)) ∧
      (kLeft &&& started2x2.ValidDirs ≠ kLeft ∧ started2x2.Move kLeft = .ok (false, started2x2) ∧
        started2x2.MoveFast kLeft = .ok (false, started2x2)) :=
  ⟨by decide, Or.inl (by decide), by decide, Or.inr (by decide),
    invalid_move_rejected empty2x2 kUp (by decide) (Or.inl (by decide)),
    invalid_move_rejected started2x2 kLeft (by decide) (Or.inr (by decide))⟩

/-- The `while` loop of `MoveOne` lights a run of `r` tiles and nothing else. -/
theorem MoveOneLoop_run (dx dy : Int) (hu : UnitStep dx dy) :
    ∀ (fuel : Nat) (g : Game), WF g → g.HasStarted = true → offCount g < fuel →
      ∃ (g' : Game) (r : Nat), MoveOneLoop dx dy fuel g = .ok g' ∧
        g'.height_ = g.height_ ∧ g'.width_ = g.width_ ∧
        g'.x_ = g.x_ + (r : Int) * dx ∧ g'.y_ = g.y_ + (r : Int) * dy ∧
        (∀ i : Nat, 1 ≤ i → i ≤ r →
          Interior g (g.x_ + (i : Int) * dx) (g.y_ + (i : Int) * dy) ∧
          g.At (g.x_ + (i : Int) * dx) (g.y_ + (i : Int) * dy) = State.kOff ∧
          g'.At (g.x_ + (i : Int) * dx) (g.y_ + (i : Int) * dy) = State.kOn) ∧
        g.At (g.x_ + ((r + 1 : Nat) : Int) * dx) (g.y_ + ((r + 1 : Nat) : Int) * dy) ≠
          State.kOff ∧
        (∀ j, (∀ i : Nat, 1 ≤ i → i ≤ r →
            j ≠ g.idx (g.x_ + (i : Int) * dx) (g.y_ + (i : Int) * dy)) →
          g'.board_ j = g.board_ j) := by
  intro fuel
  induction fuel with
  | zero => intro g _ _ h; omega
  | succ n ih =>
    intro g hwf hs hlt
    unfold Game.MoveOneLoop
    by_cases hoff : g.At (g.x_ + dx) (g.y_ + dy) = State.kOff
    · rw [if_pos hoff]
      obtain ⟨w1, s1, st1, c1⟩ := light_step g dx dy hu hwf hs hoff
      obtain ⟨g', r1, e, d1, d2, cx, cy, hrun, hbey, hrest⟩ := ih _ w1 s1 (by omega)
      have hint1 : Interior g (g.x_ + dx) (g.y_ + dy) := w1.interior s1
      have d2 : g'.width_ = g.width_ := d2
      have cx : g'.x_ = g.x_ + dx + (r1 : Int) * dx := cx
      have cy : g'.y_ = g.y_ + dy + (r1 : Int) * dy := cy
      have hrun : ∀ i : Nat, 1 ≤ i → i ≤ r1 →
          Interior g (g.x_ + dx + (i : Int) * dx) (g.y_ + dy + (i : Int) * dy) ∧
          ({ g with x_ := g.x_ + dx, y_ := g.y_ + dy }.setAt (g.x_ + dx) (g.y_ + dy) State.kOn).At (g.x_ + dx + (i : Int) * dx) (g.y_ + dy + (i : Int) * dy) = State.kOff ∧
          g'.At (g.x_ + dx + (i : Int) * dx) (g.y_ + dy + (i : Int) * dy) = State.kOn := hrun
      have hbey : ({ g with x_ := g.x_ + dx, y_ := g.y_ + dy }.setAt (g.x_ + dx) (g.y_ + dy) State.kOn).At (g.x_ + dx + ((r1 + 1 : Nat) : Int) * dx)
          (g.y_ + dy + ((r1 + 1 : Nat) : Int) * dy) ≠ State.kOff := hbey
      have hrest : ∀ j, (∀ i : Nat, 1 ≤ i → i ≤ r1 →
          j ≠ g.idx (g.x_ + dx + (i : Int) * dx) (g.y_ + dy + (i : Int) * dy)) →
          g'.board_ j = ({ g with x_ := g.x_ + dx, y_ := g.y_ + dy }.setAt (g.x_ + dx) (g.y_ + dy) State.kOn).board_ j := hrest
      have hint0 := hwf.interior hs
      -- the state after one step, seen from `g`
      have hb1 : ∀ j, ({ g with x_ := g.x_ + dx, y_ := g.y_ + dy }.setAt (g.x_ + dx) (g.y_ + dy)
          State.kOn).board_ j = if j = g.idx (g.x_ + dx) (g.y_ + dy) then State.kOn
            else g.board_ j := fun j => rfl
      have hat1 : ∀ a b : Int, ({ g with x_ := g.x_ + dx, y_ := g.y_ + dy }.setAt (g.x_ + dx)
          (g.y_ + dy) State.kOn).At a b = if g.idx a b = g.idx (g.x_ + dx) (g.y_ + dy)
            then State.kOn else g.At a b := fun a b => rfl
      have hidx1 : ∀ a b : Int, ({ g with x_ := g.x_ + dx, y_ := g.y_ + dy }.setAt (g.x_ + dx)
          (g.y_ + dy) State.kOn).idx a b = g.idx a b := fun a b => rfl
      have hcx : ∀ i : Nat, g.x_ + dx + (i : Int) * dx = g.x_ + ((i + 1 : Nat) : Int) * dx := by
        intro i; push_cast; ring
      have hcy : ∀ i : Nat, g.y_ + dy + (i : Int) * dy = g.y_ + ((i + 1 : Nat) : Int) * dy := by
        intro i; push_cast; ring
      have hrun' : ∀ i : Nat, 1 ≤ i → i ≤ r1 →
          Interior g (g.x_ + ((i + 1 : Nat) : Int) * dx) (g.y_ + ((i + 1 : Nat) : Int) * dy) ∧
          ({ g with x_ := g.x_ + dx, y_ := g.y_ + dy }.setAt (g.x_ + dx) (g.y_ + dy)
            State.kOn).At (g.x_ + ((i + 1 : Nat) : Int) * dx)
              (g.y_ + ((i + 1 : Nat) : Int) * dy) = State.kOff ∧
          g'.At (g.x_ + ((i + 1 : Nat) : Int) * dx) (g.y_ + ((i + 1 : Nat) : Int) * dy) =
            State.kOn := by
        intro i h1 h2
        have := hrun i h1 h2
        rw [← hcx, ← hcy]
        exact this
      have hat' : ∀ a b : Int, g'.At a b = g'.board_ (g.idx a b) := by
        intro a b; unfold Game.At Game.idx; rw [d2]
      refine ⟨g', r1 + 1, e, d1, d2, ?_, ?_, ?_, ?_, ?_⟩
      · rw [cx, hcx]
      · rw [cy, hcy]
      · intro i h1 h2
        by_cases hi1 : i = 1
        · subst hi1
          have e1 : g.x_ + ((1 : Nat) : Int) * dx = g.x_ + dx := by push_cast; ring
          have e2 : g.y_ + ((1 : Nat) : Int) * dy = g.y_ + dy := by push_cast; ring
          rw [e1, e2]
          refine ⟨hint1, hoff, ?_⟩
          rw [hat', hrest, hb1, if_pos rfl]
          intro i' h1' h2'
          have hoff' := (hrun i' h1' h2').2.1
          intro he
          have : ({ g with x_ := g.x_ + dx, y_ := g.y_ + dy }.setAt (g.x_ + dx) (g.y_ + dy)
              State.kOn).At (g.x_ + dx + (i' : Int) * dx) (g.y_ + dy + (i' : Int) * dy) =
              State.kOn := by
            rw [hat1, if_pos he.symm]
          have h3 : State.kOn = State.kOff := this.symm.trans hoff'
          exact absurd h3 (by decide)
        · obtain ⟨i', rfl⟩ : ∃ i', i = i' + 1 := ⟨i - 1, by omega⟩
          obtain ⟨p1, p2, p3⟩ := hrun' i' (by omega) (by omega)
          refine ⟨p1, ?_, p3⟩
          rw [hat1] at p2
          by_cases he : g.idx (g.x_ + ((i' + 1 : Nat) : Int) * dx)
              (g.y_ + ((i' + 1 : Nat) : Int) * dy) = g.idx (g.x_ + dx) (g.y_ + dy)
          · rw [if_pos he] at p2; exact absurd p2 (by decide)
          · rw [if_neg he] at p2; exact p2
      · have hb := hbey
        show g.At (g.x_ + ((r1 + 1 + 1 : Nat) : Int) * dx)
          (g.y_ + ((r1 + 1 + 1 : Nat) : Int) * dy) ≠ State.kOff
        rw [hcx, hcy, hat1] at hb
        by_cases he : g.idx (g.x_ + ((r1 + 1 + 1 : Nat) : Int) * dx)
            (g.y_ + ((r1 + 1 + 1 : Nat) : Int) * dy) = g.idx (g.x_ + dx) (g.y_ + dy)
        · exfalso
          -- the last tile of the run is playable, so the tile beyond it is in the buffer
          have hlast : Interior g (g.x_ + ((r1 + 1 : Nat) : Int) * dx)
              (g.y_ + ((r1 + 1 : Nat) : Int) * dy) := by
            by_cases hr : r1 = 0
            · subst hr
              have e1 : g.x_ + ((0 + 1 : Nat) : Int) * dx = g.x_ + dx := by push_cast; ring
              have e2 : g.y_ + ((0 + 1 : Nat) : Int) * dy = g.y_ + dy := by push_cast; ring
              rw [e1, e2]; exact hint1
            · exact (hrun' r1 (by omega) (le_refl _)).1
          unfold Interior at hlast hint1
          have hinj := @idx_inj g (g.x_ + ((r1 + 1 + 1 : Nat) : Int) * dx)
            (g.y_ + ((r1 + 1 + 1 : Nat) : Int) * dy) (g.x_ + dx) (g.y_ + dy)
            (by push_cast at hlast ⊢; rcases hu with h | h | h | h <;> obtain ⟨rfl, rfl⟩ := h <;> omega)
            (by push_cast at hlast ⊢; rcases hu with h | h | h | h <;> obtain ⟨rfl, rfl⟩ := h <;> omega)
            (by push_cast at hlast ⊢; rcases hu with h | h | h | h <;> obtain ⟨rfl, rfl⟩ := h <;> omega)
            (by omega) (by omega) (by omega) he
          push_cast at hinj
          rcases hu with h | h | h | h <;> obtain ⟨rfl, rfl⟩ := h <;> omega
        · rw [if_neg he] at hb; exact hb
      · intro j hj
        rw [hrest j, hb1, if_neg]
        · have := hj 1 (le_refl _) (by omega)
          have e1 : g.x_ + ((1 : Nat) : Int) * dx = g.x_ + dx := by push_cast; ring
          have e2 : g.y_ + ((1 : Nat) : Int) * dy = g.y_ + dy := by push_cast; ring
          rw [e1, e2] at this
          exact this
        · intro i h1 h2
          have := hj (i + 1) (by omega) (by omega)
          rw [hcx, hcy]
          exact this
    · rw [if_neg hoff]
      refine ⟨g, 0, rfl, rfl, rfl, by simp, by simp, ?_, ?_, ?_⟩
      · intro i h1 h2; omega
      · have e1 : g.x_ + ((0 + 1 : Nat) : Int) * dx = g.x_ + dx := by push_cast; ring
        have e2 : g.y_ + ((0 + 1 : Nat) : Int) * dy = g.y_ + dy := by push_cast; ring
        rw [e1, e2]; exact hoff
      · intro j _; rfl

/-- A valid `Move` lights a run of `r >= 1` tiles, with the increment of its direction. -/
theorem Move_run (g : Game) (d : Dir) (hwf : WF g) (hs : g.HasStarted = true)
    (hd : Single d) (hv : d &&& g.ValidDirs = d) :
    ∃ (g' : Game) (r : Nat) (dx dy : Int), increment_for_move d = some (dx, dy) ∧
      UnitStep dx dy ∧ g.Move d = .ok (true, g') ∧ 1 ≤ r ∧ WF g' ∧ g'.HasStarted = true ∧
      g'.height_ = g.height_ ∧ g'.width_ = g.width_ ∧
      g'.x_ = g.x_ + (r : Int) * dx ∧ g'.y_ = g.y_ + (r : Int) * dy ∧
      (∀ i : Nat, 1 ≤ i → i ≤ r →
        Interior g (g.x_ + (i : Int) * dx) (g.y_ + (i : Int) * dy) ∧
        g.At (g.x_ + (i : Int) * dx) (g.y_ + (i : Int) * dy) = State.kOff ∧
        g'.At (g.x_ + (i : Int) * dx) (g.y_ + (i : Int) * dy) = State.kOn) ∧
      g.At (g.x_ + ((r + 1 : Nat) : Int) * dx) (g.y_ + ((r + 1 : Nat) : Int) * dy) ≠
        State.kOff ∧
      g'.At (g'.x_ + dx) (g'.y_ + dy) ≠ State.kOff ∧
      (∀ j, (∀ i : Nat, 1 ≤ i → i ≤ r →
          j ≠ g.idx (g.x_ + (i : Int) * dx) (g.y_ + (i : Int) * dy)) →
        g'.board_ j = g.board_ j) := by
  obtain ⟨dx, dy, hinc, hu, hiff⟩ := valid_iff_inc g hs d hd
  have hfuel : offCount g < g.RawSize + 1 := Nat.lt_succ_of_le (offCount_le g)
  obtain ⟨g', r, e, d1, d2, cx, cy, hrun, hbey, hrest⟩ :=
    MoveOneLoop_run dx dy hu (g.RawSize + 1) g hwf hs hfuel
  obtain ⟨g2, e2, w2, s2, _, _, _, hb2⟩ := MoveOneLoop_ok dx dy hu (g.RawSize + 1) g hwf hs hfuel
  have hg2 : g2 = g' := by
    have := e2.symm.trans e
    injection this
  subst hg2
  have hone : g.MoveOne d = .ok g2 := by
    unfold Game.MoveOne
    rw [hinc]
    exact e
  refine ⟨g2, r, dx, dy, hinc, hu, ?_, ?_, w2, s2, d1, d2, cx, cy, hrun, hbey, hb2, hrest⟩
  · unfold Game.Move
    simp only [hs, Bool.not_true, Bool.false_eq_true, if_false, hv, ne_eq, not_true_eq_false,
      hone]
    rfl
  · by_contra h0
    have hr : r = 0 := by omega
    subst hr
    have e1 : g.x_ + ((0 + 1 : Nat) : Int) * dx = g.x_ + dx := by push_cast; ring
    have e2 : g.y_ + ((0 + 1 : Nat) : Int) * dy = g.y_ + dy := by push_cast; ring
    rw [e1, e2] at hbey
    exact hbey (hiff.mp hv)

theorem dirStep_of_inc {d : Dir} {dx dy : Int} (h : increment_for_move d = some (dx, dy)) :
    dirStep d = (dx, dy) := by
  unfold dirStep
  rw [h]
  rfl

/-- C14: on a game in progress, `Move(dir)` with a single valid direction returns `true` and
lights a run of `r >= 1` tiles: the tiles `c + i * step` for `1 <= i <= r` are playable, were
`kOff` and are `kOn` afterwards, tile `r + 1` was not `kOff` (the run is maximal), every other
element of the buffer and every other tile is unchanged, the new cursor is tile `r` of the run,
and the tile beyond the new cursor is not `kOff`. -/
theorem move_slides (g : Game) (d : Dir) (hwf : WF g) (hs : g.HasStarted = true)
    (hd : Single d) (hv : d &&& g.ValidDirs = d) :
    ∃ (g' : Game) (r : Nat), g.Move d = .ok (true, g') ∧ 1 ≤ r ∧
      g'.Height = g.Height ∧ g'.Width = g.Width ∧
      g'.X = g.X + (r : Int) * (dirStep d).1 ∧ g'.Y = g.Y + (r : Int) * (dirStep d).2 ∧
      (∀ i : Nat, 1 ≤ i → i ≤ r →
        Interior g (g.X + (i : Int) * (dirStep d).1) (g.Y + (i : Int) * (dirStep d).2) ∧
        g.At (g.X + (i : Int) * (dirStep d).1) (g.Y + (i : Int) * (dirStep d).2) =
          State.kOff ∧
        g'.At (g.X + (i : Int) * (dirStep d).1) (g.Y + (i : Int) * (dirStep d).2) =
          State.kOn) ∧
      g.At (g.X + ((r + 1 : Nat) : Int) * (dirStep d).1)
        (g.Y + ((r + 1 : Nat) : Int) * (dirStep d).2) ≠ State.kOff ∧
      g'.At (g'.X + (dirStep d).1) (g'.Y + (dirStep d).2) ≠ State.kOff ∧
      (∀ j, (∀ i : Nat, 1 ≤ i → i ≤ r →
          j ≠ g.idx (g.X + (i : Int) * (dirStep d).1) (g.Y + (i : Int) * (dirStep d).2)) →
        g'.board_ j = g.board_ j) ∧
      (∀ x y : Int, 0 ≤ x → x ≤ g.Width + 1 → 0 ≤ y → y ≤ g.Height + 1 →
        (∀ i : Nat, 1 ≤ i → i ≤ r →
          ¬ (x = g.X + (i : Int) * (dirStep d).1 ∧ y = g.Y + (i : Int) * (dirStep d).2)) →
        g'.At x y = g.At x y) := by
  obtain ⟨g', r, dx, dy, hinc, hu, hm, hr, _, _, d1, d2, cx, cy, hrun, hbey, hb', hrest⟩ :=
    Move_run g d hwf hs hd hv
  rw [dirStep_of_inc hinc]
  refine ⟨g', r, hm, hr, d1, d2, cx, cy, hrun, hbey, hb', hrest, ?_⟩
  intro x y hx0 hx hy0 hy hne
  have hat' : g'.At x y = g'.board_ (g.idx x y) := by
    unfold Game.At Game.idx; rw [d2]
  rw [hat', hrest]
  · rfl
  · intro i h1 h2 he
    obtain ⟨hi, _, _⟩ := hrun i h1 h2
    unfold Interior at hi
    have := idx_inj g hx0 (by unfold Game.Width at hx; exact_mod_cast hx) hy0
      (by omega) (by omega) (by omega) he
    exact hne i h1 h2 this

theorem move_slides_witness :
    WF started2x3 ∧ started2x3.HasStarted = true ∧ Single kRight ∧
      kRight &&& started2x3.ValidDirs = kRight ∧
      ∃ (g' : Game) (r : Nat), started2x3.Move kRight = .ok (true, g') ∧ 1 ≤ r ∧
        g'.Height = started2x3.Height ∧ g'.Width = started2x3.Width ∧
        g'.X = started2x3.X + (r : Int) * (dirStep kRight).1 ∧
        g'.Y = started2x3.Y + (r : Int) * (dirStep kRight).2 ∧
        (∀ i : Nat, 1 ≤ i → i ≤ r →
          Interior started2x3 (started2x3.X + (i : Int) * (dirStep kRight).1)
            (started2x3.Y + (i : Int) * (dirStep kRight).2) ∧
          started2x3.At (started2x3.X + (i : Int) * (dirStep kRight).1)
            (started2x3.Y + (i : Int) * (dirStep kRight).2) = State.kOff ∧
          g'.At (started2x3.X + (i : Int) * (dirStep kRight).1)
            (started2x3.Y + (i : Int) * (dirStep kRight).2) = State.kOn) ∧
        started2x3.At (started2x3.X + ((r + 1 : Nat) : Int) * (dirStep kRight).1)
          (started2x3.Y + ((r + 1 : Nat) : Int) * (dirStep kRight).2) ≠ State.kOff ∧
        g'.At (g'.X + (dirStep kRight).1) (g'.Y + (dirStep kRight).2) ≠ State.kOff ∧
        (∀ j, (∀ i : Nat, 1 ≤ i → i ≤ r →
            j ≠ started2x3.idx (started2x3.X + (i : Int) * (dirStep kRight).1)
              (started2x3.Y + (i : Int) * (dirStep kRight).2)) →
          g'.board_ j = started2x3.board_ j) ∧
        (∀ x y : Int, 0 ≤ x → x ≤ started2x3.Width + 1 → 0 ≤ y → y ≤ started2x3.Height + 1 →
          (∀ i : Nat, 1 ≤ i → i ≤ r →
            ¬ (x = started2x3.X + (i : Int) * (dirStep kRight).1 ∧
              y = started2x3.Y + (i : Int) * (dirStep kRight).2)) →
          g'.At x y = started2x3.At x y) :=
  ⟨by decide, by decide, by decide, by decide,
    move_slides started2x3 kRight (by decide) (by decide) (by decide) (by decide)⟩

/-- On the empty 2 x 3 board after `Start(1, 1)`, `Move(kRight)` returns `true` with the cursor
at `(3, 1)`. -/
theorem move_right_2x3 :
    (started2x3.Move kRight).map (fun r => (r.1, r.2.X, r.2.Y)) = .ok (true, 3, 1) := by
  decide

/-! ## MoveFast as Move followed by forced moves -/

theorem members_table : ∀ v : Nat, v < 16 →
    (Single v → [kUp, kDown, kLeft, kRight].filter (fun d => decide (d &&& v = d)) = [v]) ∧
    (¬ Single v →
      ([kUp, kDown, kLeft, kRight].filter (fun d => decide (d &&& v = d))).length ≠ 1) := by
  decide

theorem validMembers_single (g : Game) (h : Single g.ValidDirs) :
    validMembers g = [g.ValidDirs] :=
  (members_table g.ValidDirs (validDirs_lt g)).1 h

theorem validMembers_not_single (g : Game) (h : ¬ Single g.ValidDirs) :
    (validMembers g).length ≠ 1 :=
  (members_table g.ValidDirs (validDirs_lt g)).2 h

theorem forcedMoves_stop (g : Game) (fuel : Nat) (h : (validMembers g).length ≠ 1) :
    forcedMoves (fuel + 1) g = .ok g := by
  unfold forcedMoves
  rcases hl : validMembers g with _ | ⟨a, _ | ⟨b, t⟩⟩
  · rfl
  · rw [hl] at h; simp at h
  · rfl

theorem forcedMoves_step (g g1 : Game) (d : Dir) (fuel : Nat) (h : validMembers g = [d])
    (hm : g.Move d = .ok (true, g1)) : forcedMoves (fuel + 1) g = forcedMoves fuel g1 := by
  rw [forcedMoves, h]
  simp only [hm, bind, Except.bind]

/-- The loop of `MoveFast` is one `Move` followed by the forced moves. -/
theorem fastLoop_forced : ∀ (fuel : Nat) (g : Game) (d : Dir), WF g → g.HasStarted = true →
    Single d → d &&& g.ValidDirs = d → offCount g ≤ fuel →
    ∃ g1 g', g.Move d = .ok (true, g1) ∧ MoveFastLoop fuel g d = .ok (true, g') ∧
      offCount g1 < offCount g ∧
      (∀ n, offCount g1 < n → forcedMoves n g1 = .ok g') ∧ (validMembers g').length ≠ 1 := by
  intro fuel
  induction fuel with
  | zero =>
    intro g d hwf hs hd hv hf
    obtain ⟨g1, _, _, _, _, c1⟩ := MoveOne_ok g d hwf hs hd hv
    omega
  | succ f ih =>
    intro g d hwf hs hd hv hf
    obtain ⟨g1, e1, w1, s1, _, c1⟩ := MoveOne_ok g d hwf hs hd hv
    have hmove := Move_of_MoveOne g g1 d hs hv e1
    by_cases hsing : Single g1.ValidDirs
    · have hv1 : g1.ValidDirs &&& g1.ValidDirs = g1.ValidDirs := Nat.and_self _
      obtain ⟨g2, g', m2, l2, c2, f2, st2⟩ := ih g1 g1.ValidDirs w1 s1 hsing hv1 (by omega)
      refine ⟨g1, g', hmove, ?_, c1, ?_, st2⟩
      · unfold Game.MoveFastLoop
        simp only [e1, bind, Except.bind]
        have hsing' : g1.ValidDirs = kUp ∨ g1.ValidDirs = kDown ∨ g1.ValidDirs = kLeft ∨
            g1.ValidDirs = kRight := hsing
        rw [if_pos hsing']
        exact l2
      · intro n hn
        obtain ⟨m, rfl⟩ : ∃ m, n = m + 1 := ⟨n - 1, by omega⟩
        rw [forcedMoves_step g1 g2 g1.ValidDirs m (validMembers_single g1 hsing) m2]
        exact f2 m (by omega)
    · have hlen := validMembers_not_single g1 hsing
      refine ⟨g1, g1, hmove, ?_, c1, ?_, hlen⟩
      · unfold Game.MoveFastLoop
        simp only [e1, bind, Except.bind]
        have hsing' : ¬ (g1.ValidDirs = kUp ∨ g1.ValidDirs = kDown ∨ g1.ValidDirs = kLeft ∨
            g1.ValidDirs = kRight) := hsing
        rw [if_neg hsing']
      · intro n hn
        obtain ⟨m, rfl⟩ : ∃ m, n = m + 1 := ⟨n - 1, by omega⟩
        exact forcedMoves_stop g1 m hlen

/-- C16: on a game in progress, `MoveFast(dir)` with a single valid direction returns `true`
and leaves the state that `Move(dir)` followed by the forced moves leaves: after `Move(dir)`,
as long as `ValidDirs()` has exactly one member `d`, `Move(d)`, stopping at the first state
whose `ValidDirs()` has zero or at least two members. -/
theorem moveFast_is_move_then_forced (g : Game) (d : Dir) (hwf : WF g)
    (hs : g.HasStarted = true) (hd : Single d) (hv : d &&& g.ValidDirs = d) :
    ∃ g1 g', g.Move d = .ok (true, g1) ∧ g.MoveFast d = .ok (true, g') ∧
      forcedMoves g.RawSize g1 = .ok g' ∧
      (∀ n, offCount g1 < n → forcedMoves n g1 = .ok g') ∧
      (validMembers g').length ≠ 1 := by
  obtain ⟨g1, g', hm, hl, c1, hf, hstop⟩ :=
    fastLoop_forced (g.RawSize + 1) g d hwf hs hd hv (Nat.le_succ_of_le (offCount_le g))
  refine ⟨g1, g', hm, ?_, hf _ ?_, hf, hstop⟩
  · rw [MoveFast_eq_loop g d hs hv]
    exact hl
  · have := offCount_le g
    omega

theorem moveFast_is_move_then_forced_witness :
    WF started2x3 ∧ started2x3.HasStarted = true ∧ Single kRight ∧
      kRight &&& started2x3.ValidDirs = kRight ∧
      ∃ g1 g', started2x3.Move kRight = .ok (true, g1) ∧
        started2x3.MoveFast kRight = .ok (true, g') ∧
        forcedMoves started2x3.RawSize g1 = .ok g' ∧
        (∀ n, offCount g1 < n → forcedMoves n g1 = .ok g') ∧
        (validMembers g').length ≠ 1 :=
  ⟨by decide, by decide, by decide, by decide,
    moveFast_is_move_then_forced started2x3 kRight (by decide) (by decide) (by decide)
      (by decide)⟩

/-- On the empty 2 x 3 board after `Start(1, 1)`, `MoveFast(kRight)` goes right, down and left:
it ends at `(1, 2)` on a won board, as `Move(kRight)`, `Move(kDown)`, `Move(kLeft)` do. -/
theorem moveFast_right_2x3 :
    (started2x3.MoveFast kRight).map (fun r => (r.1, r.2.X, r.2.Y, r.2.HaveWon)) =
      .ok (true, 1, 2, true) ∧
    ((do
      let a ← started2x3.Move kRight
      let b ← a.2.Move kDown
      let c ← b.2.Move kLeft
      pure (c.1, c.2.X, c.2.Y, c.2.HaveWon)) : Except Err (Bool × Int × Int × Bool)) =
      .ok (true, 1, 2, true) := by
  decide

/-! ## Play only lights tiles -/

theorem Lit.lit_refl (g : Game) : Lit g g := ⟨rfl, rfl, fun _ _ => Or.inl rfl⟩

theorem Lit.lit_rawSize {a b : Game} (h : Lit a b) : b.RawSize = a.RawSize := by
  unfold Game.RawSize; rw [h.1, h.2.1]

theorem Lit.lit_trans {a b c : Game} (h : Lit a b) (h' : Lit b c) : Lit a c := by
  refine ⟨h'.1.trans h.1, h'.2.1.trans h.2.1, ?_⟩
  intro i hi
  have hi' : i < b.RawSize := by rw [h.lit_rawSize]; exact hi
  rcases h.2.2 i hi with e | ⟨e1, e2⟩
  · rcases h'.2.2 i hi' with e' | ⟨e1', e2'⟩
    · exact Or.inl (e'.trans e)
    · exact Or.inr ⟨e ▸ e1', e2'⟩
  · rcases h'.2.2 i hi' with e' | ⟨e1', e2'⟩
    · exact Or.inr ⟨e1, e'.trans e2⟩
    · rw [e2] at e1'; exact absurd e1' (by decide)

/-- A tile is blocked after play exactly when it was blocked before. -/
theorem Lit.blocked_iff {a b : Game} (h : Lit a b) {x y : Int} (hi : Interior a x y) :
    b.At x y = State.kBlocked ↔ a.At x y = State.kBlocked := by
  have hidx : b.idx x y = a.idx x y := by unfold Game.idx; rw [h.2.1]
  unfold Interior at hi
  have hlt : a.idx x y < a.RawSize := idx_lt a (by omega) (by omega) (by omega) (by omega)
  unfold Game.At
  rw [hidx]
  rcases h.2.2 _ hlt with e | ⟨e1, e2⟩
  · rw [e]
  · rw [e1, e2]
    constructor <;> intro h' <;> exact absurd h' (by decide)

theorem Move_lit (g g' : Game) (d : Dir) (hwf : WF g) (hs : g.HasStarted = true)
    (hd : Single d) (hv : d &&& g.ValidDirs = d) (hm : g.Move d = .ok (true, g')) :
    Lit g g' := by
  obtain ⟨g2, r, dx, dy, _, _, hm2, _, _, _, d1, d2, _, _, hrun, _, _, hrest⟩ :=
    Move_run g d hwf hs hd hv
  rw [hm] at hm2
  cases hm2
  refine ⟨d1, d2, ?_⟩
  intro i _
  by_cases hex : ∃ k : Nat, 1 ≤ k ∧ k ≤ r ∧
      i = g.idx (g.x_ + (k : Int) * dx) (g.y_ + (k : Int) * dy)
  · obtain ⟨k, h1, h2, rfl⟩ := hex
    obtain ⟨_, hoff, hon⟩ := hrun k h1 h2
    refine Or.inr ⟨hoff, ?_⟩
    have hidx : g'.idx (g.x_ + (k : Int) * dx) (g.y_ + (k : Int) * dy) =
        g.idx (g.x_ + (k : Int) * dx) (g.y_ + (k : Int) * dy) := by
      unfold Game.idx; rw [d2]
    rw [← hidx]
    exact hon
  · exact Or.inl (hrest i (fun k h1 h2 he => hex ⟨k, h1, h2, he⟩))

theorem MoveRun_lit : ∀ (ms : List Dir) (g g' : Game), WF g → g.HasStarted = true →
    (∀ m ∈ ms, Single m) → MoveRun g ms g' → Lit g g' := by
  intro ms
  induction ms with
  | nil =>
    intro g g' _ _ _ h
    have : g' = g := h
    rw [this]
    exact Lit.lit_refl g
  | cons d ds ih =>
    intro g g' hwf hs hsing hrun
    obtain ⟨g1, hm, hrun'⟩ := hrun
    have hd := hsing d (List.mem_cons_self _ _)
    obtain ⟨_, hv⟩ := Move_true_inv g g1 d hm
    obtain ⟨g1', hm', w1, s1, _, _⟩ := Move_ok g d hwf hs hd hv
    rw [hm] at hm'; cases hm'
    exact (Move_lit g g1 d hwf hs hd hv hm).lit_trans
      (ih g1 g' w1 s1 (fun m hm => hsing m (List.mem_cons_of_mem _ hm)) hrun')

theorem playStep_lit (g g' : Game) (s : Bool × Dir) (b : Bool) (hwf : WF g)
    (hs : g.HasStarted = true) (h : playStep g s = .ok (b, g')) : Lit g g' := by
  unfold playStep at h
  by_cases hv : s.2 &&& g.ValidDirs = s.2
  · have hone : ∃ g1, g.MoveOne s.2 = .ok g1 := by
      cases hm : g.MoveOne s.2 with
      | ok g1 => exact ⟨g1, rfl⟩
      | error e =>
        exfalso
        by_cases hf : s.1 = true
        · rw [if_pos hf, MoveFast_eq_loop g s.2 hs hv] at h
          unfold Game.MoveFastLoop at h
          rw [hm] at h
          simp [bind, Except.bind] at h
        · rw [if_neg hf] at h
          unfold Game.Move at h
          simp only [hs, Bool.not_true, Bool.false_eq_true, if_false, hv, ne_eq,
            not_true_eq_false, hm] at h
          simp [bind, Except.bind] at h
    obtain ⟨g1, hm⟩ := hone
    have hd := MoveOne_single g g1 s.2 hm
    by_cases hf : s.1 = true
    · rw [if_pos hf] at h
      obtain ⟨g2, e2, _, _, _, _, _⟩ := MoveFast_ok g s.2 hwf hs hd hv
      have e3 := e2
      rw [h] at e2
      cases e2
      rw [MoveFast_eq_loop g s.2 hs hv] at e3
      obtain ⟨ms, hrun, hsing⟩ := fastLoop_to_moves _ g g' s.2 hwf hs hd hv e3
      exact MoveRun_lit ms g g' hwf hs hsing hrun
    · rw [if_neg hf] at h
      obtain ⟨g2, e2, _, _, _, _⟩ := Move_ok g s.2 hwf hs hd hv
      have e3 := e2
      rw [h] at e2
      cases e2
      exact Move_lit g g' s.2 hwf hs hd hv e3
  · have hg : g' = g := by
      by_cases hf : s.1 = true
      · rw [if_pos hf] at h
        unfold Game.MoveFast at h
        simp only [hs, Bool.not_true, Bool.false_eq_true, if_false, hv, ne_eq,
          not_false_eq_true, if_true] at h
        cases h; rfl
      · rw [if_neg hf] at h
        unfold Game.Move at h
        simp only [hs, Bool.not_true, Bool.false_eq_true, if_false, hv, ne_eq,
          not_false_eq_true, if_true] at h
        cases h; rfl
    rw [hg]
    exact Lit.lit_refl g

theorem playRun_lit : ∀ (ss : List (Bool × Dir)) (g g' : Game), WF g → g.HasStarted = true →
    PlayRun g ss g' → Lit g g' := by
  intro ss
  induction ss with
  | nil =>
    intro g g' _ _ h
    have : g' = g := h
    rw [this]
    exact Lit.lit_refl g
  | cons s ss ih =>
    intro g g' hwf hs h
    obtain ⟨b, g1, h1, hrun⟩ := h
    obtain ⟨w1, s1, _⟩ := playStep_inv g g1 s b hwf hs h1
    exact (playStep_lit g g1 s b hwf hs h1).lit_trans (ih g1 g' w1 s1 hrun)

theorem Start_lit (L : Game) (x y : Int) (h : (L.Start x y).1 = true) :
    Lit L (L.Start x y).2 := by
  obtain ⟨f1, f2, _, _, _⟩ := Start_fields L x y h
  obtain ⟨_, _, hoff⟩ := (Start_true_iff L x y).mp h
  refine ⟨f1, f2, ?_⟩
  intro i hi
  rw [Start_board L x y h i]
  by_cases he : i = L.idx x y
  · rw [if_pos he]
    refine Or.inr ⟨?_, rfl⟩
    rw [he]
    exact hoff
  · rw [if_neg he, if_neg (by omega)]
    exact Or.inl rfl

/-- The encoding depends on the dimensions and on which playable tiles are blocked. -/
theorem save_congr (a b : Game) (hh : a.height_ = b.height_) (hw : a.width_ = b.width_)
    (hB : ∀ x y : Int, Interior a x y → (a.At x y = State.kBlocked ↔ b.At x y = State.kBlocked)) :
    SaveToHexString a = SaveToHexString b := by
  have ht : tiles a = tiles b := by unfold tiles; rw [hh, hw]
  have hwr : ∀ dst n, a.WriteLayoutAsBits dst n = b.WriteLayoutAsBits dst n := by
    intro dst n
    unfold Game.WriteLayoutAsBits
    rw [← ht]
    congr 1
    apply List.foldl_ext
    intro st t ht'
    have hi : Interior a t.1 t.2 := (mem_tiles a t.1 t.2).mp ht'
    unfold Game.writeStep
    simp only [hB t.1 t.2 hi]
  unfold SaveToHexString Game.LayoutByteSize Game.Height Game.Width
  simp only [hwr, hh, hw]

/-- C13: for a game in progress (a layout, a successful `Start`, then any `Move` and `MoveFast`
calls), `SaveToHexString` gives the text it gives after `Reset()`, which is the text of the
layout; the cursor and the `kOn` tiles do not influence it. -/
theorem save_ignores_play (L g1 g : Game) (x y : Int) (hwf : WF L) (hns : L.HasStarted = false)
    (hst : L.Start x y = (true, g1)) (ss : List (Bool × Dir)) (hrun : PlayRun g1 ss g) :
    SaveToHexString g = SaveToHexString g.Reset ∧ SaveToHexString g = SaveToHexString L ∧
    (∀ cx cy : Int, SaveToHexString { g with x_ := cx, y_ := cy } = SaveToHexString g) ∧
    (∀ g2 : Game, g2.Height = g.Height → g2.Width = g.Width →
      (∀ x y : Int, Interior g x y →
        (g2.At x y = State.kBlocked ↔ g.At x y = State.kBlocked)) →
      SaveToHexString g2 = SaveToHexString g) := by
  have hst1 : (L.Start x y).1 = true := by rw [hst]
  have hst2 : (L.Start x y).2 = g1 := by rw [hst]
  obtain ⟨w1, s1, _, _, _⟩ := Start_props L x y hwf hst1
  have hl1 := Start_lit L x y hst1
  rw [hst2] at w1 s1 hl1
  have hl : Lit L g := hl1.lit_trans (playRun_lit ss g1 g w1 s1 hrun)
  obtain ⟨_, _, hle⟩ := reset_play_liveEq L g1 g x y hwf hns hst ss hrun
  have hgL : SaveToHexString g = SaveToHexString L := by
    apply save_congr g L hl.1 hl.2.1
    intro x y hi
    have hi' : Interior L x y := by
      unfold Interior at hi ⊢; rw [hl.1, hl.2.1] at hi; exact hi
    exact hl.blocked_iff hi'
  have hrL : SaveToHexString g.Reset = SaveToHexString L := by
    apply save_congr g.Reset L hle.1 hle.2.1
    intro x y hi
    unfold Interior at hi
    rw [hle.at_eq (by omega) (by omega) (by omega) (by omega)]
  refine ⟨hgL.trans hrL.symm, hgL, ?_, ?_⟩
  · intro cx cy
    exact save_congr _ g rfl rfl (fun _ _ _ => Iff.rfl)
  · intro g2 h1 h2 hB
    apply save_congr g2 g h1 h2
    intro x y hi
    have hi' : Interior g x y := by
      unfold Interior at hi ⊢
      have h1' : g2.height_ = g.height_ := h1
      have h2' : g2.width_ = g.width_ := h2
      rw [h1', h2'] at hi; exact hi
    exact hB x y hi'

theorem save_ignores_play_witness :
    WF empty2x2 ∧ empty2x2.HasStarted = false ∧ empty2x2.Start 1 1 = (true, started2x2) ∧
      PlayRun started2x2 [(false, kDown), (true, kUp)] moved2x2 ∧
      SaveToHexString moved2x2 = SaveToHexString moved2x2.Reset ∧
      SaveToHexString moved2x2 = SaveToHexString empty2x2 ∧
      (∀ cx cy : Int, SaveToHexString { moved2x2 with x_ := cx, y_ := cy } =
        SaveToHexString moved2x2) ∧
      (∀ g2 : Game, g2.Height = moved2x2.Height → g2.Width = moved2x2.Width →
        (∀ x y : Int, Interior moved2x2 x y →
          (g2.At x y = State.kBlocked ↔ moved2x2.At x y = State.kBlocked)) →
        SaveToHexString g2 = SaveToHexString moved2x2) :=
  ⟨by decide, by decide, start_eq_of_fst empty2x2 1 1 (by decide),
    ⟨true, moved2x2, rfl, false, moved2x2, rfl, rfl⟩,
    save_ignores_play empty2x2 started2x2 moved2x2 1 1 (by decide) (by decide)
      (start_eq_of_fst empty2x2 1 1 (by decide)) [(false, kDown), (true, kUp)]
      ⟨true, moved2x2, rfl, false, moved2x2, rfl, rfl⟩⟩

/-- The empty 2 x 2 board encodes as `220`, also during a game. -/
theorem save_2x2_texts :
    SaveToHexString empty2x2 = "220" ∧ SaveToHexString started2x2 = "220" ∧
      SaveToHexString moved2x2 = "220" ∧ SaveToHexString moved2x2.Reset = "220" := by
  decide

/-- C19: after a successful `Start` on a layout and any `Move` and `MoveFast` calls, successful
or not, `Reset()` leaves the dimensions, the cursor `(0, 0)` and a live board equal to the
layout element by element and tile by tile, so that no tile is `kOn` if none was in the layout;
and `Reset()` changes nothing when no game is in progress. -/
theorem reset_undoes_game (L g1 g : Game) (x y : Int) (hwf : WF L) (hns : L.HasStarted = false)
    (hst : L.Start x y = (true, g1)) (ss : List (Bool × Dir)) (hrun : PlayRun g1 ss g) :
    g.Reset.Height = L.Height ∧ g.Reset.Width = L.Width ∧ g.Reset.X = 0 ∧ g.Reset.Y = 0 ∧
    g.Reset.HasStarted = false ∧
    (∀ i, i < L.RawSize → g.Reset.board_ i = L.board_ i) ∧
    (∀ a b : Int, 0 ≤ a → a ≤ L.Width + 1 → 0 ≤ b → b ≤ L.Height + 1 →
      g.Reset.At a b = L.At a b) ∧
    ((∀ a b : Int, Interior L a b → L.At a b = State.kOff ∨ L.At a b = State.kBlocked) →
      ∀ a b : Int, 0 ≤ a → a ≤ L.Width + 1 → 0 ≤ b → b ≤ L.Height + 1 →
        g.Reset.At a b = State.kOff ∨ g.Reset.At a b = State.kBlocked) ∧
    (∀ g0 : Game, g0.HasStarted = false → g0.Reset = g0) := by
  obtain ⟨w, s, hle⟩ := reset_play_liveEq L g1 g x y hwf hns hst ss hrun
  have hc := Reset_cursor g w
  have hat : ∀ a b : Int, 0 ≤ a → a ≤ L.Width + 1 → 0 ≤ b → b ≤ L.Height + 1 →
      g.Reset.At a b = L.At a b := by
    intro a b ha0 ha hb0 hb
    unfold Game.Width at ha
    unfold Game.Height at hb
    exact hle.at_eq ha0 (by rw [hle.2.1]; exact ha) hb0 (by rw [hle.1]; exact hb)
  refine ⟨hle.1, hle.2.1, hc.1, hc.2, ?_, ?_, hat, ?_, fun g0 h0 => Reset_of_not_started g0 h0⟩
  · unfold Game.HasStarted
    rw [hc.1]
    rfl
  · intro i hi
    exact hle.2.2.2.2 i (by rw [hle.rawSize]; exact hi)
  · intro hlay a b ha0 ha hb0 hb
    rw [hat a b ha0 ha hb0 hb]
    by_cases hi : Interior L a b
    · exact hlay a b hi
    · right
      unfold Game.Width at ha
      unfold Game.Height at hb
      unfold Interior at hi
      exact At_ring L hwf.1 ha0 ha hb0 hb (by omega)

theorem reset_undoes_game_witness :
    WF empty2x2 ∧ empty2x2.HasStarted = false ∧ empty2x2.Start 1 1 = (true, started2x2) ∧
      PlayRun started2x2 [(false, kDown), (true, kUp)] moved2x2 ∧
      (moved2x2.Reset.Height = empty2x2.Height ∧ moved2x2.Reset.Width = empty2x2.Width ∧
        moved2x2.Reset.X = 0 ∧ moved2x2.Reset.Y = 0 ∧ moved2x2.Reset.HasStarted = false ∧
        (∀ i, i < empty2x2.RawSize → moved2x2.Reset.board_ i = empty2x2.board_ i) ∧
        (∀ a b : Int, 0 ≤ a → a ≤ empty2x2.Width + 1 → 0 ≤ b → b ≤ empty2x2.Height + 1 →
          moved2x2.Reset.At a b = empty2x2.At a b) ∧
        ((∀ a b : Int, Interior empty2x2 a b →
            empty2x2.At a b = State.kOff ∨ empty2x2.At a b = State.kBlocked) →
          ∀ a b : Int, 0 ≤ a → a ≤ empty2x2.Width + 1 → 0 ≤ b → b ≤ empty2x2.Height + 1 →
            moved2x2.Reset.At a b = State.kOff ∨ moved2x2.Reset.At a b = State.kBlocked) ∧
        (∀ g0 : Game, g0.HasStarted = false → g0.Reset = g0)) :=
  ⟨by decide, by decide, start_eq_of_fst empty2x2 1 1 (by decide),
    ⟨true, moved2x2, rfl, false, moved2x2, rfl, rfl⟩,
    reset_undoes_game empty2x2 started2x2 moved2x2 1 1 (by decide) (by decide)
      (start_eq_of_fst empty2x2 1 1 (by decide)) [(false, kDown), (true, kUp)]
      ⟨true, moved2x2, rfl, false, moved2x2, rfl, rfl⟩⟩

/-! ## Every public operation keeps the state well formed -/

theorem Border_mono {g g' : Game} (hh : g'.height_ = g.height_) (hw : g'.width_ = g.width_)
    (h : ∀ j, g.board_ j = State.kBlocked → g'.board_ j = State.kBlocked) (a : Nat)
    (hb : Border g a) : Border g' a := by
  have hR : g'.RawSize = g.RawSize := by unfold Game.RawSize; rw [hh, hw]
  intro x hx y hy hr
  rw [hw] at hx
  rw [hh] at hy
  rw [hw, hh] at hr
  rw [hR, hw]
  exact h _ (hb x hx y hy hr)

theorem foldl_blocked {α : Type} (I : Game → Prop) (f : Game → α → Game)
    (hI : ∀ g a, I g → I (f g a))
    (hmono : ∀ g a j, I g → g.board_ j = State.kBlocked → (f g a).board_ j = State.kBlocked) :
    ∀ (l : List α) (g : Game), I g →
      I (l.foldl f g) ∧
      (∀ j, g.board_ j = State.kBlocked → (l.foldl f g).board_ j = State.kBlocked) ∧
      (∀ a ∈ l, ∀ j, (∀ g, I g → (f g a).board_ j = State.kBlocked) →
        (l.foldl f g).board_ j = State.kBlocked) := by
  intro l
  induction l with
  | nil =>
    intro g h0
    exact ⟨h0, fun _ h => h, fun a ha => absurd ha (List.not_mem_nil a)⟩
  | cons b l ih =>
    intro g h0
    obtain ⟨i1, i2, i3⟩ := ih (f g b) (hI g b h0)
    refine ⟨i1, fun j hj => i2 j (hmono g b j h0 hj), ?_⟩
    intro a ha j hset
    rcases List.mem_cons.mp ha with rfl | ha'
    · exact i2 j (hset g h0)
    · exact i3 a ha' j hset

theorem idx_natCast (g : Game) (a b : Nat) : g.idx (a : Int) (b : Int) = a + (g.width_ + 2) * b := by
  rw [idx_of_nonneg g (Int.natCast_nonneg a) (Int.natCast_nonneg b)]
  simp

/-- The constructor blocks the padding ring. -/
theorem new_ring (h w : Nat) : Border (Game.new h w) 0 := by
  obtain ⟨dh, dw, _, _, _⟩ := new_fresh h w
  have hI1 : ∀ (g : Game) (a : Nat), (g.height_ = h ∧ g.width_ = w) →
      (((g.setAt (a : Int) ((h : Int) + 1) State.kBlocked).setAt (a : Int) 0
        State.kBlocked).height_ = h ∧
      ((g.setAt (a : Int) ((h : Int) + 1) State.kBlocked).setAt (a : Int) 0
        State.kBlocked).width_ = w) := fun g a hg => hg
  have hm1 : ∀ (g : Game) (a : Nat) (j : Nat), (g.height_ = h ∧ g.width_ = w) →
      g.board_ j = State.kBlocked →
      ((g.setAt (a : Int) ((h : Int) + 1) State.kBlocked).setAt (a : Int) 0
        State.kBlocked).board_ j = State.kBlocked := by
    intro g a j _ hj
    show (if j = _ then State.kBlocked else if j = _ then State.kBlocked else g.board_ j) = _
    split_ifs <;> first | rfl | exact hj
  have hI2 : ∀ (g : Game) (a : Nat), (g.height_ = h ∧ g.width_ = w) →
      (((g.setAt ((w : Int) + 1) ((a : Int) + 1) State.kBlocked).setAt 0 ((a : Int) + 1)
        State.kBlocked).height_ = h ∧
      ((g.setAt ((w : Int) + 1) ((a : Int) + 1) State.kBlocked).setAt 0 ((a : Int) + 1)
        State.kBlocked).width_ = w) := fun g a hg => hg
  have hm2 : ∀ (g : Game) (a : Nat) (j : Nat), (g.height_ = h ∧ g.width_ = w) →
      g.board_ j = State.kBlocked →
      ((g.setAt ((w : Int) + 1) ((a : Int) + 1) State.kBlocked).setAt 0 ((a : Int) + 1)
        State.kBlocked).board_ j = State.kBlocked := by
    intro g a j _ hj
    show (if j = _ then State.kBlocked else if j = _ then State.kBlocked else g.board_ j) = _
    split_ifs <;> first | rfl | exact hj
  obtain ⟨p1, _, p3⟩ := foldl_blocked (fun g => g.height_ = h ∧ g.width_ = w) _ hI1 hm1
    (List.range (w + 2))
    { height_ := h, width_ := w, x_ := 0, y_ := 0, board_ := fun _ => State.kOff } ⟨rfl, rfl⟩
  obtain ⟨_, q2, q3⟩ := foldl_blocked (fun g => g.height_ = h ∧ g.width_ = w) _ hI2 hm2
    (List.range h) _ p1
  have hnew : ∀ j, (Game.new h w).board_ j = ((List.range h).foldl
      (fun (g : Game) (j : Nat) =>
        (g.setAt ((w : Int) + 1) ((j : Int) + 1) State.kBlocked).setAt 0 ((j : Int) + 1)
          State.kBlocked)
      ((List.range (w + 2)).foldl
        (fun (g : Game) (x : Nat) =>
          (g.setAt x ((h : Int) + 1) State.kBlocked).setAt x 0 State.kBlocked)
        { height_ := h, width_ := w, x_ := 0, y_ := 0,
          board_ := fun _ => State.kOff })).board_ j := fun _ => rfl
  intro x hx y hy hr
  rw [dw] at hx hr ⊢
  rw [dh] at hy hr
  rw [Nat.zero_mul, Nat.zero_add, hnew]
  by_cases hy0 : y = 0 ∨ y = h + 1
  · apply q2
    apply p3 x (List.mem_range.mpr (by omega))
    intro g hg
    show (if _ = (g.setAt (x : Int) ((h : Int) + 1) State.kBlocked).idx (x : Int) 0
        then State.kBlocked
      else if _ = g.idx (x : Int) ((h : Int) + 1) then State.kBlocked else g.board_ _) = _
    have e0 : (g.setAt (x : Int) ((h : Int) + 1) State.kBlocked).idx (x : Int) 0 =
        x + (w + 2) * 0 := by
      have := idx_natCast g x 0
      rw [hg.2] at this
      exact this
    have e1 : g.idx (x : Int) ((h : Int) + 1) = x + (w + 2) * (h + 1) := by
      have := idx_natCast g x (h + 1)
      rw [hg.2] at this
      push_cast at this
      exact this
    rw [e0, e1]
    rcases hy0 with rfl | rfl
    · rw [if_pos rfl]
    · split_ifs <;> first | rfl | (exfalso; omega)
  · have hx0 : x = 0 ∨ x = w + 1 := by omega
    obtain ⟨a, rfl⟩ : ∃ a, y = a + 1 := ⟨y - 1, by omega⟩
    apply q3 a (List.mem_range.mpr (by omega))
    intro g hg
    show (if _ = (g.setAt ((w : Int) + 1) ((a : Int) + 1) State.kBlocked).idx 0 ((a : Int) + 1)
        then State.kBlocked
      else if _ = g.idx ((w : Int) + 1) ((a : Int) + 1) then State.kBlocked
        else g.board_ _) = _
    have e0 : (g.setAt ((w : Int) + 1) ((a : Int) + 1) State.kBlocked).idx 0 ((a : Int) + 1) =
        0 + (w + 2) * (a + 1) := by
      have := idx_natCast g 0 (a + 1)
      rw [hg.2] at this
      push_cast at this
      exact this
    have e1 : g.idx ((w : Int) + 1) ((a : Int) + 1) = (w + 1) + (w + 2) * (a + 1) := by
      have := idx_natCast g (w + 1) (a + 1)
      rw [hg.2] at this
      push_cast at this
      exact this
    rw [e0, e1]
    rcases hx0 with rfl | rfl
    · rw [if_pos rfl]
    · split_ifs <;> first | rfl | (exfalso; omega)

theorem new_WF (h w : Nat) : WF (Game.new h w) := by
  obtain ⟨_, _, hx, hy, _⟩ := new_fresh h w
  exact ⟨new_ring h w, Or.inl ⟨hx, hy⟩⟩

theorem SetBlocked_WF (g : Game) (x y : Int) (hwf : WF g) : WF (g.SetBlocked x y).2 := by
  unfold Game.SetBlocked
  by_cases hs : g.HasStarted = true
  · rw [if_pos hs]; exact hwf
  · rw [if_neg hs]
    by_cases hi : 1 ≤ x ∧ x ≤ g.width_ ∧ 1 ≤ y ∧ y ≤ g.height_
    · rw [if_pos hi]
      have hc : g.x_ = 0 ∧ g.y_ = 0 := by
        rcases hwf.2 with h0 | h1
        · exact h0
        · exact absurd (hasStarted_of_interior h1.1) hs
      show WF (g.setAt x y State.kBlocked)
      refine ⟨@Border_mono g (g.setAt x y State.kBlocked) rfl rfl ?_ 0 hwf.1, Or.inl hc⟩
      intro j hj
      show (if j = _ then State.kBlocked else g.board_ j) = _
      split_ifs <;> first | rfl | exact hj
    · rw [if_neg hi]; exact hwf

theorem Start_WF (g : Game) (x y : Int) (hwf : WF g) : WF (g.Start x y).2 := by
  by_cases h : (g.Start x y).1 = true
  · exact (Start_props g x y hwf h).1
  · have h' : (g.Start x y).1 = false := by simpa using h
    rw [Start_false g x y h']
    exact hwf

theorem Move_WF (g g' : Game) (d : Dir) (b : Bool) (hwf : WF g)
    (h : g.Move d = .ok (b, g')) : WF g' := by
  by_cases hs : g.HasStarted = true
  · exact (playStep_inv g g' (false, d) b hwf hs h).1
  · unfold Game.Move at h
    simp only [hs, Bool.not_false, Bool.not_eq_true, if_true] at h
    simp at hs
    simp [hs] at h
    rw [← h.2]
    exact hwf

theorem MoveFast_WF (g g' : Game) (d : Dir) (b : Bool) (hwf : WF g)
    (h : g.MoveFast d = .ok (b, g')) : WF g' := by
  by_cases hs : g.HasStarted = true
  · exact (playStep_inv g g' (true, d) b hwf hs h).1
  · unfold Game.MoveFast at h
    simp at hs
    simp [hs] at h
    rw [← h.2]
    exact hwf

theorem IsSolvable_WF (g g' : Game) (solutions out : Option (List Int)) (b : Bool)
    (hwf : WF g) (h : g.IsSolvable solutions = .ok (b, g', out)) : WF g' ∧ LiveEq g' g := by
  obtain ⟨g2, e, hl, w2, _⟩ := IsSolvable_spec g hwf solutions
  rw [h] at e
  cases e
  exact ⟨w2, hl⟩

theorem Load_WF (g : Game) (src : List Nat) (bits_per_byte : Nat) (hwf : WF g) :
    WF (g.LoadLayoutFromBits src bits_per_byte) := by
  unfold Game.LoadLayoutFromBits
  apply foldl_invariant (fun st : Game × Nat × Nat => WF st.1)
  · exact hwf
  · intro st i _ hst
    unfold Game.loadStep
    dsimp only
    split_ifs <;> first | exact SetBlocked_WF _ _ _ hst | exact hst

/-- The search of `IsSolvable` leaves area 3 alone. -/
theorem IsSolvable_area3 (g g' : Game) (solutions out : Option (List Int)) (b : Bool)
    (hwf : WF g) (h : g.IsSolvable solutions = .ok (b, g', out)) :
    ∀ i, 3 * g.RawSize ≤ i → g'.board_ i = g.board_ i := by
  obtain ⟨g2, e2, _, _, fr2, R2, _⟩ :=
    solveAll_spec g.Reset (Reset_WF g hwf) (tiles (g.CopyBoard 0 2)) (g.CopyBoard 0 2)
      solutions 0 (save_WF g hwf) (save_reset_liveEq g)
  have hR0 : (g.CopyBoard 0 2).RawSize = g.RawSize := rfl
  rw [hR0] at R2 fr2
  rw [IsSolvable_ok g solutions _ e2] at h
  simp only [Except.ok.injEq, Prod.mk.injEq] at h
  obtain ⟨_, hg, _⟩ := h
  intro i hi
  rw [← hg]
  show (g2.CopyBoard 2 0).board_ i = g.board_ i
  rw [restore_board, R2, if_neg (by omega), fr2 _ (by omega), save_board, if_neg (by omega)]

theorem Border_copy_to (g : Game) (a b : Nat) (h : Border g a) : Border (g.CopyBoard a b) b := by
  intro x hx y hy hr
  have hl := coord_lt g x y hx hy
  show (if b * g.RawSize ≤ b * g.RawSize + (x + (g.width_ + 2) * y) ∧
      b * g.RawSize + (x + (g.width_ + 2) * y) < b * g.RawSize + g.RawSize
    then g.board_ (b * g.RawSize + (x + (g.width_ + 2) * y) - b * g.RawSize + a * g.RawSize)
    else g.board_ (b * g.RawSize + (x + (g.width_ + 2) * y))) = _
  rw [if_pos ⟨by omega, by omega⟩]
  have := h x hx y hy hr
  have e : b * g.RawSize + (x + (g.width_ + 2) * y) - b * g.RawSize + a * g.RawSize =
      a * g.RawSize + (x + (g.width_ + 2) * y) := by omega
  rw [e]
  exact this

theorem Border_copy_other (g : Game) (a b c : Nat) (hne : c ≠ b) (h : Border g c) :
    Border (g.CopyBoard a b) c := by
  intro x hx y hy hr
  have hl := coord_lt g x y hx hy
  show (if b * g.RawSize ≤ c * g.RawSize + (x + (g.width_ + 2) * y) ∧
      c * g.RawSize + (x + (g.width_ + 2) * y) < b * g.RawSize + g.RawSize
    then g.board_ (c * g.RawSize + (x + (g.width_ + 2) * y) - b * g.RawSize + a * g.RawSize)
    else g.board_ (c * g.RawSize + (x + (g.width_ + 2) * y))) = _
  rw [if_neg]
  · exact h x hx y hy hr
  · rintro ⟨h1, h2⟩
    rcases Nat.lt_or_gt_of_ne hne with hlt | hgt
    · have : (c + 1) * g.RawSize ≤ b * g.RawSize := Nat.mul_le_mul_right _ hlt
      rw [Nat.add_mul] at this
      omega
    · have : (b + 1) * g.RawSize ≤ c * g.RawSize := Nat.mul_le_mul_right _ hgt
      rw [Nat.add_mul] at this
      omega

theorem augmentScan_off (g : Game) : ∀ (fuel k k1 : Nat), g.augmentScan fuel k = .ok k1 →
    g.board_ k1 = State.kOff := by
  intro fuel
  induction fuel with
  | zero => intro k k1 h; simp [Game.augmentScan] at h
  | succ f ih =>
    intro k k1 h
    unfold Game.augmentScan at h
    by_cases hk : g.board_ k ≠ State.kOff
    · rw [if_pos hk] at h
      exact ih (k + 1) k1 h
    · rw [if_neg hk] at h
      simp only [Except.ok.injEq] at h
      rw [← h]
      simpa using hk

/-- The fill loop of `AugmentRandomly` writes only elements that are `kOff`. -/
theorem augmentFill_frame (p : List State) : ∀ (m : Nat) (g : Game) (i k : Nat) (g' : Game),
    augmentFill p m g i k = .ok g' →
    g'.height_ = g.height_ ∧ g'.width_ = g.width_ ∧ g'.x_ = g.x_ ∧ g'.y_ = g.y_ ∧
      ∀ j, g.board_ j ≠ State.kOff → g'.board_ j = g.board_ j := by
  intro m
  induction m with
  | zero =>
    intro g i k g' h
    simp only [Game.augmentFill, Except.ok.injEq] at h
    rw [← h]
    exact ⟨rfl, rfl, rfl, rfl, fun _ _ => rfl⟩
  | succ m ih =>
    intro g i k g' h
    unfold Game.augmentFill at h
    cases hscan : g.augmentScan (4 * g.RawSize - k) k with
    | error e => rw [hscan] at h; simp [bind, Except.bind] at h
    | ok k1 =>
      rw [hscan] at h
      simp only [bind, Except.bind] at h
      obtain ⟨i1, i2, i3, i4, i5⟩ := ih _ _ _ _ h
      refine ⟨i1, i2, i3, i4, ?_⟩
      intro j hj
      have hoff := augmentScan_off g _ _ _ hscan
      have hne : j ≠ k1 := by
        rintro rfl
        exact hj hoff
      have hsame : (if j = k1 then p.getD i State.kOff else g.board_ j) = g.board_ j :=
        if_neg hne
      rw [i5 j (by show (if j = k1 then p.getD i State.kOff else g.board_ j) ≠ _
                   rw [hsame]; exact hj)]
      exact hsame

theorem Border_of_frame {g g' : Game} (hh : g'.height_ = g.height_) (hw : g'.width_ = g.width_)
    (h : ∀ j, g.board_ j ≠ State.kOff → g'.board_ j = g.board_ j) (a : Nat)
    (hb : Border g a) : Border g' a := by
  apply Border_mono hh hw _ a hb
  intro j hj
  rw [h j (by rw [hj]; decide), hj]

/-- Every round of the loop of `AugmentRandomly` that returns leaves a well-formed state in
which no game is in progress. -/
theorem augmentLoop_WF (rbg : Rbg) (num_free : Nat) : ∀ (fuel : Nat) (g : Game)
    (p : List State) (calls : Nat) (solutions : List Int) (b : Bool) (g' : Game),
    Border g 3 → g.x_ = 0 → g.y_ = 0 →
    augmentLoop rbg num_free fuel g p calls solutions = .ok (b, g') →
    WF g' ∧ g'.x_ = 0 ∧ g'.y_ = 0 ∧ g'.height_ = g.height_ ∧ g'.width_ = g.width_ := by
  intro fuel
  induction fuel with
  | zero => intro g p calls solutions b g' _ _ _ h; simp [Game.augmentLoop] at h
  | succ f ih =>
    intro g p calls solutions b g' hb3 hx hy h
    unfold Game.augmentLoop at h
    dsimp only at h
    cases hfill : augmentFill (rbg.shuffle calls p) num_free (g.CopyBoard 3 0) 0 0 with
    | error e => rw [hfill] at h; simp [bind, Except.bind] at h
    | ok g2 =>
      rw [hfill] at h
      simp only [bind, Except.bind] at h
      obtain ⟨f1, f2, f3, f4, f5⟩ := augmentFill_frame _ _ _ _ _ _ hfill
      have hb0 : Border g2 0 := Border_of_frame f1 f2 f5 0 (Border_copy_to g 3 0 hb3)
      have hb3' : Border g2 3 :=
        Border_of_frame f1 f2 f5 3 (Border_copy_other g 3 0 3 (by decide) hb3)
      have hx2 : g2.x_ = 0 := by rw [f3]; exact hx
      have hy2 : g2.y_ = 0 := by rw [f4]; exact hy
      have w2 : WF g2 := ⟨hb0, Or.inl ⟨hx2, hy2⟩⟩
      cases hsol : g2.IsSolvable (some solutions) with
      | error e => rw [hsol] at h; simp at h
      | ok r =>
        obtain ⟨rb, rg, rout⟩ := r
        rw [hsol] at h
        simp only at h
        obtain ⟨w3, l3⟩ := IsSolvable_WF g2 rg (some solutions) rout rb w2 hsol
        have a3 := IsSolvable_area3 g2 rg (some solutions) rout rb w2 hsol
        have hR : rg.RawSize = g2.RawSize := l3.rawSize
        have hx3 : rg.x_ = 0 := by rw [l3.2.2.1]; exact hx2
        have hy3 : rg.y_ = 0 := by rw [l3.2.2.2.1]; exact hy2
        have hdh : rg.height_ = g.height_ := by rw [l3.1, f1]; rfl
        have hdw : rg.width_ = g.width_ := by rw [l3.2.1, f2]; rfl
        by_cases hrb : rb = true
        · rw [if_pos hrb] at h
          simp only [Except.ok.injEq, Prod.mk.injEq] at h
          rw [← h.2]
          exact ⟨⟨Border_copy_other rg 0 1 0 (by decide) w3.1, Or.inl ⟨hx3, hy3⟩⟩, hx3, hy3,
            hdh, hdw⟩
        · rw [if_neg hrb] at h
          have hb3r : Border rg 3 := by
            intro x hx' y hy' hr
            rw [l3.2.1] at hx' hr ⊢
            rw [l3.1] at hy' hr
            rw [hR]
            have hl := coord_lt g2 x y hx' hy'
            rw [a3 _ (by omega)]
            exact hb3' x hx' y hy' hr
          obtain ⟨r1, r2, r3, r4, r5⟩ := ih rg _ _ _ b g' hb3r hx3 hy3 h
          exact ⟨r1, r2, r3, r4.trans hdh, r5.trans hdw⟩

theorem AugmentRandomly_WF (g g' : Game) (n : Int) (rbg : Rbg) (fuel : Nat) (b : Bool)
    (hwf : WF g) (h : g.AugmentRandomly n rbg fuel = .ok (b, g')) : WF g' := by
  unfold Game.AugmentRandomly at h
  by_cases hs : g.HasStarted = true
  · rw [if_pos hs] at h
    simp only [Except.ok.injEq, Prod.mk.injEq] at h
    rw [← h.2]; exact hwf
  · rw [if_neg hs] at h
    dsimp only at h
    by_cases hn : n < 0
    · rw [if_pos hn] at h
      simp only [Except.ok.injEq, Prod.mk.injEq] at h
      rw [← h.2]; exact hwf
    · rw [if_neg hn] at h
      by_cases hf : (g.numFree : Int) ≤ n
      · rw [if_pos hf] at h
        simp only [Except.ok.injEq, Prod.mk.injEq] at h
        rw [← h.2]; exact hwf
      · rw [if_neg hf] at h
        have hc : g.x_ = 0 ∧ g.y_ = 0 := by
          rcases hwf.2 with h0 | h1
          · exact h0
          · exact absurd (hasStarted_of_interior h1.1) hs
        exact (augmentLoop_WF rbg _ fuel _ _ _ _ b g' (Border_copy_to g 0 3 hwf.1) hc.1 hc.2
          h).1

/-- Every state reached through the public operations is well formed. -/
theorem Reachable.wf {g : Game} (h : Reachable g) : WF g := by
  induction h with
  | ctor height width => exact new_WF height width
  | setBlocked x y _ ih => exact SetBlocked_WF _ x y ih
  | start x y _ ih => exact Start_WF _ x y ih
  | move d b _ hm ih => exact Move_WF _ _ d b ih hm
  | moveFast d b _ hm ih => exact MoveFast_WF _ _ d b ih hm
  | reset _ ih => exact Reset_WF _ ih
  | isSolvable solutions out b _ hm ih => exact (IsSolvable_WF _ _ solutions out b ih hm).1
  | augment n rbg fuel b _ hm ih => exact AugmentRandomly_WF _ _ n rbg fuel b ih hm
  | load src bits _ ih => exact Load_WF _ src bits ih

/-- With the padding ring blocked, the scan of `HaveWon` over the whole live area finds a
`kOff` element exactly when a playable tile is `kOff`. -/
theorem haveWon_iff_of_border (g : Game) (hb : Border g 0) :
    g.HaveWon = true ↔ ∀ x y : Int, Interior g x y → g.At x y ≠ State.kOff := by
  unfold Game.HaveWon
  rw [decide_eq_true_iff]
  constructor
  · intro h x y hi
    unfold Interior at hi
    exact h _ (idx_lt g (by omega) (by omega) (by omega) (by omega))
  · intro h i hi
    have hW : 0 < g.width_ + 2 := by omega
    have hx : i % (g.width_ + 2) ≤ g.width_ + 1 := by
      have := Nat.mod_lt i hW
      omega
    have hy : i / (g.width_ + 2) ≤ g.height_ + 1 := by
      have : i / (g.width_ + 2) < g.height_ + 2 := by
        rw [Nat.div_lt_iff_lt_mul hW]
        unfold Game.RawSize at hi
        exact hi
      omega
    have hi' : i = i % (g.width_ + 2) + (g.width_ + 2) * (i / (g.width_ + 2)) :=
      (Nat.mod_add_div i _).symm
    by_cases hr : i % (g.width_ + 2) = 0 ∨ i % (g.width_ + 2) = g.width_ + 1 ∨
        i / (g.width_ + 2) = 0 ∨ i / (g.width_ + 2) = g.height_ + 1
    · have := hb _ hx _ hy hr
      rw [Nat.zero_mul, Nat.zero_add, ← hi'] at this
      rw [this]
      decide
    · have hint : Interior g ((i % (g.width_ + 2) : Nat) : Int)
          ((i / (g.width_ + 2) : Nat) : Int) := by
        have a0 : ∀ X Y : Nat, X ≤ g.width_ + 1 → Y ≤ g.height_ + 1 →
            ¬ (X = 0 ∨ X = g.width_ + 1 ∨ Y = 0 ∨ Y = g.height_ + 1) →
            1 ≤ X ∧ X ≤ g.width_ ∧ 1 ≤ Y ∧ Y ≤ g.height_ := by
          intro X Y h1 h2 h3; omega
        have a1 := a0 _ _ hx hy hr
        unfold Interior
        exact ⟨by exact_mod_cast a1.1, by exact_mod_cast a1.2.1, by exact_mod_cast a1.2.2.1,
          by exact_mod_cast a1.2.2.2⟩
      have := h _ _ hint
      unfold Game.At at this
      rw [idx_natCast, ← hi'] at this
      exact this

/-- C20: in every state reached through the public operations (the constructor, `SetBlocked`,
`Start`, `Move`, `MoveFast`, `Reset`, `IsSolvable`, `AugmentRandomly`, and also
`LoadLayoutFromBits`), `HaveWon()`, which scans the whole live buffer, is `true` exactly when
no playable tile is `kOff`. -/
theorem haveWon_iff_no_interior_off (g : Game) (h : Reachable g) :
    g.HaveWon = true ↔
      ∀ x y : Int, 1 ≤ x → x ≤ g.Width → 1 ≤ y → y ≤ g.Height → g.At x y ≠ State.kOff := by
  rw [haveWon_iff_of_border g h.wf.1]
  constructor
  · intro h' x y h1 h2 h3 h4
    exact h' x y ⟨h1, h2, h3, h4⟩
  · intro h' x y hi
    exact h' x y hi.1 hi.2.1 hi.2.2.1 hi.2.2.2

theorem haveWon_iff_no_interior_off_witness :
    Reachable started2x2 ∧
      (started2x2.HaveWon = true ↔
        ∀ x y : Int, 1 ≤ x → x ≤ started2x2.Width → 1 ≤ y → y ≤ started2x2.Height →
          started2x2.At x y ≠ State.kOff) :=
  ⟨Reachable.start 1 1 (Reachable.ctor 2 2),
    haveWon_iff_no_interior_off started2x2 (Reachable.start 1 1 (Reachable.ctor 2 2))⟩

/-! ## Fresh boards, the first move, and the scenarios of the tests -/

/-- C21: a freshly constructed `Game(h, w)` has the dimensions it was given, the cursor
`(0, 0)` (no game in progress), every playable tile `kOff` and every tile of the padding ring
`kBlocked`; this holds for all `h` and `w`, in particular for `h, w >= 1`. -/
theorem fresh_board (h w : Nat) :
    (Game.new h w).Height = h ∧ (Game.new h w).Width = w ∧
    (Game.new h w).X = 0 ∧ (Game.new h w).Y = 0 ∧ (Game.new h w).HasStarted = false ∧
    (∀ x y : Int, 1 ≤ x → x ≤ w → 1 ≤ y → y ≤ h → (Game.new h w).At x y = State.kOff) ∧
    (∀ x y : Int, 0 ≤ x → x ≤ w + 1 → 0 ≤ y → y ≤ h + 1 →
      (x = 0 ∨ x = w + 1 ∨ y = 0 ∨ y = h + 1) → (Game.new h w).At x y = State.kBlocked) := by
  obtain ⟨dh, dw, hx, hy, hoff⟩ := new_fresh h w
  refine ⟨dh, dw, hx, hy, ?_, hoff, ?_⟩
  · unfold Game.HasStarted
    rw [hx]
    rfl
  · intro x y hx0 hx1 hy0 hy1 hr
    exact At_ring _ (new_ring h w) hx0 (by rw [dw]; exact hx1) hy0 (by rw [dh]; exact hy1)
      (by rw [dw, dh]; exact hr)

/-- The tiles of the live area after a successful `Start`. -/
theorem Start_at (g : Game) (x y : Int) (h : (g.Start x y).1 = true) (a b : Int)
    (ha0 : 0 ≤ a) (ha : a ≤ g.width_ + 1) (hb0 : 0 ≤ b) (hb : b ≤ g.height_ + 1) :
    (g.Start x y).2.At a b = if a = x ∧ b = y then State.kOn else g.At a b := by
  obtain ⟨_, f2, _, _, _⟩ := Start_fields g x y h
  obtain ⟨_, hint, _⟩ := (Start_true_iff g x y).mp h
  unfold Interior at hint
  have hidx : (g.Start x y).2.idx a b = g.idx a b := by unfold Game.idx; rw [f2]
  have hlt : g.idx a b < g.RawSize := idx_lt g ha0 ha hb0 hb
  unfold Game.At
  rw [hidx, Start_board g x y h]
  by_cases he : a = x ∧ b = y
  · rw [if_pos he, he.1, he.2, if_pos rfl]
  · rw [if_neg he, if_neg, if_neg (by omega)]
    intro hc
    exact he (idx_inj g ha0 ha hb0 (by omega) (by omega) (by omega) hc)

/-- C22 (amended): after a successful `Start(x, y)`, `HaveWon()` is `true` exactly when no
playable tile other than `(x, y)` was `kOff`; on a board without blocked playable tiles this
is the case exactly when `H * W = 1`. -/
theorem start_then_haveWon (g : Game) (x y : Int) (hwf : WF g)
    (h : (g.Start x y).1 = true) :
    ((g.Start x y).2.HaveWon = true ↔
      ∀ a b : Int, 1 ≤ a → a ≤ g.Width → 1 ≤ b → b ≤ g.Height → ¬ (a = x ∧ b = y) →
        g.At a b ≠ State.kOff) ∧
    ((∀ a b : Int, 1 ≤ a → a ≤ g.Width → 1 ≤ b → b ≤ g.Height → g.At a b = State.kOff) →
      ((g.Start x y).2.HaveWon = true ↔ g.Height * g.Width = 1)) := by
  obtain ⟨f1, f2, _, _, _⟩ := Start_fields g x y h
  obtain ⟨_, hint, _⟩ := (Start_true_iff g x y).mp h
  unfold Interior at hint
  have w1 := (Start_props g x y hwf h).1
  have key : (g.Start x y).2.HaveWon = true ↔
      ∀ a b : Int, 1 ≤ a → a ≤ g.Width → 1 ≤ b → b ≤ g.Height → ¬ (a = x ∧ b = y) →
        g.At a b ≠ State.kOff := by
    rw [haveWon_iff_of_border _ w1.1]
    unfold Interior Game.Width Game.Height
    rw [f1, f2]
    constructor
    · intro h' a b h1 h2 h3 h4 hne
      have := h' a b ⟨h1, h2, h3, h4⟩
      rw [Start_at g x y h a b (by omega) (by omega) (by omega) (by omega), if_neg hne] at this
      exact this
    · intro h' a b ⟨h1, h2, h3, h4⟩
      rw [Start_at g x y h a b (by omega) (by omega) (by omega) (by omega)]
      by_cases hne : a = x ∧ b = y
      · rw [if_pos hne]; decide
      · rw [if_neg hne]; exact h' a b h1 h2 h3 h4 hne
  refine ⟨key, ?_⟩
  intro hempty
  rw [key]
  unfold Game.Width Game.Height at hempty ⊢
  constructor
  · intro h'
    by_contra hne
    by_cases hW : 2 ≤ g.width_
    · have := h' (if x = 1 then 2 else 1) y (by split_ifs <;> omega) (by split_ifs <;> omega)
        hint.2.2.1 hint.2.2.2 (by split_ifs <;> omega)
      exact this (hempty _ _ (by split_ifs <;> omega) (by split_ifs <;> omega)
        hint.2.2.1 hint.2.2.2)
    · have hW1 : g.width_ = 1 := by omega
      have hH : 2 ≤ g.height_ := by
        rw [hW1, Nat.mul_one] at hne
        omega
      have := h' x (if y = 1 then 2 else 1) hint.1 hint.2.1 (by split_ifs <;> omega)
        (by split_ifs <;> omega) (by split_ifs <;> omega)
      exact this (hempty _ _ hint.1 hint.2.1 (by split_ifs <;> omega)
        (by split_ifs <;> omega))
  · intro h1 a b ha0 ha hb0 hb hne
    have e1 : g.height_ = 1 := Nat.dvd_one.mp ⟨g.width_, h1.symm⟩
    have e2 : g.width_ = 1 := Nat.dvd_one.mp ⟨g.height_, by rw [Nat.mul_comm]; exact h1.symm⟩
    rw [e1] at hb hint
    rw [e2] at ha hint
    exact absurd ⟨by omega, by omega⟩ hne

theorem start_then_haveWon_witness :
    WF empty2x2 ∧ (empty2x2.Start 1 1).1 = true ∧
    (((empty2x2.Start 1 1).2.HaveWon = true ↔
      ∀ a b : Int, 1 ≤ a → a ≤ empty2x2.Width → 1 ≤ b → b ≤ empty2x2.Height →
        ¬ (a = 1 ∧ b = 1) → empty2x2.At a b ≠ State.kOff) ∧
    ((∀ a b : Int, 1 ≤ a → a ≤ empty2x2.Width → 1 ≤ b → b ≤ empty2x2.Height →
        empty2x2.At a b = State.kOff) →
      ((empty2x2.Start 1 1).2.HaveWon = true ↔ empty2x2.Height * empty2x2.Width = 1))) :=
  ⟨by decide, by decide, start_then_haveWon empty2x2 1 1 (by decide) (by decide)⟩

/-- C22 as stated fails: on the 1 x 2 board whose tile `(2, 1)` is blocked, `Start(1, 1)`
succeeds and `HaveWon()` is `true` at once, although `H * W = 2`. -/
theorem start_wins_on_blocked_row :
    WF row1x2 ∧ 1 ≤ row1x2.Height ∧ 1 ≤ row1x2.Width ∧ (row1x2.Start 1 1).1 = true ∧
      (row1x2.Start 1 1).2.HaveWon = true ∧ row1x2.Height * row1x2.Width ≠ 1 := by
  decide

theorem count_eq_card (f : Nat → State) (s : State) : ∀ n : Nat,
    ((List.range n).map f).count s = ((Finset.range n).filter (fun i => f i = s)).card := by
  intro n
  induction n with
  | zero => rfl
  | succ n ih =>
    rw [List.range_succ, List.map_append, List.count_append, ih, Finset.range_succ,
      Finset.filter_insert]
    by_cases h : f n = s
    · rw [if_pos h, Finset.card_insert_of_not_mem (by simp)]
      simp [h]
    · rw [if_neg h]
      simp [List.count_cons, h]

theorem numFree_eq_offCount (g : Game) : g.numFree = offCount g :=
  count_eq_card g.board_ State.kOff g.RawSize

/-- C23: when a game is in progress, or when `n` is at least the number `k` of `kOff`
elements of the live buffer, `AugmentRandomly(n, rbg)` returns `false` and leaves the game,
board and cursor, exactly as it was; `k` is the value of `std::count` over the live buffer. -/
theorem augment_rejects (g : Game) (n : Int) (rbg : Rbg) (fuel : Nat)
    (h : g.HasStarted = true ∨ (g.numFree : Int) ≤ n) :
    g.AugmentRandomly n rbg fuel = .ok (false, g) ∧
      g.numFree = ((Finset.range g.RawSize).filter (fun i => g.board_ i = State.kOff)).card := by
  refine ⟨?_, numFree_eq_offCount g⟩
  unfold Game.AugmentRandomly
  by_cases hs : g.HasStarted = true
  · rw [if_pos hs]
  · rw [if_neg hs]
    dsimp only
    by_cases hn : n < 0
    · rw [if_pos hn]
    · rw [if_neg hn]
      rcases h with h | h
      · exact absurd h hs
      · rw [if_pos h]

theorem augment_rejects_witness :
    (started2x2.HasStarted = true ∨ (started2x2.numFree : Int) ≤ 1) ∧
    (empty2x2.HasStarted = true ∨ (empty2x2.numFree : Int) ≤ 4) ∧
    (started2x2.AugmentRandomly 1 idRbg 1 = .ok (false, started2x2) ∧
      started2x2.numFree =
        ((Finset.range started2x2.RawSize).filter
          (fun i => started2x2.board_ i = State.kOff)).card) ∧
    (empty2x2.AugmentRandomly 4 idRbg 1 = .ok (false, empty2x2) ∧
      empty2x2.numFree =
        ((Finset.range empty2x2.RawSize).filter
          (fun i => empty2x2.board_ i = State.kOff)).card) :=
  ⟨Or.inl (by decide), Or.inr (by decide),
    augment_rejects started2x2 1 idRbg 1 (Or.inl (by decide)),
    augment_rejects empty2x2 4 idRbg 1 (Or.inr (by decide))⟩

/-- C26: the calls of `TEST(Game, StartAndSolve)` on the empty 2 x 3 board give what the test
expects: `IsSolvable(nullptr)` is `true`; `Start(1, 1)` succeeds with cursor `(1, 1)`;
`Move(kRight)`, `Move(kDown)`, `Move(kLeft)` succeed with cursors `(3, 1)`, `(3, 2)`, `(1, 2)`;
then `ValidDirs()` is `kNone` and `HaveWon()` is `true`. -/
theorem startAndSolve_scenario :
    StartAndSolve =
      .ok (true, [(true, 1, 1), (true, 3, 1), (true, 3, 2), (true, 1, 2)], kNone, true) := by
  decide

/-- C27: the calls of `TEST(Game, UnsolvableLayout)` give what the test expects: the four
`SetBlocked` calls on the corners of the 3 x 3 board return `true` and `IsSolvable(nullptr)`
returns `false`; no start tile and list of fast moves wins on that layout. -/
theorem unsolvableLayout_scenario :
    UnsolvableLayout = .ok (true, true, true, true, false) ∧
      (corners3x3.IsSolvable none).map (fun r => r.1) = .ok false ∧
      ¬ FastWinnable corners3x3 := by
  refine ⟨by decide, by decide, ?_⟩
  intro hw
  have hwf : WF corners3x3 := by decide
  have h := (anyWin_iff_fast corners3x3 hwf).mpr hw
  have h' : anyWin corners3x3 (tiles corners3x3) = false := by decide
  rw [h] at h'
  exact absurd h' (by decide)

/-- C30: in every state reached through the public operations, with or without a solution
list, `IsSolvable` returns a value: no replayed `Start` and no replayed or candidate `MoveFast`
fails (the `abort()` branches), no `MoveOne` reaches its `default:` case, and the search does
not run on. -/
theorem isSolvable_never_aborts (g : Game) (h : Reachable g) (solutions : Option (List Int)) :
    (∃ b g' out, g.IsSolvable solutions = .ok (b, g', out)) ∧
      g.IsSolvable solutions ≠ .error Err.badStart ∧
      g.IsSolvable solutions ≠ .error Err.badReplay ∧
      g.IsSolvable solutions ≠ .error Err.unreachable ∧
      g.IsSolvable solutions ≠ .error Err.fuel := by
  obtain ⟨g', e, _⟩ := IsSolvable_spec g h.wf solutions
  refine ⟨⟨_, g', _, e⟩, ?_, ?_, ?_, ?_⟩ <;> rw [e] <;> intro hc <;> cases hc

theorem isSolvable_never_aborts_witness :
    Reachable moved2x2 ∧
      ((∃ b g' out, moved2x2.IsSolvable (some []) = .ok (b, g', out)) ∧
        moved2x2.IsSolvable (some []) ≠ .error Err.badStart ∧
        moved2x2.IsSolvable (some []) ≠ .error Err.badReplay ∧
        moved2x2.IsSolvable (some []) ≠ .error Err.unreachable ∧
        moved2x2.IsSolvable (some []) ≠ .error Err.fuel) :=
  ⟨Reachable.move kDown true (Reachable.start 1 1 (Reachable.ctor 2 2)) rfl,
    isSolvable_never_aborts moved2x2
      (Reachable.move kDown true (Reachable.start 1 1 (Reachable.ctor 2 2)) rfl) (some [])⟩

/-! ## The order of the records and of the directions tried -/

theorem divmod_lt {W k k' : Nat} (hW : 0 < W) (h : k < k') :
    k / W < k' / W ∨ (k / W = k' / W ∧ k % W < k' % W) := by
  have e1 := Nat.div_add_mod k W
  have e2 := Nat.div_add_mod k' W
  have r1 := Nat.mod_lt k hW
  have r2 := Nat.mod_lt k' hW
  rcases Nat.lt_trichotomy (k / W) (k' / W) with hlt | heq | hgt
  · exact Or.inl hlt
  · right
    refine ⟨heq, ?_⟩
    rw [heq] at e1
    omega
  · exfalso
    have : W * (k' / W + 1) ≤ W * (k / W) := Nat.mul_le_mul_left _ hgt
    rw [Nat.mul_add, Nat.mul_one] at this
    omega

/-- The tiles are visited in strictly increasing row-major order. -/
theorem tiles_pairwise (g : Game) : (tiles g).Pairwise rowMajorLt := by
  rw [tiles_eq_map, List.pairwise_map]
  apply List.Pairwise.imp_of_mem _ (List.pairwise_lt_range _)
  intro k k' hk _ hlt
  have hkl : k < g.height_ * g.width_ := List.mem_range.mp hk
  have hW : 0 < g.width_ := by
    rcases Nat.eq_zero_or_pos g.width_ with h0 | hp
    · rw [h0, Nat.mul_zero] at hkl; omega
    · exact hp
  unfold rowMajorLt
  rcases divmod_lt hW hlt with h | ⟨h1, h2⟩
  · left
    show ((k / g.width_ : Nat) : Int) + 1 < ((k' / g.width_ : Nat) : Int) + 1
    exact_mod_cast Nat.succ_lt_succ h
  · right
    constructor
    · show ((k / g.width_ : Nat) : Int) + 1 = ((k' / g.width_ : Nat) : Int) + 1
      rw [h1]
    · show ((k % g.width_ : Nat) : Int) + 1 < ((k' % g.width_ : Nat) : Int) + 1
      exact_mod_cast Nat.succ_lt_succ h2

theorem rowMajorLt_irrefl (a : Int × Int) : ¬ rowMajorLt a a := by
  unfold rowMajorLt
  omega

theorem recordedRuns_starts_sublist (r : Game) (ts : List (Int × Int)) :
    ((recordedRuns r ts).map Prod.fst).Sublist ts := by
  unfold recordedRuns
  induction ts with
  | nil => exact List.Sublist.slnil
  | cons t ts ih =>
    rw [List.filterMap_cons]
    cases tileResult r t with
    | none => exact List.Sublist.cons _ ih
    | some q => exact List.Sublist.cons₂ _ ih

theorem mem_recordedRuns_starts (r : Game) (hr : WF r) (x y : Int) :
    (x, y) ∈ (recordedRuns r (tiles r)).map Prod.fst ↔ ∃ ds, WinsFrom r x y ds := by
  rw [List.mem_map]
  constructor
  · rintro ⟨p, hp, he⟩
    obtain ⟨_, hq⟩ := (mem_recordedRuns r (tiles r) p).mp hp
    obtain ⟨_, _, hsing, g1, g2, hst, hrun, hw, _⟩ := tileResult_sound r hr p.1 p.2 hq
    rw [he] at hst
    exact ⟨p.2, hsing, g1, g2, hst, hrun, hw⟩
  · rintro ⟨ds, hsing, g1, g2, hst, hrun, hw⟩
    obtain ⟨q, hq⟩ := tileResult_complete r hr x y ds g1 g2 hst hsing hrun hw
    have hst1 : (r.Start x y).1 = true := by rw [hst]
    have hint := ((Start_true_iff r x y).mp hst1).2.1
    exact ⟨((x, y), q), (mem_recordedRuns r (tiles r) _).mpr ⟨(mem_tiles r x y).mpr hint, hq⟩,
      rfl⟩

/-- C28: with a solution list supplied, on a board with no game in progress, `IsSolvable`
appends one record per winning start tile: the start tiles of the appended records are in
strictly increasing row-major order (`y` first, then `x`), a tile is the start of a record
exactly when some list of fast moves wins from it, and so the number of records is the number
of winning start tiles. -/
theorem isSolvable_one_record_per_winning_start (g : Game) (hwf : WF g)
    (hns : g.HasStarted = false) (s : List Int) :
    ∃ (b : Bool) (g' : Game) (runs : List ((Int × Int) × List Dir)),
      g.IsSolvable (some s) =
        .ok (b, g', some (s ++ runs.flatMap (fun p =>
          [p.1.1, p.1.2] ++ p.2.map (fun (d : Dir) => (d : Int)) ++ [0]))) ∧
      (runs.map Prod.fst).Pairwise rowMajorLt ∧
      (∀ x y : Int, (x, y) ∈ runs.map Prod.fst ↔ ∃ ds, WinsFrom g x y ds) ∧
      (∀ p ∈ runs, WinsFrom g p.1.1 p.1.2 p.2) ∧
      runs.length = Set.ncard {t : Int × Int | ∃ ds, WinsFrom g t.1 t.2 ds} ∧
      (b = true ↔ runs ≠ []) := by
  obtain ⟨g', e, _, _, _⟩ := IsSolvable_spec g hwf (some s)
  rw [Reset_of_not_started g hns] at e
  have hpw : ((recordedRuns g (tiles g)).map Prod.fst).Pairwise rowMajorLt :=
    List.Pairwise.sublist (recordedRuns_starts_sublist g (tiles g)) (tiles_pairwise g)
  refine ⟨anyWin g (tiles g), g', recordedRuns g (tiles g), ?_, hpw,
    mem_recordedRuns_starts g hwf, ?_, ?_, ?_⟩
  · rw [e, recordsSpec_eq_flatMap]
    rfl
  · intro p hp
    obtain ⟨_, hq⟩ := (mem_recordedRuns g (tiles g) p).mp hp
    obtain ⟨_, _, hsing, g1, g2, hst, hrun, hw, _⟩ := tileResult_sound g hwf p.1 p.2 hq
    exact ⟨hsing, g1, g2, hst, hrun, hw⟩
  · have hnd : ((recordedRuns g (tiles g)).map Prod.fst).Nodup := by
      apply List.Pairwise.imp _ hpw
      intro a b hab he
      rw [he] at hab
      exact rowMajorLt_irrefl b hab
    have hset : {t : Int × Int | ∃ ds, WinsFrom g t.1 t.2 ds} =
        ↑((recordedRuns g (tiles g)).map Prod.fst).toFinset := by
      ext t
      simp only [Set.mem_setOf_eq, Finset.mem_coe, List.mem_toFinset]
      exact (mem_recordedRuns_starts g hwf t.1 t.2).symm
    rw [hset, Set.ncard_coe_Finset, List.toFinset_card_of_nodup hnd, List.length_map]
  · rw [← recordsSpec_ne_nil_iff, recordsSpec_eq_flatMap]
    constructor
    · intro h hnil
      rw [hnil] at h
      exact h rfl
    · intro h hnil
      rw [List.flatMap_eq_nil_iff] at hnil
      cases hr : recordedRuns g (tiles g) with
      | nil => exact h hr
      | cons p ps =>
        have := hnil p (by rw [hr]; exact List.mem_cons_self _ _)
        simp [recordFor] at this

theorem isSolvable_one_record_per_winning_start_witness :
    WF empty2x3 ∧ empty2x3.HasStarted = false ∧
    ∃ (b : Bool) (g' : Game) (runs : List ((Int × Int) × List Dir)),
      empty2x3.IsSolvable (some []) =
        .ok (b, g', some ([] ++ runs.flatMap (fun p =>
          [p.1.1, p.1.2] ++ p.2.map (fun (d : Dir) => (d : Int)) ++ [0]))) ∧
      (runs.map Prod.fst).Pairwise rowMajorLt ∧
      (∀ x y : Int, (x, y) ∈ runs.map Prod.fst ↔ ∃ ds, WinsFrom empty2x3 x y ds) ∧
      (∀ p ∈ runs, WinsFrom empty2x3 p.1.1 p.1.2 p.2) ∧
      runs.length = Set.ncard {t : Int × Int | ∃ ds, WinsFrom empty2x3 t.1 t.2 ds} ∧
      (b = true ↔ runs ≠ []) :=
  ⟨by decide, by decide,
    isSolvable_one_record_per_winning_start empty2x3 (by decide) (by decide) []⟩

/-- On the empty 2 x 3 board `IsSolvable(&solutions)` appends six records, one per tile, in
row-major order. -/
theorem records_2x3 :
    (empty2x3.IsSolvable (some [])).map (fun r => (r.1, r.2.2)) =
      .ok (true, some [1, 1, 2, 0, 2, 1, 4, 0, 3, 1, 2, 0, 1, 2, 1, 0, 2, 2, 4, 0, 3, 2, 1, 0]) ∧
    recordedRuns empty2x3 (tiles empty2x3) =
      [((1, 1), [kDown]), ((2, 1), [kLeft]), ((3, 1), [kDown]), ((1, 2), [kUp]),
        ((2, 2), [kLeft]), ((3, 2), [kUp])] ∧
    (recordedRuns empty2x3 (tiles empty2x3)).length = 6 := by
  decide

theorem findSome_range_first {β : Type} (f : Nat → Option β) (q : β) : ∀ (n a : Nat),
    (List.range' a n).findSome? f = some q →
    ∃ k, a ≤ k ∧ k < a + n ∧ f k = some q ∧ ∀ j, a ≤ j → j < k → f j = none := by
  intro n
  induction n with
  | zero => intro a h; simp at h
  | succ n ih =>
    intro a h
    rw [List.range'_succ, List.findSome?_cons] at h
    cases hf : f a with
    | some v =>
      rw [hf] at h
      simp only [Option.some.injEq] at h
      exact ⟨a, le_refl _, by omega, by rw [hf, h], fun j h1 h2 => by omega⟩
    | none =>
      rw [hf] at h
      obtain ⟨k, h1, h2, h3, h4⟩ := ih (a + 1) h
      refine ⟨k, by omega, by omega, h3, ?_⟩
      intro j hj1 hj2
      by_cases hja : j = a
      · rw [hja]; exact hf
      · exact h4 j (by omega) hj2

theorem shift_lt_shift {k k' : Nat} (hk' : k' < 4) (h : k < k') :
    (1 <<< k : Nat) < 1 <<< k' := by
  interval_cases k' <;> interval_cases k <;> decide

theorem shift_inj {k k' : Nat} (hk : k < 4) (hk' : k' < 4) (h : (1 <<< k : Nat) = 1 <<< k') :
    k = k' := by
  interval_cases k <;> interval_cases k' <;> first | rfl | (exfalso; revert h; decide)

/-- The search returns the least winning list of fast moves, directions compared by value. -/
theorem dfs_lex_least : ∀ (n : Nat) (g : Game) (q : List Dir), WF g → g.HasStarted = true →
    offCount g < n → dfs n g = some q →
    ∀ (ds : List Dir) (g' : Game), (∀ d ∈ ds, Single d) → FastRun g ds g' →
      g'.HaveWon = true → dirLexLe q ds := by
  intro n
  induction n with
  | zero => intro g q _ _ h; omega
  | succ n ih =>
    intro g q hwf hs hoc h ds g' hsing hrun hw
    rw [dfs_succ] at h
    by_cases hc : g.ValidDirs = kNone
    · rw [if_pos hc] at h
      by_cases hwon : g.HaveWon = true
      · rw [if_pos hwon] at h
        simp only [Option.some.injEq] at h
        rw [← h]
        cases ds <;> trivial
      · rw [if_neg hwon] at h
        simp at h
    · rw [if_neg hc] at h
      obtain ⟨k, _, hk4, hfk, hfirst⟩ := findSome_range_first _ q 4 0 h
      obtain ⟨hvk, gk, q', hmk, hqk, rfl⟩ := dfsStep_eq_some _ g k q hfk
      cases ds with
      | nil =>
        have : g' = g := hrun
        rw [this] at hw
        exact absurd (validDirs_of_won g hwf hs hw) hc
      | cons d ds' =>
        obtain ⟨g1, hm1, hrun'⟩ := hrun
        have hd : Single d := hsing d (List.mem_cons_self _ _)
        obtain ⟨_, hv⟩ := MoveFast_true_inv g g1 d hm1
        obtain ⟨g1', hm', w1, s1, _, c1, _⟩ := MoveFast_ok g d hwf hs hd hv
        rw [hm1] at hm'
        cases hm'
        obtain ⟨k', hk', rfl⟩ := single_eq_shift d hd
        have hsing' : ∀ d' ∈ ds', Single d' := fun d' hd' =>
          hsing d' (List.mem_cons_of_mem _ hd')
        obtain ⟨m, rfl⟩ : ∃ m, n = m + 1 := ⟨n - 1, by omega⟩
        have hsome := dfs_complete ds' g1 g' m w1 s1 (by omega) hrun' hsing' hw
        rcases Nat.lt_trichotomy k k' with hlt | heq | hgt
        · exact Or.inl (shift_lt_shift hk' hlt)
        · subst heq
          rw [hmk] at hm1
          simp only [Except.ok.injEq, Prod.mk.injEq, true_and] at hm1
          subst hm1
          exact Or.inr ⟨rfl, ih gk q' w1 s1 (by omega) hqk ds' g' hsing' hrun' hw⟩
        · exfalso
          have hnone := hfirst k' (Nat.zero_le _) hgt
          unfold dfsStep at hnone
          rw [if_neg (not_not.mpr hv), hm1] at hnone
          obtain ⟨qq, hqq⟩ := Option.isSome_iff_exists.mp hsome
          simp [hqq] at hnone

/-- C29: on a board with no game in progress, every record that `IsSolvable` appends holds a
winning list of fast moves from its start tile that is lexicographically least, position by
position under `kUp < kDown < kLeft < kRight`, among all the winning lists of fast moves from
that start tile. -/
theorem record_is_lex_least (g : Game) (hwf : WF g) (hns : g.HasStarted = false)
    (s : List Int) :
    ∃ (b : Bool) (g' : Game) (runs : List ((Int × Int) × List Dir)),
      g.IsSolvable (some s) =
        .ok (b, g', some (s ++ runs.flatMap (fun p =>
          [p.1.1, p.1.2] ++ p.2.map (fun (d : Dir) => (d : Int)) ++ [0]))) ∧
      ∀ p ∈ runs, WinsFrom g p.1.1 p.1.2 p.2 ∧
        ∀ ds, WinsFrom g p.1.1 p.1.2 ds → dirLexLe p.2 ds := by
  obtain ⟨g', e, _, _, _⟩ := IsSolvable_spec g hwf (some s)
  rw [Reset_of_not_started g hns] at e
  refine ⟨anyWin g (tiles g), g', recordedRuns g (tiles g), ?_, ?_⟩
  · rw [e, recordsSpec_eq_flatMap]
    rfl
  · intro p hp
    obtain ⟨_, hq⟩ := (mem_recordedRuns g (tiles g) p).mp hp
    obtain ⟨_, _, hsing, g1, g2, hst, hrun, hw, _⟩ := tileResult_sound g hwf p.1 p.2 hq
    refine ⟨⟨hsing, g1, g2, hst, hrun, hw⟩, ?_⟩
    rintro ds ⟨hsing', g1', g2', hst', hrun', hw'⟩
    rw [hst] at hst'
    simp only [Prod.mk.injEq, true_and] at hst'
    subst hst'
    have hst1 : (g.Start p.1.1 p.1.2).1 = true := by rw [hst]
    have hst2 : (g.Start p.1.1 p.1.2).2 = g1 := by rw [hst]
    obtain ⟨w1, s1, _, _, _⟩ := Start_props g p.1.1 p.1.2 hwf hst1
    rw [hst2] at w1 s1
    unfold tileResult at hq
    rw [if_pos hst1, hst2] at hq
    exact dfs_lex_least _ g1 p.2 w1 s1 (Nat.lt_succ_of_le (offCount_le g1)) hq ds g2' hsing'
      hrun' hw'

theorem record_is_lex_least_witness :
    WF empty2x2 ∧ empty2x2.HasStarted = false ∧
    ∃ (b : Bool) (g' : Game) (runs : List ((Int × Int) × List Dir)),
      empty2x2.IsSolvable (some []) =
        .ok (b, g', some ([] ++ runs.flatMap (fun p =>
          [p.1.1, p.1.2] ++ p.2.map (fun (d : Dir) => (d : Int)) ++ [0]))) ∧
      ∀ p ∈ runs, WinsFrom empty2x2 p.1.1 p.1.2 p.2 ∧
        ∀ ds, WinsFrom empty2x2 p.1.1 p.1.2 ds → dirLexLe p.2 ds :=
  ⟨by decide, by decide, record_is_lex_least empty2x2 (by decide) (by decide) []⟩

/-- On the empty 2 x 2 board the record of start `(1, 1)` is `[kDown]`; `[kRight]` wins from
`(1, 1)` as well and comes after it. -/
theorem records_2x2_first :
    (recordedRuns empty2x2 (tiles empty2x2)).head? = some ((1, 1), [kDown]) ∧
      ((replay [kRight] started2x2).map (fun g => g.HaveWon)) = .ok true ∧
      dirLexLe [kDown] [kRight] ∧ ¬ dirLexLe [kRight] [kDown] := by
  refine ⟨by decide, by decide, Or.inl (by decide), ?_⟩
  intro h
  rcases h with h | ⟨h, _⟩
  · exact absurd h (by decide)
  · exact absurd h (by decide)

/-! ## AugmentRandomly: the fill loop -/

theorem cntOff_zero (g : Game) (a : Nat) : cntOff g a 0 = 0 := rfl

theorem cntOff_succ (g : Game) (a n : Nat) :
    cntOff g a (n + 1) = (if g.board_ a = State.kOff then 1 else 0) + cntOff g (a + 1) n := by
  unfold cntOff
  rw [List.range'_succ, List.map_cons, List.count_cons]
  by_cases h : g.board_ a = State.kOff
  · simp [h]; omega
  · simp [h]

theorem cntOff_congr (g g' : Game) : ∀ (n a : Nat),
    (∀ j, a ≤ j → j < a + n → g'.board_ j = g.board_ j) → cntOff g' a n = cntOff g a n := by
  intro n
  induction n with
  | zero => intro a _; rfl
  | succ n ih =>
    intro a h
    rw [cntOff_succ, cntOff_succ, h a (le_refl _) (by omega),
      ih (a + 1) (fun j h1 h2 => h j (by omega) (by omega))]

theorem cntOff_none (g : Game) : ∀ (n a : Nat),
    (∀ j, a ≤ j → j < a + n → g.board_ j ≠ State.kOff) → cntOff g a n = 0 := by
  intro n
  induction n with
  | zero => intro a _; rfl
  | succ n ih =>
    intro a h
    rw [cntOff_succ, if_neg (h a (le_refl _) (by omega)),
      ih (a + 1) (fun j h1 h2 => h j (by omega) (by omega))]

theorem cntOff_split (g : Game) : ∀ (n1 a n2 : Nat),
    cntOff g a (n1 + n2) = cntOff g a n1 + cntOff g (a + n1) n2 := by
  intro n1
  induction n1 with
  | zero => intro a n2; rw [Nat.zero_add, cntOff_zero, Nat.zero_add, Nat.add_zero]
  | succ n1 ih =>
    intro a n2
    have e : n1 + 1 + n2 = (n1 + n2) + 1 := by omega
    rw [e, cntOff_succ, cntOff_succ, ih (a + 1) n2]
    have e2 : a + 1 + n1 = a + (n1 + 1) := by omega
    rw [e2]
    omega

theorem numFree_eq_cntOff (g : Game) : g.numFree = cntOff g 0 g.RawSize := by
  unfold Game.numFree cntOff
  rw [List.range_eq_range']

theorem augmentScan_spec (g : Game) : ∀ (fuel k k1 : Nat), g.augmentScan fuel k = .ok k1 →
    k ≤ k1 ∧ g.board_ k1 = State.kOff ∧ ∀ j, k ≤ j → j < k1 → g.board_ j ≠ State.kOff := by
  intro fuel
  induction fuel with
  | zero => intro k k1 h; simp [Game.augmentScan] at h
  | succ f ih =>
    intro k k1 h
    unfold Game.augmentScan at h
    by_cases hk : g.board_ k ≠ State.kOff
    · rw [if_pos hk] at h
      obtain ⟨h1, h2, h3⟩ := ih (k + 1) k1 h
      refine ⟨by omega, h2, ?_⟩
      intro j hj1 hj2
      by_cases hjk : j = k
      · rw [hjk]; exact hk
      · exact h3 j (by omega) hj2
    · rw [if_neg hk] at h
      simp only [Except.ok.injEq] at h
      rw [← h]
      exact ⟨le_refl _, by simpa using hk, fun j h1 h2 => by omega⟩

theorem count_drop_take (p : List State) (i m : Nat) (h : i + (m + 1) ≤ p.length) :
    ((p.drop i).take (m + 1)).count State.kOff =
      (if p.getD i State.kOff = State.kOff then 1 else 0) +
        ((p.drop (i + 1)).take m).count State.kOff := by
  have hi : i < p.length := by omega
  rw [List.drop_eq_getElem_cons hi, List.take_succ_cons, List.count_cons,
    List.getD_eq_getElem p State.kOff hi]
  by_cases he : p[i] = State.kOff
  · simp [he]; omega
  · simp [he]

/-- The fill loop of `AugmentRandomly`, started at element `k` with as many iterations left as
there are `kOff` elements from `k` to the end `R` of the live area: it writes `p[i]`,
`p[i + 1]`, ... over those elements and nothing else, and stays inside the live area. -/
theorem augmentFill_spec (p : List State) (R : Nat) : ∀ (m : Nat) (g : Game) (i k : Nat)
    (g' : Game), augmentFill p m g i k = .ok g' → k ≤ R → cntOff g k (R - k) = m →
    i + m ≤ p.length →
    g'.height_ = g.height_ ∧ g'.width_ = g.width_ ∧ g'.x_ = g.x_ ∧ g'.y_ = g.y_ ∧
      (∀ j, j < k ∨ R ≤ j → g'.board_ j = g.board_ j) ∧
      (∀ j, g.board_ j ≠ State.kOff → g'.board_ j = g.board_ j) ∧
      (∀ j, g'.board_ j = g.board_ j ∨ ∃ t, i ≤ t ∧ t < i + m ∧ g'.board_ j = p.getD t State.kOff) ∧
      cntOff g' k (R - k) = ((p.drop i).take m).count State.kOff := by
  intro m
  induction m with
  | zero =>
    intro g i k g' h _ hc _
    simp only [Game.augmentFill, Except.ok.injEq] at h
    rw [← h]
    refine ⟨rfl, rfl, rfl, rfl, fun _ _ => rfl, fun _ _ => rfl, fun _ => Or.inl rfl, ?_⟩
    rw [hc]
    simp
  | succ m ih =>
    intro g i k g' h hk hc hlen
    unfold Game.augmentFill at h
    cases hscan : g.augmentScan (4 * g.RawSize - k) k with
    | error e => rw [hscan] at h; simp [bind, Except.bind] at h
    | ok k1 =>
      rw [hscan] at h
      simp only [bind, Except.bind] at h
      obtain ⟨s1, s2, s3⟩ := augmentScan_spec g _ _ _ hscan
      have hk1 : k1 < R := by
        by_contra hge
        have := cntOff_none g (R - k) k (fun j h1 h2 => s3 j h1 (by omega))
        omega
      -- the count from `k` splits at `k1`
      have hsplit : cntOff g k (R - k) =
          cntOff g k (k1 - k) + cntOff g (k + (k1 - k)) ((R - (k1 + 1)) + 1) := by
        have e : R - k = (k1 - k) + ((R - (k1 + 1)) + 1) := by omega
        rw [e, cntOff_split]
      have e1 : k + (k1 - k) = k1 := by omega
      rw [e1, cntOff_none g (k1 - k) k (fun j h1 h2 => s3 j h1 (by omega)), cntOff_succ,
        if_pos s2] at hsplit
      have hrest : cntOff
          ({ g with board_ := fun j => if j = k1 then p.getD i State.kOff else g.board_ j } : Game)
          (k1 + 1) (R - (k1 + 1)) = m := by
        rw [cntOff_congr g _ _ _ (fun j h1 _ => if_neg (by omega))]
        omega
      obtain ⟨d1, d2, d3, d4, A, B, C, D⟩ := ih _ (i + 1) (k1 + 1) g' h (by omega) hrest (by omega)
      have hg1 : ∀ j, j ≠ k1 →
          ({ g with board_ := fun j => if j = k1 then p.getD i State.kOff else g.board_ j } :
            Game).board_ j = g.board_ j := fun j hj => if_neg hj
      have hg1k :
          ({ g with board_ := fun j => if j = k1 then p.getD i State.kOff else g.board_ j } :
            Game).board_ k1 = p.getD i State.kOff := if_pos rfl
      refine ⟨d1, d2, d3, d4, ?_, ?_, ?_, ?_⟩
      · intro j hj
        rw [A j (by omega), hg1 j (by omega)]
      · intro j hj
        have hne : j ≠ k1 := by
          rintro rfl
          exact hj s2
        rw [B j (by rw [hg1 j hne]; exact hj), hg1 j hne]
      · intro j
        rcases C j with hc1 | ⟨t, t1, t2, t3⟩
        · by_cases hjk : j = k1
          · right
            refine ⟨i, le_refl _, by omega, ?_⟩
            rw [hc1, hjk, hg1k]
          · left
            rw [hc1, hg1 j hjk]
        · exact Or.inr ⟨t, by omega, by omega, t3⟩
      · have hsplit' : cntOff g' k (R - k) =
            cntOff g' k (k1 - k) + cntOff g' (k + (k1 - k)) ((R - (k1 + 1)) + 1) := by
          have e : R - k = (k1 - k) + ((R - (k1 + 1)) + 1) := by omega
          rw [e, cntOff_split]
        rw [hsplit', e1, cntOff_succ, D, count_drop_take p i m hlen]
        have h0 : cntOff g' k (k1 - k) = 0 := by
          apply cntOff_none
          intro j h1 h2
          rw [A j (by omega), hg1 j (by omega)]
          exact s3 j h1 (by omega)
        have hk1v : g'.board_ k1 = p.getD i State.kOff := by
          rw [A k1 (by omega), hg1k]
        rw [h0, hk1v]
        omega

/-! ## AugmentRandomly: the rounds -/

theorem IsSolvable_bool (g g' : Game) (solutions out : Option (List Int)) (b : Bool)
    (hwf : WF g) (h : g.IsSolvable solutions = .ok (b, g', out)) :
    b = anyWin g.Reset (tiles g) := by
  obtain ⟨g2, e, _⟩ := IsSolvable_spec g hwf solutions
  rw [h] at e
  simp only [Except.ok.injEq, Prod.mk.injEq] at e
  exact e.1

theorem not_started_of_cursor (g : Game) (hx : g.x_ = 0) : g.HasStarted = false := by
  unfold Game.HasStarted
  rw [hx]
  rfl

theorem copy30_board (g : Game) (i : Nat) :
    (g.CopyBoard 3 0).board_ i =
      if i < g.RawSize then g.board_ (i + 3 * g.RawSize) else g.board_ i := by
  show (if 0 * g.RawSize ≤ i ∧ i < 0 * g.RawSize + g.RawSize
      then g.board_ (i - 0 * g.RawSize + 3 * g.RawSize) else g.board_ i) = _
  by_cases h : i < g.RawSize
  · rw [if_pos h, if_pos (by omega)]; congr 1; omega
  · rw [if_neg h, if_neg (by omega)]

theorem copy03_board (g : Game) (i : Nat) :
    (g.CopyBoard 0 3).board_ i =
      if 3 * g.RawSize ≤ i ∧ i < 4 * g.RawSize then g.board_ (i - 3 * g.RawSize)
      else g.board_ i := by
  show (if 3 * g.RawSize ≤ i ∧ i < 3 * g.RawSize + g.RawSize
      then g.board_ (i - 3 * g.RawSize + 0 * g.RawSize) else g.board_ i) = _
  by_cases h : 3 * g.RawSize ≤ i ∧ i < 4 * g.RawSize
  · rw [if_pos h, if_pos (by omega)]; congr 1; omega
  · rw [if_neg h, if_neg (by omega)]

theorem copy01_board (g : Game) (i : Nat) :
    (g.CopyBoard 0 1).board_ i =
      if g.RawSize ≤ i ∧ i < 2 * g.RawSize then g.board_ (i - g.RawSize) else g.board_ i := by
  show (if 1 * g.RawSize ≤ i ∧ i < 1 * g.RawSize + g.RawSize
      then g.board_ (i - 1 * g.RawSize + 0 * g.RawSize) else g.board_ i) = _
  by_cases h : g.RawSize ≤ i ∧ i < 2 * g.RawSize
  · rw [if_pos h, if_pos (by omega)]; congr 1; omega
  · rw [if_neg h, if_neg (by omega)]

theorem Border_of_live (L g : Game) (hh : g.height_ = L.height_) (hw : g.width_ = L.width_)
    (h : ∀ j, j < L.RawSize → L.board_ j = State.kBlocked → g.board_ j = State.kBlocked)
    (hb : Border L 0) : Border g 0 := by
  intro x hx y hy hr
  rw [hw] at hx hr ⊢
  rw [hh] at hy hr
  have hl := coord_lt L x y hx hy
  have := hb x hx y hy hr
  rw [Nat.zero_mul, Nat.zero_add] at this ⊢
  exact h _ hl this

/-- The loop of `AugmentRandomly` never returns `false`. -/
theorem augmentLoop_true (rbg : Rbg) (num_free : Nat) : ∀ (fuel : Nat) (g : Game)
    (p : List State) (calls : Nat) (solutions : List Int) (b : Bool) (g' : Game),
    augmentLoop rbg num_free fuel g p calls solutions = .ok (b, g') → b = true := by
  intro fuel
  induction fuel with
  | zero => intro g p calls solutions b g' h; simp [Game.augmentLoop] at h
  | succ f ih =>
    intro g p calls solutions b g' h
    unfold Game.augmentLoop at h
    dsimp only at h
    cases hfill : augmentFill (rbg.shuffle calls p) num_free (g.CopyBoard 3 0) 0 0 with
    | error e => rw [hfill] at h; simp [bind, Except.bind] at h
    | ok g2 =>
      rw [hfill] at h
      simp only [bind, Except.bind] at h
      cases hsol : g2.IsSolvable (some solutions) with
      | error e => rw [hsol] at h; simp at h
      | ok r =>
        rw [hsol] at h
        simp only at h
        by_cases hrb : r.1 = true
        · rw [if_pos hrb] at h
          simp only [Except.ok.injEq, Prod.mk.injEq] at h
          exact h.1.symm
        · rw [if_neg hrb] at h
          exact ih _ _ _ _ b g' h

/-- What a round of the loop of `AugmentRandomly` that returns leaves behind, in terms of the
layout `L` saved in area 3 and of the array `p0` of markers. -/
theorem augmentLoop_spec (rbg : Rbg) (L : Game) (p0 : List State) (num_free : Nat)
    (hbL : Border L 0) (hp0 : ∀ s ∈ p0, s = State.kOff ∨ s = State.kBlocked)
    (hlen : p0.length = num_free) (hnf : cntOff L 0 L.RawSize = num_free) :
    ∀ (fuel : Nat) (g : Game) (p : List State) (calls : Nat) (solutions : List Int) (b : Bool)
      (g' : Game),
    g.height_ = L.height_ → g.width_ = L.width_ → g.x_ = 0 → g.y_ = 0 →
    (∀ i, i < L.RawSize → g.board_ (i + 3 * L.RawSize) = L.board_ i) → p.Perm p0 →
    augmentLoop rbg num_free fuel g p calls solutions = .ok (b, g') →
    g'.height_ = L.height_ ∧ g'.width_ = L.width_ ∧ g'.x_ = 0 ∧ g'.y_ = 0 ∧ WF g' ∧
      (∀ j, j < L.RawSize → L.board_ j ≠ State.kOff → g'.board_ j = L.board_ j) ∧
      (∀ j, j < L.RawSize → L.board_ j = State.kOff →
        g'.board_ j = State.kOff ∨ g'.board_ j = State.kBlocked) ∧
      cntOff g' 0 L.RawSize = p0.count State.kOff ∧
      anyWin g' (tiles g') = true := by
  intro fuel
  induction fuel with
  | zero => intro g p calls solutions b g' _ _ _ _ _ _ h; simp [Game.augmentLoop] at h
  | succ f ih =>
    intro g p calls solutions b g' hh hw hx hy h3 hperm h
    have hR : g.RawSize = L.RawSize := by unfold Game.RawSize; rw [hh, hw]
    have hperm1 : (rbg.shuffle calls p).Perm p0 := (rbg.perm calls p).trans hperm
    unfold Game.augmentLoop at h
    dsimp only at h
    cases hfill : augmentFill (rbg.shuffle calls p) num_free (g.CopyBoard 3 0) 0 0 with
    | error e => rw [hfill] at h; simp [bind, Except.bind] at h
    | ok g2 =>
      rw [hfill] at h
      simp only [bind, Except.bind] at h
      -- the board before the fill is the layout
      have hg1 : ∀ j, j < L.RawSize → (g.CopyBoard 3 0).board_ j = L.board_ j := by
        intro j hj
        rw [copy30_board, hR, if_pos hj]
        exact h3 j hj
      have hg1out : ∀ j, L.RawSize ≤ j → (g.CopyBoard 3 0).board_ j = g.board_ j := by
        intro j hj
        rw [copy30_board, hR, if_neg (by omega)]
      have hc1 : cntOff (g.CopyBoard 3 0) 0 (L.RawSize - 0) = num_free := by
        rw [Nat.sub_zero, cntOff_congr L _ _ _ (fun j _ h2 => hg1 j (by omega))]
        exact hnf
      obtain ⟨f1, f2, f3, f4, A, B, C, D⟩ := augmentFill_spec _ L.RawSize _ _ _ _ _ hfill
        (Nat.zero_le _) hc1 (by rw [Nat.zero_add, hperm1.length_eq, hlen])
      have hh2 : g2.height_ = L.height_ := f1.trans hh
      have hw2 : g2.width_ = L.width_ := f2.trans hw
      have hx2 : g2.x_ = 0 := f3.trans hx
      have hy2 : g2.y_ = 0 := f4.trans hy
      have hR2 : g2.RawSize = L.RawSize := by unfold Game.RawSize; rw [hh2, hw2]
      have hlive2 : ∀ j, j < L.RawSize → L.board_ j ≠ State.kOff →
          g2.board_ j = L.board_ j := by
        intro j hj hne
        rw [B j (by rw [hg1 j hj]; exact hne), hg1 j hj]
      have hval2 : ∀ j, j < L.RawSize → L.board_ j = State.kOff →
          g2.board_ j = State.kOff ∨ g2.board_ j = State.kBlocked := by
        intro j hj hoff
        rcases C j with hc | ⟨t, _, t2, t3⟩
        · left; rw [hc, hg1 j hj, hoff]
        · rw [t3]
          rw [Nat.zero_add] at t2
          have hlt : t < (rbg.shuffle calls p).length := by
            rw [hperm1.length_eq, hlen]; exact t2
          rw [List.getD_eq_getElem _ _ hlt]
          exact hp0 _ (hperm1.subset (List.getElem_mem hlt))
      have hcnt2 : cntOff g2 0 L.RawSize = p0.count State.kOff := by
        have := D
        rw [Nat.sub_zero, List.drop_zero] at this
        rw [this, List.take_of_length_le (by rw [hperm1.length_eq, hlen])]
        exact hperm1.count_eq _
      have w2 : WF g2 := by
        refine ⟨Border_of_live L g2 hh2 hw2 ?_ hbL, Or.inl ⟨hx2, hy2⟩⟩
        intro j hj hb
        rw [hlive2 j hj (by rw [hb]; decide), hb]
      have hns2 : g2.HasStarted = false := not_started_of_cursor g2 hx2
      cases hsol : g2.IsSolvable (some solutions) with
      | error e => rw [hsol] at h; simp at h
      | ok r =>
        obtain ⟨rb, rg, rout⟩ := r
        rw [hsol] at h
        simp only at h
        obtain ⟨w3, l3⟩ := IsSolvable_WF g2 rg (some solutions) rout rb w2 hsol
        have a3 := IsSolvable_area3 g2 rg (some solutions) rout rb w2 hsol
        have hbool := IsSolvable_bool g2 rg (some solutions) rout rb w2 hsol
        rw [Reset_of_not_started g2 hns2] at hbool
        have hhr : rg.height_ = L.height_ := l3.1.trans hh2
        have hwr : rg.width_ = L.width_ := l3.2.1.trans hw2
        have hxr : rg.x_ = 0 := l3.2.2.1.trans hx2
        have hyr : rg.y_ = 0 := l3.2.2.2.1.trans hy2
        have hRr : rg.RawSize = L.RawSize := l3.rawSize.trans hR2
        have hliver : ∀ j, j < L.RawSize → rg.board_ j = g2.board_ j := by
          intro j hj
          exact l3.2.2.2.2 j (by rw [hRr]; exact hj)
        by_cases hrb : rb = true
        · rw [if_pos hrb] at h
          simp only [Except.ok.injEq, Prod.mk.injEq] at h
          obtain ⟨_, hg'⟩ := h
          have hlive' : ∀ j, j < L.RawSize → g'.board_ j = g2.board_ j := by
            intro j hj
            rw [← hg', copy01_board, hRr, if_neg (by omega)]
            exact hliver j hj
          have hw' : WF g' := by
            rw [← hg']
            exact ⟨Border_copy_other rg 0 1 0 (by decide) w3.1, Or.inl ⟨hxr, hyr⟩⟩
          have hle : LiveEq g' g2 := by
            rw [← hg']
            refine ⟨l3.1, l3.2.1, l3.2.2.1, l3.2.2.2.1, ?_⟩
            intro j hj
            have hj' : j < L.RawSize := by
              have : (rg.CopyBoard 0 1).RawSize = rg.RawSize := rfl
              rw [this, hRr] at hj
              exact hj
            have := hlive' j hj'
            rw [← hg'] at this
            exact this
          refine ⟨?_, ?_, ?_, ?_, hw', ?_, ?_, ?_, ?_⟩
          · rw [← hg']; exact hhr
          · rw [← hg']; exact hwr
          · rw [← hg']; exact hxr
          · rw [← hg']; exact hyr
          · intro j hj hne
            rw [hlive' j hj, hlive2 j hj hne]
          · intro j hj hoff
            rw [hlive' j hj]
            exact hval2 j hj hoff
          · rw [cntOff_congr g2 g' _ _ (fun j _ h2 => hlive' j (by omega))]
            exact hcnt2
          · rw [anyWin_congr g' g2 hle hw' w2, tiles_congr g' g2 hle.1 hle.2.1, ← hbool]
            exact hrb
        · rw [if_neg hrb] at h
          apply ih rg _ _ _ b g' hhr hwr hxr hyr _ hperm1 h
          intro i hi
          rw [a3 _ (by rw [hR2]; omega), A _ (Or.inr (by omega)), hg1out _ (by omega)]
          exact h3 i hi

/-! ## Counting tiles -/

/-- An element of the live area that is not blocked is a playable tile. -/
theorem index_is_tile (g : Game) (hb : Border g 0) (i : Nat) (hi : i < g.RawSize)
    (hne : g.board_ i ≠ State.kBlocked) : ∃ x y : Int, Interior g x y ∧ g.idx x y = i := by
  have hW : 0 < g.width_ + 2 := by omega
  have hx : i % (g.width_ + 2) ≤ g.width_ + 1 := by
    have := Nat.mod_lt i hW
    omega
  have hy : i / (g.width_ + 2) ≤ g.height_ + 1 := by
    have : i / (g.width_ + 2) < g.height_ + 2 := by
      rw [Nat.div_lt_iff_lt_mul hW]
      unfold Game.RawSize at hi
      exact hi
    omega
  have hi' : i = i % (g.width_ + 2) + (g.width_ + 2) * (i / (g.width_ + 2)) :=
    (Nat.mod_add_div i _).symm
  have hr : ¬ (i % (g.width_ + 2) = 0 ∨ i % (g.width_ + 2) = g.width_ + 1 ∨
      i / (g.width_ + 2) = 0 ∨ i / (g.width_ + 2) = g.height_ + 1) := by
    intro hr
    have := hb _ hx _ hy hr
    rw [Nat.zero_mul, Nat.zero_add, ← hi'] at this
    exact hne this
  have a0 : ∀ X Y : Nat, X ≤ g.width_ + 1 → Y ≤ g.height_ + 1 →
      ¬ (X = 0 ∨ X = g.width_ + 1 ∨ Y = 0 ∨ Y = g.height_ + 1) →
      1 ≤ X ∧ X ≤ g.width_ ∧ 1 ≤ Y ∧ Y ≤ g.height_ := by
    intro X Y h1 h2 h3; omega
  have a1 := a0 _ _ hx hy hr
  refine ⟨((i % (g.width_ + 2) : Nat) : Int), ((i / (g.width_ + 2) : Nat) : Int), ?_, ?_⟩
  · unfold Interior
    exact ⟨by exact_mod_cast a1.1, by exact_mod_cast a1.2.1, by exact_mod_cast a1.2.2.1,
      by exact_mod_cast a1.2.2.2⟩
  · rw [idx_natCast]
    exact hi'.symm

theorem tiles_nodup (g : Game) : (tiles g).Nodup := by
  apply List.Pairwise.imp _ (tiles_pairwise g)
  intro a b hab he
  rw [he] at hab
  exact rowMajorLt_irrefl b hab

/-- Counting elements of the live area that are playable tiles is counting tiles. -/
theorem card_eq_tiles (g : Game) (P : Nat → Prop) [DecidablePred P]
    (hP : ∀ i, i < g.RawSize → P i → ∃ x y : Int, Interior g x y ∧ g.idx x y = i) :
    ((Finset.range g.RawSize).filter P).card =
      ((tiles g).filter (fun t => decide (P (g.idx t.1 t.2)))).length := by
  have hnd : ((tiles g).filter (fun t => decide (P (g.idx t.1 t.2)))).Nodup :=
    List.Nodup.filter _ (tiles_nodup g)
  rw [← List.toFinset_card_of_nodup hnd]
  symm
  apply Finset.card_bij (fun t _ => g.idx t.1 t.2)
  · intro t ht
    rw [List.mem_toFinset, List.mem_filter] at ht
    obtain ⟨ht1, ht2⟩ := ht
    have hi := (mem_tiles g t.1 t.2).mp ht1
    unfold Interior at hi
    rw [Finset.mem_filter, Finset.mem_range]
    exact ⟨idx_lt g (by omega) (by omega) (by omega) (by omega), of_decide_eq_true ht2⟩
  · intro t1 ht1 t2 ht2 he
    rw [List.mem_toFinset, List.mem_filter] at ht1 ht2
    have h1 := (mem_tiles g t1.1 t1.2).mp ht1.1
    have h2 := (mem_tiles g t2.1 t2.2).mp ht2.1
    unfold Interior at h1 h2
    obtain ⟨e1, e2⟩ := idx_inj g (by omega) (by omega) (by omega) (by omega) (by omega)
      (by omega) he
    exact Prod.ext e1 e2
  · intro i hi
    rw [Finset.mem_filter, Finset.mem_range] at hi
    obtain ⟨x, y, hint, hidx⟩ := hP i hi.1 hi.2
    refine ⟨(x, y), ?_, hidx⟩
    rw [List.mem_toFinset, List.mem_filter]
    refine ⟨(mem_tiles g x y).mpr hint, ?_⟩
    apply decide_eq_true
    show P (g.idx x y)
    rw [hidx]
    exact hi.2

/-- The value of `std::count` over the live buffer is the number of `kOff` tiles. -/
theorem numFree_eq_tiles (g : Game) (hb : Border g 0) :
    g.numFree = ((tiles g).filter (fun t => decide (g.At t.1 t.2 = State.kOff))).length := by
  rw [numFree_eq_offCount]
  unfold offCount
  rw [card_eq_tiles g (fun i => g.board_ i = State.kOff)
    (fun i hi h => index_is_tile g hb i hi (by rw [h]; decide))]
  rfl

/-! ## AugmentRandomly: the claims -/

/-- What `AugmentRandomly(n, rbg)` leaves behind when it returns `true`, element by element. -/
theorem AugmentRandomly_true (g g' : Game) (n : Int) (rbg : Rbg) (fuel : Nat) (hwf : WF g)
    (h : g.AugmentRandomly n rbg fuel = .ok (true, g')) :
    g.HasStarted = false ∧ 0 ≤ n ∧ n < g.numFree ∧
      g'.height_ = g.height_ ∧ g'.width_ = g.width_ ∧ g'.x_ = 0 ∧ g'.y_ = 0 ∧ WF g' ∧
      (∀ j, j < g.RawSize → g.board_ j ≠ State.kOff → g'.board_ j = g.board_ j) ∧
      (∀ j, j < g.RawSize → g.board_ j = State.kOff →
        g'.board_ j = State.kOff ∨ g'.board_ j = State.kBlocked) ∧
      g'.numFree + n.toNat = g.numFree ∧
      anyWin g' (tiles g') = true := by
  unfold Game.AugmentRandomly at h
  by_cases hs : g.HasStarted = true
  · rw [if_pos hs] at h
    simp at h
  · rw [if_neg hs] at h
    dsimp only at h
    by_cases hn : n < 0
    · rw [if_pos hn] at h
      simp at h
    · rw [if_neg hn] at h
      by_cases hf : (g.numFree : Int) ≤ n
      · rw [if_pos hf] at h
        simp at h
      · rw [if_neg hf] at h
        have hs' : g.HasStarted = false := by simpa using hs
        have hc : g.x_ = 0 ∧ g.y_ = 0 := by
          rcases hwf.2 with h0 | h1
          · exact h0
          · exact absurd (hasStarted_of_interior h1.1) hs
        have hnn : n.toNat ≤ g.numFree := by omega
        have hp0 : ∀ s ∈ List.replicate n.toNat State.kBlocked ++
            List.replicate (g.numFree - n.toNat) State.kOff,
            s = State.kOff ∨ s = State.kBlocked := by
          intro s hs
          rcases List.mem_append.mp hs with h1 | h1
          · exact Or.inr (List.eq_of_mem_replicate h1)
          · exact Or.inl (List.eq_of_mem_replicate h1)
        have hcount : (List.replicate n.toNat State.kBlocked ++
            List.replicate (g.numFree - n.toNat) State.kOff).count State.kOff =
            g.numFree - n.toNat := by
          rw [List.count_append, List.count_replicate, List.count_replicate_self]
          simp
        obtain ⟨r1, r2, r3, r4, r5, r6, r7, r8, r9⟩ := augmentLoop_spec rbg g _ g.numFree hwf.1
          hp0 (by rw [List.length_append, List.length_replicate, List.length_replicate]; omega)
          (numFree_eq_cntOff g).symm fuel (g.CopyBoard 0 3) _ 0 [] true g' rfl rfl hc.1 hc.2
          (by
            intro i hi
            have hR : (g.CopyBoard 0 3).RawSize = g.RawSize := rfl
            rw [copy03_board, if_pos (by omega)]
            congr 1
            omega)
          (List.Perm.refl _) h
        have hR' : g'.RawSize = g.RawSize := by unfold Game.RawSize; rw [r1, r2]
        refine ⟨hs', by omega, by omega, r1, r2, r3, r4, r5, r6, r7, ?_, r9⟩
        rw [numFree_eq_cntOff, hR', r8, hcount]
        omega

/-- Exactly `n` elements that were `kOff` are `kBlocked` after a successful call. -/
theorem AugmentRandomly_blocked_card (g g' : Game) (n : Int) (rbg : Rbg) (fuel : Nat)
    (hwf : WF g) (h : g.AugmentRandomly n rbg fuel = .ok (true, g')) :
    ((Finset.range g.RawSize).filter
      (fun i => g.board_ i = State.kOff ∧ g'.board_ i = State.kBlocked)).card = n.toNat ∧
    (Finset.range g.RawSize).filter
      (fun i => g.board_ i = State.kOff ∧ g'.board_ i = State.kOff) =
      (Finset.range g.RawSize).filter (fun i => g'.board_ i = State.kOff) ∧
    g'.numFree =
      ((Finset.range g.RawSize).filter (fun i => g'.board_ i = State.kOff)).card := by
  obtain ⟨_, _, _, d1, d2, _, _, _, I1, I2, I3, _⟩ :=
    AugmentRandomly_true g g' n rbg fuel hwf h
  have hR' : g'.RawSize = g.RawSize := by unfold Game.RawSize; rw [d1, d2]
  have hfree : g.numFree =
      ((Finset.range g.RawSize).filter (fun i => g.board_ i = State.kOff)).card :=
    numFree_eq_offCount g
  have hfree' : g'.numFree =
      ((Finset.range g.RawSize).filter (fun i => g'.board_ i = State.kOff)).card := by
    rw [numFree_eq_offCount]; unfold offCount; rw [hR']
  have hsum := Finset.filter_card_add_filter_neg_card_eq_card
    (s := (Finset.range g.RawSize).filter (fun i => g.board_ i = State.kOff))
    (fun i => g'.board_ i = State.kOff)
  rw [Finset.filter_filter, Finset.filter_filter] at hsum
  have hoo : (Finset.range g.RawSize).filter
      (fun i => g.board_ i = State.kOff ∧ g'.board_ i = State.kOff) =
      (Finset.range g.RawSize).filter (fun i => g'.board_ i = State.kOff) := by
    apply Finset.filter_congr
    intro i hi
    rw [Finset.mem_range] at hi
    constructor
    · exact fun hh => hh.2
    · intro hh
      refine ⟨?_, hh⟩
      by_contra hne
      rw [I1 i hi hne] at hh
      exact hne hh
  have hob : (Finset.range g.RawSize).filter
      (fun i => g.board_ i = State.kOff ∧ ¬ g'.board_ i = State.kOff) =
      (Finset.range g.RawSize).filter
        (fun i => g.board_ i = State.kOff ∧ g'.board_ i = State.kBlocked) := by
    apply Finset.filter_congr
    intro i hi
    rw [Finset.mem_range] at hi
    constructor
    · rintro ⟨h1, h2⟩
      rcases I2 i hi h1 with h3 | h3
      · exact absurd h3 h2
      · exact ⟨h1, h3⟩
    · rintro ⟨h1, h2⟩
      exact ⟨h1, by rw [h2]; decide⟩
  rw [hoo, hob, ← hfree, ← hfree'] at hsum
  refine ⟨?_, hoo, hfree'⟩
  omega

/-- C25: when `AugmentRandomly(n, rbg)` returns `true` on a layout (no tile `kOn`) with `k`
tiles `kOff`, whatever the permutations the generator applies, then no game was in progress,
`0 <= n < k` (so this covers `0 < n < k`), no game is in progress afterwards, every tile that
was `kBlocked` still is,
every tile that was `kOff` is `kOff` or `kBlocked`, no tile is `kOn`, exactly `n` tiles that
were `kOff` are `kBlocked` and the other `k - n` are `kOff`, and `IsSolvable(nullptr)` on the
result returns `true`. -/
theorem augment_success (g : Game) (n : Int) (rbg : Rbg) (fuel : Nat) (hwf : WF g)
    (hlay : ∀ t ∈ tiles g, g.At t.1 t.2 ≠ State.kOn)
    (h : (g.AugmentRandomly n rbg fuel).map Prod.fst = .ok true) :
    ∃ g', g.AugmentRandomly n rbg fuel = .ok (true, g') ∧
      g.HasStarted = false ∧ 0 ≤ n ∧ n < g.numFree ∧
      g'.Height = g.Height ∧ g'.Width = g.Width ∧ g'.X = 0 ∧ g'.Y = 0 ∧
      g'.HasStarted = false ∧
      g.numFree = ((tiles g).filter (fun t => decide (g.At t.1 t.2 = State.kOff))).length ∧
      (∀ x y : Int, 0 ≤ x → x ≤ g.Width + 1 → 0 ≤ y → y ≤ g.Height + 1 →
        g.At x y = State.kBlocked → g'.At x y = State.kBlocked) ∧
      (∀ x y : Int, 0 ≤ x → x ≤ g.Width + 1 → 0 ≤ y → y ≤ g.Height + 1 →
        g.At x y = State.kOff → g'.At x y = State.kOff ∨ g'.At x y = State.kBlocked) ∧
      (∀ x y : Int, 0 ≤ x → x ≤ g.Width + 1 → 0 ≤ y → y ≤ g.Height + 1 →
        g'.At x y ≠ State.kOn) ∧
      (((tiles g).filter (fun t => decide (g.At t.1 t.2 = State.kOff ∧
        g'.At t.1 t.2 = State.kBlocked))).length : Int) = n ∧
      (((tiles g).filter (fun t => decide (g.At t.1 t.2 = State.kOff ∧
        g'.At t.1 t.2 = State.kOff))).length : Int) = g.numFree - n ∧
      ∃ g'', g'.IsSolvable none = .ok (true, g'', none) := by
  -- the call returned some game
  obtain ⟨g', e⟩ : ∃ g', g.AugmentRandomly n rbg fuel = .ok (true, g') := by
    cases hr : g.AugmentRandomly n rbg fuel with
    | error err => rw [hr] at h; simp [Except.map] at h
    | ok r =>
      rw [hr] at h
      simp only [Except.map, Except.ok.injEq] at h
      exact ⟨r.2, by rw [← h]⟩
  obtain ⟨hns, hn0, hnk, d1, d2, cx, cy, w', I1, I2, I3, I4⟩ :=
    AugmentRandomly_true g g' n rbg fuel hwf e
  have hR' : g'.RawSize = g.RawSize := by unfold Game.RawSize; rw [d1, d2]
  have hidx : ∀ x y : Int, g'.idx x y = g.idx x y := by
    intro x y; unfold Game.idx; rw [d2]
  have hat' : ∀ x y : Int, g'.At x y = g'.board_ (g.idx x y) := by
    intro x y; unfold Game.At; rw [hidx]
  have hns' : g'.HasStarted = false := not_started_of_cursor g' cx
  obtain ⟨hcard, hoo, hfree'⟩ := AugmentRandomly_blocked_card g g' n rbg fuel hwf e
  have htile : ∀ i, i < g.RawSize → g.board_ i = State.kOff →
      ∃ x y : Int, Interior g x y ∧ g.idx x y = i :=
    fun i hi ho => index_is_tile g hwf.1 i hi (by rw [ho]; decide)
  have hcb := card_eq_tiles g (fun i => g.board_ i = State.kOff ∧ g'.board_ i = State.kBlocked)
    (fun i hi hp => htile i hi hp.1)
  have hco := card_eq_tiles g (fun i => g.board_ i = State.kOff ∧ g'.board_ i = State.kOff)
    (fun i hi hp => htile i hi hp.1)
  have hfb : (tiles g).filter (fun t => decide (g.At t.1 t.2 = State.kOff ∧
      g'.At t.1 t.2 = State.kBlocked)) =
      (tiles g).filter (fun t => decide (g.board_ (g.idx t.1 t.2) = State.kOff ∧
        g'.board_ (g.idx t.1 t.2) = State.kBlocked)) := by
    apply List.filter_congr
    intro t _
    rw [hat']
    rfl
  have hfo : (tiles g).filter (fun t => decide (g.At t.1 t.2 = State.kOff ∧
      g'.At t.1 t.2 = State.kOff)) =
      (tiles g).filter (fun t => decide (g.board_ (g.idx t.1 t.2) = State.kOff ∧
        g'.board_ (g.idx t.1 t.2) = State.kOff)) := by
    apply List.filter_congr
    intro t _
    rw [hat']
    rfl
  have hatb : ∀ x y : Int, 0 ≤ x → x ≤ g.Width + 1 → 0 ≤ y → y ≤ g.Height + 1 →
      g.idx x y < g.RawSize := by
    intro x y h1 h2 h3 h4
    unfold Game.Width at h2
    unfold Game.Height at h4
    exact idx_lt g h1 h2 h3 h4
  obtain ⟨g'', e''⟩ : ∃ g'', g'.IsSolvable none = .ok (true, g'', none) := by
    obtain ⟨g'', e2, _⟩ := IsSolvable_spec g' w' none
    rw [Reset_of_not_started g' hns', I4] at e2
    exact ⟨g'', e2⟩
  refine ⟨g', e, hns, hn0, hnk, d1, d2, cx, cy, hns', numFree_eq_tiles g hwf.1, ?_, ?_, ?_,
    ?_, ?_, g'', e''⟩
  · intro x y h1 h2 h3 h4 hb
    have hb' : g.board_ (g.idx x y) = State.kBlocked := hb
    rw [hat', I1 _ (hatb x y h1 h2 h3 h4) (by rw [hb']; decide)]
    exact hb
  · intro x y h1 h2 h3 h4 ho
    rw [hat']
    exact I2 _ (hatb x y h1 h2 h3 h4) ho
  · intro x y h1 h2 h3 h4
    rw [hat']
    by_cases ho : g.board_ (g.idx x y) = State.kOff
    · rcases I2 _ (hatb x y h1 h2 h3 h4) ho with h5 | h5 <;> rw [h5] <;> decide
    · rw [I1 _ (hatb x y h1 h2 h3 h4) ho]
      by_cases hi : Interior g x y
      · exact hlay (x, y) ((mem_tiles g x y).mpr hi)
      · unfold Game.Width at h2
        unfold Game.Height at h4
        unfold Interior at hi
        have := At_ring g hwf.1 h1 h2 h3 h4 (by omega)
        have hb' : g.board_ (g.idx x y) = State.kBlocked := this
        rw [hb']
        decide
  · rw [hfb, ← hcb, hcard]
    omega
  · rw [hfo, ← hco, hoo, ← hfree']
    omega

theorem augment_success_witness :
    WF empty2x2 ∧ (∀ t ∈ tiles empty2x2, empty2x2.At t.1 t.2 ≠ State.kOn) ∧
    (empty2x2.AugmentRandomly 1 idRbg 1).map Prod.fst = .ok true ∧
    ∃ g', empty2x2.AugmentRandomly 1 idRbg 1 = .ok (true, g') ∧
      empty2x2.HasStarted = false ∧ (0 : Int) ≤ 1 ∧ (1 : Int) < empty2x2.numFree ∧
      g'.Height = empty2x2.Height ∧ g'.Width = empty2x2.Width ∧ g'.X = 0 ∧ g'.Y = 0 ∧
      g'.HasStarted = false ∧
      empty2x2.numFree =
        ((tiles empty2x2).filter (fun t => decide (empty2x2.At t.1 t.2 = State.kOff))).length ∧
      (∀ x y : Int, 0 ≤ x → x ≤ empty2x2.Width + 1 → 0 ≤ y → y ≤ empty2x2.Height + 1 →
        empty2x2.At x y = State.kBlocked → g'.At x y = State.kBlocked) ∧
      (∀ x y : Int, 0 ≤ x → x ≤ empty2x2.Width + 1 → 0 ≤ y → y ≤ empty2x2.Height + 1 →
        empty2x2.At x y = State.kOff → g'.At x y = State.kOff ∨ g'.At x y = State.kBlocked) ∧
      (∀ x y : Int, 0 ≤ x → x ≤ empty2x2.Width + 1 → 0 ≤ y → y ≤ empty2x2.Height + 1 →
        g'.At x y ≠ State.kOn) ∧
      (((tiles empty2x2).filter (fun t => decide (empty2x2.At t.1 t.2 = State.kOff ∧
        g'.At t.1 t.2 = State.kBlocked))).length : Int) = 1 ∧
      (((tiles empty2x2).filter (fun t => decide (empty2x2.At t.1 t.2 = State.kOff ∧
        g'.At t.1 t.2 = State.kOff))).length : Int) = empty2x2.numFree - 1 ∧
      ∃ g'', g'.IsSolvable none = .ok (true, g'', none) :=
  ⟨by decide, by decide, by decide,
    augment_success empty2x2 1 idRbg 1 (by decide) (by decide) (by decide)⟩

/-- With `idRbg`, `AugmentRandomly(1, &rbg)` on the empty 2 x 2 board blocks tile `(1, 1)`:
the result encodes as `221`. -/
theorem augmented_2x2_text :
    (empty2x2.AugmentRandomly 1 idRbg 1).map (fun r => (r.1, SaveToHexString r.2)) =
      .ok (true, "221") ∧ SaveToHexString augmented2x2 = "221" := by
  decide

/-- With `n = 0`, a call of `AugmentRandomly` that returns leaves the live board and the
cursor as they were, and the layout is winnable. -/
theorem AugmentRandomly_zero (g g' : Game) (rbg : Rbg) (fuel : Nat) (hwf : WF g)
    (hns : g.HasStarted = false) (h : g.AugmentRandomly 0 rbg fuel = .ok (true, g')) :
    LiveEq g' g ∧ anyWin g (tiles g) = true := by
  obtain ⟨_, _, _, d1, d2, cx, cy, w', I1, I2, _, I4⟩ :=
    AugmentRandomly_true g g' 0 rbg fuel hwf h
  obtain ⟨hcard, _, _⟩ := AugmentRandomly_blocked_card g g' 0 rbg fuel hwf h
  have hc : g.x_ = 0 ∧ g.y_ = 0 := by
    have := Reset_cursor g hwf
    rw [Reset_of_not_started g hns] at this
    exact this
  have hR' : g'.RawSize = g.RawSize := by unfold Game.RawSize; rw [d1, d2]
  have hle : LiveEq g' g := by
    refine ⟨d1, d2, cx.trans hc.1.symm, cy.trans hc.2.symm, ?_⟩
    intro j hj
    rw [hR'] at hj
    by_cases ho : g.board_ j = State.kOff
    · rcases I2 j hj ho with h1 | h1
      · rw [h1, ho]
      · exfalso
        have hmem : j ∈ (Finset.range g.RawSize).filter
            (fun i => g.board_ i = State.kOff ∧ g'.board_ i = State.kBlocked) := by
          rw [Finset.mem_filter, Finset.mem_range]
          exact ⟨hj, ho, h1⟩
        have hpos := Finset.card_pos.mpr ⟨j, hmem⟩
        rw [hcard] at hpos
        exact absurd hpos (by decide)
    · exact I1 j hj ho
  refine ⟨hle, ?_⟩
  rw [← anyWin_congr g' g hle w' hwf, ← tiles_congr g' g d1 d2]
  exact I4

/-- The loop of `AugmentRandomly` is entered when `0 <= n < k`, and then `false` is never
returned. -/
theorem AugmentRandomly_not_false (g g' : Game) (n : Int) (rbg : Rbg) (fuel : Nat)
    (hns : g.HasStarted = false) (hn : 0 ≤ n) (hk : n < g.numFree) :
    g.AugmentRandomly n rbg fuel ≠ .ok (false, g') := by
  intro h
  unfold Game.AugmentRandomly at h
  rw [hns] at h
  simp only [Bool.false_eq_true, if_false] at h
  rw [if_neg (by omega), if_neg (by omega)] at h
  have := augmentLoop_true _ _ _ _ _ _ _ _ _ h
  exact absurd this (by decide)

/-- C24 fails for `n = 0`: on a board with no game in progress that has a `kOff` tile,
`AugmentRandomly(0, rbg)` never returns `false`, whatever the generator and however long its
loop may run (the test of the code is `n < 0`); when it returns, it returns `true` with the
live board and the cursor as they were, and the layout is winnable; so on a layout that is not
winnable it never returns. -/
theorem augment_zero_not_rejected (g : Game) (rbg : Rbg) (fuel : Nat) (hwf : WF g)
    (hns : g.HasStarted = false) (hk : 0 < g.numFree) :
    (∀ g', g.AugmentRandomly 0 rbg fuel ≠ .ok (false, g')) ∧
    (∀ g', g.AugmentRandomly 0 rbg fuel = .ok (true, g') →
      g'.Height = g.Height ∧ g'.Width = g.Width ∧ g'.X = g.X ∧ g'.Y = g.Y ∧
      (∀ j, j < g.RawSize → g'.board_ j = g.board_ j) ∧ FastWinnable g) ∧
    (¬ FastWinnable g → ∀ r, g.AugmentRandomly 0 rbg fuel ≠ .ok r) := by
  have hfalse : ∀ g', g.AugmentRandomly 0 rbg fuel ≠ .ok (false, g') := fun g' =>
    AugmentRandomly_not_false g g' 0 rbg fuel hns (le_refl _) (by omega)
  have htrue : ∀ g', g.AugmentRandomly 0 rbg fuel = .ok (true, g') →
      g'.Height = g.Height ∧ g'.Width = g.Width ∧ g'.X = g.X ∧ g'.Y = g.Y ∧
      (∀ j, j < g.RawSize → g'.board_ j = g.board_ j) ∧ FastWinnable g := by
    intro g' h
    obtain ⟨hle, hwin⟩ := AugmentRandomly_zero g g' rbg fuel hwf hns h
    refine ⟨hle.1, hle.2.1, hle.2.2.1, hle.2.2.2.1, ?_, (anyWin_iff_fast g hwf).mp hwin⟩
    intro j hj
    exact hle.2.2.2.2 j (by rw [hle.rawSize]; exact hj)
  refine ⟨hfalse, htrue, ?_⟩
  intro hnw r h
  obtain ⟨b, g'⟩ := r
  cases b with
  | false => exact hfalse g' h
  | true => exact hnw (htrue g' h).2.2.2.2.2

theorem augment_zero_not_rejected_witness :
    WF empty2x2 ∧ empty2x2.HasStarted = false ∧ 0 < empty2x2.numFree ∧
    ((∀ g', empty2x2.AugmentRandomly 0 idRbg 1 ≠ .ok (false, g')) ∧
      (∀ g', empty2x2.AugmentRandomly 0 idRbg 1 = .ok (true, g') →
        g'.Height = empty2x2.Height ∧ g'.Width = empty2x2.Width ∧ g'.X = empty2x2.X ∧
        g'.Y = empty2x2.Y ∧
        (∀ j, j < empty2x2.RawSize → g'.board_ j = empty2x2.board_ j) ∧
        FastWinnable empty2x2) ∧
      (¬ FastWinnable empty2x2 → ∀ r, empty2x2.AugmentRandomly 0 idRbg 1 ≠ .ok r)) :=
  ⟨by decide, by decide, by decide,
    augment_zero_not_rejected empty2x2 idRbg 1 (by decide) (by decide) (by decide)⟩

/-- With `n = 0`, `AugmentRandomly` returns `true` on the empty 2 x 2 board, whose text stays
`220`. -/
theorem augment_zero_2x2 :
    (empty2x2.AugmentRandomly 0 idRbg 1).map (fun r => (r.1, SaveToHexString r.2)) =
      .ok (true, "220") := by
  decide

/-- With `n = 0`, `AugmentRandomly` never returns on the 3 x 3 board with blocked corners,
whatever the generator and the number of rounds allowed. -/
theorem augment_zero_corners (rbg : Rbg) (fuel : Nat) :
    ∀ r, corners3x3.AugmentRandomly 0 rbg fuel ≠ .ok r := by
  have hwf : WF corners3x3 := by decide
  have hns : corners3x3.HasStarted = false := by decide
  have hlose : anyWin corners3x3 (tiles corners3x3) = false := by decide
  intro r h
  obtain ⟨b, g'⟩ := r
  cases b with
  | false =>
    exact AugmentRandomly_not_false corners3x3 g' 0 rbg fuel hns (le_refl _) (by decide) h
  | true =>
    have := (AugmentRandomly_zero corners3x3 g' rbg fuel hwf hns h).2
    rw [hlose] at this
    exact absurd this (by decide)

/-! ## The invariant of the reachable states -/

/-- A valid `Move` from a state whose cursor tile is `kOn` ends on a `kOn` tile, with a tile
that is not `kOff` ahead and a `kOn` tile behind. -/
theorem Move_cursor (g : Game) (d : Dir) (hwf : WF g) (hs : g.HasStarted = true)
    (hon : g.At g.x_ g.y_ = State.kOn) (hd : Single d) (hv : d &&& g.ValidDirs = d) :
    ∃ (g' : Game) (dx dy : Int), increment_for_move d = some (dx, dy) ∧ UnitStep dx dy ∧
      g.Move d = .ok (true, g') ∧ WF g' ∧ g'.HasStarted = true ∧
      g'.At g'.x_ g'.y_ = State.kOn ∧ g'.At (g'.x_ + dx) (g'.y_ + dy) ≠ State.kOff ∧
      g'.At (g'.x_ - dx) (g'.y_ - dy) = State.kOn := by
  obtain ⟨g', r, dx, dy, hinc, hu, hm, hr, w', s', _, d2, cx, cy, hrun, _, hb', hrest⟩ :=
    Move_run g d hwf hs hd hv
  refine ⟨g', dx, dy, hinc, hu, hm, w', s', ?_, hb', ?_⟩
  · rw [cx, cy]
    exact (hrun r hr (le_refl _)).2.2
  · obtain ⟨r', rfl⟩ : ∃ r', r = r' + 1 := ⟨r - 1, by omega⟩
    have ex : g'.x_ - dx = g.x_ + (r' : Int) * dx := by rw [cx]; push_cast; ring
    have ey : g'.y_ - dy = g.y_ + (r' : Int) * dy := by rw [cy]; push_cast; ring
    rw [ex, ey]
    by_cases h0 : r' = 0
    · subst h0
      have e0x : g.x_ + ((0 : Nat) : Int) * dx = g.x_ := by push_cast; ring
      have e0y : g.y_ + ((0 : Nat) : Int) * dy = g.y_ := by push_cast; ring
      rw [e0x, e0y]
      have hat' : g'.At g.x_ g.y_ = g'.board_ (g.idx g.x_ g.y_) := by
        unfold Game.At Game.idx; rw [d2]
      rw [hat', hrest]
      · exact hon
      · intro i h1 h2 he
        have hoff := (hrun i h1 h2).2.1
        have : g.At g.x_ g.y_ = State.kOff := by
          unfold Game.At at hoff ⊢
          rw [he]
          exact hoff
        rw [hon] at this
        exact absurd this (by decide)
    · exact (hrun r' (by omega) (by omega)).2.2

theorem MoveRun_cursor : ∀ (ms : List Dir) (g g' : Game), WF g → g.HasStarted = true →
    g.At g.x_ g.y_ = State.kOn → (∀ m ∈ ms, Single m) → MoveRun g ms g' →
    g'.At g'.x_ g'.y_ = State.kOn := by
  intro ms
  induction ms with
  | nil =>
    intro g g' _ _ hon _ h
    have : g' = g := h
    rw [this]
    exact hon
  | cons d ds ih =>
    intro g g' hwf hs hon hsing hrun
    obtain ⟨g1, hm, hrun'⟩ := hrun
    have hd := hsing d (List.mem_cons_self _ _)
    obtain ⟨_, hv⟩ := Move_true_inv g g1 d hm
    obtain ⟨g1', _, _, _, _, hm', w1, s1, on1, _, _⟩ := Move_cursor g d hwf hs hon hd hv
    rw [hm] at hm'
    simp only [Except.ok.injEq, Prod.mk.injEq, true_and] at hm'
    subst hm'
    exact ih g1 g' w1 s1 on1 (fun m hm => hsing m (List.mem_cons_of_mem _ hm)) hrun'

/-- A call of `Move` or `MoveFast` on a game in progress leaves the game as it was or
performs a run of successful `Move` calls. -/
theorem playStep_runs (g g' : Game) (s : Bool × Dir) (b : Bool) (hwf : WF g)
    (hs : g.HasStarted = true) (h : playStep g s = .ok (b, g')) :
    g' = g ∨ ∃ ms, MoveRun g ms g' ∧ ∀ m ∈ ms, Single m := by
  unfold playStep at h
  by_cases hv : s.2 &&& g.ValidDirs = s.2
  · have hone : ∃ g1, g.MoveOne s.2 = .ok g1 := by
      cases hm : g.MoveOne s.2 with
      | ok g1 => exact ⟨g1, rfl⟩
      | error e =>
        exfalso
        by_cases hf : s.1 = true
        · rw [if_pos hf, MoveFast_eq_loop g s.2 hs hv] at h
          unfold Game.MoveFastLoop at h
          rw [hm] at h
          simp [bind, Except.bind] at h
        · rw [if_neg hf] at h
          unfold Game.Move at h
          simp only [hs, Bool.not_true, Bool.false_eq_true, if_false, hv, ne_eq,
            not_true_eq_false, hm] at h
          simp [bind, Except.bind] at h
    obtain ⟨g1, hm⟩ := hone
    have hd := MoveOne_single g g1 s.2 hm
    right
    by_cases hf : s.1 = true
    · rw [if_pos hf] at h
      obtain ⟨g2, e2, _, _, _, _, _⟩ := MoveFast_ok g s.2 hwf hs hd hv
      have e3 := e2
      rw [h] at e2
      cases e2
      rw [MoveFast_eq_loop g s.2 hs hv] at e3
      exact fastLoop_to_moves _ g g' s.2 hwf hs hd hv e3
    · rw [if_neg hf] at h
      obtain ⟨g2, e2, _, _, _, _⟩ := Move_ok g s.2 hwf hs hd hv
      have e3 := e2
      rw [h] at e2
      cases e2
      refine ⟨[s.2], ⟨g', e3, rfl⟩, ?_⟩
      intro m hm'
      rw [List.mem_singleton] at hm'
      rw [hm']
      exact hd
  · left
    by_cases hf : s.1 = true
    · rw [if_pos hf] at h
      unfold Game.MoveFast at h
      simp only [hs, Bool.not_true, Bool.false_eq_true, if_false, hv, ne_eq,
        not_false_eq_true, if_true] at h
      cases h; rfl
    · rw [if_neg hf] at h
      unfold Game.Move at h
      simp only [hs, Bool.not_true, Bool.false_eq_true, if_false, hv, ne_eq,
        not_false_eq_true, if_true] at h
      cases h; rfl

theorem playStep_not_started (g g' : Game) (s : Bool × Dir) (b : Bool)
    (hs : g.HasStarted = false) (h : playStep g s = .ok (b, g')) : g' = g := by
  unfold playStep at h
  by_cases hf : s.1 = true
  · rw [if_pos hf] at h
    unfold Game.MoveFast at h
    simp [hs] at h
    exact h.2.symm
  · rw [if_neg hf] at h
    unfold Game.Move at h
    simp [hs] at h
    exact h.2.symm

theorem new_no_on (h w : Nat) : ∀ i, (Game.new h w).board_ i ≠ State.kOn := by
  have hnew : Game.new h w = (List.range h).foldl
      (fun (g : Game) (j : Nat) =>
        (g.setAt ((w : Int) + 1) ((j : Int) + 1) State.kBlocked).setAt 0 ((j : Int) + 1)
          State.kBlocked)
      ((List.range (w + 2)).foldl
        (fun (g : Game) (x : Nat) =>
          (g.setAt x ((h : Int) + 1) State.kBlocked).setAt x 0 State.kBlocked)
        { height_ := h, width_ := w, x_ := 0, y_ := 0,
          board_ := fun _ => State.kOff }) := rfl
  rw [hnew]
  apply foldl_invariant (fun g : Game => ∀ i, g.board_ i ≠ State.kOn)
  · apply foldl_invariant (fun g : Game => ∀ i, g.board_ i ≠ State.kOn)
    · intro i
      show State.kOff ≠ State.kOn
      decide
    · intro g a _ hg i
      show (if i = _ then State.kBlocked else if i = _ then State.kBlocked else g.board_ i) ≠ _
      split_ifs <;> first | decide | exact hg i
  · intro g a _ hg i
    show (if i = _ then State.kBlocked else if i = _ then State.kBlocked else g.board_ i) ≠ _
    split_ifs <;> first | decide | exact hg i

theorem PlayInv_new (h w : Nat) : PlayInv (Game.new h w) := by
  have hns : (Game.new h w).HasStarted = false :=
    not_started_of_cursor _ (new_fresh h w).2.2.1
  refine ⟨new_WF h w, fun _ i _ => new_no_on h w i, ?_⟩
  intro hs
  rw [hns] at hs
  exact absurd hs (by decide)

theorem SetBlocked_started (g : Game) (x y : Int) (hs : g.HasStarted = true) :
    (g.SetBlocked x y).2 = g := by
  unfold Game.SetBlocked
  rw [if_pos hs]

theorem SetBlocked_fields (g : Game) (x y : Int) :
    (g.SetBlocked x y).2.height_ = g.height_ ∧ (g.SetBlocked x y).2.width_ = g.width_ ∧
    (g.SetBlocked x y).2.x_ = g.x_ ∧ (g.SetBlocked x y).2.y_ = g.y_ ∧
    ∀ i, (g.SetBlocked x y).2.board_ i = g.board_ i ∨
      (g.SetBlocked x y).2.board_ i = State.kBlocked := by
  unfold Game.SetBlocked
  split_ifs
  · exact ⟨rfl, rfl, rfl, rfl, fun _ => Or.inl rfl⟩
  · refine ⟨rfl, rfl, rfl, rfl, ?_⟩
    intro i
    show (if i = _ then State.kBlocked else g.board_ i) = g.board_ i ∨
      (if i = _ then State.kBlocked else g.board_ i) = State.kBlocked
    split_ifs
    · exact Or.inr rfl
    · exact Or.inl rfl
  · exact ⟨rfl, rfl, rfl, rfl, fun _ => Or.inl rfl⟩

theorem PlayInv_setBlocked (g : Game) (x y : Int) (h : PlayInv g) :
    PlayInv (g.SetBlocked x y).2 := by
  by_cases hs : g.HasStarted = true
  · rw [SetBlocked_started g x y hs]
    exact h
  · have hs' : g.HasStarted = false := by simpa using hs
    obtain ⟨f1, f2, f3, f4, f5⟩ := SetBlocked_fields g x y
    have hns : (g.SetBlocked x y).2.HasStarted = false := by
      unfold Game.HasStarted at hs' ⊢
      rw [f3, f4]
      exact hs'
    refine ⟨SetBlocked_WF g x y h.1, ?_, ?_⟩
    · intro _ i hi
      have hR : (g.SetBlocked x y).2.RawSize = g.RawSize := by
        unfold Game.RawSize; rw [f1, f2]
      rw [hR] at hi
      rcases f5 i with e | e
      · rw [e]; exact h.2.1 hs' i hi
      · rw [e]; decide
    · intro hst
      rw [hns] at hst
      exact absurd hst (by decide)

theorem PlayInv_start (g : Game) (x y : Int) (h : PlayInv g) : PlayInv (g.Start x y).2 := by
  by_cases hst : (g.Start x y).1 = true
  · obtain ⟨hns, hint, hoff⟩ := (Start_true_iff g x y).mp hst
    obtain ⟨w1, s1, _, _, _⟩ := Start_props g x y h.1 hst
    obtain ⟨f1, f2, f3, f4, f5⟩ := Start_fields g x y hst
    have hi := hint
    unfold Interior at hi
    have hlt : g.idx x y < g.RawSize := idx_lt g (by omega) (by omega) (by omega) (by omega)
    refine ⟨w1, ?_, ?_⟩
    · intro hc
      rw [s1] at hc
      exact absurd hc (by decide)
    · intro _
      rw [f3, f4, f5]
      refine ⟨?_, ?_, ?_⟩
      · rw [Start_at g x y hst x y (by omega) (by omega) (by omega) (by omega),
          if_pos ⟨rfl, rfl⟩]
      · intro i hi'
        rw [Start_board g x y hst, if_neg (by omega), if_pos (by omega)]
        have e : i + g.RawSize - g.RawSize = i := by omega
        rw [e]
        exact h.2.1 hns i hi'
      · intro i hi'
        have e : i + g.RawSize - g.RawSize = i := by omega
        rw [Start_board g x y hst (i + g.RawSize), if_neg (by omega), if_pos (by omega), e,
          Start_board g x y hst i]
        by_cases hidx : i = g.idx x y
        · rw [if_pos hidx]
          right
          refine ⟨?_, rfl⟩
          rw [hidx]
          exact hoff
        · rw [if_neg hidx, if_neg (by omega)]
          exact Or.inl rfl
  · have hst' : (g.Start x y).1 = false := by simpa using hst
    rw [Start_false g x y hst']
    exact h

theorem PlayInv_play (g g' : Game) (s : Bool × Dir) (b : Bool) (h : PlayInv g)
    (hp : playStep g s = .ok (b, g')) : PlayInv g' := by
  by_cases hs : g.HasStarted = true
  · obtain ⟨w', s', st⟩ := playStep_inv g g' s b h.1 hs hp
    have hlit := playStep_lit g g' s b h.1 hs hp
    obtain ⟨hon, ha, hl⟩ := h.2.2 hs
    have hon' : g'.At g'.x_ g'.y_ = State.kOn := by
      rcases playStep_runs g g' s b h.1 hs hp with e | ⟨ms, hrun, hsing⟩
      · rw [e]; exact hon
      · exact MoveRun_cursor ms g g' h.1 hs hon hsing hrun
    have hR : g'.RawSize = g.RawSize := st.stable_rawSize
    refine ⟨w', ?_, ?_⟩
    · intro hc
      rw [s'] at hc
      exact absurd hc (by decide)
    · intro _
      rw [hR]
      refine ⟨hon', ?_, ?_⟩
      · intro i hi
        rw [st.2.2 _ (by omega)]
        exact ha i hi
      · intro i hi
        rw [st.2.2 (i + g.RawSize) (by omega)]
        rcases hlit.2.2 i hi with e | ⟨e1, e2⟩
        · rw [e]; exact hl i hi
        · right
          refine ⟨?_, e2⟩
          rcases hl i hi with e | ⟨_, e4⟩
          · rw [← e]; exact e1
          · rw [e4] at e1
            exact absurd e1 (by decide)
  · have hs' : g.HasStarted = false := by simpa using hs
    rw [playStep_not_started g g' s b hs' hp]
    exact h

theorem PlayInv_reset (g : Game) (h : PlayInv g) : PlayInv g.Reset := by
  by_cases hs : g.HasStarted = true
  · refine ⟨Reset_WF g h.1, ?_, ?_⟩
    · intro _ i hi
      rw [(Reset_dims g).2.2] at hi
      rw [Reset_board_started g hs, if_pos hi]
      exact (h.2.2 hs).2.1 i hi
    · intro hc
      rw [Reset_not_started g] at hc
      exact absurd hc (by decide)
  · have hs' : g.HasStarted = false := by simpa using hs
    rw [Reset_of_not_started g hs']
    exact h

theorem PlayInv_isSolvable (g g' : Game) (solutions out : Option (List Int)) (b : Bool)
    (h : PlayInv g) (e : g.IsSolvable solutions = .ok (b, g', out)) : PlayInv g' := by
  obtain ⟨g2, e2, hl, w', hlay⟩ := IsSolvable_spec g h.1 solutions
  rw [e] at e2
  simp only [Except.ok.injEq, Prod.mk.injEq] at e2
  obtain ⟨_, hg, _⟩ := e2
  subst hg
  have hR : g'.RawSize = g.RawSize := hl.rawSize
  have hst : g'.HasStarted = g.HasStarted := hl.hasStarted
  refine ⟨w', ?_, ?_⟩
  · intro hns i hi
    rw [hst] at hns
    rw [hl.2.2.2.2 i hi]
    exact h.2.1 hns i (by rw [← hR]; exact hi)
  · intro hs
    rw [hst] at hs
    obtain ⟨hon, ha, hlit⟩ := h.2.2 hs
    have hint := h.1.interior hs
    unfold Interior at hint
    have h1 : ∀ i, i < g.RawSize → g'.board_ (i + g.RawSize) = g.board_ (i + g.RawSize) := by
      intro i hi
      have := hlay hs i (by rw [(Reset_dims g).2.2]; exact hi)
      rw [(Reset_dims g).2.2, Reset_board_started g hs, if_pos hi] at this
      exact this
    rw [hR]
    refine ⟨?_, ?_, ?_⟩
    · rw [hl.2.2.1, hl.2.2.2.1,
        hl.at_eq (by omega) (by rw [hl.2.1]; omega) (by omega) (by rw [hl.1]; omega)]
      exact hon
    · intro i hi
      rw [h1 i hi]
      exact ha i hi
    · intro i hi
      rw [h1 i hi, hl.2.2.2.2 i (by rw [hR]; exact hi)]
      exact hlit i hi

theorem AugmentRandomly_false (g g' : Game) (n : Int) (rbg : Rbg) (fuel : Nat)
    (h : g.AugmentRandomly n rbg fuel = .ok (false, g')) : g' = g := by
  unfold Game.AugmentRandomly at h
  by_cases hs : g.HasStarted = true
  · rw [if_pos hs] at h
    simp only [Except.ok.injEq, Prod.mk.injEq, true_and] at h
    exact h.symm
  · rw [if_neg hs] at h
    dsimp only at h
    by_cases hn : n < 0
    · rw [if_pos hn] at h
      simp only [Except.ok.injEq, Prod.mk.injEq, true_and] at h
      exact h.symm
    · rw [if_neg hn] at h
      by_cases hf : (g.numFree : Int) ≤ n
      · rw [if_pos hf] at h
        simp only [Except.ok.injEq, Prod.mk.injEq, true_and] at h
        exact h.symm
      · rw [if_neg hf] at h
        have := augmentLoop_true _ _ _ _ _ _ _ _ _ h
        exact absurd this (by decide)

theorem PlayInv_augment (g g' : Game) (n : Int) (rbg : Rbg) (fuel : Nat) (b : Bool)
    (h : PlayInv g) (e : g.AugmentRandomly n rbg fuel = .ok (b, g')) : PlayInv g' := by
  cases b with
  | false =>
    rw [AugmentRandomly_false g g' n rbg fuel e]
    exact h
  | true =>
    obtain ⟨hns, _, _, d1, d2, cx, _, w', I1, I2, _, _⟩ :=
      AugmentRandomly_true g g' n rbg fuel h.1 e
    have hR : g'.RawSize = g.RawSize := by unfold Game.RawSize; rw [d1, d2]
    have hns' : g'.HasStarted = false := not_started_of_cursor g' cx
    refine ⟨w', ?_, ?_⟩
    · intro _ i hi
      rw [hR] at hi
      by_cases ho : g.board_ i = State.kOff
      · rcases I2 i hi ho with e1 | e1 <;> rw [e1] <;> decide
      · rw [I1 i hi ho]
        exact h.2.1 hns i hi
    · intro hc
      rw [hns'] at hc
      exact absurd hc (by decide)

theorem PlayInv_load (g : Game) (src : List Nat) (bits_per_byte : Nat) (h : PlayInv g) :
    PlayInv (g.LoadLayoutFromBits src bits_per_byte) := by
  unfold Game.LoadLayoutFromBits
  apply foldl_invariant (fun st : Game × Nat × Nat => PlayInv st.1)
  · exact h
  · intro st i _ hst
    unfold Game.loadStep
    dsimp only
    split_ifs <;> first | exact PlayInv_setBlocked _ _ _ hst | exact hst

/-- Every state reached through the public operations satisfies the invariant. -/
theorem Reachable.playInv {g : Game} (h : Reachable g) : PlayInv g := by
  induction h with
  | ctor height width => exact PlayInv_new height width
  | setBlocked x y _ ih => exact PlayInv_setBlocked _ x y ih
  | start x y _ ih => exact PlayInv_start _ x y ih
  | move d b _ hm ih => exact PlayInv_play _ _ (false, d) b ih hm
  | moveFast d b _ hm ih => exact PlayInv_play _ _ (true, d) b ih hm
  | reset _ ih => exact PlayInv_reset _ ih
  | isSolvable solutions out b _ hm ih => exact PlayInv_isSolvable _ _ solutions out b ih hm
  | augment n rbg fuel b _ hm ih => exact PlayInv_augment _ _ n rbg fuel b ih hm
  | load src bits _ ih => exact PlayInv_load _ src bits ih

/-- C31: in every state reached from a fresh board through calls of the public operations
(`SetBlocked`, `Start`, `Move`, `MoveFast`, `Reset`, `IsSolvable`, `AugmentRandomly`, and also
`LoadLayoutFromBits`), each returning `true` or `false`: every tile of the padding ring is `kBlocked`; either
the cursor is `(0, 0)` and every playable tile is `kOff` or `kBlocked`, or the cursor is on a
playable tile and that tile is `kOn`; and while a game is in progress the snapshot has no
`kOn` tile and every tile of the live board either equals its snapshot or is `kOn` where the
snapshot is `kOff`. -/
theorem reachable_invariant (g : Game) (h : Reachable g) :
    (∀ x y : Int, 0 ≤ x → x ≤ g.Width + 1 → 0 ≤ y → y ≤ g.Height + 1 →
      (x = 0 ∨ x = g.Width + 1 ∨ y = 0 ∨ y = g.Height + 1) → g.At x y = State.kBlocked) ∧
    ((g.X = 0 ∧ g.Y = 0 ∧ g.HasStarted = false ∧
        ∀ x y : Int, 1 ≤ x → x ≤ g.Width → 1 ≤ y → y ≤ g.Height →
          g.At x y = State.kOff ∨ g.At x y = State.kBlocked) ∨
      (1 ≤ g.X ∧ g.X ≤ g.Width ∧ 1 ≤ g.Y ∧ g.Y ≤ g.Height ∧ g.HasStarted = true ∧
        g.At g.X g.Y = State.kOn)) ∧
    (g.HasStarted = true →
      ∀ x y : Int, 0 ≤ x → x ≤ g.Width + 1 → 0 ≤ y → y ≤ g.Height + 1 →
        snapshotAt g x y ≠ State.kOn ∧
        (g.At x y = snapshotAt g x y ∨
          (snapshotAt g x y = State.kOff ∧ g.At x y = State.kOn))) := by
  obtain ⟨hwf, hno, hyes⟩ := h.playInv
  unfold Game.Width Game.Height Game.X Game.Y
  refine ⟨?_, ?_, ?_⟩
  · intro x y h1 h2 h3 h4 hr
    exact At_ring g hwf.1 h1 h2 h3 h4 hr
  · by_cases hs : g.HasStarted = true
    · right
      have hint := hwf.interior hs
      unfold Interior at hint
      exact ⟨hint.1, hint.2.1, hint.2.2.1, hint.2.2.2, hs, (hyes hs).1⟩
    · left
      have hs' : g.HasStarted = false := by simpa using hs
      have hc : g.x_ = 0 ∧ g.y_ = 0 := by
        rcases hwf.2 with h0 | h1
        · exact h0
        · exact absurd (hasStarted_of_interior h1.1) hs
      refine ⟨hc.1, hc.2, hs', ?_⟩
      intro x y h1 h2 h3 h4
      have hlt : g.idx x y < g.RawSize := idx_lt g (by omega) (by omega) (by omega) (by omega)
      have := hno hs' _ hlt
      unfold Game.At
      cases hb : g.board_ (g.idx x y) with
      | kOff => exact Or.inl rfl
      | kOn => exact absurd hb this
      | kBlocked => exact Or.inr rfl
  · intro hs x y h1 h2 h3 h4
    have hlt : g.idx x y < g.RawSize := idx_lt g h1 h2 h3 h4
    obtain ⟨_, ha, hl⟩ := hyes hs
    exact ⟨ha _ hlt, hl _ hlt⟩

theorem reachable_invariant_witness :
    Reachable moved2x2 ∧
    ((∀ x y : Int, 0 ≤ x → x ≤ moved2x2.Width + 1 → 0 ≤ y → y ≤ moved2x2.Height + 1 →
      (x = 0 ∨ x = moved2x2.Width + 1 ∨ y = 0 ∨ y = moved2x2.Height + 1) →
        moved2x2.At x y = State.kBlocked) ∧
    ((moved2x2.X = 0 ∧ moved2x2.Y = 0 ∧ moved2x2.HasStarted = false ∧
        ∀ x y : Int, 1 ≤ x → x ≤ moved2x2.Width → 1 ≤ y → y ≤ moved2x2.Height →
          moved2x2.At x y = State.kOff ∨ moved2x2.At x y = State.kBlocked) ∨
      (1 ≤ moved2x2.X ∧ moved2x2.X ≤ moved2x2.Width ∧ 1 ≤ moved2x2.Y ∧
        moved2x2.Y ≤ moved2x2.Height ∧ moved2x2.HasStarted = true ∧
        moved2x2.At moved2x2.X moved2x2.Y = State.kOn)) ∧
    (moved2x2.HasStarted = true →
      ∀ x y : Int, 0 ≤ x → x ≤ moved2x2.Width + 1 → 0 ≤ y → y ≤ moved2x2.Height + 1 →
        snapshotAt moved2x2 x y ≠ State.kOn ∧
        (moved2x2.At x y = snapshotAt moved2x2 x y ∨
          (snapshotAt moved2x2 x y = State.kOff ∧ moved2x2.At x y = State.kOn)))) :=
  ⟨Reachable.move kDown true (Reachable.start 1 1 (Reachable.ctor 2 2)) rfl,
    reachable_invariant moved2x2
      (Reachable.move kDown true (Reachable.start 1 1 (Reachable.ctor 2 2)) rfl)⟩

/-! ## The directions left after a slide -/

theorem Move_true_single (g g' : Game) (d : Dir) (h : g.Move d = .ok (true, g')) :
    Single d := by
  obtain ⟨hs, hv⟩ := Move_true_inv g g' d h
  unfold Game.Move at h
  simp only [hs, Bool.not_true, Bool.false_eq_true, if_false, hv, ne_eq,
    not_true_eq_false] at h
  cases hm : g.MoveOne d with
  | ok g1 => exact MoveOne_single g g1 d hm
  | error e => rw [hm] at h; simp [bind, Except.bind] at h

theorem MoveFast_true_single (g g' : Game) (d : Dir) (h : g.MoveFast d = .ok (true, g')) :
    Single d := by
  obtain ⟨hs, hv⟩ := MoveFast_true_inv g g' d h
  rw [MoveFast_eq_loop g d hs hv] at h
  unfold Game.MoveFastLoop at h
  cases hm : g.MoveOne d with
  | ok g1 => exact MoveOne_single g g1 d hm
  | error e => rw [hm] at h; simp [bind, Except.bind] at h

theorem opposite_inc (d : Dir) (hd : Single d) (dx dy : Int)
    (h : increment_for_move d = some (dx, dy)) :
    Single (opposite d) ∧ increment_for_move (opposite d) = some (-dx, -dy) := by
  rcases hd with rfl | rfl | rfl | rfl
  · have e : (dx, dy) = (0, -1) := by
      have : increment_for_move kUp = some (0, -1) := rfl
      rw [h] at this
      exact Option.some.inj this
    rw [Prod.mk.injEq] at e
    rw [e.1, e.2]
    exact ⟨by decide, rfl⟩
  · have e : (dx, dy) = (0, 1) := by
      have : increment_for_move kDown = some (0, 1) := rfl
      rw [h] at this
      exact Option.some.inj this
    rw [Prod.mk.injEq] at e
    rw [e.1, e.2]
    exact ⟨by decide, rfl⟩
  · have e : (dx, dy) = (-1, 0) := by
      have : increment_for_move kLeft = some (-1, 0) := rfl
      rw [h] at this
      exact Option.some.inj this
    rw [Prod.mk.injEq] at e
    rw [e.1, e.2]
    exact ⟨by decide, rfl⟩
  · have e : (dx, dy) = (1, 0) := by
      have : increment_for_move kRight = some (1, 0) := rfl
      rw [h] at this
      exact Option.some.inj this
    rw [Prod.mk.injEq] at e
    rw [e.1, e.2]
    exact ⟨by decide, rfl⟩

/-- A single direction whose neighbour tile is not `kOff` is not a member of `ValidDirs()`. -/
theorem not_member_of_not_off (g : Game) (hs : g.HasStarted = true) (d : Dir) (hd : Single d)
    (dx dy : Int) (hinc : increment_for_move d = some (dx, dy))
    (h : g.At (g.x_ + dx) (g.y_ + dy) ≠ State.kOff) : d &&& g.ValidDirs ≠ d := by
  obtain ⟨dx', dy', hinc', _, hiff⟩ := valid_iff_inc g hs d hd
  rw [hinc] at hinc'
  simp only [Option.some.injEq, Prod.mk.injEq] at hinc'
  rw [← hinc'.1, ← hinc'.2] at hiff
  intro hv
  exact h (hiff.mp hv)

/-- After a valid `Move(d)` from a state whose cursor tile is `kOn`, neither `d` nor the
opposite direction is a member of `ValidDirs()`. -/
theorem Move_leaves (g : Game) (d : Dir) (hwf : WF g) (hs : g.HasStarted = true)
    (hon : g.At g.x_ g.y_ = State.kOn) (hd : Single d) (hv : d &&& g.ValidDirs = d) :
    ∃ g', g.Move d = .ok (true, g') ∧ WF g' ∧ g'.HasStarted = true ∧
      g'.At g'.x_ g'.y_ = State.kOn ∧ d &&& g'.ValidDirs ≠ d ∧
      opposite d &&& g'.ValidDirs ≠ opposite d := by
  obtain ⟨g', dx, dy, hinc, _, hm, w', s', on', hahead, hbehind⟩ :=
    Move_cursor g d hwf hs hon hd hv
  obtain ⟨hso, hinco⟩ := opposite_inc d hd dx dy hinc
  refine ⟨g', hm, w', s', on', not_member_of_not_off g' s' d hd dx dy hinc hahead,
    not_member_of_not_off g' s' (opposite d) hso (-dx) (-dy) hinco ?_⟩
  have ex : g'.x_ + -dx = g'.x_ - dx := by ring
  have ey : g'.y_ + -dy = g'.y_ - dy := by ring
  rw [ex, ey, hbehind]
  decide

theorem perpendicular_table (d : Dir) (hd : Single d) : ∀ v : Nat, v < 16 →
    d &&& v ≠ d → opposite d &&& v ≠ opposite d →
    v &&& perpendicular d = v ∧ (¬ Single v → (v = kNone ∨ v = perpendicular d)) := by
  rcases hd with rfl | rfl | rfl | rfl <;> decide

theorem members_le_two (d : Dir) (hd : Single d) : ∀ v : Nat, v < 16 →
    v &&& perpendicular d = v →
    ([kUp, kDown, kLeft, kRight].filter (fun m => decide (m &&& v = m))).length ≤ 2 := by
  rcases hd with rfl | rfl | rfl | rfl <;> decide

theorem members_zero_or_two (d : Dir) (hd : Single d) : ∀ v : Nat, v < 16 →
    (v = kNone ∨ v = perpendicular d) →
    ([kUp, kDown, kLeft, kRight].filter (fun m => decide (m &&& v = m))).length = 0 ∨
      ([kUp, kDown, kLeft, kRight].filter (fun m => decide (m &&& v = m))).length = 2 := by
  rcases hd with rfl | rfl | rfl | rfl <;> decide

/-- The last slide of a `MoveFast`: the state it was made from and its direction. -/
theorem fastLoop_last : ∀ (fuel : Nat) (g g' : Game) (d : Dir), WF g → g.HasStarted = true →
    g.At g.x_ g.y_ = State.kOn → Single d → d &&& g.ValidDirs = d →
    MoveFastLoop fuel g d = .ok (true, g') →
    ∃ (gp : Game) (dl : Dir), WF gp ∧ gp.HasStarted = true ∧
      gp.At gp.x_ gp.y_ = State.kOn ∧ Single dl ∧ dl &&& gp.ValidDirs = dl ∧
      gp.Move dl = .ok (true, g') ∧ ¬ Single g'.ValidDirs := by
  intro fuel
  induction fuel with
  | zero => intro g g' d _ _ _ _ _ h; simp [Game.MoveFastLoop] at h
  | succ f ih =>
    intro g g' d hwf hs hon hd hv h
    obtain ⟨g1, hm, w1, s1, on1, _, _⟩ := Move_leaves g d hwf hs hon hd hv
    obtain ⟨g1', e1, _⟩ := MoveOne_ok g d hwf hs hd hv
    have hm' := Move_of_MoveOne g g1' d hs hv e1
    rw [hm] at hm'
    simp only [Except.ok.injEq, Prod.mk.injEq, true_and] at hm'
    subst hm'
    unfold Game.MoveFastLoop at h
    simp only [e1, bind, Except.bind] at h
    by_cases hsing : Single g1.ValidDirs
    · have hsing' : g1.ValidDirs = kUp ∨ g1.ValidDirs = kDown ∨ g1.ValidDirs = kLeft ∨
          g1.ValidDirs = kRight := hsing
      rw [if_pos hsing'] at h
      exact ih g1 g' g1.ValidDirs w1 s1 on1 hsing (Nat.and_self _) h
    · have hsing' : ¬ (g1.ValidDirs = kUp ∨ g1.ValidDirs = kDown ∨ g1.ValidDirs = kLeft ∨
          g1.ValidDirs = kRight) := hsing
      rw [if_neg hsing'] at h
      simp only [Except.ok.injEq, Prod.mk.injEq, true_and] at h
      subst h
      exact ⟨g, d, hwf, hs, hon, hd, hv, hm, hsing⟩

/-- C32: in every reachable state, after a successful `Move(d)` neither `d` nor the opposite
direction is a member of `ValidDirs()`, which therefore has at most two members; after a
successful `MoveFast(d)`, whose last slide was a `Move(dl)`, `ValidDirs()` is `kNone` or the
union of the two directions perpendicular to `dl`, so it has exactly zero or exactly two
members: these are the children of the frame the solver pushes after that `MoveFast`. -/
theorem validDirs_after_slide (g : Game) (hr : Reachable g) (d : Dir) :
    ((g.Move d).map Prod.fst = .ok true →
      ∃ g', g.Move d = .ok (true, g') ∧ Single d ∧
        d &&& g'.ValidDirs ≠ d ∧ opposite d &&& g'.ValidDirs ≠ opposite d ∧
        g'.ValidDirs &&& perpendicular d = g'.ValidDirs ∧ (validMembers g').length ≤ 2) ∧
    ((g.MoveFast d).map Prod.fst = .ok true →
      ∃ (g' gp : Game) (dl : Dir), g.MoveFast d = .ok (true, g') ∧ Single dl ∧
        gp.Move dl = .ok (true, g') ∧
        dl &&& g'.ValidDirs ≠ dl ∧ opposite dl &&& g'.ValidDirs ≠ opposite dl ∧
        (g'.ValidDirs = kNone ∨ g'.ValidDirs = perpendicular dl) ∧
        ((validMembers g').length = 0 ∨ (validMembers g').length = 2)) := by
  obtain ⟨hwf, _, hyes⟩ := hr.playInv
  constructor
  · intro h
    obtain ⟨g', e⟩ : ∃ g', g.Move d = .ok (true, g') := by
      cases hres : g.Move d with
      | error err => rw [hres] at h; simp [Except.map] at h
      | ok r =>
        rw [hres] at h
        simp only [Except.map, Except.ok.injEq] at h
        exact ⟨r.2, by rw [← h]⟩
    obtain ⟨hs, hv⟩ := Move_true_inv g g' d e
    have hd := Move_true_single g g' d e
    obtain ⟨g1, hm, _, _, _, n1, n2⟩ := Move_leaves g d hwf hs (hyes hs).1 hd hv
    rw [e] at hm
    simp only [Except.ok.injEq, Prod.mk.injEq, true_and] at hm
    subst hm
    obtain ⟨t1, _⟩ := perpendicular_table d hd g'.ValidDirs (validDirs_lt g') n1 n2
    exact ⟨g', e, hd, n1, n2, t1, members_le_two d hd g'.ValidDirs (validDirs_lt g') t1⟩
  · intro h
    obtain ⟨g', e⟩ : ∃ g', g.MoveFast d = .ok (true, g') := by
      cases hres : g.MoveFast d with
      | error err => rw [hres] at h; simp [Except.map] at h
      | ok r =>
        rw [hres] at h
        simp only [Except.map, Except.ok.injEq] at h
        exact ⟨r.2, by rw [← h]⟩
    obtain ⟨hs, hv⟩ := MoveFast_true_inv g g' d e
    have hd := MoveFast_true_single g g' d e
    have e' := e
    rw [MoveFast_eq_loop g d hs hv] at e'
    obtain ⟨gp, dl, wp, sp, onp, hdl, hvl, hml, hns⟩ :=
      fastLoop_last _ g g' d hwf hs (hyes hs).1 hd hv e'
    obtain ⟨g1, hm, _, _, _, n1, n2⟩ := Move_leaves gp dl wp sp onp hdl hvl
    rw [hml] at hm
    simp only [Except.ok.injEq, Prod.mk.injEq, true_and] at hm
    subst hm
    obtain ⟨_, t2⟩ := perpendicular_table dl hdl g'.ValidDirs (validDirs_lt g') n1 n2
    exact ⟨g', gp, dl, e, hdl, hml, n1, n2, t2 hns,
      members_zero_or_two dl hdl g'.ValidDirs (validDirs_lt g') (t2 hns)⟩

theorem validDirs_after_slide_witness :
    Reachable started2x3 ∧
    (started2x3.Move kRight).map Prod.fst = .ok true ∧
    (started2x3.MoveFast kRight).map Prod.fst = .ok true ∧
    (((started2x3.Move kRight).map Prod.fst = .ok true →
      ∃ g', started2x3.Move kRight = .ok (true, g') ∧ Single kRight ∧
        kRight &&& g'.ValidDirs ≠ kRight ∧ opposite kRight &&& g'.ValidDirs ≠ opposite kRight ∧
        g'.ValidDirs &&& perpendicular kRight = g'.ValidDirs ∧
        (validMembers g').length ≤ 2) ∧
    ((started2x3.MoveFast kRight).map Prod.fst = .ok true →
      ∃ (g' gp : Game) (dl : Dir), started2x3.MoveFast kRight = .ok (true, g') ∧ Single dl ∧
        gp.Move dl = .ok (true, g') ∧
        dl &&& g'.ValidDirs ≠ dl ∧ opposite dl &&& g'.ValidDirs ≠ opposite dl ∧
        (g'.ValidDirs = kNone ∨ g'.ValidDirs = perpendicular dl) ∧
        ((validMembers g').length = 0 ∨ (validMembers g').length = 2))) :=
  ⟨Reachable.start 1 1 (Reachable.ctor 2 3), by decide, by decide,
    validDirs_after_slide started2x3 (Reachable.start 1 1 (Reachable.ctor 2 3)) kRight⟩

/-- On the empty 3 x 3 board after `Start(2, 1)`, `MoveFast(kDown)` stops at `(2, 3)` with
`ValidDirs()` equal to `kLeft | kRight`: two members, perpendicular to the slide. -/
theorem moveFast_down_3x3 :
    (((Game.new 3 3).Start 2 1).2.MoveFast kDown).map
        (fun r => (r.1, r.2.X, r.2.Y, r.2.ValidDirs)) = .ok (true, 2, 3, kLeft ||| kRight) ∧
      perpendicular kDown = kLeft ||| kRight := by
  decide

/-! ## Termination of the search -/

theorem fastRun_length : ∀ (ds : List Dir) (g g' : Game), WF g → g.HasStarted = true →
    (∀ d ∈ ds, Single d) → FastRun g ds g' → ds.length + offCount g' ≤ offCount g := by
  intro ds
  induction ds with
  | nil =>
    intro g g' _ _ _ h
    have : g' = g := h
    rw [this]
    simp
  | cons d ds ih =>
    intro g g' hwf hs hsing hrun
    obtain ⟨g1, hm, hrun'⟩ := hrun
    have hd := hsing d (List.mem_cons_self _ _)
    obtain ⟨_, hv⟩ := MoveFast_true_inv g g1 d hm
    obtain ⟨g1', hm', w1, s1, _, c1, _⟩ := MoveFast_ok g d hwf hs hd hv
    rw [hm] at hm'
    simp only [Except.ok.injEq, Prod.mk.injEq, true_and] at hm'
    subst hm'
    have := ih g1 g' w1 s1 (fun m hm => hsing m (List.mem_cons_of_mem _ hm)) hrun'
    rw [List.length_cons]
    omega

/-- C33: on every well-formed board, with or without a solution list, `IsSolvable` returns a
value, and so does every call of `solve_one`; every valid `Move` and `MoveFast` returns and
lights at least one tile; and every list of successful fast moves from a start tile is shorter
than the number of `kOff` tiles of the layout, which bounds the depth of the search. -/
theorem isSolvable_terminates (g : Game) (hwf : WF g) (solutions : Option (List Int)) :
    (∃ b g' out, g.IsSolvable solutions = .ok (b, g', out)) ∧
    (∀ x y : Int, ∃ r, solve_one g solutions x y = .ok r) ∧
    (g.HasStarted = true → ∀ d, Single d → d &&& g.ValidDirs = d →
      (∃ g1, g.Move d = .ok (true, g1) ∧ offCount g1 < offCount g) ∧
      (∃ g2, g.MoveFast d = .ok (true, g2) ∧ offCount g2 < offCount g)) ∧
    (∀ (x y : Int) (ds : List Dir) (g1 g2 : Game), g.Reset.Start x y = (true, g1) →
      (∀ d ∈ ds, Single d) → FastRun g1 ds g2 → ds.length < g.Reset.numFree) := by
  refine ⟨?_, ?_, ?_, ?_⟩
  · obtain ⟨g', e, _⟩ := IsSolvable_spec g hwf solutions
    exact ⟨_, g', _, e⟩
  · intro x y
    obtain ⟨hfail, hsucc⟩ := solve_one_spec g solutions x y hwf
    cases hst : (g.Reset.Start x y).1 with
    | false => exact ⟨_, hfail hst⟩
    | true =>
      obtain ⟨g', _, e⟩ := hsucc hst
      rw [e]
      cases search (g.Reset.Start x y).2 with
      | none => exact ⟨_, rfl⟩
      | some q => exact ⟨_, rfl⟩
  · intro hs d hd hv
    obtain ⟨g1, e1, _, _, _, c1⟩ := Move_ok g d hwf hs hd hv
    obtain ⟨g2, e2, _, _, _, c2, _⟩ := MoveFast_ok g d hwf hs hd hv
    exact ⟨⟨g1, e1, c1⟩, ⟨g2, e2, c2⟩⟩
  · intro x y ds g1 g2 hst hsing hrun
    have hst1 : (g.Reset.Start x y).1 = true := by rw [hst]
    have hst2 : (g.Reset.Start x y).2 = g1 := by rw [hst]
    obtain ⟨w1, s1, _, c1, _⟩ := Start_props g.Reset x y (Reset_WF g hwf) hst1
    rw [hst2] at w1 s1 c1
    have := fastRun_length ds g1 g2 w1 s1 hsing hrun
    rw [numFree_eq_offCount]
    omega

theorem isSolvable_terminates_witness :
    WF empty2x3 ∧
    ((∃ b g' out, empty2x3.IsSolvable (some []) = .ok (b, g', out)) ∧
    (∀ x y : Int, ∃ r, solve_one empty2x3 (some []) x y = .ok r) ∧
    (empty2x3.HasStarted = true → ∀ d, Single d → d &&& empty2x3.ValidDirs = d →
      (∃ g1, empty2x3.Move d = .ok (true, g1) ∧ offCount g1 < offCount empty2x3) ∧
      (∃ g2, empty2x3.MoveFast d = .ok (true, g2) ∧ offCount g2 < offCount empty2x3)) ∧
    (∀ (x y : Int) (ds : List Dir) (g1 g2 : Game), empty2x3.Reset.Start x y = (true, g1) →
      (∀ d ∈ ds, Single d) → FastRun g1 ds g2 → ds.length < empty2x3.Reset.numFree)) :=
  ⟨by decide, isSolvable_terminates empty2x3 (by decide) (some [])⟩

/-! ## Values of `Dir` that are not single directions -/

theorem increment_none (d : Dir) (hd : ¬ Single d) : increment_for_move d = none := by
  unfold Single at hd
  unfold increment_for_move
  rw [if_neg (fun h => hd (Or.inl h)), if_neg (fun h => hd (Or.inr (Or.inl h))),
    if_neg (fun h => hd (Or.inr (Or.inr (Or.inl h)))),
    if_neg (fun h => hd (Or.inr (Or.inr (Or.inr h))))]

/-- C34 fails: in a game in progress, a value `d` of `Dir` that is not a single direction and
passes the test `(d & ValidDirs()) == d` makes `Move` and `MoveFast` call `MoveOne(d)`, which
reaches the `default:` case of its switch; `kNone` always passes that test. Only the values
that fail the test are rejected with `false` and the game left as it was. -/
theorem nonsingle_dir_reaches_default (g : Game) (d : Dir) (hs : g.HasStarted = true)
    (hd : ¬ Single d) :
    (d &&& g.ValidDirs = d →
      g.MoveOne d = .error Err.unreachable ∧ g.Move d = .error Err.unreachable ∧
      g.MoveFast d = .error Err.unreachable) ∧
    (d &&& g.ValidDirs ≠ d → g.Move d = .ok (false, g) ∧ g.MoveFast d = .ok (false, g)) ∧
    kNone &&& g.ValidDirs = kNone ∧ g.Move kNone = .error Err.unreachable ∧
    g.MoveFast kNone = .error Err.unreachable := by
  have hone : ∀ d', ¬ Single d' → g.MoveOne d' = .error Err.unreachable := by
    intro d' hd'
    unfold Game.MoveOne
    rw [increment_none d' hd']
  have hpass : ∀ d', ¬ Single d' → d' &&& g.ValidDirs = d' →
      g.Move d' = .error Err.unreachable ∧ g.MoveFast d' = .error Err.unreachable := by
    intro d' hd' hv
    constructor
    · unfold Game.Move
      simp only [hs, Bool.not_true, Bool.false_eq_true, if_false, hv, ne_eq,
        not_true_eq_false, hone d' hd']
      rfl
    · rw [MoveFast_eq_loop g d' hs hv]
      unfold Game.MoveFastLoop
      rw [hone d' hd']
      rfl
  have hnone : kNone &&& g.ValidDirs = kNone := by
    show 0 &&& g.ValidDirs = 0
    exact Nat.zero_and _
  refine ⟨fun hv => ⟨hone d hd, hpass d hd hv⟩, ?_, hnone, hpass kNone (by decide) hnone⟩
  intro hv
  constructor
  · unfold Game.Move
    simp only [hs, Bool.not_true, Bool.false_eq_true, if_false, hv, ne_eq, not_false_eq_true,
      if_true]
  · unfold Game.MoveFast
    simp only [hs, Bool.not_true, Bool.false_eq_true, if_false, hv, ne_eq, not_false_eq_true,
      if_true]

theorem nonsingle_dir_reaches_default_witness :
    started2x2.HasStarted = true ∧ ¬ Single (kDown ||| kRight) ∧
    (kDown ||| kRight) &&& started2x2.ValidDirs = kDown ||| kRight ∧
    ((kDown ||| kRight &&& started2x2.ValidDirs = kDown ||| kRight →
      started2x2.MoveOne (kDown ||| kRight) = .error Err.unreachable ∧
      started2x2.Move (kDown ||| kRight) = .error Err.unreachable ∧
      started2x2.MoveFast (kDown ||| kRight) = .error Err.unreachable) ∧
    (kDown ||| kRight &&& started2x2.ValidDirs ≠ kDown ||| kRight →
      started2x2.Move (kDown ||| kRight) = .ok (false, started2x2) ∧
      started2x2.MoveFast (kDown ||| kRight) = .ok (false, started2x2)) ∧
    kNone &&& started2x2.ValidDirs = kNone ∧ started2x2.Move kNone = .error Err.unreachable ∧
    started2x2.MoveFast kNone = .error Err.unreachable) :=
  ⟨by decide, by decide, by decide,
    nonsingle_dir_reaches_default started2x2 (kDown ||| kRight) (by decide) (by decide)⟩

/-- On the empty 2 x 2 board after `Start(1, 1)`, `Move(kNone)`, `MoveFast(kNone)` and
`Move(kDown | kRight)` reach the `default:` case of `MoveOne`. -/
theorem move_none_2x2 :
    (started2x2.Move kNone).map Prod.fst = .error Err.unreachable ∧
      (started2x2.MoveFast kNone).map Prod.fst = .error Err.unreachable ∧
      (started2x2.Move (kDown ||| kRight)).map Prod.fst = .error Err.unreachable ∧
      (started2x2.MoveFast (kDown ||| kRight)).map Prod.fst = .error Err.unreachable := by
  decide
end Lightgame
